import Mathlib

/-!
# Verification of the SAT decision core (`sat_api.c`, `vector.c`)

The C program keeps a CNF knowledge base, a partial assignment, a trail and a
work queue, and offers unit resolution, decisions, undo and clause learning.

## Embedding

* A `vector` of pointers is a `List`; `vector_push` appends at the end,
  `vector_get` returns `none` for a read outside the vector.
* A `Lit*` is the signed index of the literal (`Int`), a `Var*` is the index of
  the variable (`Nat`), a `Clause*` is the address of the clause (`Nat`).
* The fields of the literal, variable and clause objects are the function-valued
  fields of `SatState` (`implied`, `locate`, `level`, `u`, `mentions`,
  `mentions_lc`, `lits`, `subsumed`, `index`).
* `malloc` of a clause takes the next unused address `brk`.
* Fields that the C code never initialises (`level`, `locate`, `u`, and the heap
  outside the allocated clauses) start with the arbitrary contents of a memory
  parameter `mem`.
-/

namespace SatApi

/-! ## vector.c -/

/-- The function `vector_size`: number of stored elements. -/
def vector_size {α : Type} (v : List α) : Nat := v.length

/-- The function `vector_push`: store `e` at position `size` and increment `size`. -/
def vector_push {α : Type} (v : List α) (e : α) : List α := v ++ [e]

/-- The function `vector_pop`: decrement `size` when it is positive. -/
def vector_pop {α : Type} (v : List α) : List α := v.dropLast

/-- The function `vector_get`: `data[index]`; `none` is a read outside the vector. -/
def vector_get {α : Type} (v : List α) (index : Nat) : Option α := v[index]?

/-- The function `vector_top`: `data[size - 1]`; `none` when the vector is empty. -/
def vector_top {α : Type} (v : List α) : Option α := v.getLast?

/-- The function `vector_erase`: overwrite slot `index` with the last element
unless `index` is the last slot, then pop. -/
def vector_erase {α : Type} (v : List α) (index : Nat) : List α :=
  match v.getLast? with
  | none => v
  | some e => vector_pop (if index + 1 < v.length then v.set index e else v)

/-! ## State -/

/-- Pointwise update of a function-valued field. -/
def upd {α β : Type} [DecidableEq α] (f : α → β) (a : α) (b : β) : α → β :=
  fun x => if x = a then b else f x

/-- Decrement of an unsigned 64-bit counter (`x--`, `x - 1` on `c2dSize`): zero wraps
to the largest value. -/
def usub1 (x : Nat) : Nat := if x = 0 then 2 ^ 64 - 1 else x - 1

/-- The C structure `SatState` together with the objects it points to. -/
structure SatState where
  /-- number of variables read from the header -/
  varnum : Nat
  /-- number of original clauses read from the header -/
  clausenum : Nat
  /-- field `implied` of each literal -/
  implied : Int → Bool
  /-- field `locate` of each literal: combined 0-based index of the forcing clause -/
  locate : Int → Nat
  /-- field `level` of each variable -/
  level : Nat → Nat
  /-- field `u` of each variable (seen flag of conflict analysis) -/
  u : Nat → Bool
  /-- field `mentions` of each variable: original clauses mentioning it -/
  mentions : Nat → List Nat
  /-- field `mentions_lc` of each variable: learned clauses mentioning it -/
  mentions_lc : Nat → List Nat
  /-- field `lits` of each clause -/
  lits : Nat → List Int
  /-- field `subsumed` of each clause -/
  subsumed : Nat → Bool
  /-- field `index` of each clause -/
  index : Nat → Nat
  /-- original clauses -/
  kb : List Nat
  /-- learned clauses -/
  lc : List Nat
  /-- decision stack -/
  ds : List Int
  /-- implication list -/
  il : List Int
  /-- merged trail -/
  s : List Int
  /-- propagation queue -/
  q : List Nat
  /-- last asserting clause -/
  ac : Option Nat
  /-- next unused clause address -/
  brk : Nat

/-! ## sat_api.c: variables and literals -/

/-- The function `sat_literal_var`: the variable of a literal. -/
def sat_literal_var (lit : Int) : Nat := lit.natAbs

/-- The function `sat_pos_literal`. -/
def sat_pos_literal (var : Nat) : Int := (var : Int)

/-- The function `sat_neg_literal`. -/
def sat_neg_literal (var : Nat) : Int := -(var : Int)

/-- The function `sat_opp_literal`. -/
def sat_opp_literal (lit : Int) : Int :=
  if lit > 0 then sat_neg_literal (sat_literal_var lit) else sat_pos_literal (sat_literal_var lit)

/-- The function `sat_implied_literal`. -/
def sat_implied_literal (st : SatState) (lit : Int) : Bool := st.implied lit

/-- The function `sat_instantiated_var`. -/
def sat_instantiated_var (st : SatState) (var : Nat) : Bool :=
  sat_implied_literal st (sat_pos_literal var) || sat_implied_literal st (sat_neg_literal var)

/-- The function `sat_var_count`. -/
def sat_var_count (st : SatState) : Nat := st.varnum

/-! ## sat_api.c: clauses -/

/-- The function `sat_index2clause`: reads slot `index - 1` of `kb`. -/
def sat_index2clause (index : Nat) (st : SatState) : Option Nat :=
  vector_get st.kb (usub1 index)

/-- The function `sat_clause_index`. -/
def sat_clause_index (st : SatState) (clause : Nat) : Nat := st.index clause

/-- The function `sat_clause_size`. -/
def sat_clause_size (st : SatState) (clause : Nat) : Nat := vector_size (st.lits clause)

/-- The function `sat_subsumed_clause`. -/
def sat_subsumed_clause (st : SatState) (clause : Nat) : Bool := st.subsumed clause

/-- The function `sat_check_subsumed_clause`: 1 as soon as a literal of the clause is implied. -/
def sat_check_subsumed_clause (st : SatState) (clause : Nat) : Bool :=
  (st.lits clause).any (fun lit => sat_implied_literal st lit)

/-- The function `sat_clause_count`. -/
def sat_clause_count (st : SatState) : Nat := st.clausenum

/-- The function `sat_learned_clause_count`. -/
def sat_learned_clause_count (st : SatState) : Nat := vector_size st.lc

/-- The clause designated by a combined 0-based index, as selected at the head of the
loop of `sat_get_assert_clause`: `kb[k]` when `k < clausenum`, else `lc[k - clausenum]`. -/
def clause_at (st : SatState) (clauseindex : Nat) : Option Nat :=
  if clauseindex < sat_clause_count st then vector_get st.kb clauseindex
  else vector_get st.lc (clauseindex - sat_clause_count st)

/-! ## sat_api.c: conflict analysis -/

/-- The `for` loop of `sat_get_assert_clause` over the literals of the current reason
clause: unseen variables are marked; literals below the current level go to `ac`, the
others are counted in `m`. The clause `ac` comes from `malloc` and is no clause of `kb` or
`lc`, so the pushes to `ac` leave the scanned literals untouched and the loop runs over the
literals the clause has on entry. -/
def assert_clause_scan (ac : Nat) : List Int → SatState → Nat → SatState × Nat
  | [], st, m => (st, m)
  | lit :: rest, st, m =>
    let var := sat_literal_var lit
    if st.u var then assert_clause_scan ac rest st m
    else
      let st1 := { st with u := upd st.u var true }
      if st1.level var < vector_size st1.ds + 1 then
        assert_clause_scan ac rest
          { st1 with lits := upd st1.lits ac (vector_push (st1.lits ac) lit) } m
      else assert_clause_scan ac rest st1 (m + 1)

/-- The trail walk of `sat_get_assert_clause` (`if (p < 0) return;` followed by the inner
`while (!var->u)` loop). The cursor is given as `p + 1`. Result: `none` is a read outside
`s`, `some none` is the `return` taken when the cursor falls below 0, `some (some (p, lit))`
is the position and literal at which the loop stops. -/
def trail_seek (st : SatState) : Nat → Option (Option (Nat × Int))
  | 0 => some none
  | p + 1 =>
    match vector_get st.s p with
    | none => none
    | some lit =>
      if st.u (sat_literal_var lit) then some (some (p, lit)) else trail_seek st p

/-- The `while (1)` loop of `sat_get_assert_clause`. The cursor is `p1 = p + 1`; `none` is
a read outside a vector (or exhausted fuel). -/
def get_assert_clause_loop (ac : Nat) :
    Nat → SatState → Nat → Nat → Nat → Option SatState
  | 0, _, _, _, _ => none
  | fuel + 1, st, clauseindex, m, p1 =>
    match clause_at st clauseindex with
    | none => none
    | some clause =>
      match assert_clause_scan ac (st.lits clause) st m with
      | (st1, m1) =>
        match trail_seek st1 p1 with
        | none => none
        | some none => some st1
        | some (some (p, lit)) =>
          if m1 = 1 then
            some { st1 with lits := upd st1.lits ac (vector_push (st1.lits ac) (sat_opp_literal lit)) }
          else get_assert_clause_loop ac fuel st1 (st1.locate lit) (usub1 m1) p

/-- The function `sat_get_assert_clause`. The signed cursor `p` of the C code is passed as
`p1 = p + 1`; every iteration of the loop lowers the cursor, so `p1 + 1` iterations suffice. -/
def sat_get_assert_clause (st : SatState) (ac : Nat) (clauseindex m p1 : Nat) : Option SatState :=
  get_assert_clause_loop ac (p1 + 1) st clauseindex m p1

/-! ## sat_api.c: unit resolution -/

/-- The inner `for` loop of `sat_unit_resolution` over the literal positions `j` of a
clause: `flag` counts the positions whose opposite literal is not implied and stops at 2,
`pos` is the last such position. Returns `(flag, pos)`. -/
def unresolved_scan (st : SatState) : List Int → Nat → Nat → Nat → Nat × Nat
  | [], _, flag, pos => (flag, pos)
  | lit :: rest, j, flag, pos =>
    if !sat_implied_literal st (sat_opp_literal lit) then
      if flag + 1 = 2 then (flag + 1, j) else unresolved_scan st rest (j + 1) (flag + 1) j
    else unresolved_scan st rest (j + 1) flag pos

/-- The conflict branch (`flag == 0`) of `sat_unit_resolution`: allocate `ac`, and when a
decision exists preset the seen flags and run the conflict analysis. -/
def conflict_branch (st : SatState) (clause : Nat) : Option SatState :=
  let ac := st.brk
  let st1 := { st with
    ac := some ac, brk := ac + 1,
    lits := upd st.lits ac [], subsumed := upd st.subsumed ac false }
  if vector_size st1.ds > 0 then
    let st2 := { st1 with
      u := fun var => if 1 ≤ var ∧ var ≤ sat_var_count st1 then decide (st1.level var ≤ 1)
                      else st1.u var }
    sat_get_assert_clause st2 ac (usub1 (st2.index clause)) 0 (vector_size st2.s)
  else some st1

/-- The unit branch (`flag == 1`) of `sat_unit_resolution` for the clause in queue slot `i`
and its literal `lit`. -/
def unit_branch (st : SatState) (i clause : Nat) (lit : Int) : SatState :=
  { st with
    implied := upd st.implied lit true
    locate := upd st.locate lit (usub1 (st.index clause))
    level := upd st.level (sat_literal_var lit) (vector_size st.ds + 1)
    il := vector_push st.il lit
    s := vector_push st.s lit
    subsumed := upd st.subsumed clause true
    q := vector_erase st.q i }

/-- Outcome of one pass of the `for` loop of `sat_unit_resolution`. -/
inductive PassOutcome where
  /-- the loop ran to `i = 0`; the flag is `more` -/
  | finished (more : Bool)
  /-- the `return 0` of the conflict branch was taken -/
  | conflict
  /-- a read outside a vector -/
  | fault

/-- The `for (i = size(q); i >= 1; i--)` loop of `sat_unit_resolution`, started at `i`. -/
def unit_resolution_pass : Nat → Bool → SatState → PassOutcome × SatState
  | 0, more, st => (PassOutcome.finished more, st)
  | i + 1, more, st =>
    match vector_get st.q i with
    | none => (PassOutcome.fault, st)
    | some clause =>
      let st1 := { st with subsumed := upd st.subsumed clause (sat_check_subsumed_clause st clause) }
      if sat_subsumed_clause st1 clause then
        unit_resolution_pass i more { st1 with q := vector_erase st1.q i }
      else
        match unresolved_scan st1 (st1.lits clause) 0 0 0 with
        | (flag, pos) =>
          if flag = 0 then
            match conflict_branch st1 clause with
            | none => (PassOutcome.fault, st1)
            | some st2 => (PassOutcome.conflict, st2)
          else if flag = 1 then
            match vector_get (st1.lits clause) pos with
            | none => (PassOutcome.fault, st1)
            | some lit => unit_resolution_pass i true (unit_branch st1 i clause lit)
          else unit_resolution_pass i more st1

/-- The `while (more)` loop of `sat_unit_resolution`; `none` is a fault or exhausted fuel. -/
def unit_resolution_loop : Nat → SatState → Option (Bool × SatState)
  | 0, _ => none
  | fuel + 1, st =>
    match unit_resolution_pass (vector_size st.q) false st with
    | (PassOutcome.fault, _) => none
    | (PassOutcome.conflict, st1) => some (false, st1)
    | (PassOutcome.finished true, st1) => unit_resolution_loop fuel st1
    | (PassOutcome.finished false, st1) => some (true, st1)

/-- The function `sat_unit_resolution`: `some (true, _)` is the return value 1,
`some (false, _)` the return value 0. Every pass that asks for another pass has removed a
clause from the queue, so `size(q) + 1` passes suffice. -/
def sat_unit_resolution (st : SatState) : Option (Bool × SatState) :=
  unit_resolution_loop (vector_size st.q + 1) st

/-! ## sat_api.c: decide, undo, assert -/

/-- The assignments of `sat_decide_literal` before unit resolution runs: the literal is set,
pushed on `ds` and `s`, and its variable takes the level `size(ds) + 1` read after the push. -/
def decide_bookkeeping (lit : Int) (st : SatState) : SatState :=
  let st1 := { st with
    implied := upd st.implied lit true
    ds := vector_push st.ds lit
    s := vector_push st.s lit }
  { st1 with level := upd st1.level (sat_literal_var lit) (vector_size st1.ds + 1) }

/-- The function `sat_decide_literal`: the result is the returned clause (`none` is `NULL`)
and the new state. -/
def sat_decide_literal (lit : Int) (st : SatState) : Option (Option Nat × SatState) :=
  match sat_unit_resolution (decide_bookkeeping lit st) with
  | none => none
  | some (true, st3) => some (none, st3)
  | some (false, st3) => some (st3.ac, st3)

/-- One iteration of the occurrence loops of `sat_restore_literal`. -/
def restore_clause (st : SatState) (clause : Nat) : SatState :=
  if sat_subsumed_clause st clause then
    let st1 := { st with subsumed := upd st.subsumed clause (sat_check_subsumed_clause st clause) }
    if !sat_subsumed_clause st1 clause then { st1 with q := vector_push st1.q clause } else st1
  else st

/-- The function `sat_restore_literal`. -/
def sat_restore_literal (st : SatState) (lit : Int) : SatState :=
  let st0 := { st with implied := upd st.implied lit false }
  let var := sat_literal_var lit
  let st1 := (st0.mentions var).foldl restore_clause st0
  (st1.mentions_lc var).foldl restore_clause st1

/-- The `while` loop of `sat_undo_unit_resolution`; each iteration pops `il`. -/
def undo_unit_resolution_loop : Nat → SatState → SatState
  | 0, st => st
  | n + 1, st =>
    match vector_top st.il with
    | none => st
    | some lit =>
      if st.level (sat_literal_var lit) > vector_size st.ds + 1 then
        let st1 := sat_restore_literal st lit
        undo_unit_resolution_loop n { st1 with il := vector_pop st1.il, s := vector_pop st1.s }
      else st

/-- The function `sat_undo_unit_resolution`. -/
def sat_undo_unit_resolution (st : SatState) : SatState :=
  undo_unit_resolution_loop (vector_size st.il) st

/-- The function `sat_undo_decide_literal`; `none` is the read of the top of an empty `ds`. -/
def sat_undo_decide_literal (st : SatState) : Option SatState :=
  match vector_top st.ds with
  | none => none
  | some lit =>
    let st1 := sat_restore_literal st lit
    some (sat_undo_unit_resolution { st1 with ds := vector_pop st1.ds, s := vector_pop st1.s })

/-- One iteration of the occurrence loop of `sat_assert_clause` (and of `sat_state_new`
when `learned` is false): append the clause to the variable's list unless it is its top. -/
def mention_clause (learned : Bool) (clause : Nat) (st : SatState) (lit : Int) : SatState :=
  let var := sat_literal_var lit
  if learned then
    if vector_size (st.mentions_lc var) = 0 ∨ vector_top (st.mentions_lc var) ≠ some clause then
      { st with mentions_lc := upd st.mentions_lc var (vector_push (st.mentions_lc var) clause) }
    else st
  else
    if vector_size (st.mentions var) = 0 ∨ vector_top (st.mentions var) ≠ some clause then
      { st with mentions := upd st.mentions var (vector_push (st.mentions var) clause) }
    else st

/-- The bookkeeping of `sat_assert_clause` before unit resolution runs. -/
def assert_clause_bookkeeping (clause : Nat) (st : SatState) : SatState :=
  let st1 := { st with
    index := upd st.index clause (sat_clause_count st + sat_learned_clause_count st + 1) }
  let st2 := (st1.lits clause).foldl (mention_clause true clause) st1
  { st2 with lc := vector_push st2.lc clause, q := vector_push st2.q clause }

/-- The function `sat_assert_clause`. -/
def sat_assert_clause (clause : Nat) (st : SatState) : Option (Option Nat × SatState) :=
  match sat_unit_resolution (assert_clause_bookkeeping clause st) with
  | none => none
  | some (true, st3) => some (none, st3)
  | some (false, st3) => some (st3.ac, st3)

/-- The loop of `sat_at_assertion_level`: `(h1, h2)` after one more literal. -/
def assertion_level_step (st : SatState) (h : Nat × Nat) (lit : Int) : Nat × Nat :=
  let level := st.level (sat_literal_var lit)
  if level ≥ h.1 then (level, h.1)
  else if level ≥ h.2 then (h.1, level) else h

/-- The function `sat_at_assertion_level`. -/
def sat_at_assertion_level (clause : Nat) (st : SatState) : Bool :=
  ((st.lits clause).foldl (assertion_level_step st) (1, 1)).2 = vector_size st.ds + 1

/-! ## sat_api.c: construction -/

/-- The state built by `sat_state_new` from a header `p cnf varnum |cnf|` followed by the
clauses `cnf`; clause `i` (0-based) gets address `i`. `mem` holds the contents of the
memory the constructor leaves uninitialised. -/
def sat_state_new (mem : SatState) (varnum : Nat) (cnf : List (List Int)) : SatState :=
  let st0 : SatState := {
    varnum := varnum
    clausenum := cnf.length
    implied := fun _ => false
    locate := mem.locate
    level := mem.level
    u := mem.u
    mentions := fun _ => []
    mentions_lc := fun _ => []
    lits := fun c => match cnf[c]? with
      | some ls => ls
      | none => mem.lits c
    subsumed := fun c => if c < cnf.length then false else mem.subsumed c
    index := fun c => if c < cnf.length then c + 1 else mem.index c
    kb := List.range cnf.length
    lc := []
    ds := []
    il := []
    s := []
    q := List.range cnf.length
    ac := none
    brk := cnf.length }
  (List.range cnf.length).foldl
    (fun st clause => (st.lits clause).foldl (mention_clause false clause) st) st0

/-! ## Vocabulary of the specification -/

/-- The clause store: original clauses followed by learned clauses. -/
def clauses (st : SatState) : List Nat := st.kb ++ st.lc

/-- Number of literal positions of a clause whose opposite literal is not implied. -/
def unresolved (st : SatState) (clause : Nat) : Nat :=
  (st.lits clause).countP (fun l => !st.implied (sat_opp_literal l))

/-- A literal index that designates one of the `2 * varnum` literal objects. -/
def ValidLit (varnum : Nat) (l : Int) : Prop := l ≠ 0 ∧ l.natAbs ≤ varnum

/-- A clause list the parser can produce for a header with `varnum` variables: clauses are
non-empty and every literal designates an existing literal object. -/
def ValidCnf (varnum : Nat) (cnf : List (List Int)) : Prop :=
  ∀ c ∈ cnf, c ≠ [] ∧ ∀ l ∈ c, ValidLit varnum l

/-- Unit resolution is at a fixpoint: every clause of the store without an implied literal
has at least two literal positions whose opposite literal is not implied. -/
def Quiescent (st : SatState) : Prop :=
  ∀ c ∈ clauses st, sat_check_subsumed_clause st c = false → 2 ≤ unresolved st c

/-- States reachable from a constructed state by API calls that respect the documented
preconditions: `decide` on a literal of an uninstantiated variable in a quiescent state,
`undo` with a non-empty decision stack, `assert` on the clause last returned, not yet
asserted, when `sat_at_assertion_level` succeeds. -/
inductive Reachable : SatState → Prop
  | new (mem : SatState) (varnum : Nat) (cnf : List (List Int)) :
      ValidCnf varnum cnf → Reachable (sat_state_new mem varnum cnf)
  | unit_resolution (st : SatState) (r : Bool) (st' : SatState) :
      Reachable st → sat_unit_resolution st = some (r, st') → Reachable st'
  | decide (st : SatState) (lit : Int) (r : Option Nat) (st' : SatState) :
      Reachable st → ValidLit st.varnum lit →
      sat_instantiated_var st (sat_literal_var lit) = false → Quiescent st →
      sat_decide_literal lit st = some (r, st') → Reachable st'
  | undo (st st' : SatState) :
      Reachable st → st.ds ≠ [] → sat_undo_decide_literal st = some st' → Reachable st'
  | assert (st : SatState) (clause : Nat) (r : Option Nat) (st' : SatState) :
      Reachable st → st.ac = some clause → clause ∉ st.lc →
      sat_at_assertion_level clause st = true →
      sat_assert_clause clause st = some (r, st') → Reachable st'

/-! ## Invariants of reachable states -/

/-- The literals of the clause recorded as the reason of a forced literal. -/
def reason_of (st : SatState) (l : Int) : Option (List Int) :=
  (clause_at st (st.locate l)).map st.lits

/-- The trail discipline, read from the top of the stacks downwards: a decision sits one
level above the decisions below it, a forced literal sits at the level of the decisions
below it and its reason clause contains it while the opposite of each other literal of
the reason lies deeper in the trail. -/
inductive TrailR (level : Nat → Nat) (reason : Int → Option (List Int)) :
    List Int → List Int → List Int → Prop
  | nil : TrailR level reason [] [] []
  | dec {ds il s : List Int} {d : Int} :
      TrailR level reason ds il s → level d.natAbs = ds.length + 2 →
      TrailR level reason (d :: ds) il (d :: s)
  | imp {ds il s : List Int} {l : Int} {ls : List Int} :
      TrailR level reason ds il s → level l.natAbs = ds.length + 1 →
      reason l = some ls → l ∈ ls → (∀ x ∈ ls, x ≠ l → -x ∈ s) →
      TrailR level reason ds (l :: il) (l :: s)

/-- Every literal of the clause is false: its opposite is implied. -/
def AllFalse (st : SatState) (c : Nat) : Prop := ∀ l ∈ st.lits c, st.implied (-l) = true

/-- Well-formedness of the clause store and of the occurrence lists. -/
structure Store (st : SatState) : Prop where
  kb_len : st.kb.length = st.clausenum
  cl_nodup : (clauses st).Nodup
  cl_brk : ∀ c ∈ clauses st, c < st.brk
  cl_index : ∀ c ∈ clauses st, st.index c ≠ 0 ∧ clause_at st (st.index c - 1) = some c
  lits_valid : ∀ c ∈ clauses st, ∀ l ∈ st.lits c, ValidLit st.varnum l
  men_kb : ∀ c ∈ st.kb, ∀ l ∈ st.lits c, c ∈ st.mentions l.natAbs
  men_lc : ∀ c ∈ st.lc, ∀ l ∈ st.lits c, c ∈ st.mentions_lc l.natAbs
  men_sub : ∀ v, (∀ c ∈ st.mentions v, c ∈ st.kb) ∧ (∀ c ∈ st.mentions_lc v, c ∈ st.lc)
  ac_ok : ∀ a, st.ac = some a → a < st.brk ∧ (∀ l ∈ st.lits a, ValidLit st.varnum l) ∧
    (a ∉ clauses st → st.subsumed a = false)
  ac_kb : ∀ a, st.ac = some a → a ∉ st.kb

/-- Well-formedness of the trail and of the assignment. -/
structure Trail (st : SatState) : Prop where
  trail : TrailR st.level (reason_of st) st.ds.reverse st.il.reverse st.s.reverse
  s_valid : ∀ l ∈ st.s, ValidLit st.varnum l
  s_nodup : (st.s.map Int.natAbs).Nodup
  implied_iff : ∀ l, st.implied l = true ↔ l ∈ st.s

/-- Well-formedness of the queue and of the subsumed flags. -/
structure Queue (st : SatState) : Prop where
  q_nodup : st.q.Nodup
  q_sub : ∀ c ∈ st.q, c ∈ clauses st
  q_flag : ∀ c ∈ clauses st, (c ∈ st.q ↔ st.subsumed c = false)
  flag_true : ∀ c ∈ clauses st, st.subsumed c = true → sat_check_subsumed_clause st c = true

/-- No clause was falsified below the current decision level. -/
def NoOld (st : SatState) : Prop :=
  st.ds ≠ [] → ∀ c ∈ clauses st, AllFalse st c →
    ∃ l ∈ st.lits c, st.level l.natAbs = st.ds.length + 1

/-- The invariant kept by every step of the API functions. -/
structure Inv (st : SatState) : Prop where
  store : Store st
  trail : Trail st
  queue : Queue st
  no_old : NoOld st

/-- A queued clause satisfies the staleness bound: each of its implied literals was set at
the current decision level. -/
def StaleAt (st : SatState) (c : Nat) : Prop :=
  ∀ l ∈ st.lits c, st.implied l = true → st.level l.natAbs = st.ds.length + 1

/-- Every queued clause satisfies the staleness bound. -/
def Stale (st : SatState) : Prop := ∀ c ∈ st.q, StaleAt st c

/-- Either the flags of the queued clauses are exact, or a falsified clause is queued. -/
def Settled (st : SatState) : Prop :=
  (∀ c ∈ st.q, sat_check_subsumed_clause st c = false) ∨ ∃ c ∈ st.q, AllFalse st c

/-! ## Vocabulary of the conflict analysis -/

/-- Number of trail entries in `cur` whose variable is seen and sits at the current level. -/
def seen_count (st : SatState) (cur : List Int) : Nat :=
  cur.countP (fun x => st.u x.natAbs && decide (st.level x.natAbs = st.ds.length + 1))

/-- The conflict analysis changes only the seen flags and the literals of `ac`. -/
def AnalysisFrame (ac : Nat) (st st' : SatState) : Prop :=
  st' = { st with u := st'.u, lits := st'.lits } ∧ ∀ c, c ≠ ac → st'.lits c = st.lits c

/-- Shape of the asserting clause built by the conflict branch from state `st`. -/
def AssertingShape (st : SatState) (ls : List Int) : Prop :=
  (st.ds = [] → ls = []) ∧
  (st.ds ≠ [] → ∃ low uip, ls = low ++ [uip] ∧ -uip ∈ st.s ∧
    st.level uip.natAbs = st.ds.length + 1 ∧
    ∀ x ∈ low, -x ∈ st.s ∧ st.level x.natAbs < st.ds.length + 1)

/-- Unit resolution only extends the assignment: the decision stack and the clause store
are kept, `s` and `il` grow by the same forced literals, which are exactly the newly
implied literals and sit at the current level, and the levels of the earlier trail
entries are kept. -/
structure Ext (st0 st : SatState) : Prop where
  ds_eq : st.ds = st0.ds
  varnum_eq : st.varnum = st0.varnum
  clausenum_eq : st.clausenum = st0.clausenum
  kb_eq : st.kb = st0.kb
  lc_eq : st.lc = st0.lc
  index_eq : st.index = st0.index
  mentions_eq : st.mentions = st0.mentions
  mentions_lc_eq : st.mentions_lc = st0.mentions_lc
  lits_eq : ∀ c ∈ clauses st0, st.lits c = st0.lits c
  grow : ∃ t, st.s = st0.s ++ t ∧ st.il = st0.il ++ t ∧
    (∀ l, st.implied l = true ↔ (st0.implied l = true ∨ l ∈ t)) ∧
    (∀ l ∈ t, st.level l.natAbs = st0.ds.length + 1)
  level_eq : ∀ l ∈ st0.s, st.level l.natAbs = st0.level l.natAbs

/-- Every queued clause satisfies the staleness bound, except possibly the clause in the
last slot of the queue (the slot unit resolution visits first). -/
def StaleButLast (st : SatState) : Prop :=
  ∀ x ∈ st.q, (∀ j, st.q.length = j + 1 → st.q[j]? ≠ some x) → StaleAt st x

/-- The queue invariant without the exactness of the set flags, as it holds inside
`sat_restore_literal`. -/
structure QueueW (st : SatState) : Prop where
  q_nodup : st.q.Nodup
  q_sub : ∀ c ∈ st.q, c ∈ clauses st
  q_flag : ∀ c ∈ clauses st, (c ∈ st.q ↔ st.subsumed c = false)

/-- Every implied literal of a queued clause satisfies `P`. -/
def QueuedImplied (P : Int → Prop) (st : SatState) : Prop :=
  ∀ c ∈ st.q, ∀ l ∈ st.lits c, st.implied l = true → P l

/-- Relation between a state and the state after `sat_undo_decide_literal`: the top
decision `d` and the literals `T` forced after it leave the trail, exactly they stop being
implied, and only `implied`, `subsumed`, `q` and the three stacks change. -/
structure UndoRel (st st' : SatState) (d : Int) (T : List Int) : Prop where
  frame : st' = { st with implied := st'.implied, subsumed := st'.subsumed, q := st'.q,
                          ds := st'.ds, il := st'.il, s := st'.s }
  ds_eq : st.ds = st'.ds ++ [d]
  s_eq : st.s = st'.s ++ d :: T
  il_eq : st.il = st'.il ++ T
  implied_iff : ∀ l, st'.implied l = true ↔ (st.implied l = true ∧ l ≠ d ∧ l ∉ T)
  level_d : st.level d.natAbs = st.ds.length + 1
  level_T : ∀ l ∈ T, st.level l.natAbs = st.ds.length + 1
  flag_mono : ∀ c, st'.subsumed c = true → st.subsumed c = true

/-! ## Concrete inputs -/

/-- A memory whose uninitialised cells all read as zero. -/
def mem_zero : SatState :=
  { varnum := 0, clausenum := 0, implied := fun _ => false, locate := fun _ => 0,
    level := fun _ => 0, u := fun _ => false, mentions := fun _ => [],
    mentions_lc := fun _ => [], lits := fun _ => [], subsumed := fun _ => false,
    index := fun _ => 0, kb := [], lc := [], ds := [], il := [], s := [], q := [],
    ac := none, brk := 0 }

/-- Scenario S1 of the specification: `p cnf 3 3 / 1 0 / -1 2 0 / -2 3 0`. -/
def cnf_chain : List (List Int) := [[1], [-1, 2], [-2, 3]]

/-- Scenario S4 of the specification: `p cnf 4 4 / -1 2 0 / -1 3 0 / -2 -3 4 0 / -4 0`. -/
def cnf_learn : List (List Int) := [[-1, 2], [-1, 3], [-2, -3, 4], [-4]]

/-- The input `p cnf 2 3 / -1 0 / 1 0 / 1 2 0`: its last clause is visited before the unit
clause that satisfies it, and the conflict of the first clause ends the pass. -/
def cnf_stale : List (List Int) := [[-1], [1], [1, 2]]

/-- The input `p cnf 3 2 / 1 2 0 / 2 3 0`: no clause is unit. -/
def cnf_order : List (List Int) := [[1, 2], [2, 3]]

/-! ## Vocabulary of the claims on flags, trail shape and levels -/

/-- The subsumed flags are exact: a clause of the store is flagged exactly when one of its
literals is implied. -/
def FlagsExact (st : SatState) : Prop :=
  ∀ c ∈ st.kb ++ st.lc,
    (sat_subsumed_clause st c = true ↔ ∃ l ∈ st.lits c, sat_implied_literal st l = true)

/-- At most one of the two literals of each variable is implied. -/
def AtMostOne (st : SatState) : Prop :=
  ∀ v, 1 ≤ v → ¬ (sat_implied_literal st (sat_pos_literal v) = true ∧
    sat_implied_literal st (sat_neg_literal v) = true)

/-- The list `zs` is an order-preserving merge of `xs` and `ys`: every position of `zs` is
taken from the head of exactly one of the two lists, in their order. -/
inductive Merge {α : Type} : List α → List α → List α → Prop
  | nil : Merge [] [] []
  | left (a : α) {xs ys zs : List α} : Merge xs ys zs → Merge (a :: xs) ys (a :: zs)
  | right (a : α) {xs ys zs : List α} : Merge xs ys zs → Merge xs (a :: ys) (a :: zs)

/-- The second-largest element of a multiset of levels (its second element once sorted in
decreasing order), taken as 1 when the multiset has fewer than two elements. -/
def second_highest (levels : List Nat) : Nat :=
  match levels.insertionSort (fun a b => b ≤ a) with
  | _ :: b :: _ => b
  | _ => 1

/-- The levels of the variables of the literals of a clause. -/
def clause_levels (st : SatState) (clause : Nat) : List Nat :=
  (st.lits clause).map (fun l => st.level (sat_literal_var l))

/-- A state with `n` decisions in which clause 0 has three literals whose variables have
the levels 5, 3 and 3. -/
def st_levels (n : Nat) : SatState :=
  { mem_zero with
    varnum := 3
    lits := fun _ => [1, 2, 3]
    level := fun v => if v = 1 then 5 else 3
    ds := List.replicate n 1 }

/-- Number of decided literals among the first `k` entries of the trail `s`. -/
def decisions_before (st : SatState) (k : Nat) : Nat :=
  (st.s.take k).countP (fun x => decide (x ∈ st.ds))

/-! ## Vocabulary of the claims on learning, entailment and termination -/

/-- Scenario S2 of the specification: `p cnf 1 2 / 1 0 / -1 0`. -/
def cnf_contra : List (List Int) := [[1], [-1]]

/-- A state in which clause 0 has the literals `1 2 -1`: variable 1 occurs twice. -/
def st_dup : SatState :=
  { mem_zero with
    varnum := 2
    lits := fun _ => [1, 2, -1] }

/-- Truth value of a literal under a total assignment of the variables. -/
def lit_true (σ : Nat → Bool) (l : Int) : Bool :=
  if l > 0 then σ (sat_literal_var l) else !σ (sat_literal_var l)

/-- The assignment makes some literal of the clause true. -/
def Satisfies (σ : Nat → Bool) (ls : List Int) : Prop := ∃ l ∈ ls, lit_true σ l = true

/-- The assignment satisfies every original and every learned clause. -/
def Models (σ : Nat → Bool) (st : SatState) : Prop :=
  ∀ c ∈ st.kb ++ st.lc, Satisfies σ (st.lits c)

/-- What the conflict analysis, entered in state `st` on clause `c` with the trail part
`cur` still below its cursor and ended in state `st1`, has done with the seen flags: flags
are only set; the variables of `c` are seen; a seen entry of `cur` either was seen below the
current level on entry, or has its opposite in `ac`, or is a forced literal all of whose
reason literals are seen; and a variable newly seen is the variable of an entry of `cur`. -/
structure AnalysisFacts (ac : Nat) (st : SatState) (c : Nat) (cur : List Int)
    (st1 : SatState) : Prop where
  u_mono : ∀ v, st.u v = true → st1.u v = true
  lits_mono : ∀ x ∈ st.lits ac, x ∈ st1.lits ac
  clause_seen : ∀ l ∈ st.lits c, st1.u l.natAbs = true
  seen_cases : ∀ x ∈ cur, st1.u x.natAbs = true →
    (st.u x.natAbs = true ∧ st.level x.natAbs < st.ds.length + 1) ∨ -x ∈ st1.lits ac ∨
    (x ∈ st.il ∧ ∃ r, clause_at st (st.locate x) = some r ∧
      ∀ y ∈ st.lits r, st1.u y.natAbs = true)
  seen_new : ∀ v, st1.u v = true → st.u v = true ∨ ∃ x ∈ cur, x.natAbs = v

/-- Number of variables `1 .. varnum` without an implied literal. -/
def uninstantiated_count (st : SatState) : Nat :=
  (List.range st.varnum).countP (fun i => !sat_instantiated_var st (i + 1))

/-- The `for` loop of `sat_unit_resolution` (the function `unit_resolution_pass`) together
with the list of the clauses it reads from `q`, in the order of the reads. -/
def unit_resolution_pass_trace : Nat → Bool → SatState → (PassOutcome × SatState) × List Nat
  | 0, more, st => ((PassOutcome.finished more, st), [])
  | i + 1, more, st =>
    match vector_get st.q i with
    | none => ((PassOutcome.fault, st), [])
    | some clause =>
      let st1 := { st with subsumed := upd st.subsumed clause (sat_check_subsumed_clause st clause) }
      let r :=
        if sat_subsumed_clause st1 clause then
          unit_resolution_pass_trace i more { st1 with q := vector_erase st1.q i }
        else
          match unresolved_scan st1 (st1.lits clause) 0 0 0 with
          | (flag, pos) =>
            if flag = 0 then
              match conflict_branch st1 clause with
              | none => ((PassOutcome.fault, st1), [])
              | some st2 => ((PassOutcome.conflict, st2), [])
            else if flag = 1 then
              match vector_get (st1.lits clause) pos with
              | none => ((PassOutcome.fault, st1), [])
              | some lit => unit_resolution_pass_trace i true (unit_branch st1 i clause lit)
            else unit_resolution_pass_trace i more st1
      (r.1, clause :: r.2)

/-- The `while (more)` loop of `sat_unit_resolution` (the function `unit_resolution_loop`)
together with the number of passes of the `for` loop it runs. -/
def unit_resolution_loop_count : Nat → SatState → Option ((Bool × SatState) × Nat)
  | 0, _ => none
  | fuel + 1, st =>
    match unit_resolution_pass (vector_size st.q) false st with
    | (PassOutcome.fault, _) => none
    | (PassOutcome.conflict, st1) => some ((false, st1), 1)
    | (PassOutcome.finished true, st1) =>
      (unit_resolution_loop_count fuel st1).map (fun r => (r.1, r.2 + 1))
    | (PassOutcome.finished false, st1) => some ((true, st1), 1)

/-! ## Vocabulary of the claim on the bounds of the conflict analysis -/

/-- What one iteration of the `while (1)` loop of `sat_get_assert_clause` does: the combined
clause index it dereferences, the cursor `p + 1` on entry, the counter `m` after the `for`
loop, the position and the literal at which the inner `while` loop stops (`none` when the
cursor falls below 0), and whether the iteration goes on to read `lit->locate`. -/
structure AnalysisStep where
  clauseindex : Nat
  cursor : Nat
  m : Nat
  found : Option (Nat × Int)
  reads_locate : Bool
  deriving DecidableEq

/-- The `while (1)` loop of `sat_get_assert_clause` (the function `get_assert_clause_loop`)
together with the list of its iterations. -/
def get_assert_clause_trace (ac : Nat) :
    Nat → SatState → Nat → Nat → Nat → Option (SatState × List AnalysisStep)
  | 0, _, _, _, _ => none
  | fuel + 1, st, clauseindex, m, p1 =>
    match clause_at st clauseindex with
    | none => none
    | some clause =>
      match assert_clause_scan ac (st.lits clause) st m with
      | (st1, m1) =>
        match trail_seek st1 p1 with
        | none => none
        | some none => some (st1, [⟨clauseindex, p1, m1, none, false⟩])
        | some (some (p, lit)) =>
          if m1 = 1 then
            some ({ st1 with lits := upd st1.lits ac (vector_push (st1.lits ac) (sat_opp_literal lit)) },
              [⟨clauseindex, p1, m1, some (p, lit), false⟩])
          else
            (get_assert_clause_trace ac fuel st1 (st1.locate lit) (usub1 m1) p).map
              (fun r => (r.1, ⟨clauseindex, p1, m1, some (p, lit), true⟩ :: r.2))

/-- The conflict branch of `sat_unit_resolution` (the function `conflict_branch`) together
with the list of the iterations of the conflict analysis it runs. -/
def conflict_branch_trace (st : SatState) (clause : Nat) :
    Option (SatState × List AnalysisStep) :=
  let ac := st.brk
  let st1 := { st with
    ac := some ac, brk := ac + 1,
    lits := upd st.lits ac [], subsumed := upd st.subsumed ac false }
  if vector_size st1.ds > 0 then
    let st2 := { st1 with
      u := fun var => if 1 ≤ var ∧ var ≤ sat_var_count st1 then decide (st1.level var ≤ 1)
                      else st1.u var }
    get_assert_clause_trace ac (vector_size st2.s + 1) st2 (usub1 (st2.index clause)) 0
      (vector_size st2.s)
  else some (st1, [])

/-- The bounds respected by one iteration of the conflict analysis run in state `st`: the
clause index designates a clause of the store, the cursor lies within the trail, the counter
`m` is at least 1 when the trail is inspected, the inner loop stops at a trail literal of
the current level, `locate` is read only for a forced literal, never for a decision, and
an iteration that does not read `locate` ends the loop with `m = 1`. -/
structure StepInBounds (st : SatState) (e : AnalysisStep) : Prop where
  index_lt : e.clauseindex < sat_clause_count st + sat_learned_clause_count st
  clause_some : ∃ c, clause_at st e.clauseindex = some c ∧ c ∈ st.kb ++ st.lc
  cursor_le : e.cursor ≤ vector_size st.s
  m_pos : 1 ≤ e.m
  found_ok : ∃ p lit, e.found = some (p, lit) ∧ p < e.cursor ∧ vector_get st.s p = some lit ∧
    st.level (sat_literal_var lit) = vector_size st.ds + 1 ∧
    (e.reads_locate = true → lit ∈ st.il ∧ lit ∉ st.ds ∧ 2 ≤ e.m) ∧
    (e.reads_locate = false → e.m = 1) ∧
    (lit ∈ st.ds → e.m = 1 ∧ e.reads_locate = false)

/-- How an iteration of the conflict analysis follows the previous one: the previous one has
read `locate` of the literal it found, the next one enters with that clause index and with
the cursor just below the position found, so the cursor has strictly decreased. -/
def StepNext (st : SatState) (e1 e2 : AnalysisStep) : Prop :=
  e1.reads_locate = true ∧ e2.cursor < e1.cursor ∧
  ∃ p lit, e1.found = some (p, lit) ∧ e2.cursor = p ∧ e2.clauseindex = st.locate lit

/-! ## Vocabulary of the claims on the asserting clause and on the clauses met by unit
resolution -/

/-- The input `p cnf 3 2 / -1 -2 3 0 / -1 -2 -3 0`: the decisions `+1` and `+2` run into a
conflict at the second decision. -/
def cnf_pair : List (List Int) := [[-1, -2, 3], [-1, -2, -3]]

/-- The input `p cnf 2 3 / 1 0 / -1 2 0 / -1 -2 0`: the first pass of unit resolution forces
`+1`, the second pass forces `-2` and then meets the falsified clause `-1 2`. -/
def cnf_late : List (List Int) := [[1], [-1, 2], [-1, -2]]

/-- Exactly one literal of `ls` has a variable of level `|ds| + 1`, and every other literal
has a variable of strictly lower level. -/
def OneAtCurrentLevel (st : SatState) (ls : List Int) : Prop :=
  ls.countP (fun l => decide (st.level (sat_literal_var l) = vector_size st.ds + 1)) = 1 ∧
  ∀ l ∈ ls, st.level (sat_literal_var l) ≠ vector_size st.ds + 1 →
    st.level (sat_literal_var l) < vector_size st.ds + 1

/-- Every literal of `ls` is false in `st`: its opposite is implied, the literal itself is
not, and its variable is instantiated. -/
def AllLiteralsFalse (st : SatState) (ls : List Int) : Prop :=
  ∀ l ∈ ls, sat_implied_literal st (sat_opp_literal l) = true ∧
    sat_implied_literal st l = false ∧
    sat_instantiated_var st (sat_literal_var l) = true

/-- The clause `ac` of `st` is present and true under every total assignment that satisfies
all clauses of `kb` and `lc`, and every trail literal of level at most 1 is true under such
an assignment (so its opposite is false). -/
def AssertingClauseEntailed (st : SatState) : Prop :=
  (∃ a, st.ac = some a ∧ ∀ σ, Models σ st → Satisfies σ (st.lits a)) ∧
  (∀ σ, Models σ st → ∀ x ∈ st.s, st.level (sat_literal_var x) ≤ 1 →
    lit_true σ x = true ∧ lit_true σ (sat_opp_literal x) = false)

/-- The clause `c`, read from the queue in state `st`, has no implied literal and every one
of its literals has its opposite implied. -/
def MeetsFalsified (v : SatState × Nat) : Prop :=
  sat_check_subsumed_clause v.1 v.2 = false ∧
  ∀ l ∈ v.1.lits v.2, sat_implied_literal v.1 (sat_opp_literal l) = true

/-- The `for` loop of `sat_unit_resolution` (the function `unit_resolution_pass`) together
with the list of its reads of `q`: each entry is the state in which the read takes place
and the clause read. -/
def unit_resolution_pass_visits :
    Nat → Bool → SatState → (PassOutcome × SatState) × List (SatState × Nat)
  | 0, more, st => ((PassOutcome.finished more, st), [])
  | i + 1, more, st =>
    match vector_get st.q i with
    | none => ((PassOutcome.fault, st), [])
    | some clause =>
      let st1 := { st with subsumed := upd st.subsumed clause (sat_check_subsumed_clause st clause) }
      let r :=
        if sat_subsumed_clause st1 clause then
          unit_resolution_pass_visits i more { st1 with q := vector_erase st1.q i }
        else
          match unresolved_scan st1 (st1.lits clause) 0 0 0 with
          | (flag, pos) =>
            if flag = 0 then
              match conflict_branch st1 clause with
              | none => ((PassOutcome.fault, st1), [])
              | some st2 => ((PassOutcome.conflict, st2), [])
            else if flag = 1 then
              match vector_get (st1.lits clause) pos with
              | none => ((PassOutcome.fault, st1), [])
              | some lit => unit_resolution_pass_visits i true (unit_branch st1 i clause lit)
            else unit_resolution_pass_visits i more st1
      (r.1, (st, clause) :: r.2)

/-- The `while (more)` loop of `sat_unit_resolution` (the function `unit_resolution_loop`)
together with the reads of `q` of all its passes, in order. -/
def unit_resolution_loop_visits :
    Nat → SatState → Option ((Bool × SatState) × List (SatState × Nat))
  | 0, _ => none
  | fuel + 1, st =>
    match unit_resolution_pass_visits (vector_size st.q) false st with
    | ((PassOutcome.fault, _), _) => none
    | ((PassOutcome.conflict, st1), vs) => some ((false, st1), vs)
    | ((PassOutcome.finished true, st1), vs) =>
      (unit_resolution_loop_visits fuel st1).map (fun r => (r.1, vs ++ r.2))
    | ((PassOutcome.finished false, st1), vs) => some ((true, st1), vs)

/-- The function `sat_unit_resolution` together with the reads of `q` of all its passes. -/
def sat_unit_resolution_visits (st : SatState) :
    Option ((Bool × SatState) × List (SatState × Nat)) :=
  unit_resolution_loop_visits (vector_size st.q + 1) st

/-! ## Elementary facts -/

@[simp] theorem sat_opp_literal_eq (l : Int) : sat_opp_literal l = -l := by
  unfold sat_opp_literal sat_neg_literal sat_pos_literal sat_literal_var
  split_ifs with h <;> omega

@[simp] theorem upd_same {α β : Type} [DecidableEq α] (f : α → β) (a : α) (b : β) :
    upd f a b a = b := by simp [upd]

theorem upd_other {α β : Type} [DecidableEq α] (f : α → β) (a : α) (b : β) (x : α)
    (h : x ≠ a) : upd f a b x = f x := by simp [upd, h]

theorem upd_apply {α β : Type} [DecidableEq α] (f : α → β) (a : α) (b : β) (x : α) :
    upd f a b x = if x = a then b else f x := rfl

theorem upd_self {α β : Type} [DecidableEq α] (f : α → β) (a : α) :
    upd f a (f a) = f := by
  funext x; by_cases h : x = a <;> simp [upd, h]

theorem usub1_pos {x : Nat} (h : x ≠ 0) : usub1 x = x - 1 := by simp [usub1, h]

theorem getElem?_split {α : Type} : ∀ (v : List α) (i : Nat) (c : α), v[i]? = some c →
    ∃ a b, v = a ++ c :: b ∧ a.length = i
  | [], i, c, h => by simp at h
  | x :: v, 0, c, h => by
    simp at h; subst h; exact ⟨[], v, rfl, rfl⟩
  | x :: v, i + 1, c, h => by
    simp at h
    obtain ⟨a, b, hv, hl⟩ := getElem?_split v i c h
    exact ⟨x :: a, b, by simp [hv], by simp [hl]⟩

theorem snoc_cases {α : Type} (b : List α) : b = [] ∨ ∃ b' e, b = b' ++ [e] := by
  rcases List.eq_nil_or_concat b with hb | ⟨b', e, hb⟩
  · exact Or.inl hb
  · exact Or.inr ⟨b', e, by simpa using hb⟩

theorem vector_erase_split {α : Type} (a b : List α) (c : α) :
    vector_erase (a ++ c :: b) a.length =
      a ++ (match b.getLast? with
            | none => []
            | some e => e :: b.dropLast) := by
  rcases snoc_cases b with hb | ⟨b', e, hb⟩
  · subst hb
    simp [vector_erase, vector_pop, List.getLast?_append, List.dropLast_append_cons]
  · subst hb
    have h1 : (a ++ c :: (b' ++ [e])).getLast? = some e := by
      rw [show a ++ c :: (b' ++ [e]) = (a ++ c :: b') ++ [e] by simp]
      exact List.getLast?_append_of_ne_nil _ (by simp) |>.trans (by simp)
    simp only [vector_erase, h1, vector_pop]
    have h2 : a.length + 1 < (a ++ c :: (b' ++ [e])).length := by simp
    rw [if_pos h2]
    have h3 : (a ++ c :: (b' ++ [e])).set a.length e = a ++ e :: (b' ++ [e]) := by
      simp [List.set_append]
    rw [h3]
    have h4 : (b' ++ [e]).getLast? = some e := by simp
    rw [h4]
    simp [List.dropLast_append_cons]
    rw [show e :: (b' ++ [e]) = (e :: b') ++ [e] by simp, List.dropLast_concat]

theorem vector_erase_perm {α : Type} (a b : List α) (c : α) :
    List.Perm (c :: vector_erase (a ++ c :: b) a.length) (a ++ c :: b) := by
  rw [vector_erase_split]
  rcases snoc_cases b with hb | ⟨b', e, hb⟩
  · subst hb; simpa using (List.perm_append_singleton c a).symm
  · subst hb
    have h4 : (b' ++ [e]).getLast? = some e := by simp
    rw [h4]
    simp only [List.dropLast_concat]
    refine List.Perm.trans (List.perm_middle.symm) ?_
    refine List.Perm.append_left a ?_
    refine List.Perm.cons c ?_
    exact (List.perm_append_singleton e b').symm

theorem vector_erase_length {α : Type} (a b : List α) (c : α) :
    (vector_erase (a ++ c :: b) a.length).length = a.length + b.length := by
  have := (vector_erase_perm a b c).length_eq
  simp at this; omega

theorem vector_erase_take {α : Type} (a b : List α) (c : α) :
    (vector_erase (a ++ c :: b) a.length).take a.length = a := by
  rw [vector_erase_split]; simp

theorem vector_erase_drop {α : Type} (a b : List α) (c : α) :
    List.Perm ((vector_erase (a ++ c :: b) a.length).drop a.length) b := by
  rw [vector_erase_split]
  rcases snoc_cases b with hb | ⟨b', e, hb⟩
  · subst hb; simp
  · subst hb
    have h4 : (b' ++ [e]).getLast? = some e := by simp
    rw [h4]
    simp only [List.dropLast_concat, List.drop_left]
    exact (List.perm_append_singleton e b').symm

/-! ## The scan of a clause for unresolved literals -/

theorem unresolved_scan_congr (st st' : SatState) (h : st'.implied = st.implied) :
    ∀ (ls : List Int) (j flag pos : Nat),
      unresolved_scan st' ls j flag pos = unresolved_scan st ls j flag pos
  | [], _, _, _ => rfl
  | l :: ls, j, flag, pos => by
    simp only [unresolved_scan, sat_implied_literal, h]
    rw [unresolved_scan_congr st st' h ls, unresolved_scan_congr st st' h ls]

theorem unresolved_scan_one_rest (st : SatState) :
    ∀ (ls : List Int) (j pos p : Nat), unresolved_scan st ls j 1 pos = (1, p) →
      p = pos ∧ ∀ x ∈ ls, st.implied (-x) = true
  | [], j, pos, p, h => by
    simp [unresolved_scan] at h; simp [h]
  | l :: ls, j, pos, p, h => by
    simp only [unresolved_scan, sat_implied_literal, sat_opp_literal_eq] at h
    by_cases hl : st.implied (-l) = true
    · simp [hl] at h
      obtain ⟨h1, h2⟩ := unresolved_scan_one_rest st ls (j + 1) pos p h
      exact ⟨h1, by simpa [hl] using h2⟩
    · simp [hl] at h

theorem unresolved_scan_one (st : SatState) :
    ∀ (ls : List Int) (j pos p : Nat), unresolved_scan st ls j 0 pos = (1, p) →
      ∃ a l0 b, ls = a ++ l0 :: b ∧ p = j + a.length ∧ st.implied (-l0) = false ∧
        (∀ x ∈ a, st.implied (-x) = true) ∧ (∀ x ∈ b, st.implied (-x) = true)
  | [], j, pos, p, h => by simp [unresolved_scan] at h
  | l :: ls, j, pos, p, h => by
    simp only [unresolved_scan, sat_implied_literal, sat_opp_literal_eq] at h
    by_cases hl : st.implied (-l) = true
    · simp [hl] at h
      obtain ⟨a, l0, b, h1, h2, h3, h4, h5⟩ := unresolved_scan_one st ls (j + 1) pos p h
      refine ⟨l :: a, l0, b, by simp [h1], by simp [h2]; omega, h3, ?_, h5⟩
      intro x hx
      rcases List.mem_cons.1 hx with rfl | hx
      · exact hl
      · exact h4 x hx
    · simp [hl] at h
      obtain ⟨h1, h2⟩ := unresolved_scan_one_rest st ls (j + 1) j p h
      refine ⟨[], l, ls, rfl, by simp [h1], by simpa using hl, by simp, h2⟩

theorem unresolved_scan_zero (st : SatState) :
    ∀ (ls : List Int) (j pos p : Nat), unresolved_scan st ls j 0 pos = (0, p) →
      ∀ x ∈ ls, st.implied (-x) = true
  | [], _, _, _, _ => by simp
  | l :: ls, j, pos, p, h => by
    simp only [unresolved_scan, sat_implied_literal, sat_opp_literal_eq] at h
    by_cases hl : st.implied (-l) = true
    · simp [hl] at h
      have := unresolved_scan_zero st ls (j + 1) pos p h
      simpa [hl] using this
    · simp [hl] at h
      have : (unresolved_scan st ls (j + 1) 1 j).1 = 0 := by rw [h]
      exact absurd this (by
        clear h this
        generalize j + 1 = j'
        generalize j = pos'
        induction ls generalizing j' pos' with
        | nil => simp [unresolved_scan]
        | cons x xs ih =>
          simp only [unresolved_scan]
          split_ifs <;> simp [ih])

theorem unresolved_scan_fst (st : SatState) :
    ∀ (ls : List Int) (j flag pos : Nat), flag ≤ 1 →
      (unresolved_scan st ls j flag pos).1
        = min 2 (flag + ls.countP (fun l => !st.implied (-l)))
  | [], j, flag, pos, hf => by simp [unresolved_scan]; omega
  | l :: ls, j, flag, pos, hf => by
    simp only [unresolved_scan, sat_implied_literal, sat_opp_literal_eq]
    by_cases hl : st.implied (-l) = true
    · simp [hl, List.countP_cons]
      exact unresolved_scan_fst st ls (j + 1) flag pos hf
    · simp only [hl, List.countP_cons]
      by_cases hf1 : flag + 1 = 2
      · simp [hf1]; omega
      · have hf0 : flag = 0 := by omega
        subst hf0
        simp
        rw [unresolved_scan_fst st ls (j + 1) 1 j (by omega)]
        omega

theorem unresolved_eq (st : SatState) (c : Nat) :
    unresolved st c = (st.lits c).countP (fun l => !st.implied (-l)) := by
  simp [unresolved]

/-- A scan that ends with `flag = 1` designates a literal of the clause whose opposite is
not implied, and the opposite of every other literal of the clause is implied. -/
theorem scan_unit (st : SatState) (ls : List Int) (pos : Nat)
    (h : unresolved_scan st ls 0 0 0 = (1, pos)) :
    ∃ lit, ls[pos]? = some lit ∧ st.implied (-lit) = false ∧
      ∀ l' ∈ ls, l' ≠ lit → st.implied (-l') = true := by
  obtain ⟨a, l0, b, h1, h2, h3, h4, h5⟩ := unresolved_scan_one st ls 0 0 pos h
  refine ⟨l0, ?_, h3, ?_⟩
  · subst h1
    have : pos = a.length := by omega
    subst this
    rw [List.getElem?_append_right (le_refl _)]
    simp
  · intro l' hl' hne
    subst h1
    rcases List.mem_append.1 hl' with ha | hb
    · exact h4 _ ha
    · rcases List.mem_cons.1 hb with rfl | hb
      · exact absurd rfl hne
      · exact h5 _ hb

theorem scan_two (st : SatState) (ls : List Int) (fl pos : Nat)
    (h : unresolved_scan st ls 0 0 0 = (fl, pos)) (h0 : fl ≠ 0) (h1 : fl ≠ 1) :
    2 ≤ ls.countP (fun l => !st.implied (-l)) := by
  have := unresolved_scan_fst st ls 0 0 0 (by omega)
  rw [h] at this
  simp at this
  omega

/-! ## Induction over one pass of unit resolution -/

theorem mem_of_getElem?_some {α : Type} {v : List α} {i : Nat} {c : α} (h : v[i]? = some c) :
    c ∈ v := by
  obtain ⟨a, b, hv, _⟩ := getElem?_split v i c h
  rw [hv]; simp

/-- Induction principle for the `for` loop of `sat_unit_resolution`: a loop invariant `P`
that survives the three ways an iteration can continue yields `Q` for every outcome. -/
theorem pass_induct (P : Nat → Bool → SatState → Prop) (Q : PassOutcome → SatState → Prop)
    (hfin : ∀ more st, P 0 more st → Q (PassOutcome.finished more) st)
    (hnoq : ∀ i more st, P (i + 1) more st → st.q[i]? = none → Q PassOutcome.fault st)
    (hsub : ∀ i more st c, P (i + 1) more st → st.q[i]? = some c →
      sat_check_subsumed_clause st c = true →
      P i more { st with subsumed := upd st.subsumed c true, q := vector_erase st.q i })
    (hkeep : ∀ i more st c, P (i + 1) more st → st.q[i]? = some c →
      sat_check_subsumed_clause st c = false → 2 ≤ unresolved st c →
      P i more { st with subsumed := upd st.subsumed c false })
    (hunit : ∀ i more st c lit, P (i + 1) more st → st.q[i]? = some c →
      sat_check_subsumed_clause st c = false → lit ∈ st.lits c → st.implied (-lit) = false →
      (∀ l' ∈ st.lits c, l' ≠ lit → st.implied (-l') = true) → unresolved st c = 1 →
      P i true (unit_branch { st with subsumed := upd st.subsumed c false } i c lit))
    (hconf : ∀ i more st c st2, P (i + 1) more st → st.q[i]? = some c →
      sat_check_subsumed_clause st c = false → (∀ l ∈ st.lits c, st.implied (-l) = true) →
      conflict_branch { st with subsumed := upd st.subsumed c false } c = some st2 →
      Q PassOutcome.conflict st2)
    (hnoc : ∀ i more st c, P (i + 1) more st → st.q[i]? = some c →
      sat_check_subsumed_clause st c = false → (∀ l ∈ st.lits c, st.implied (-l) = true) →
      conflict_branch { st with subsumed := upd st.subsumed c false } c = none →
      Q PassOutcome.fault { st with subsumed := upd st.subsumed c false }) :
    ∀ i more st, P i more st →
      Q (unit_resolution_pass i more st).1 (unit_resolution_pass i more st).2 := by
  intro i
  induction i with
  | zero => intro more st hP; simpa [unit_resolution_pass] using hfin more st hP
  | succ i ih =>
    intro more st hP
    unfold unit_resolution_pass
    cases hq : vector_get st.q i with
    | none => simpa using hnoq i more st hP hq
    | some c =>
      simp only []
      by_cases hc : sat_check_subsumed_clause st c = true
      · have h1 : sat_subsumed_clause
            { st with subsumed := upd st.subsumed c (sat_check_subsumed_clause st c) } c = true := by
          simp [sat_subsumed_clause, hc]
        rw [if_pos h1]
        have := hsub i more st c hP hq hc
        rw [hc]
        exact ih _ _ this
      · have hc' : sat_check_subsumed_clause st c = false := by simpa using hc
        have h1 : ¬ sat_subsumed_clause
            { st with subsumed := upd st.subsumed c (sat_check_subsumed_clause st c) } c = true := by
          simp [sat_subsumed_clause, hc']
        rw [if_neg h1]
        rw [hc']
        have hscan : ∀ j f p, unresolved_scan
            { st with subsumed := upd st.subsumed c false } (st.lits c) j f p
              = unresolved_scan st (st.lits c) j f p :=
          unresolved_scan_congr st { st with subsumed := upd st.subsumed c false } rfl (st.lits c)
        simp only [hscan]
        rcases hs : unresolved_scan st (st.lits c) 0 0 0 with ⟨fl, pos⟩
        simp only []
        by_cases hf0 : fl = 0
        · subst hf0
          simp only [if_true]
          have hall := unresolved_scan_zero st (st.lits c) 0 0 pos hs
          cases hcb : conflict_branch { st with subsumed := upd st.subsumed c false } c with
          | none => simpa using hnoc i more st c hP hq hc' hall hcb
          | some st2 => simpa using hconf i more st c st2 hP hq hc' hall hcb
        · rw [if_neg hf0]
          by_cases hf1 : fl = 1
          · subst hf1
            simp only [if_true]
            obtain ⟨lit, hl1, hl2, hl3⟩ := scan_unit st (st.lits c) pos hs
            have hl1' : vector_get (st.lits c) pos = some lit := hl1
            rw [hl1']
            simp only []
            have hone : unresolved st c = 1 := by
              have := unresolved_scan_fst st (st.lits c) 0 0 0 (by omega)
              rw [hs, ← unresolved_eq] at this
              simp at this
              omega
            have := hunit i more st c lit hP hq hc' (mem_of_getElem?_some hl1) hl2 hl3 hone
            exact ih _ _ this
          · rw [if_neg hf1]
            have h2 := scan_two st (st.lits c) fl pos hs hf0 hf1
            have := hkeep i more st c hP hq hc' (by rw [unresolved_eq]; exact h2)
            exact ih _ _ this

/-! ## The trail discipline -/

theorem TrailR.il_sub {level : Nat → Nat} {reason : Int → Option (List Int)}
    {ds il s : List Int} (h : TrailR level reason ds il s) : ∀ l ∈ il, l ∈ s := by
  induction h with
  | nil => simp
  | dec _ _ ih => intro l hl; exact List.mem_cons_of_mem _ (ih l hl)
  | imp _ _ _ _ _ ih =>
    intro l hl
    rcases List.mem_cons.1 hl with rfl | hl
    · exact List.mem_cons_self _ _
    · exact List.mem_cons_of_mem _ (ih l hl)

theorem TrailR.ds_sub {level : Nat → Nat} {reason : Int → Option (List Int)}
    {ds il s : List Int} (h : TrailR level reason ds il s) : ∀ l ∈ ds, l ∈ s := by
  induction h with
  | nil => simp
  | dec _ _ ih =>
    intro l hl
    rcases List.mem_cons.1 hl with rfl | hl
    · exact List.mem_cons_self _ _
    · exact List.mem_cons_of_mem _ (ih l hl)
  | imp _ _ _ _ _ ih => intro l hl; exact List.mem_cons_of_mem _ (ih l hl)

theorem TrailR.mem_s {level : Nat → Nat} {reason : Int → Option (List Int)}
    {ds il s : List Int} (h : TrailR level reason ds il s) : ∀ l ∈ s, l ∈ ds ∨ l ∈ il := by
  induction h with
  | nil => simp
  | dec _ _ ih =>
    intro l hl
    rcases List.mem_cons.1 hl with rfl | hl
    · exact Or.inl (List.mem_cons_self _ _)
    · rcases ih l hl with h | h
      · exact Or.inl (List.mem_cons_of_mem _ h)
      · exact Or.inr h
  | imp _ _ _ _ _ ih =>
    intro l hl
    rcases List.mem_cons.1 hl with rfl | hl
    · exact Or.inr (List.mem_cons_self _ _)
    · rcases ih l hl with h | h
      · exact Or.inl h
      · exact Or.inr (List.mem_cons_of_mem _ h)

theorem TrailR.length_eq {level : Nat → Nat} {reason : Int → Option (List Int)}
    {ds il s : List Int} (h : TrailR level reason ds il s) :
    s.length = ds.length + il.length := by
  induction h with
  | nil => rfl
  | dec _ _ ih => simp [ih]; omega
  | imp _ _ _ _ _ ih => simp [ih]; omega

theorem TrailR.congr_eq {level level' : Nat → Nat} {reason reason' : Int → Option (List Int)}
    {ds il s : List Int} (h : TrailR level reason ds il s)
    (hl : ∀ l ∈ s, level' l.natAbs = level l.natAbs)
    (hr : ∀ l ∈ il, reason' l = reason l) : TrailR level' reason' ds il s := by
  induction h with
  | nil => exact TrailR.nil
  | dec _ hd ih =>
    refine TrailR.dec (ih (fun l h => hl l (List.mem_cons_of_mem _ h)) hr) ?_
    rw [hl _ (List.mem_cons_self _ _)]; exact hd
  | imp _ hlv hrs hmem hopp ih =>
    refine TrailR.imp (ih (fun l h => hl l (List.mem_cons_of_mem _ h))
      (fun l h => hr l (List.mem_cons_of_mem _ h))) ?_ ?_ hmem hopp
    · rw [hl _ (List.mem_cons_self _ _)]; exact hlv
    · rw [hr _ (List.mem_cons_self _ _)]; exact hrs

theorem TrailR.congr_weak {level level' : Nat → Nat} {reason reason' : Int → Option (List Int)}
    {ds il s : List Int} (h : TrailR level reason ds il s)
    (hl : ∀ l ∈ s, level' l.natAbs = level l.natAbs)
    (hr : ∀ l ∈ il, ∀ ls, reason l = some ls → reason' l = some ls) :
    TrailR level' reason' ds il s := by
  induction h with
  | nil => exact TrailR.nil
  | dec _ hd ih =>
    refine TrailR.dec (ih (fun l h => hl l (List.mem_cons_of_mem _ h)) hr) ?_
    rw [hl _ (List.mem_cons_self _ _)]; exact hd
  | imp _ hlv hrs hmem hopp ih =>
    refine TrailR.imp (ih (fun l h => hl l (List.mem_cons_of_mem _ h))
      (fun l h => hr l (List.mem_cons_of_mem _ h))) ?_ ?_ hmem hopp
    · rw [hl _ (List.mem_cons_self _ _)]; exact hlv
    · exact hr _ (List.mem_cons_self _ _) _ hrs

theorem TrailR.level_bounds {level : Nat → Nat} {reason : Int → Option (List Int)}
    {ds il s : List Int} (h : TrailR level reason ds il s) :
    ∀ l ∈ s, 1 ≤ level l.natAbs ∧ level l.natAbs ≤ ds.length + 1 := by
  induction h with
  | nil => simp
  | dec _ hd ih =>
    intro l hl
    rcases List.mem_cons.1 hl with rfl | hl
    · simp [hd]
    · have := ih l hl; simp; omega
  | imp _ hlv _ _ _ ih =>
    intro l hl
    rcases List.mem_cons.1 hl with rfl | hl
    · simp [hlv]
    · exact ih l hl

/-- Above the top decision lie exactly the literals forced at its level. -/
theorem TrailR.split_top {level : Nat → Nat} {reason : Int → Option (List Int)}
    {dss il s : List Int} (h : TrailR level reason dss il s) :
    ∀ d ds0, dss = d :: ds0 → ∃ t il0 s0, il = t ++ il0 ∧ s = t ++ d :: s0 ∧
      TrailR level reason ds0 il0 s0 ∧ level d.natAbs = ds0.length + 2 ∧
      ∀ l ∈ t, level l.natAbs = ds0.length + 2 := by
  induction h with
  | nil => intro d ds0 h; cases h
  | dec h0 hd _ =>
    intro d ds0 h
    cases h
    exact ⟨[], _, _, rfl, rfl, h0, hd, by simp⟩
  | @imp _ _ _ l0 _ _ hlv _ _ _ ih =>
    intro d ds0 h
    obtain ⟨t, il0, s0, h1, h2, h3, h4, h5⟩ := ih d ds0 h
    refine ⟨l0 :: t, il0, s0, by simp [h1], by simp [h2], h3, h4, ?_⟩
    intro l hl
    rcases List.mem_cons.1 hl with rfl | hl
    · rw [hlv, h]; simp
    · exact h5 l hl

/-! ## Helper facts on clauses, flags and the queue -/

@[simp] theorem sat_literal_var_eq (l : Int) : sat_literal_var l = l.natAbs := rfl

theorem check_iff (st : SatState) (c : Nat) :
    sat_check_subsumed_clause st c = true ↔ ∃ l ∈ st.lits c, st.implied l = true := by
  simp [sat_check_subsumed_clause, sat_implied_literal, List.any_eq_true]

theorem check_false_iff (st : SatState) (c : Nat) :
    sat_check_subsumed_clause st c = false ↔ ∀ l ∈ st.lits c, st.implied l = false := by
  rw [← Bool.not_eq_true, check_iff]
  simp

theorem validLit_neg {n : Nat} {l : Int} (h : ValidLit n l) : ValidLit n (-l) := by
  unfold ValidLit at *
  constructor
  · omega
  · simpa using h.2

theorem natAbs_eq_cases {a b : Int} (h : a.natAbs = b.natAbs) : a = b ∨ a = -b := by
  omega

theorem clause_at_mem {st : SatState} {k c : Nat} (h : clause_at st k = some c) :
    c ∈ clauses st := by
  unfold clause_at vector_get at h
  unfold clauses
  split_ifs at h
  · exact List.mem_append_left _ (mem_of_getElem?_some h)
  · exact List.mem_append_right _ (mem_of_getElem?_some h)

theorem erase_mem_iff {q : List Nat} {i c : Nat} (hq : q[i]? = some c) (hn : q.Nodup) (x : Nat) :
    x ∈ vector_erase q i ↔ x ∈ q ∧ x ≠ c := by
  obtain ⟨a, b, rfl, rfl⟩ := getElem?_split q i c hq
  have hp := vector_erase_perm a b c
  have hn' : (c :: vector_erase (a ++ c :: b) a.length).Nodup := hp.nodup_iff.2 hn
  have hm : x ∈ c :: vector_erase (a ++ c :: b) a.length ↔ x ∈ a ++ c :: b := hp.mem_iff
  rw [List.mem_cons] at hm
  constructor
  · intro hx
    refine ⟨hm.1 (Or.inr hx), ?_⟩
    rintro rfl
    exact (List.nodup_cons.1 hn').1 hx
  · rintro ⟨hx, hne⟩
    rcases hm.2 hx with h | h
    · exact absurd h hne
    · exact h

theorem erase_nodup {q : List Nat} {i c : Nat} (hq : q[i]? = some c) (hn : q.Nodup) :
    (vector_erase q i).Nodup := by
  obtain ⟨a, b, rfl, rfl⟩ := getElem?_split q i c hq
  have hp := vector_erase_perm a b c
  exact (List.nodup_cons.1 (hp.nodup_iff.2 hn)).2

theorem erase_length {q : List Nat} {i c : Nat} (hq : q[i]? = some c) :
    (vector_erase q i).length + 1 = q.length := by
  obtain ⟨a, b, rfl, rfl⟩ := getElem?_split q i c hq
  rw [vector_erase_length]; simp; omega

theorem mem_s_natAbs {s : List Int} {l : Int} (h : l.natAbs ∈ s.map Int.natAbs) :
    l ∈ s ∨ -l ∈ s := by
  obtain ⟨x, hx, hxl⟩ := List.mem_map.1 h
  rcases natAbs_eq_cases hxl with rfl | rfl
  · exact Or.inl hx
  · exact Or.inr (by simpa using hx)

/-- Under the queue invariant the flag of a queued clause is already clear, so storing the
outcome `0` of the check does not change the state. -/
theorem keep_eq {st : SatState} (hq : Queue st) {c : Nat} (hc : c ∈ st.q) :
    { st with subsumed := upd st.subsumed c false } = st := by
  have h1 : st.subsumed c = false := (hq.q_flag c (hq.q_sub c hc)).1 hc
  have : upd st.subsumed c false = st.subsumed := by
    rw [← h1]; exact upd_self _ _
  rw [this]

theorem Trail.not_both {st : SatState} (h : Trail st) (l : Int) :
    ¬ (st.implied l = true ∧ st.implied (-l) = true) := by
  rintro ⟨h1, h2⟩
  have m1 := (h.implied_iff l).1 h1
  have m2 := (h.implied_iff (-l)).1 h2
  have hv := h.s_valid l m1
  have hne : l ≠ -l := by unfold ValidLit at hv; omega
  have := List.inj_on_of_nodup_map h.s_nodup m1 m2 (by simp)
  exact hne this

theorem Trail.level_le {st : SatState} (h : Trail st) {l : Int} (hl : l ∈ st.s) :
    1 ≤ st.level l.natAbs ∧ st.level l.natAbs ≤ st.ds.length + 1 := by
  have := h.trail.level_bounds l (by simpa using hl)
  simpa using this

/-! ## The invariant across the iterations of unit resolution -/

/-- Iteration that finds the clause subsumed: the flag is set and the clause leaves the queue. -/
theorem Inv.step_sub {st : SatState} (h : Inv st) {i c : Nat} (hq : st.q[i]? = some c)
    (hc : sat_check_subsumed_clause st c = true) :
    Inv { st with subsumed := upd st.subsumed c true, q := vector_erase st.q i } := by
  have hcq : c ∈ st.q := mem_of_getElem?_some hq
  have hcc : c ∈ clauses st := h.queue.q_sub c hcq
  refine ⟨⟨h.store.kb_len, h.store.cl_nodup, h.store.cl_brk, h.store.cl_index,
      h.store.lits_valid, h.store.men_kb, h.store.men_lc, h.store.men_sub, ?_, h.store.ac_kb⟩,
    ⟨h.trail.trail, h.trail.s_valid, h.trail.s_nodup, h.trail.implied_iff⟩,
    ⟨?_, ?_, ?_, ?_⟩, h.no_old⟩
  · intro a ha
    obtain ⟨h1, h2, h3⟩ := h.store.ac_ok a ha
    refine ⟨h1, h2, fun hn => ?_⟩
    have hne : a ≠ c := fun e => hn (e ▸ hcc)
    show upd st.subsumed c true a = false
    rw [upd_other _ _ _ _ hne]; exact h3 hn
  · exact erase_nodup hq h.queue.q_nodup
  · intro x hx
    exact h.queue.q_sub x ((erase_mem_iff hq h.queue.q_nodup x).1 hx).1
  · intro x hx
    show x ∈ vector_erase st.q i ↔ upd st.subsumed c true x = false
    rw [erase_mem_iff hq h.queue.q_nodup x]
    by_cases hxc : x = c
    · subst hxc; simp
    · rw [upd_other _ _ _ _ hxc]
      simp [hxc, h.queue.q_flag x hx]
  · intro x hx hs
    by_cases hxc : x = c
    · subst hxc; exact hc
    · have hs' : upd st.subsumed c true x = true := hs
      rw [upd_other _ _ _ _ hxc] at hs'
      exact h.queue.flag_true x hx hs'

theorem Stale.step_sub_stale {st : SatState} (h : Inv st) (hs : Stale st) {i c : Nat}
    (hq : st.q[i]? = some c) :
    Stale { st with subsumed := upd st.subsumed c true, q := vector_erase st.q i } := by
  intro x hx
  exact hs x ((erase_mem_iff hq h.queue.q_nodup x).1 hx).1

/-- Facts about the literal forced by a unit clause. -/
theorem unit_fresh {st : SatState} (h : Inv st) {c : Nat} {lit : Int}
    (hc : sat_check_subsumed_clause st c = false) (hl : lit ∈ st.lits c)
    (ho : st.implied (-lit) = false) :
    st.implied lit = false ∧ lit ∉ st.s ∧ -lit ∉ st.s ∧ lit.natAbs ∉ st.s.map Int.natAbs := by
  have h1 : st.implied lit = false := (check_false_iff st c).1 hc lit hl
  have h2 : lit ∉ st.s := fun hm => by
    have := (h.trail.implied_iff lit).2 hm; simp [h1] at this
  have h3 : -lit ∉ st.s := fun hm => by
    have := (h.trail.implied_iff (-lit)).2 hm; simp [ho] at this
  refine ⟨h1, h2, h3, fun hm => ?_⟩
  rcases mem_s_natAbs hm with h | h
  · exact h2 h
  · exact h3 h

/-- Iteration that finds the clause unit: its open literal is forced. -/
theorem Inv.step_unit {st : SatState} (h : Inv st) {i c : Nat} {lit : Int}
    (hq : st.q[i]? = some c) (hc : sat_check_subsumed_clause st c = false)
    (hl : lit ∈ st.lits c) (ho : st.implied (-lit) = false)
    (hall : ∀ l' ∈ st.lits c, l' ≠ lit → st.implied (-l') = true) :
    Inv (unit_branch st i c lit) := by
  have hcq : c ∈ st.q := mem_of_getElem?_some hq
  have hcc : c ∈ clauses st := h.queue.q_sub c hcq
  obtain ⟨hf1, hf2, hf3, hf4⟩ := unit_fresh h hc hl ho
  have hvar : ∀ l ∈ st.s, l.natAbs ≠ lit.natAbs := by
    intro l hm e
    exact hf4 (e ▸ List.mem_map_of_mem _ hm)
  have hidx := h.store.cl_index c hcc
  refine ⟨⟨h.store.kb_len, h.store.cl_nodup, h.store.cl_brk, h.store.cl_index,
      h.store.lits_valid, h.store.men_kb, h.store.men_lc, h.store.men_sub, ?_, h.store.ac_kb⟩,
    ⟨?_, ?_, ?_, ?_⟩, ⟨?_, ?_, ?_, ?_⟩, ?_⟩
  · intro a ha
    obtain ⟨h1, h2, h3⟩ := h.store.ac_ok a ha
    refine ⟨h1, h2, fun hn => ?_⟩
    have hne : a ≠ c := fun e => hn (e ▸ hcc)
    show upd st.subsumed c true a = false
    rw [upd_other _ _ _ _ hne]; exact h3 hn
  · -- trail
    show TrailR (upd st.level (sat_literal_var lit) (vector_size st.ds + 1))
      (reason_of (unit_branch st i c lit)) st.ds.reverse (vector_push st.il lit).reverse
      (vector_push st.s lit).reverse
    simp only [vector_push, List.reverse_append, List.reverse_cons, List.reverse_nil,
      List.nil_append, List.singleton_append]
    refine @TrailR.imp _ _ _ _ _ _ (st.lits c) (h.trail.trail.congr_eq ?_ ?_) ?_ ?_ hl ?_
    · intro l hm
      rw [sat_literal_var_eq, upd_other _ _ _ _ (hvar l (by simpa using hm))]
    · intro l hm
      have hls : l ∈ st.s := by
        have := h.trail.trail.il_sub l hm
        simpa using this
      have hne : l ≠ lit := fun e => hf2 (e ▸ hls)
      show Option.map st.lits (clause_at st (upd st.locate lit _ l)) = _
      rw [upd_other _ _ _ _ hne]; rfl
    · simp [vector_size]
    · show Option.map st.lits (clause_at st (upd st.locate lit _ lit)) = _
      rw [upd_same, usub1_pos hidx.1]
      show Option.map st.lits (clause_at st (st.index c - 1)) = _
      rw [hidx.2]; rfl
    · intro x hx hne
      have := (h.trail.implied_iff (-x)).1 (hall x hx hne)
      simpa using this
  · intro l hm
    have hm' : l ∈ st.s ++ [lit] := hm
    rcases List.mem_append.1 hm' with hm | hm
    · exact h.trail.s_valid l hm
    · have : l = lit := by simpa using hm
      subst this
      exact h.store.lits_valid c hcc l hl
  · show ((st.s ++ [lit]).map Int.natAbs).Nodup
    rw [List.map_append, List.nodup_append]
    refine ⟨h.trail.s_nodup, by simp, ?_⟩
    intro a ha hb
    have : a = lit.natAbs := by simpa using hb
    subst this
    exact hf4 ha
  · intro l
    show upd st.implied lit true l = true ↔ l ∈ st.s ++ [lit]
    by_cases e : l = lit
    · subst e; simp
    · rw [upd_other _ _ _ _ e, h.trail.implied_iff l]; simp [e]
  · exact erase_nodup hq h.queue.q_nodup
  · intro x hx
    exact h.queue.q_sub x ((erase_mem_iff hq h.queue.q_nodup x).1 hx).1
  · intro x hx
    show x ∈ vector_erase st.q i ↔ upd st.subsumed c true x = false
    rw [erase_mem_iff hq h.queue.q_nodup x]
    by_cases hxc : x = c
    · subst hxc; simp
    · rw [upd_other _ _ _ _ hxc]
      simp [hxc, h.queue.q_flag x hx]
  · intro x hx hs
    rw [check_iff]
    by_cases hxc : x = c
    · subst hxc
      exact ⟨lit, hl, by show upd st.implied lit true lit = true; simp⟩
    · have hs' : upd st.subsumed c true x = true := hs
      rw [upd_other _ _ _ _ hxc] at hs'
      obtain ⟨l, hl1, hl2⟩ := (check_iff st x).1 (h.queue.flag_true x hx hs')
      refine ⟨l, hl1, ?_⟩
      show upd st.implied lit true l = true
      simp [upd_apply, hl2]
  · -- no_old
    intro hds x hx hfalse
    have hds' : st.ds ≠ [] := hds
    show ∃ l ∈ st.lits x, upd st.level (sat_literal_var lit) (vector_size st.ds + 1) l.natAbs
        = st.ds.length + 1
    by_cases hold : AllFalse st x
    · obtain ⟨l, hl1, hl2⟩ := h.no_old hds' x hx hold
      refine ⟨l, hl1, ?_⟩
      simp only [upd_apply, sat_literal_var_eq, vector_size]
      split_ifs <;> simp [hl2]
    · unfold AllFalse at hold
      push_neg at hold
      obtain ⟨l, hl1, hl2⟩ := hold
      have h3 : upd st.implied lit true (-l) = true := hfalse l hl1
      have h4 : -l = lit := by
        by_contra e
        rw [upd_other _ _ _ _ e] at h3
        exact hl2 h3
      refine ⟨l, hl1, ?_⟩
      have : l.natAbs = lit.natAbs := by rw [← h4]; simp
      simp [upd_apply, this, vector_size]

theorem StaleAt.step_unit_stale {st : SatState} {i c x : Nat} {lit : Int} (hs : StaleAt st x) :
    StaleAt (unit_branch st i c lit) x := by
  intro l hl himp
  have himp' : upd st.implied lit true l = true := himp
  show upd st.level (sat_literal_var lit) (vector_size st.ds + 1) l.natAbs = st.ds.length + 1
  by_cases e : l.natAbs = lit.natAbs
  · simp [upd_apply, e, vector_size]
  · have hne : l ≠ lit := fun h => e (h ▸ rfl)
    rw [upd_other _ _ _ _ hne] at himp'
    rw [sat_literal_var_eq, upd_other _ _ _ _ e]
    exact hs l hl himp'

/-! ## Positional facts of the trail -/

theorem TrailR.at_split_rev {level : Nat → Nat} {reason : Int → Option (List Int)}
    {ds il r : List Int} (h : TrailR level reason ds il r) (hn : r.Nodup) :
    ∀ post l pre, r = post ++ l :: pre →
      (∀ x ∈ pre, level x.natAbs ≤ level l.natAbs) ∧
      (l ∈ ds → ∀ x ∈ pre, level x.natAbs < level l.natAbs) ∧
      (l ∈ il → ∃ ls, reason l = some ls ∧ l ∈ ls ∧ ∀ x ∈ ls, x ≠ l → -x ∈ pre) := by
  induction h with
  | nil => intro post l pre h; simp at h
  | @dec ds0 il0 s0 d h0 hd ih =>
    intro post l pre hsplit
    have hn0 : s0.Nodup := (List.nodup_cons.1 hn).2
    have hd0 : d ∉ s0 := (List.nodup_cons.1 hn).1
    cases post with
    | nil =>
      simp at hsplit
      obtain ⟨rfl, rfl⟩ := hsplit
      refine ⟨?_, ?_, ?_⟩
      · intro x hx; have := h0.level_bounds x hx; omega
      · intro _ x hx; have := h0.level_bounds x hx; omega
      · intro hl; exact absurd (h0.il_sub _ hl) hd0
    | cons y post' =>
      simp at hsplit
      obtain ⟨rfl, hs0⟩ := hsplit
      obtain ⟨h1, h2, h3⟩ := ih hn0 post' l pre hs0
      refine ⟨h1, ?_, h3⟩
      intro hl
      rcases List.mem_cons.1 hl with rfl | hl
      · exact absurd (by rw [hs0]; simp) hd0
      · exact h2 hl
  | @imp ds0 il0 s0 l0 ls h0 hlv hr hmem hopp ih =>
    intro post l pre hsplit
    have hn0 : s0.Nodup := (List.nodup_cons.1 hn).2
    have hd0 : l0 ∉ s0 := (List.nodup_cons.1 hn).1
    cases post with
    | nil =>
      simp at hsplit
      obtain ⟨rfl, rfl⟩ := hsplit
      refine ⟨?_, ?_, ?_⟩
      · intro x hx; have := h0.level_bounds x hx; omega
      · intro hl; exact absurd (h0.ds_sub _ hl) hd0
      · intro _; exact ⟨ls, hr, hmem, hopp⟩
    | cons y post' =>
      simp at hsplit
      obtain ⟨rfl, hs0⟩ := hsplit
      obtain ⟨h1, h2, h3⟩ := ih hn0 post' l pre hs0
      refine ⟨h1, h2, ?_⟩
      intro hl
      rcases List.mem_cons.1 hl with rfl | hl
      · exact absurd (by rw [hs0]; simp) hd0
      · exact h3 hl

theorem Trail.s_nodup' {st : SatState} (h : Trail st) : st.s.Nodup :=
  List.Nodup.of_map _ h.s_nodup

/-- Positional facts of the trail in vector order: levels do not decrease along `s`, a
decision opens its level, and the reason of a forced literal is falsified before it. -/
theorem Trail.at_split {st : SatState} (h : Trail st) {pre post : List Int} {l : Int}
    (hs : st.s = pre ++ l :: post) :
    (∀ x ∈ pre, st.level x.natAbs ≤ st.level l.natAbs) ∧
    (l ∈ st.ds → ∀ x ∈ pre, st.level x.natAbs < st.level l.natAbs) ∧
    (l ∈ st.il → ∃ c, clause_at st (st.locate l) = some c ∧ l ∈ st.lits c ∧
      ∀ x ∈ st.lits c, x ≠ l → -x ∈ pre) := by
  have hr : st.s.reverse = post.reverse ++ l :: pre.reverse := by rw [hs]; simp
  have hn : st.s.reverse.Nodup := List.nodup_reverse.2 h.s_nodup'
  obtain ⟨h1, h2, h3⟩ := h.trail.at_split_rev hn _ _ _ hr
  refine ⟨fun x hx => h1 x (by simpa using hx), fun hl x hx => h2 (by simpa using hl) x
    (by simpa using hx), fun hl => ?_⟩
  obtain ⟨ls, hls, hm, ho⟩ := h3 (by simpa using hl)
  unfold reason_of at hls
  cases hc : clause_at st (st.locate l) with
  | none => rw [hc] at hls; simp at hls
  | some c =>
    rw [hc] at hls
    simp at hls
    subst hls
    exact ⟨c, rfl, hm, fun x hx hne => by simpa using ho x hx hne⟩

theorem Trail.mem_ds_or_il {st : SatState} (h : Trail st) {l : Int} (hl : l ∈ st.s) :
    l ∈ st.ds ∨ l ∈ st.il := by
  have := h.trail.mem_s l (by simpa using hl)
  simpa using this

/-! ## Conflict analysis: the scan of a reason clause -/

theorem AnalysisFrame.frame_same (ac : Nat) (st : SatState) : AnalysisFrame ac st st :=
  ⟨rfl, fun _ _ => rfl⟩

theorem AnalysisFrame.trans {ac : Nat} {a b c : SatState} (h1 : AnalysisFrame ac a b)
    (h2 : AnalysisFrame ac b c) : AnalysisFrame ac a c := by
  obtain ⟨e1, f1⟩ := h1
  obtain ⟨e2, f2⟩ := h2
  refine ⟨?_, fun x hx => (f2 x hx).trans (f1 x hx)⟩
  rw [e2, e1]

theorem seen_count_upd_not_mem (st : SatState) (v : Nat) (b : Bool) :
    ∀ (cur : List Int), v ∉ cur.map Int.natAbs →
      seen_count { st with u := upd st.u v b } cur = seen_count st cur
  | [], _ => rfl
  | x :: xs, h => by
    have hx : x.natAbs ≠ v := fun e => h (by simp [e])
    have hxs : v ∉ xs.map Int.natAbs := fun e => h (by simp at e ⊢; exact Or.inr e)
    have ih := seen_count_upd_not_mem st v b xs hxs
    unfold seen_count at ih ⊢
    rw [List.countP_cons, List.countP_cons, ih]
    simp only [upd_other _ _ _ _ hx]

theorem seen_count_upd (st : SatState) (y : Int) :
    ∀ (cur : List Int), (cur.map Int.natAbs).Nodup → y ∈ cur → st.u y.natAbs = false →
      seen_count { st with u := upd st.u y.natAbs true } cur
        = seen_count st cur + (if st.level y.natAbs = st.ds.length + 1 then 1 else 0)
  | [], _, hy, _ => by simp at hy
  | x :: xs, hn, hy, hu => by
    rw [List.map_cons, List.nodup_cons] at hn
    by_cases e : x = y
    · subst e
      have := seen_count_upd_not_mem st x.natAbs true xs hn.1
      unfold seen_count at this ⊢
      rw [List.countP_cons, List.countP_cons, this]
      simp only [upd_same, hu]
      by_cases hl : st.level x.natAbs = st.ds.length + 1 <;> simp [hl]
    · have hy' : y ∈ xs := by
        rcases List.mem_cons.1 hy with h | h
        · exact absurd h.symm e
        · exact h
      have hne : x.natAbs ≠ y.natAbs := fun h => hn.1 (h ▸ List.mem_map_of_mem _ hy')
      have ih := seen_count_upd st y xs hn.2 hy' hu
      unfold seen_count at ih ⊢
      rw [List.countP_cons, List.countP_cons, ih]
      simp only [upd_other _ _ _ _ hne]
      omega

/-- Effect of the scan of a reason clause whose unseen literals are falsified inside `cur`. -/
theorem scan_spec (ac : Nat) (cur : List Int) (hn : (cur.map Int.natAbs).Nodup) :
    ∀ (ls : List Int) (st : SatState) (m : Nat),
      (∀ x ∈ cur, st.level x.natAbs ≤ st.ds.length + 1) →
      (∀ l ∈ ls, st.u l.natAbs = true ∨ -l ∈ cur) → m = seen_count st cur →
      AnalysisFrame ac st (assert_clause_scan ac ls st m).1 ∧
      (∀ v, (assert_clause_scan ac ls st m).1.u v = (st.u v || decide (v ∈ ls.map Int.natAbs))) ∧
      (assert_clause_scan ac ls st m).2 = seen_count (assert_clause_scan ac ls st m).1 cur ∧
      ∃ low, (assert_clause_scan ac ls st m).1.lits ac = st.lits ac ++ low ∧
        ∀ x ∈ low, x ∈ ls ∧ st.level x.natAbs < st.ds.length + 1 ∧ st.u x.natAbs = false
  | [], st, m, _, _, hm => by
    simp only [assert_clause_scan]
    exact ⟨AnalysisFrame.frame_same _ _, by simp, hm, [], by simp, by simp⟩
  | l :: ls, st, m, hlev, hls, hm => by
    have hls' : ∀ l ∈ ls, st.u l.natAbs = true ∨ -l ∈ cur :=
      fun x hx => hls x (List.mem_cons_of_mem _ hx)
    unfold assert_clause_scan
    simp only [sat_literal_var_eq, vector_size]
    by_cases hu : st.u l.natAbs = true
    · rw [if_pos hu]
      obtain ⟨h1, h2, h3, low, h4, h5⟩ := scan_spec ac cur hn ls st m hlev hls' hm
      refine ⟨h1, ?_, h3, low, h4, fun x hx => ⟨List.mem_cons_of_mem _ (h5 x hx).1, (h5 x hx).2⟩⟩
      intro v
      rw [h2 v]
      by_cases hv : v = l.natAbs
      · subst hv; simp [hu]
      · simp [hv]
    · rw [if_neg hu]
      have hu' : st.u l.natAbs = false := by simpa using hu
      have hmem : -l ∈ cur := by
        rcases hls l (List.mem_cons_self _ _) with h | h
        · exact absurd h hu
        · exact h
      have hcnt := seen_count_upd st (-l) cur hn hmem (by simpa using hu')
      simp only [Int.natAbs_neg] at hcnt
      have hle := hlev (-l) hmem
      simp only [Int.natAbs_neg] at hle
      by_cases hlt : st.level l.natAbs < st.ds.length + 1
      · rw [if_pos hlt]
        have hls1 : ∀ x ∈ ls, (upd st.u l.natAbs true) x.natAbs = true ∨ -x ∈ cur := by
          intro x hx
          rcases hls' x hx with h | h
          · left; simp [upd_apply, h]
          · right; exact h
        have hm1 : m = seen_count
            { st with u := upd st.u l.natAbs true,
                      lits := upd st.lits ac (vector_push (st.lits ac) l) } cur := by
          have : seen_count
            { st with u := upd st.u l.natAbs true,
                      lits := upd st.lits ac (vector_push (st.lits ac) l) } cur
              = seen_count { st with u := upd st.u l.natAbs true } cur := rfl
          rw [this, hcnt, hm]
          have : st.level l.natAbs ≠ st.ds.length + 1 := by omega
          simp [this]
        obtain ⟨h1, h2, h3, low, h4, h5⟩ := scan_spec ac cur hn ls
          { st with u := upd st.u l.natAbs true,
                    lits := upd st.lits ac (vector_push (st.lits ac) l) } m hlev hls1 hm1
        refine ⟨?_, ?_, h3, l :: low, ?_, ?_⟩
        · refine AnalysisFrame.trans ⟨rfl, fun c hc => ?_⟩ h1
          show upd st.lits ac _ c = st.lits c
          rw [upd_other _ _ _ _ hc]
        · intro v
          rw [h2 v]
          show (upd st.u l.natAbs true v || _) = _
          by_cases hv : v = l.natAbs
          · subst hv; simp
          · simp [upd_apply, hv]
        · rw [h4]
          show upd st.lits ac _ ac ++ low = _
          simp [vector_push]
        · intro x hx
          rcases List.mem_cons.1 hx with rfl | hx
          · exact ⟨List.mem_cons_self _ _, hlt, hu'⟩
          · obtain ⟨a1, a2, a3⟩ := h5 x hx
            refine ⟨List.mem_cons_of_mem _ a1, a2, ?_⟩
            have a3' : upd st.u l.natAbs true x.natAbs = false := a3
            by_cases e : x.natAbs = l.natAbs
            · rw [e, upd_same] at a3'; cases a3'
            · rw [upd_other _ _ _ _ e] at a3'; exact a3'
      · rw [if_neg hlt]
        have hls1 : ∀ x ∈ ls, (upd st.u l.natAbs true) x.natAbs = true ∨ -x ∈ cur := by
          intro x hx
          rcases hls' x hx with h | h
          · left; simp [upd_apply, h]
          · right; exact h
        have hm1 : m + 1 = seen_count { st with u := upd st.u l.natAbs true } cur := by
          rw [hcnt, hm]
          have : st.level l.natAbs = st.ds.length + 1 := by omega
          simp [this]
        obtain ⟨h1, h2, h3, low, h4, h5⟩ := scan_spec ac cur hn ls
          { st with u := upd st.u l.natAbs true } (m + 1) hlev hls1 hm1
        refine ⟨?_, ?_, h3, low, h4, ?_⟩
        · exact AnalysisFrame.trans ⟨rfl, fun c _ => rfl⟩ h1
        · intro v
          rw [h2 v]
          show (upd st.u l.natAbs true v || _) = _
          by_cases hv : v = l.natAbs
          · subst hv; simp
          · simp [upd_apply, hv]
        · intro x hx
          obtain ⟨a1, a2, a3⟩ := h5 x hx
          refine ⟨List.mem_cons_of_mem _ a1, a2, ?_⟩
          have a3' : upd st.u l.natAbs true x.natAbs = false := a3
          by_cases e : x.natAbs = l.natAbs
          · rw [e, upd_same] at a3'; cases a3'
          · rw [upd_other _ _ _ _ e] at a3'; exact a3'

/-! ## Conflict analysis: frame facts -/

theorem AnalysisFrame.s_eq {ac : Nat} {st st' : SatState} (h : AnalysisFrame ac st st') :
    st'.s = st.s := by
  have := congrArg SatState.s h.1; exact this
theorem AnalysisFrame.ds_eq {ac : Nat} {st st' : SatState} (h : AnalysisFrame ac st st') :
    st'.ds = st.ds := by
  have := congrArg SatState.ds h.1; exact this
theorem AnalysisFrame.il_eq {ac : Nat} {st st' : SatState} (h : AnalysisFrame ac st st') :
    st'.il = st.il := by
  have := congrArg SatState.il h.1; exact this
theorem AnalysisFrame.level_eq {ac : Nat} {st st' : SatState} (h : AnalysisFrame ac st st') :
    st'.level = st.level := by
  have := congrArg SatState.level h.1; exact this
theorem AnalysisFrame.locate_eq {ac : Nat} {st st' : SatState} (h : AnalysisFrame ac st st') :
    st'.locate = st.locate := by
  have := congrArg SatState.locate h.1; exact this
theorem AnalysisFrame.implied_eq {ac : Nat} {st st' : SatState} (h : AnalysisFrame ac st st') :
    st'.implied = st.implied := by
  have := congrArg SatState.implied h.1; exact this
theorem AnalysisFrame.varnum_eq {ac : Nat} {st st' : SatState} (h : AnalysisFrame ac st st') :
    st'.varnum = st.varnum := by
  have := congrArg SatState.varnum h.1; exact this
theorem AnalysisFrame.kb_eq {ac : Nat} {st st' : SatState} (h : AnalysisFrame ac st st') :
    st'.kb = st.kb := by
  have := congrArg SatState.kb h.1; exact this
theorem AnalysisFrame.lc_eq {ac : Nat} {st st' : SatState} (h : AnalysisFrame ac st st') :
    st'.lc = st.lc := by
  have := congrArg SatState.lc h.1; exact this
theorem AnalysisFrame.clausenum_eq {ac : Nat} {st st' : SatState} (h : AnalysisFrame ac st st') :
    st'.clausenum = st.clausenum := by
  have := congrArg SatState.clausenum h.1; exact this
theorem AnalysisFrame.clauses_same {ac : Nat} {st st' : SatState} (h : AnalysisFrame ac st st') :
    clauses st' = clauses st := by
  simp [clauses, h.kb_eq, h.lc_eq]
theorem AnalysisFrame.clause_at_eq {ac : Nat} {st st' : SatState} (h : AnalysisFrame ac st st')
    (k : Nat) : clause_at st' k = clause_at st k := by
  simp [clause_at, sat_clause_count, h.kb_eq, h.lc_eq, h.clausenum_eq]

theorem AnalysisFrame.lits_eq {ac : Nat} {st st' : SatState} (h : AnalysisFrame ac st st')
    (hac : ac ∉ clauses st) {c : Nat} (hc : c ∈ clauses st) : st'.lits c = st.lits c :=
  h.2 c (fun e => hac (e ▸ hc))

theorem AnalysisFrame.reason_eq {ac : Nat} {st st' : SatState} (h : AnalysisFrame ac st st')
    (hac : ac ∉ clauses st) (l : Int) : reason_of st' l = reason_of st l := by
  unfold reason_of
  rw [h.locate_eq, h.clause_at_eq]
  cases hc : clause_at st (st.locate l) with
  | none => rfl
  | some c => simp [h.lits_eq hac (clause_at_mem hc)]

theorem AnalysisFrame.trail {ac : Nat} {st st' : SatState} (h : AnalysisFrame ac st st')
    (hac : ac ∉ clauses st) (ht : Trail st) : Trail st' := by
  refine ⟨?_, ?_, ?_, ?_⟩
  · rw [h.ds_eq, h.il_eq, h.s_eq, h.level_eq]
    exact ht.trail.congr_eq (fun _ _ => rfl) (fun l _ => h.reason_eq hac l)
  · rw [h.s_eq, h.varnum_eq]; exact ht.s_valid
  · rw [h.s_eq]; exact ht.s_nodup
  · rw [h.s_eq, h.implied_eq]; exact ht.implied_iff

/-! ## Conflict analysis: the trail walk -/

theorem trail_seek_spec (st : SatState) : ∀ (cur rest : List Int), st.s = cur ++ rest →
    (trail_seek st cur.length = some none ∧ ∀ x ∈ cur, st.u x.natAbs = false) ∨
    (∃ pre lit mid, cur = pre ++ lit :: mid ∧
      trail_seek st cur.length = some (some (pre.length, lit)) ∧ st.u lit.natAbs = true ∧
      ∀ x ∈ mid, st.u x.natAbs = false) := by
  intro cur
  induction cur using List.reverseRecOn with
  | nil => intro rest _; left; simp [trail_seek]
  | append_singleton xs x ih =>
    intro rest hs
    have hget : vector_get st.s xs.length = some x := by
      unfold vector_get
      rw [hs, List.append_assoc, List.getElem?_append_right (le_refl _)]
      simp
    have hlen : (xs ++ [x]).length = xs.length + 1 := by simp
    rw [hlen]
    unfold trail_seek
    rw [hget]
    simp only [sat_literal_var_eq]
    by_cases hu : st.u x.natAbs = true
    · right
      exact ⟨xs, x, [], rfl, by simp [hu], hu, by simp⟩
    · rw [if_neg hu]
      have hu' : st.u x.natAbs = false := by simpa using hu
      rcases ih (x :: rest) (by rw [hs]; simp) with ⟨h1, h2⟩ | ⟨pre, lit, mid, h1, h2, h3, h4⟩
      · left
        refine ⟨h1, ?_⟩
        intro y hy
        rcases List.mem_append.1 hy with h | h
        · exact h2 y h
        · have : y = x := by simpa using h
          subst this; exact hu'
      · right
        refine ⟨pre, lit, mid ++ [x], by rw [h1]; simp, h2, h3, ?_⟩
        intro y hy
        rcases List.mem_append.1 hy with h | h
        · exact h4 y h
        · have : y = x := by simpa using h
          subst this; exact hu'

/-! ## Conflict analysis: the main loop -/

theorem seen_count_pos {st : SatState} {cur : List Int} :
    0 < seen_count st cur ↔
      ∃ y ∈ cur, st.u y.natAbs = true ∧ st.level y.natAbs = st.ds.length + 1 := by
  unfold seen_count
  rw [List.countP_pos_iff]
  simp

theorem seen_count_unseen {st : SatState} {cur : List Int}
    (h : ∀ x ∈ cur, st.u x.natAbs = false) : seen_count st cur = 0 := by
  unfold seen_count
  rw [List.countP_eq_zero]
  intro x hx
  simp [h x hx]

theorem seen_count_low {st : SatState} {cur : List Int}
    (h : ∀ x ∈ cur, st.level x.natAbs < st.ds.length + 1) : seen_count st cur = 0 := by
  unfold seen_count
  rw [List.countP_eq_zero]
  intro x hx
  have := h x hx
  have hne : st.level x.natAbs ≠ st.ds.length + 1 := by omega
  simp [hne]

theorem seen_count_split {st : SatState} {pre mid : List Int} {lit : Int}
    (hu : st.u lit.natAbs = true) (hl : st.level lit.natAbs = st.ds.length + 1)
    (hmid : ∀ x ∈ mid, st.u x.natAbs = false) :
    seen_count st (pre ++ lit :: mid) = seen_count st pre + 1 := by
  have h0 := seen_count_unseen hmid
  unfold seen_count at h0 ⊢
  rw [List.countP_append, List.countP_cons, h0]
  simp [hu, hl]

/-- The loop of `sat_get_assert_clause` returns, and appends to `ac` literals below the
current level followed by exactly one literal of the current level. -/
theorem analysis_loop (ac : Nat) : ∀ (fuel : Nat) (st : SatState) (k m : Nat)
    (cur rest : List Int) (c : Nat),
    Trail st → ac ∉ clauses st → st.s = cur ++ rest → cur.length < fuel →
    clause_at st k = some c → (∀ l ∈ st.lits c, st.u l.natAbs = true ∨ -l ∈ cur) →
    m = seen_count st cur →
    (1 ≤ m ∨ ∃ l ∈ st.lits c, st.u l.natAbs = false ∧ st.level l.natAbs = st.ds.length + 1) →
    ∃ st', get_assert_clause_loop ac fuel st k m cur.length = some st' ∧
      AnalysisFrame ac st st' ∧
      ∃ low uip, st'.lits ac = st.lits ac ++ low ++ [uip] ∧
        -uip ∈ cur ∧ st.level uip.natAbs = st.ds.length + 1 ∧
        ∀ x ∈ low, -x ∈ cur ∧ st.level x.natAbs < st.ds.length + 1 := by
  intro fuel
  induction fuel with
  | zero => intro st k m cur rest c _ _ _ hf; omega
  | succ fuel ih =>
    intro st k m cur rest c hT hac hs hfuel hk hc hm h4
    have hn : (cur.map Int.natAbs).Nodup := by
      have := hT.s_nodup
      rw [hs, List.map_append] at this
      exact this.of_append_left
    have hcs : ∀ x ∈ cur, x ∈ st.s := fun x hx => by rw [hs]; exact List.mem_append_left _ hx
    have hlev : ∀ x ∈ cur, st.level x.natAbs ≤ st.ds.length + 1 :=
      fun x hx => (hT.level_le (hcs x hx)).2
    have hcc : c ∈ clauses st := clause_at_mem hk
    obtain ⟨hfr, hu1, hm1, low, hlow, hlowp⟩ := scan_spec ac cur hn (st.lits c) st m hlev hc hm
    unfold get_assert_clause_loop
    rw [hk]
    simp only []
    rcases hscan : assert_clause_scan ac (st.lits c) st m with ⟨st1, m1⟩
    rw [hscan] at hfr hu1 hm1 hlow
    simp only [] at hfr hu1 hm1 hlow ⊢
    have hs1 : st1.s = cur ++ rest := by rw [hfr.s_eq, hs]
    have hlv1 : st1.level = st.level := hfr.level_eq
    have hds1 : st1.ds = st.ds := hfr.ds_eq
    have hT1 : Trail st1 := hfr.trail hac hT
    have hac1 : ac ∉ clauses st1 := by rw [hfr.clauses_same]; exact hac
    -- a seen entry of the current level lies in `cur`
    have hex : ∃ y ∈ cur, st1.u y.natAbs = true ∧ st1.level y.natAbs = st1.ds.length + 1 := by
      rcases h4 with h | ⟨l, hl1, hl2, hl3⟩
      · have : 0 < seen_count st cur := by omega
        obtain ⟨y, hy1, hy2, hy3⟩ := seen_count_pos.1 this
        exact ⟨y, hy1, by rw [hu1]; simp [hy2], by rw [hlv1, hds1]; exact hy3⟩
      · have hmem : -l ∈ cur := by
          rcases hc l hl1 with h | h
          · rw [hl2] at h; cases h
          · exact h
        refine ⟨-l, hmem, ?_, ?_⟩
        · rw [hu1]; simp
          right; exact ⟨l, hl1, rfl⟩
        · rw [hlv1, hds1]; simpa using hl3
    have hpos : 0 < m1 := by rw [hm1]; exact seen_count_pos.2 hex
    have hlowc : ∀ x ∈ low, -x ∈ cur ∧ st.level x.natAbs < st.ds.length + 1 := by
      intro x hx
      obtain ⟨a1, a2, a3⟩ := hlowp x hx
      refine ⟨?_, a2⟩
      rcases hc x a1 with h | h
      · rw [a3] at h; cases h
      · exact h
    rcases trail_seek_spec st1 cur rest hs1 with ⟨_, h2⟩ | ⟨pre, lit, mid, hcur, hseek, hlu, hmid⟩
    · have := seen_count_unseen h2
      omega
    · rw [hseek]
      simp only []
      subst hcur
      rw [List.length_append, List.length_cons] at hfuel
      have hsplit : st1.s = pre ++ lit :: (mid ++ rest) := by rw [hs1]; simp
      obtain ⟨hmono, hdec, hreason⟩ := hT1.at_split hsplit
      have hlit_s : lit ∈ st1.s := by rw [hsplit]; simp
      -- the entry found sits at the current level
      have hlitL : st1.level lit.natAbs = st1.ds.length + 1 := by
        obtain ⟨y, hy1, hy2, hy3⟩ := hex
        have hle := (hT1.level_le hlit_s).2
        rcases List.mem_append.1 hy1 with h | h
        · have := hmono y h; omega
        · rcases List.mem_cons.1 h with h | h
          · subst h; exact hy3
          · rw [hmid y h] at hy2; cases hy2
      have hcount : m1 = seen_count st1 pre + 1 := by
        rw [hm1]; exact seen_count_split hlu hlitL hmid
      by_cases hm11 : m1 = 1
      · rw [if_pos hm11]
        refine ⟨_, rfl, ?_, low, -lit, ?_, ?_, ?_, hlowc⟩
        · refine AnalysisFrame.trans hfr ⟨rfl, fun x hx => ?_⟩
          show upd st1.lits ac _ x = st1.lits x
          rw [upd_other _ _ _ _ hx]
        · show upd st1.lits ac _ ac = _
          rw [upd_same, hlow]; simp [vector_push]
        · simp
        · rw [← hlv1, ← hds1]; simpa using hlitL
      · rw [if_neg hm11]
        have hm2 : 2 ≤ m1 := by omega
        -- the entry found is a forced literal
        have hil : lit ∈ st1.il := by
          rcases hT1.mem_ds_or_il hlit_s with h | h
          · exfalso
            have hlow' : ∀ x ∈ pre, st1.level x.natAbs < st1.ds.length + 1 := by
              intro x hx; have := hdec h x hx; omega
            have := seen_count_low hlow'
            omega
          · exact h
        obtain ⟨c', hc1, hc2, hc3⟩ := hreason hil
        have hus : usub1 m1 = m1 - 1 := usub1_pos (by omega)
        rw [hus]
        obtain ⟨st', hres, hfr', low', uip, hl1, hl2, hl3, hl4⟩ :=
          ih st1 (st1.locate lit) (m1 - 1) pre (lit :: (mid ++ rest)) c' hT1 hac1 hsplit
            (by omega) hc1
            (by
              intro l hl
              by_cases e : l = lit
              · left; rw [e]; exact hlu
              · right; exact hc3 l hl e)
            (by omega) (Or.inl (by omega))
        refine ⟨st', hres, hfr.trans hfr', low ++ low', uip, ?_, ?_, ?_, ?_⟩
        · rw [hl1, hlow]; simp
        · exact List.mem_append_left _ hl2
        · rw [← hlv1, ← hds1]; exact hl3
        · intro x hx
          rcases List.mem_append.1 hx with h | h
          · exact hlowc x h
          · obtain ⟨a1, a2⟩ := hl4 x h
            refine ⟨List.mem_append_left _ a1, ?_⟩
            rw [← hlv1, ← hds1]; exact a2

/-! ## The conflict branch -/

theorem Trail.congr_trail {st st' : SatState} (h : Trail st)
    (e1 : st'.level = st.level) (e2 : st'.locate = st.locate) (e3 : st'.kb = st.kb)
    (e4 : st'.lc = st.lc) (e5 : st'.clausenum = st.clausenum) (e6 : st'.ds = st.ds)
    (e7 : st'.il = st.il) (e8 : st'.s = st.s) (e9 : st'.varnum = st.varnum)
    (e10 : st'.implied = st.implied) (e11 : ∀ c ∈ clauses st, st'.lits c = st.lits c) :
    Trail st' := by
  have hca : ∀ k, clause_at st' k = clause_at st k := by
    intro k; simp [clause_at, sat_clause_count, e3, e4, e5]
  have hr : ∀ l, reason_of st' l = reason_of st l := by
    intro l
    unfold reason_of
    rw [e2, hca]
    cases hc : clause_at st (st.locate l) with
    | none => rfl
    | some c => simp [e11 c (clause_at_mem hc)]
  refine ⟨?_, ?_, ?_, ?_⟩
  · rw [e1, e6, e7, e8]
    exact h.trail.congr_eq (fun _ _ => rfl) (fun l _ => hr l)
  · rw [e8, e9]; exact h.s_valid
  · rw [e8]; exact h.s_nodup
  · rw [e8, e10]; exact h.implied_iff

theorem check_congr (st st' : SatState) (e1 : st'.implied = st.implied) {c : Nat}
    (e2 : st'.lits c = st.lits c) :
    sat_check_subsumed_clause st' c = sat_check_subsumed_clause st c := by
  simp [sat_check_subsumed_clause, sat_implied_literal, e1, e2]

theorem Store.brk_not_mem {st : SatState} (h : Store st) : st.brk ∉ clauses st :=
  fun hm => Nat.lt_irrefl _ (h.cl_brk _ hm)

/-- The invariant survives the allocation and construction of an asserting clause. -/
theorem Inv.conflict {st : SatState} (h : Inv st) (L2 : Nat → List Int) (U2 : Nat → Bool)
    (hl : ∀ c, c ≠ st.brk → L2 c = st.lits c) (hv : ∀ l ∈ L2 st.brk, ValidLit st.varnum l) :
    Inv { st with ac := some st.brk, brk := st.brk + 1, lits := L2,
                  subsumed := upd st.subsumed st.brk false, u := U2 } := by
  have hb := h.store.brk_not_mem
  have hlc : ∀ c ∈ clauses st, L2 c = st.lits c := fun c hc => hl c (fun e => hb (e ▸ hc))
  have hsc : ∀ c ∈ clauses st, upd st.subsumed st.brk false c = st.subsumed c :=
    fun c hc => upd_other _ _ _ _ (fun e => hb (e ▸ hc))
  refine ⟨⟨h.store.kb_len, h.store.cl_nodup, ?_, h.store.cl_index, ?_, ?_, ?_,
      h.store.men_sub, ?_, ?_⟩, ?_, ⟨h.queue.q_nodup, h.queue.q_sub, ?_, ?_⟩, ?_⟩
  · intro c hc
    have := h.store.cl_brk c hc
    show c < st.brk + 1
    omega
  · intro c hc l hm
    have hm' : l ∈ L2 c := hm
    rw [hlc c hc] at hm'
    exact h.store.lits_valid c hc l hm'
  · intro c hc l hm
    have hm' : l ∈ L2 c := hm
    rw [hlc c (List.mem_append_left _ hc)] at hm'
    exact h.store.men_kb c hc l hm'
  · intro c hc l hm
    have hm' : l ∈ L2 c := hm
    rw [hlc c (List.mem_append_right _ hc)] at hm'
    exact h.store.men_lc c hc l hm'
  · intro a ha
    have ha' : some st.brk = some a := ha
    have : a = st.brk := by simpa using ha'.symm
    subst this
    refine ⟨Nat.lt_succ_self _, hv, fun _ => ?_⟩
    show upd st.subsumed st.brk false st.brk = false
    simp
  · intro a ha hk
    have ha' : some st.brk = some a := ha
    have : a = st.brk := by simpa using ha'.symm
    subst this
    exact hb (List.mem_append_left _ hk)
  · exact h.trail.congr_trail rfl rfl rfl rfl rfl rfl rfl rfl rfl rfl hlc
  · intro c hc
    show c ∈ st.q ↔ upd st.subsumed st.brk false c = false
    rw [hsc c hc]; exact h.queue.q_flag c hc
  · intro c hc hs
    have hs' : upd st.subsumed st.brk false c = true := hs
    rw [hsc c hc] at hs'
    have := check_congr st { st with ac := some st.brk, brk := st.brk + 1, lits := L2,
                                     subsumed := upd st.subsumed st.brk false, u := U2 }
      rfl (hlc c hc)
    rw [this]
    exact h.queue.flag_true c hc hs'
  · intro hds c hc hf
    have hf' : AllFalse st c := by
      intro l hm
      have hm' : l ∈ L2 c := by rw [hlc c hc]; exact hm
      exact hf l hm'
    obtain ⟨l, hl1, hl2⟩ := h.no_old hds c hc hf'
    refine ⟨l, ?_, hl2⟩
    show l ∈ L2 c
    rw [hlc c hc]; exact hl1

/-- The conflict branch returns; the clause it builds is empty when no decision exists, and
otherwise consists of literals below the current level followed by one literal of the
current level, all of them false. -/
theorem conflict_branch_spec {st : SatState} (h : Inv st) {c : Nat} (hc : c ∈ st.q)
    (hf : AllFalse st c) :
    ∃ L2 U2, conflict_branch st c =
        some { st with ac := some st.brk, brk := st.brk + 1, lits := L2,
                       subsumed := upd st.subsumed st.brk false, u := U2 } ∧
      (∀ x, x ≠ st.brk → L2 x = st.lits x) ∧
      (st.ds = [] → L2 st.brk = []) ∧
      (st.ds ≠ [] → ∃ low uip, L2 st.brk = low ++ [uip] ∧ -uip ∈ st.s ∧
        st.level uip.natAbs = st.ds.length + 1 ∧
        ∀ x ∈ low, -x ∈ st.s ∧ st.level x.natAbs < st.ds.length + 1) := by
  have hb := h.store.brk_not_mem
  have hcc : c ∈ clauses st := h.queue.q_sub c hc
  unfold conflict_branch
  simp only [vector_size, sat_var_count]
  by_cases hds : st.ds = []
  · have : ¬ (st.ds.length > 0) := by simp [hds]
    rw [if_neg this]
    refine ⟨upd st.lits st.brk [], st.u, rfl, fun x hx => upd_other _ _ _ _ hx, fun _ => by simp,
      fun hn => absurd hds hn⟩
  · have hpos : st.ds.length > 0 := List.length_pos.2 hds
    rw [if_pos hpos]
    -- the state handed to the analysis
    generalize hpre : ({ st with
        ac := some st.brk, brk := st.brk + 1, lits := upd st.lits st.brk [],
        subsumed := upd st.subsumed st.brk false,
        u := fun var => if 1 ≤ var ∧ var ≤ st.varnum then decide (st.level var ≤ 1)
                        else st.u var } : SatState) = pre
    have e_lits : pre.lits = upd st.lits st.brk [] := by rw [← hpre]
    have e_s : pre.s = st.s := by rw [← hpre]
    have e_ds : pre.ds = st.ds := by rw [← hpre]
    have e_level : pre.level = st.level := by rw [← hpre]
    have e_u : pre.u = fun var => if 1 ≤ var ∧ var ≤ st.varnum then decide (st.level var ≤ 1)
                        else st.u var := by rw [← hpre]
    have e_index : pre.index = st.index := by rw [← hpre]
    have hlc : ∀ x ∈ clauses st, pre.lits x = st.lits x := by
      intro x hx; rw [e_lits]; exact upd_other _ _ _ _ (fun e => hb (e ▸ hx))
    have hT : Trail pre := by
      subst hpre
      exact h.trail.congr_trail rfl rfl rfl rfl rfl rfl rfl rfl rfl rfl hlc
    have hcl : clauses pre = clauses st := by rw [← hpre]; rfl
    have hca : ∀ k, clause_at pre k = clause_at st k := by intro k; rw [← hpre]; rfl
    have hidx := h.store.cl_index c hcc
    have hseen : ∀ x ∈ st.s, st.level x.natAbs = st.ds.length + 1 → pre.u x.natAbs = false := by
      intro x hx hl
      have hv := h.trail.s_valid x hx
      rw [e_u]
      have h1 : 1 ≤ x.natAbs ∧ x.natAbs ≤ st.varnum := by
        unfold ValidLit at hv; omega
      show (if 1 ≤ x.natAbs ∧ x.natAbs ≤ st.varnum then decide (st.level x.natAbs ≤ 1)
        else st.u x.natAbs) = false
      rw [if_pos h1]
      simp; omega
    obtain ⟨st', hres, hfr, low, uip, h1, h2, h3, h4⟩ :=
      analysis_loop st.brk (st.s.length + 1) pre (usub1 (pre.index c)) 0 st.s [] c hT
        (by rw [hcl]; exact hb) (by rw [e_s]; simp) (by omega)
        (by rw [e_index, usub1_pos hidx.1, hca]; exact hidx.2)
        (by
          intro l hl
          right
          rw [hlc c hcc] at hl
          exact (h.trail.implied_iff (-l)).1 (hf l hl))
        (by
          symm
          unfold seen_count
          rw [List.countP_eq_zero]
          intro x hx
          rw [e_level, e_ds]
          by_cases hl : st.level x.natAbs = st.ds.length + 1
          · simp [hseen x hx hl]
          · simp [hl])
        (by
          right
          obtain ⟨l, hl1, hl2⟩ := h.no_old hds c hcc hf
          refine ⟨l, by rw [hlc c hcc]; exact hl1, ?_, by rw [e_level, e_ds]; exact hl2⟩
          have hm : -l ∈ st.s := (h.trail.implied_iff (-l)).1 (hf l hl1)
          have := hseen (-l) hm (by simpa using hl2)
          simpa using this)
    refine ⟨st'.lits, st'.u, ?_, ?_, fun hn => absurd hn hds, fun _ => ⟨low, uip, ?_, h2, ?_, ?_⟩⟩
    · unfold sat_get_assert_clause
      have : get_assert_clause_loop st.brk (st.s.length + 1) pre (usub1 (st.index c)) 0
          st.s.length = some st' := by rw [← e_index]; exact hres
      rw [this]
      congr 1
      have := hfr.1
      subst hpre
      exact this
    · intro x hx
      rw [hfr.2 x hx, e_lits]
      exact upd_other _ _ _ _ hx
    · rw [h1, e_lits, upd_same]; rfl
    · rw [← e_level, ← e_ds]; exact h3
    · intro x hx
      rw [← e_level, ← e_ds]; exact h4 x hx

/-! ## Induction over one pass, with the invariant built in -/

theorem pass_induct_inv (X : Nat → Bool → SatState → Prop) (Y : PassOutcome → SatState → Prop)
    (hfin : ∀ more st, Inv st → X 0 more st → Y (PassOutcome.finished more) st)
    (hsub : ∀ i more st c, Inv st → X (i + 1) more st → st.q[i]? = some c →
      sat_check_subsumed_clause st c = true →
      X i more { st with subsumed := upd st.subsumed c true, q := vector_erase st.q i })
    (hkeep : ∀ i more st c, Inv st → X (i + 1) more st → st.q[i]? = some c →
      sat_check_subsumed_clause st c = false → 2 ≤ unresolved st c → X i more st)
    (hunit : ∀ i more st c lit, Inv st → X (i + 1) more st → st.q[i]? = some c →
      sat_check_subsumed_clause st c = false → lit ∈ st.lits c → st.implied (-lit) = false →
      (∀ l' ∈ st.lits c, l' ≠ lit → st.implied (-l') = true) → unresolved st c = 1 →
      X i true (unit_branch st i c lit))
    (hconf : ∀ i more st c L2 U2, Inv st → X (i + 1) more st → st.q[i]? = some c →
      sat_check_subsumed_clause st c = false → AllFalse st c →
      (∀ x, x ≠ st.brk → L2 x = st.lits x) → AssertingShape st (L2 st.brk) →
      Y PassOutcome.conflict
        { st with ac := some st.brk, brk := st.brk + 1, lits := L2,
                  subsumed := upd st.subsumed st.brk false, u := U2 }) :
    ∀ i more st, Inv st → i ≤ st.q.length → X i more st →
      (unit_resolution_pass i more st).1 ≠ PassOutcome.fault ∧
      Inv (unit_resolution_pass i more st).2 ∧
      Y (unit_resolution_pass i more st).1 (unit_resolution_pass i more st).2 := by
  intro i more st hI hi hX
  refine pass_induct (fun i more st => Inv st ∧ i ≤ st.q.length ∧ X i more st)
    (fun out st => out ≠ PassOutcome.fault ∧ Inv st ∧ Y out st)
    ?_ ?_ ?_ ?_ ?_ ?_ ?_ i more st ⟨hI, hi, hX⟩
  · rintro more st ⟨h1, _, h3⟩
    exact ⟨by simp, h1, hfin more st h1 h3⟩
  · rintro i more st ⟨_, h2, _⟩ hq
    exfalso
    have : st.q.length ≤ i := by
      rcases Nat.lt_or_ge i st.q.length with h | h
      · rw [List.getElem?_eq_getElem h] at hq; cases hq
      · exact h
    omega
  · rintro i more st c ⟨h1, h2, h3⟩ hq hc
    refine ⟨h1.step_sub hq hc, ?_, hsub i more st c h1 h3 hq hc⟩
    have := erase_length hq
    show i ≤ (vector_erase st.q i).length
    omega
  · rintro i more st c ⟨h1, h2, h3⟩ hq hc hu
    rw [keep_eq h1.queue (mem_of_getElem?_some hq)]
    exact ⟨h1, by omega, hkeep i more st c h1 h3 hq hc hu⟩
  · rintro i more st c lit ⟨h1, h2, h3⟩ hq hc hl ho hall hone
    rw [keep_eq h1.queue (mem_of_getElem?_some hq)]
    refine ⟨h1.step_unit hq hc hl ho hall, ?_,
      hunit i more st c lit h1 h3 hq hc hl ho hall hone⟩
    have := erase_length hq
    show i ≤ (vector_erase st.q i).length
    omega
  · rintro i more st c st2 ⟨h1, h2, h3⟩ hq hc hall hcb
    rw [keep_eq h1.queue (mem_of_getElem?_some hq)] at hcb
    obtain ⟨L2, U2, hres, hl, hd0, hd1⟩ :=
      conflict_branch_spec h1 (mem_of_getElem?_some hq) hall
    rw [hres] at hcb
    have : st2 = _ := (Option.some.inj hcb).symm
    subst this
    refine ⟨by simp, h1.conflict L2 U2 hl ?_, hconf i more st c L2 U2 h1 h3 hq hc hall hl ⟨hd0, hd1⟩⟩
    intro l hm
    by_cases hds : st.ds = []
    · rw [hd0 hds] at hm; simp at hm
    · obtain ⟨low, uip, e, a1, _, a3⟩ := hd1 hds
      rw [e] at hm
      have hneg : -l ∈ st.s := by
        rcases List.mem_append.1 hm with h | h
        · exact (a3 l h).1
        · have : l = uip := by simpa using h
          subst this; exact a1
      have := validLit_neg (h1.trail.s_valid _ hneg)
      simpa using this
  · rintro i more st c ⟨h1, h2, h3⟩ hq hc hall hcb
    exfalso
    rw [keep_eq h1.queue (mem_of_getElem?_some hq)] at hcb
    obtain ⟨L2, U2, hres, _⟩ := conflict_branch_spec h1 (mem_of_getElem?_some hq) hall
    rw [hres] at hcb
    cases hcb

/-! ## The passes of unit resolution: queue length, totality -/

theorem pass_basic (n0 : Nat) : ∀ i more st, Inv st → i ≤ st.q.length →
    (st.q.length ≤ n0 ∧ (more = true → st.q.length < n0)) →
      (unit_resolution_pass i more st).1 ≠ PassOutcome.fault ∧
      Inv (unit_resolution_pass i more st).2 ∧
      ∀ more', (unit_resolution_pass i more st).1 = PassOutcome.finished more' →
        (unit_resolution_pass i more st).2.q.length ≤ n0 ∧
        (more' = true → (unit_resolution_pass i more st).2.q.length < n0) := by
  refine pass_induct_inv
    (fun _ more st => st.q.length ≤ n0 ∧ (more = true → st.q.length < n0))
    (fun out st => ∀ more', out = PassOutcome.finished more' →
      st.q.length ≤ n0 ∧ (more' = true → st.q.length < n0)) ?_ ?_ ?_ ?_ ?_
  · intro more st _ h more' e
    cases e; exact h
  · intro i more st c _ h hq _
    have := erase_length hq
    show (vector_erase st.q i).length ≤ n0 ∧ (more = true → (vector_erase st.q i).length < n0)
    exact ⟨by omega, fun hm => by have := h.2 hm; omega⟩
  · intro i more st c _ h _ _ _; exact h
  · intro i more st c lit _ h hq _ _ _ _ _
    have := erase_length hq
    show (vector_erase st.q i).length ≤ n0 ∧ (true = true → (vector_erase st.q i).length < n0)
    exact ⟨by omega, fun _ => by omega⟩
  · intro i more st c L2 U2 _ _ _ _ _ _ _ more' e
    cases e

/-- Loop principle for `sat_unit_resolution`: with the invariant and enough fuel the loop
returns, and its result is produced by a last pass started in a state that satisfies every
property kept by the passes. -/
theorem loop_spec (X : SatState → Prop)
    (hX : ∀ st, Inv st → X st → X (unit_resolution_pass st.q.length false st).2) :
    ∀ fuel st, Inv st → X st → st.q.length < fuel →
      ∃ r st' st1, unit_resolution_loop fuel st = some (r, st') ∧ Inv st1 ∧ X st1 ∧
        unit_resolution_pass st1.q.length false st1
          = ((if r then PassOutcome.finished false else PassOutcome.conflict), st') := by
  intro fuel
  induction fuel with
  | zero => intro st _ _ h; omega
  | succ fuel ih =>
    intro st hI hx hf
    obtain ⟨h1, h2, h3⟩ := pass_basic st.q.length st.q.length false st hI (le_refl _)
      ⟨le_refl _, by simp⟩
    have h4 := hX st hI hx
    unfold unit_resolution_loop
    simp only [vector_size]
    rcases hp : unit_resolution_pass st.q.length false st with ⟨out, st2⟩
    rw [hp] at h1 h2 h3 h4
    simp only [] at h1 h2 h3 h4
    cases out with
    | fault => exact absurd rfl h1
    | conflict => exact ⟨false, st2, st, rfl, hI, hx, by simp [hp]⟩
    | finished more =>
      cases more with
      | false => exact ⟨true, st2, st, rfl, hI, hx, by simp [hp]⟩
      | true =>
        have := (h3 true rfl).2 rfl
        exact ih st2 h2 h4 (by omega)

theorem sat_unit_resolution_spec (X : SatState → Prop)
    (hX : ∀ st, Inv st → X st → X (unit_resolution_pass st.q.length false st).2)
    {st : SatState} (hI : Inv st) (hx : X st) :
    ∃ r st' st1, sat_unit_resolution st = some (r, st') ∧ Inv st1 ∧ X st1 ∧
      unit_resolution_pass st1.q.length false st1
        = ((if r then PassOutcome.finished false else PassOutcome.conflict), st') :=
  loop_spec X hX (st.q.length + 1) st hI hx (Nat.lt_succ_self _)

theorem pass_inv {st : SatState} (hI : Inv st) :
    Inv (unit_resolution_pass st.q.length false st).2 :=
  (pass_basic st.q.length st.q.length false st hI (le_refl _) ⟨le_refl _, by simp⟩).2.1

/-- Unit resolution returns on every state that satisfies the invariant, and keeps it. -/
theorem sat_unit_resolution_inv {st : SatState} (hI : Inv st) :
    ∃ r st', sat_unit_resolution st = some (r, st') ∧ Inv st' := by
  obtain ⟨r, st', st1, h1, h2, _, h4⟩ :=
    sat_unit_resolution_spec (fun _ => True) (fun _ _ _ => trivial) hI trivial
  refine ⟨r, st', h1, ?_⟩
  have := pass_inv h2
  rw [h4] at this
  exact this

/-! ## What a pass establishes -/

theorem drop_of_getElem? {α : Type} {q : List α} {i : Nat} {c : α} (h : q[i]? = some c) :
    q.drop i = c :: q.drop (i + 1) := by
  obtain ⟨a, b, rfl, rfl⟩ := getElem?_split q i c h
  simp

theorem erase_drop_mem {q : List Nat} {i c x : Nat} (hq : q[i]? = some c)
    (hx : x ∈ (vector_erase q i).drop i) : x ∈ q.drop (i + 1) := by
  obtain ⟨a, b, rfl, rfl⟩ := getElem?_split q i c hq
  have := (vector_erase_drop a b c).mem_iff.1 hx
  simpa using this

/-- A pass that ends without asking for another pass leaves in the queue only clauses
without an implied literal and with at least two unresolved literal positions. -/
theorem pass_good : ∀ i more st, Inv st → i ≤ st.q.length →
    (more = false → ∀ c ∈ st.q.drop i,
      sat_check_subsumed_clause st c = false ∧ 2 ≤ unresolved st c) →
    (unit_resolution_pass i more st).1 = PassOutcome.finished false →
      ∀ c ∈ (unit_resolution_pass i more st).2.q,
        sat_check_subsumed_clause (unit_resolution_pass i more st).2 c = false ∧
        2 ≤ unresolved (unit_resolution_pass i more st).2 c := by
  intro i more st hI hi hX
  refine (pass_induct_inv
    (fun i more st => more = false → ∀ c ∈ st.q.drop i,
      sat_check_subsumed_clause st c = false ∧ 2 ≤ unresolved st c)
    (fun out st => out = PassOutcome.finished false → ∀ c ∈ st.q,
      sat_check_subsumed_clause st c = false ∧ 2 ≤ unresolved st c)
    ?_ ?_ ?_ ?_ ?_ i more st hI hi hX).2.2
  · intro more st _ h e
    cases e
    simpa using h rfl
  · intro i more st c _ h hq _ hm x hx
    exact h hm x (erase_drop_mem hq hx)
  · intro i more st c _ h hq hc hu hm x hx
    rw [drop_of_getElem? hq] at hx
    rcases List.mem_cons.1 hx with rfl | hx
    · exact ⟨hc, hu⟩
    · exact h hm x hx
  · intro i more st c lit _ _ _ _ _ _ _ _ hm
    cases hm
  · intro i more st c L2 U2 _ _ _ _ _ _ _ e
    cases e

/-- A pass that ends in the conflict branch leaves the falsified clause in the queue and an
asserting clause of the documented shape in `ac`. -/
theorem pass_conflict : ∀ i more st, Inv st → i ≤ st.q.length →
    (unit_resolution_pass i more st).1 = PassOutcome.conflict →
      ∃ a, (unit_resolution_pass i more st).2.ac = some a ∧
        a ∉ clauses (unit_resolution_pass i more st).2 ∧
        AssertingShape (unit_resolution_pass i more st).2
          ((unit_resolution_pass i more st).2.lits a) ∧
        ∃ c ∈ (unit_resolution_pass i more st).2.q,
          AllFalse (unit_resolution_pass i more st).2 c := by
  intro i more st hI hi
  refine (pass_induct_inv (fun _ _ _ => True)
    (fun out st => out = PassOutcome.conflict → ∃ a, st.ac = some a ∧ a ∉ clauses st ∧
      AssertingShape st (st.lits a) ∧ ∃ c ∈ st.q, AllFalse st c)
    ?_ ?_ ?_ ?_ ?_ i more st hI hi trivial).2.2
  · intro more st _ _ e; cases e
  · intros; trivial
  · intros; trivial
  · intros; trivial
  · intro i more st c L2 U2 hI _ hq _ hf hl hshape _
    have hcq : c ∈ st.q := mem_of_getElem?_some hq
    have hne : c ≠ st.brk := fun e => hI.store.brk_not_mem (e ▸ hI.queue.q_sub c hcq)
    refine ⟨st.brk, rfl, hI.store.brk_not_mem, hshape, c, hcq, ?_⟩
    intro l hm
    have hm' : l ∈ L2 c := hm
    rw [hl c hne] at hm'
    exact hf l hm'

/-- A pass re-establishes the staleness bound for every queued clause, even when the clause
in the first slot visited did not satisfy it. -/
theorem pass_stale : ∀ i more st, Inv st → i ≤ st.q.length →
    (∀ x ∈ st.q, (∀ j, i = j + 1 → st.q[j]? ≠ some x) → StaleAt st x) →
    Stale (unit_resolution_pass i more st).2 := by
  intro i more st hI hi hX
  refine (pass_induct_inv
    (fun i _ st => ∀ x ∈ st.q, (∀ j, i = j + 1 → st.q[j]? ≠ some x) → StaleAt st x)
    (fun _ st => Stale st) ?_ ?_ ?_ ?_ ?_ i more st hI hi hX).2.2
  · intro more st _ h x hx
    exact h x hx (fun j e => by omega)
  · intro i more st c hI h hq _ x hx _
    obtain ⟨h1, h2⟩ := (erase_mem_iff hq hI.queue.q_nodup x).1 hx
    exact h x h1 (fun j e => by
      have : j = i := by omega
      subst this
      rw [hq]; intro e'; exact h2 (Option.some.inj e').symm)
  · intro i more st c hI h hq hc _ x hx _
    by_cases e : x = c
    · subst e
      intro l hl himp
      have := (check_false_iff st x).1 hc l hl
      rw [this] at himp; cases himp
    · exact h x hx (fun j e' => by
        have : j = i := by omega
        subst this
        rw [hq]; intro e''; exact e (Option.some.inj e'').symm)
  · intro i more st c lit hI h hq _ _ _ _ _ x hx _
    obtain ⟨h1, h2⟩ := (erase_mem_iff hq hI.queue.q_nodup x).1 hx
    exact StaleAt.step_unit_stale (h x h1 (fun j e => by
      have : j = i := by omega
      subst this
      rw [hq]; intro e'; exact h2 (Option.some.inj e').symm))
  · intro i more st c L2 U2 hI h hq hc _ hl _ x hx
    have hx' : x ∈ st.q := hx
    have hne : x ≠ st.brk := fun e => hI.store.brk_not_mem (e ▸ hI.queue.q_sub x hx')
    intro l hm himp
    have hm' : l ∈ L2 x := hm
    rw [hl x hne] at hm'
    by_cases e : x = c
    · subst e
      have := (check_false_iff st x).1 hc l hm'
      have himp' : st.implied l = true := himp
      rw [this] at himp'; cases himp'
    · exact h x hx' (fun j e' => by
        have : j = i := by omega
        subst this
        rw [hq]; intro e''; exact e (Option.some.inj e'').symm) l hm' himp

/-! ## Unit resolution only extends the assignment -/

theorem Ext.ext_same (st : SatState) : Ext st st :=
  ⟨rfl, rfl, rfl, rfl, rfl, rfl, rfl, rfl, fun _ _ => rfl,
    ⟨[], by simp, by simp, by simp, by simp⟩, fun _ _ => rfl⟩

theorem Ext.clauses_eq {st0 st : SatState} (h : Ext st0 st) : clauses st = clauses st0 := by
  simp [clauses, h.kb_eq, h.lc_eq]

theorem pass_ext (st0 : SatState) : ∀ i more st, Inv st → i ≤ st.q.length → Ext st0 st →
    Ext st0 (unit_resolution_pass i more st).2 := by
  intro i more st hI hi hX
  refine (pass_induct_inv (fun _ _ st => Ext st0 st) (fun _ st => Ext st0 st)
    ?_ ?_ ?_ ?_ ?_ i more st hI hi hX).2.2
  · intro _ _ _ h; exact h
  · intro i more st c _ h _ _
    exact ⟨h.ds_eq, h.varnum_eq, h.clausenum_eq, h.kb_eq, h.lc_eq, h.index_eq, h.mentions_eq,
      h.mentions_lc_eq, h.lits_eq, h.grow, h.level_eq⟩
  · intro i more st c _ h _ _ _; exact h
  · intro i more st c lit hI h hq hc hl ho _ _
    obtain ⟨hf1, hf2, hf3, hf4⟩ := unit_fresh hI hc hl ho
    obtain ⟨t, g1, g2, g3, g4⟩ := h.grow
    refine ⟨h.ds_eq, h.varnum_eq, h.clausenum_eq, h.kb_eq, h.lc_eq, h.index_eq,
      h.mentions_eq, h.mentions_lc_eq, h.lits_eq, ⟨t ++ [lit], ?_, ?_, ?_, ?_⟩, ?_⟩
    · show st.s ++ [lit] = _
      rw [g1]; simp
    · show st.il ++ [lit] = _
      rw [g2]; simp
    · intro l
      show upd st.implied lit true l = true ↔ _
      by_cases e : l = lit
      · subst e; simp
      · rw [upd_other _ _ _ _ e, g3 l]; simp [e]
    · intro l hm
      show upd st.level (sat_literal_var lit) (vector_size st.ds + 1) l.natAbs = _
      rw [sat_literal_var_eq, vector_size, h.ds_eq]
      rcases List.mem_append.1 hm with hm | hm
      · by_cases e : l.natAbs = lit.natAbs
        · rw [e, upd_same]
        · rw [upd_other _ _ _ _ e]; exact g4 l hm
      · have : l = lit := by simpa using hm
        subst this
        rw [upd_same]
    · intro l hm
      show upd st.level (sat_literal_var lit) (vector_size st.ds + 1) l.natAbs = _
      have hms : l ∈ st.s := by rw [g1]; exact List.mem_append_left _ hm
      have hne : l.natAbs ≠ lit.natAbs := fun e => hf4 (e ▸ List.mem_map_of_mem _ hms)
      rw [sat_literal_var_eq, upd_other _ _ _ _ hne]
      exact h.level_eq l hm
  · intro i more st c L2 U2 hI h _ _ _ hl _
    refine ⟨h.ds_eq, h.varnum_eq, h.clausenum_eq, h.kb_eq, h.lc_eq, h.index_eq,
      h.mentions_eq, h.mentions_lc_eq, ?_, h.grow, h.level_eq⟩
    intro x hx
    have hx' : x ∈ clauses st := by rw [h.clauses_eq]; exact hx
    have hne : x ≠ st.brk := fun e => hI.store.brk_not_mem (e ▸ hx')
    show L2 x = _
    rw [hl x hne]
    exact h.lits_eq x hx

/-- A pass over a queue whose clauses are neither subsumed nor unit changes nothing. -/
theorem pass_noop {st : SatState} (hQ : Queue st)
    (hg : ∀ c ∈ st.q, sat_check_subsumed_clause st c = false ∧ 2 ≤ unresolved st c) :
    ∀ i, i ≤ st.q.length →
      unit_resolution_pass i false st = (PassOutcome.finished false, st) := by
  intro i hi
  have := pass_induct
    (fun i more st' => st' = st ∧ more = false ∧ i ≤ st.q.length)
    (fun out st' => out = PassOutcome.finished false ∧ st' = st)
    ?_ ?_ ?_ ?_ ?_ ?_ ?_ i false st ⟨rfl, rfl, hi⟩
  · exact Prod.ext this.1 this.2
  · rintro more st' ⟨rfl, rfl, _⟩; exact ⟨rfl, rfl⟩
  · rintro i more st' ⟨rfl, rfl, h⟩ hq
    exfalso
    have : i < st'.q.length := by omega
    rw [List.getElem?_eq_getElem this] at hq; cases hq
  · rintro i more st' c ⟨rfl, rfl, _⟩ hq hc
    have := (hg c (mem_of_getElem?_some hq)).1
    rw [this] at hc; cases hc
  · rintro i more st' c ⟨rfl, rfl, h⟩ hq _ _
    exact ⟨keep_eq hQ (mem_of_getElem?_some hq), rfl, by omega⟩
  · rintro i more st' c lit ⟨rfl, rfl, _⟩ hq _ _ _ _ hone
    have := (hg c (mem_of_getElem?_some hq)).2
    omega
  · rintro i more st' c st2 ⟨rfl, rfl, _⟩ hq _ hall _
    exfalso
    have := (hg c (mem_of_getElem?_some hq)).2
    rw [unresolved_eq] at this
    have h0 : (st'.lits c).countP (fun l => !st'.implied (-l)) = 0 := by
      rw [List.countP_eq_zero]
      intro l hl
      simp [hall l hl]
    omega
  · rintro i more st' c ⟨rfl, rfl, _⟩ hq _ hall _
    exfalso
    have := (hg c (mem_of_getElem?_some hq)).2
    rw [unresolved_eq] at this
    have h0 : (st'.lits c).countP (fun l => !st'.implied (-l)) = 0 := by
      rw [List.countP_eq_zero]
      intro l hl
      simp [hall l hl]
    omega

/-! ## Summary of `sat_unit_resolution` -/

theorem Stale.butLast {st : SatState} (h : Stale st) : StaleButLast st :=
  fun x hx _ => h x hx

/-- Outcome of `sat_unit_resolution` on a state that satisfies the invariant. -/
theorem ur_summary {st : SatState} (hI : Inv st) (hS : StaleButLast st) :
    ∃ r st', sat_unit_resolution st = some (r, st') ∧ Inv st' ∧ Stale st' ∧ Ext st st' ∧
      (r = true → ∀ c ∈ st'.q, sat_check_subsumed_clause st' c = false ∧ 2 ≤ unresolved st' c) ∧
      (r = false → ∃ a, st'.ac = some a ∧ a ∉ clauses st' ∧ AssertingShape st' (st'.lits a) ∧
        ∃ c ∈ st'.q, AllFalse st' c) := by
  obtain ⟨r, st', st1, h1, h2, ⟨h3a, h3b⟩, h4⟩ :=
    sat_unit_resolution_spec (fun x => StaleButLast x ∧ Ext st x)
      (fun x hx ⟨ha, hb⟩ =>
        ⟨(pass_stale x.q.length false x hx (le_refl _) ha).butLast,
          pass_ext st x.q.length false x hx (le_refl _) hb⟩)
      hI ⟨hS, Ext.ext_same st⟩
  have e1 : (unit_resolution_pass st1.q.length false st1).2 = st' := by rw [h4]
  have e2 : (unit_resolution_pass st1.q.length false st1).1
      = (if r then PassOutcome.finished false else PassOutcome.conflict) := by rw [h4]
  refine ⟨r, st', h1, ?_, ?_, ?_, ?_, ?_⟩
  · rw [← e1]; exact pass_inv h2
  · rw [← e1]; exact pass_stale _ _ _ h2 (le_refl _) h3a
  · rw [← e1]; exact pass_ext st _ _ _ h2 (le_refl _) h3b
  · intro hr
    subst hr
    have := pass_good st1.q.length false st1 h2 (le_refl _) (by simp) (by rw [e2]; rfl)
    rw [e1] at this
    exact this
  · intro hr
    subst hr
    have := pass_conflict st1.q.length false st1 h2 (le_refl _) (by rw [e2]; rfl)
    rw [e1] at this
    exact this

/-- After a successful unit resolution no clause of the store is unit or empty. -/
theorem quiescent_of_good {st : SatState} (hI : Inv st)
    (hg : ∀ c ∈ st.q, sat_check_subsumed_clause st c = false ∧ 2 ≤ unresolved st c) :
    Quiescent st := by
  intro c hc hch
  have hflag : st.subsumed c = false := by
    by_contra hne
    have : st.subsumed c = true := by simpa using hne
    have := hI.queue.flag_true c hc this
    rw [hch] at this; cases this
  exact (hg c ((hI.queue.q_flag c hc).2 hflag)).2

/-! ## Restoring a literal -/

theorem restore_clause_eq (st : SatState) (c : Nat) :
    restore_clause st c =
      if st.subsumed c = true ∧ sat_check_subsumed_clause st c = false then
        { st with subsumed := upd st.subsumed c false, q := st.q ++ [c] }
      else st := by
  unfold restore_clause
  simp only [sat_subsumed_clause, vector_push, upd_same]
  by_cases h1 : st.subsumed c = true
  · by_cases h2 : sat_check_subsumed_clause st c = true
    · simp only [h1, h2, if_true]
      simp
      rw [← h1]
      show { st with subsumed := upd st.subsumed c (st.subsumed c) } = st
      rw [upd_self]
    · have h2' : sat_check_subsumed_clause st c = false := by simpa using h2
      simp [h1, h2']
  · simp [h1]

/-- Effect of one of the occurrence loops of `sat_restore_literal`. -/
theorem restore_fold_spec : ∀ (cs : List Nat) (st : SatState),
    (∀ c ∈ cs, c ∈ clauses st) → QueueW st →
      cs.foldl restore_clause st
        = { st with subsumed := (cs.foldl restore_clause st).subsumed,
                    q := (cs.foldl restore_clause st).q } ∧
      QueueW (cs.foldl restore_clause st) ∧
      (∀ c, (cs.foldl restore_clause st).subsumed c = true →
        st.subsumed c = true ∧ (c ∈ cs → sat_check_subsumed_clause st c = true)) ∧
      (∀ c ∈ (cs.foldl restore_clause st).q, c ∈ st.q ∨ sat_check_subsumed_clause st c = false)
  | [], st, _, hq =>
    ⟨rfl, hq, fun c h => ⟨h, fun hm => by simp at hm⟩, fun c h => Or.inl h⟩
  | c :: cs, st, hcs, hq => by
    simp only [List.foldl_cons]
    have hc : c ∈ clauses st := hcs c (List.mem_cons_self _ _)
    have hcs' : ∀ x ∈ cs, x ∈ clauses st := fun x hx => hcs x (List.mem_cons_of_mem _ hx)
    rw [restore_clause_eq]
    by_cases h : st.subsumed c = true ∧ sat_check_subsumed_clause st c = false
    · rw [if_pos h]
      have hcq : c ∉ st.q := fun hm => by
        have := (hq.q_flag c hc).1 hm
        rw [h.1] at this; cases this
      have hq1 : QueueW { st with subsumed := upd st.subsumed c false, q := st.q ++ [c] } := by
        refine ⟨?_, ?_, ?_⟩
        · show (st.q ++ [c]).Nodup
          rw [List.nodup_append]
          exact ⟨hq.q_nodup, by simp, by
            intro a ha hb
            have : a = c := by simpa using hb
            subst this; exact hcq ha⟩
        · intro x hx
          have hx' : x ∈ st.q ++ [c] := hx
          rcases List.mem_append.1 hx' with h1 | h1
          · exact hq.q_sub x h1
          · have : x = c := by simpa using h1
            subst this; exact hc
        · intro x hx
          show x ∈ st.q ++ [c] ↔ upd st.subsumed c false x = false
          by_cases e : x = c
          · subst e; simp
          · rw [upd_other _ _ _ _ e, List.mem_append]
            simp [e, hq.q_flag x hx]
      obtain ⟨a1, a2, a3, a4⟩ := restore_fold_spec cs
        { st with subsumed := upd st.subsumed c false, q := st.q ++ [c] } hcs' hq1
      refine ⟨?_, a2, ?_, ?_⟩
      · have := a1
        exact this
      · intro x hx
        obtain ⟨b1, b2⟩ := a3 x hx
        have b1' : upd st.subsumed c false x = true := b1
        have hne : x ≠ c := by
          rintro rfl
          rw [upd_same] at b1'; cases b1'
        rw [upd_other _ _ _ _ hne] at b1'
        refine ⟨b1', fun hm => ?_⟩
        rcases List.mem_cons.1 hm with e | hm
        · exact absurd e hne
        · exact b2 hm
      · intro x hx
        rcases a4 x hx with b | b
        · have b' : x ∈ st.q ++ [c] := b
          rcases List.mem_append.1 b' with h1 | h1
          · exact Or.inl h1
          · have : x = c := by simpa using h1
            subst this; exact Or.inr h.2
        · exact Or.inr b
    · rw [if_neg h]
      obtain ⟨a1, a2, a3, a4⟩ := restore_fold_spec cs st hcs' hq
      refine ⟨a1, a2, ?_, a4⟩
      intro x hx
      obtain ⟨b1, b2⟩ := a3 x hx
      refine ⟨b1, fun hm => ?_⟩
      rcases List.mem_cons.1 hm with e | hm
      · subst e
        by_contra hne
        exact h ⟨b1, by simpa using hne⟩
      · exact b2 hm

theorem Queue.weak {st : SatState} (h : Queue st) : QueueW st :=
  ⟨h.q_nodup, h.q_sub, h.q_flag⟩

/-- Effect of `sat_restore_literal`: the literal is no longer implied, the queue invariant is
re-established, and the clauses put back on the queue have no implied literal. -/
theorem restore_spec {st : SatState} (hS : Store st) (hQ : Queue st) (lit : Int) :
    sat_restore_literal st lit
      = { st with implied := upd st.implied lit false,
                  subsumed := (sat_restore_literal st lit).subsumed,
                  q := (sat_restore_literal st lit).q } ∧
    Queue (sat_restore_literal st lit) ∧
    (∀ c ∈ (sat_restore_literal st lit).q,
      c ∈ st.q ∨ sat_check_subsumed_clause (sat_restore_literal st lit) c = false) ∧
    (∀ c, (sat_restore_literal st lit).subsumed c = true → st.subsumed c = true) := by
  obtain ⟨st0, h0⟩ : ∃ x : SatState, { st with implied := upd st.implied lit false } = x :=
    ⟨_, rfl⟩
  have hw0 : QueueW st0 := by subst h0; exact ⟨hQ.q_nodup, hQ.q_sub, hQ.q_flag⟩
  have hcl0 : clauses st0 = clauses st := by subst h0; rfl
  have hm0 : st0.mentions = st.mentions := by subst h0; rfl
  have hml0 : st0.mentions_lc = st.mentions_lc := by subst h0; rfl
  obtain ⟨a1, a2, a3, a4⟩ := restore_fold_spec (st0.mentions lit.natAbs) st0
    (fun c hc => by
      rw [hcl0]; rw [hm0] at hc
      exact List.mem_append_left _ ((hS.men_sub _).1 c hc)) hw0
  obtain ⟨st1, h1⟩ : ∃ x : SatState, (st0.mentions lit.natAbs).foldl restore_clause st0 = x :=
    ⟨_, rfl⟩
  rw [h1] at a1 a2 a3 a4
  have hcl1 : clauses st1 = clauses st := by rw [a1]; exact hcl0
  have hml1 : st1.mentions_lc = st.mentions_lc := by rw [a1]; exact hml0
  obtain ⟨b1, b2, b3, b4⟩ := restore_fold_spec (st1.mentions_lc lit.natAbs) st1
    (fun c hc => by
      rw [hcl1]; rw [hml1] at hc
      exact List.mem_append_right _ ((hS.men_sub _).2 c hc)) a2
  obtain ⟨st2, h2⟩ : ∃ x : SatState,
      (st1.mentions_lc lit.natAbs).foldl restore_clause st1 = x := ⟨_, rfl⟩
  rw [h2] at b1 b2 b3 b4
  have hres : sat_restore_literal st lit = st2 := by
    rw [← h2, ← h1, ← h0]; rfl
  rw [hres]
  have e2 : st2 = { st with implied := upd st.implied lit false,
                            subsumed := st2.subsumed, q := st2.q } := by
    rw [b1, a1, ← h0]
  have hch1 : ∀ c, sat_check_subsumed_clause st1 c = sat_check_subsumed_clause st0 c := by
    intro c; rw [a1]; rfl
  have hch2 : ∀ c, sat_check_subsumed_clause st2 c = sat_check_subsumed_clause st0 c := by
    intro c; rw [b1, ← hch1]; rfl
  have hcl2 : clauses st2 = clauses st := by rw [e2]; rfl
  refine ⟨e2, ⟨b2.q_nodup, b2.q_sub, b2.q_flag, ?_⟩, ?_, ?_⟩
  · intro c hc hs
    rw [hcl2] at hc
    obtain ⟨c1, c2⟩ := b3 c hs
    obtain ⟨d1, d2⟩ := a3 c c1
    have d1' : st.subsumed c = true := by rw [← h0] at d1; exact d1
    rw [hch2]
    obtain ⟨l, hl1, hl2⟩ := (check_iff st c).1 (hQ.flag_true c hc d1')
    by_cases e : l = lit
    · subst e
      rcases List.mem_append.1 hc with hk | hk
      · exact d2 (by rw [hm0]; exact hS.men_kb c hk l hl1)
      · rw [← hch1]; exact c2 (by rw [hml1]; exact hS.men_lc c hk l hl1)
    · rw [check_iff]
      refine ⟨l, by rw [← h0]; exact hl1, ?_⟩
      rw [← h0]
      show upd st.implied lit false l = true
      rw [upd_other _ _ _ _ e]; exact hl2
  · intro c hc
    rcases b4 c hc with h | h
    · rcases a4 c h with h' | h'
      · left; rw [← h0] at h'; exact h'
      · right; rw [hch2]; exact h'
    · right; rw [hch2, ← hch1]; exact h
  · intro c hs
    have := (a3 c (b3 c hs).1).1
    rw [← h0] at this; exact this

theorem restore_queued {st : SatState} (hS : Store st) (hQ : Queue st) (lit : Int)
    (P : Int → Prop) (hP : QueuedImplied P st) :
    QueuedImplied P (sat_restore_literal st lit) := by
  obtain ⟨e, _, h3, _⟩ := restore_spec hS hQ lit
  intro c hc l hl himp
  have hlits : (sat_restore_literal st lit).lits = st.lits := by rw [e]
  have himpl : (sat_restore_literal st lit).implied = upd st.implied lit false := by rw [e]
  rcases h3 c hc with h | h
  · rw [hlits] at hl
    rw [himpl] at himp
    have : st.implied l = true := by
      by_cases e' : l = lit
      · subst e'; rw [upd_same] at himp; cases himp
      · rw [upd_other _ _ _ _ e'] at himp; exact himp
    exact hP c h l hl this
  · have := (check_false_iff _ c).1 h l hl
    rw [this] at himp; cases himp

/-! ## Undoing unit resolution -/

theorem Store.congr_store {st st' : SatState} (h : Store st)
    (e1 : st'.kb = st.kb) (e2 : st'.lc = st.lc) (e3 : st'.clausenum = st.clausenum)
    (e4 : st'.brk = st.brk) (e5 : st'.index = st.index) (e6 : st'.lits = st.lits)
    (e7 : st'.varnum = st.varnum) (e8 : st'.mentions = st.mentions)
    (e9 : st'.mentions_lc = st.mentions_lc) (e10 : st'.ac = st.ac)
    (e11 : ∀ c, st'.subsumed c = true → st.subsumed c = true) : Store st' := by
  have hcl : clauses st' = clauses st := by simp [clauses, e1, e2]
  have hca : ∀ k, clause_at st' k = clause_at st k := by
    intro k; simp [clause_at, sat_clause_count, e1, e2, e3]
  refine ⟨by rw [e1, e3]; exact h.kb_len, by rw [hcl]; exact h.cl_nodup, ?_, ?_, ?_, ?_, ?_, ?_, ?_,
    by rw [e10, e1]; exact h.ac_kb⟩
  · rw [hcl, e4]; exact h.cl_brk
  · rw [hcl, e5]; intro c hc; rw [hca]; exact h.cl_index c hc
  · rw [hcl, e6, e7]; exact h.lits_valid
  · rw [e1, e6, e8]; exact h.men_kb
  · rw [e2, e6, e9]; exact h.men_lc
  · rw [e1, e2, e8, e9]; exact h.men_sub
  · rw [e10, e4, e6, e7, hcl]
    intro a ha
    obtain ⟨h1, h2, h3⟩ := h.ac_ok a ha
    refine ⟨h1, h2, fun hn => ?_⟩
    by_contra hne
    have := e11 a (by simpa using hne)
    rw [h3 hn] at this; cases this

theorem take_dropLast {α : Type} (s : List α) (k : Nat) :
    s.dropLast.take (s.dropLast.length - k) = s.take (s.length - (k + 1)) := by
  rw [List.dropLast_eq_take, List.take_take, List.length_take]
  congr 1
  omega

theorem undo_loop_spec : ∀ (n : Nat) (st : SatState) (T il0 : List Int),
    Store st → Queue st → st.il = il0 ++ T → T.length ≤ n →
    (∀ l ∈ T, st.ds.length + 1 < st.level l.natAbs) →
    (∀ l, il0.getLast? = some l → st.level l.natAbs ≤ st.ds.length + 1) →
    ∃ st', undo_unit_resolution_loop n st = st' ∧
      st' = { st with implied := st'.implied, subsumed := st'.subsumed, q := st'.q,
                      il := il0, s := st.s.take (st.s.length - T.length) } ∧
      (∀ l, st'.implied l = true ↔ (st.implied l = true ∧ l ∉ T)) ∧
      (∀ c, st'.subsumed c = true → st.subsumed c = true) ∧
      Queue st' ∧ ∀ P, QueuedImplied P st → QueuedImplied P st' := by
  intro n
  induction n with
  | zero =>
    intro st T il0 _ hQ hil hT _ _
    have : T = [] := List.length_eq_zero.1 (by omega)
    subst this
    refine ⟨st, rfl, ?_, by simp, fun _ h => h, hQ, fun _ h => h⟩
    simp at hil
    rw [← hil]; simp
  | succ n ih =>
    intro st T il0 hS hQ hil hT hlev hstop
    rcases snoc_cases T with hnil | ⟨T', l, hT'⟩
    · subst hnil
      simp at hil
      have hunf : undo_unit_resolution_loop (n + 1) st = st := by
        unfold undo_unit_resolution_loop
        simp only [vector_top, sat_literal_var_eq, vector_size]
        cases htop : st.il.getLast? with
        | none => rfl
        | some l =>
          have := hstop l (by rw [← hil]; exact htop)
          simp only []
          rw [if_neg (by omega)]
      refine ⟨st, hunf, ?_, by simp, fun _ h => h, hQ, fun _ h => h⟩
      rw [← hil]; simp
    · subst hT'
      have htop : vector_top st.il = some l := by
        unfold vector_top; rw [hil, ← List.append_assoc]; simp
      have hl : st.ds.length + 1 < st.level l.natAbs := hlev l (by simp)
      obtain ⟨r1, r2, r3, r4⟩ := restore_spec hS hQ l
      obtain ⟨st1, h1⟩ : ∃ x, sat_restore_literal st l = x := ⟨_, rfl⟩
      rw [h1] at r1 r2 r3 r4
      have hS1 : Store st1 := by
        rw [r1]
        exact hS.congr_store rfl rfl rfl rfl rfl rfl rfl rfl rfl rfl r4
      obtain ⟨st2, h2⟩ : ∃ x : SatState,
        { st1 with il := vector_pop st1.il, s := vector_pop st1.s } = x := ⟨_, rfl⟩
      have e2 : st2 = { st with implied := upd st.implied l false, subsumed := st1.subsumed,
                                q := st1.q, il := il0 ++ T', s := st.s.dropLast } := by
        rw [← h2, r1]
        simp only [vector_pop]
        rw [hil, ← List.append_assoc, List.dropLast_concat]
      have hS2 : Store st2 := by
        rw [e2]
        exact hS.congr_store rfl rfl rfl rfl rfl rfl rfl rfl rfl rfl r4
      have hQ2 : Queue st2 := by
        rw [← h2]
        exact ⟨r2.q_nodup, r2.q_sub, r2.q_flag, r2.flag_true⟩
      have hlv2 : st2.level = st.level := by rw [e2]
      have hds2 : st2.ds = st.ds := by rw [e2]
      obtain ⟨st', a1, a2, a3, a4, a5, a6⟩ := ih st2 T' il0 hS2 hQ2 (by rw [e2])
        (by simp at hT; omega)
        (by
          intro x hx
          rw [hlv2, hds2]
          exact hlev x (List.mem_append_left _ hx))
        (by
          intro x hx
          rw [hlv2, hds2]; exact hstop x hx)
      have hunf : undo_unit_resolution_loop (n + 1) st = st' := by
        unfold undo_unit_resolution_loop
        rw [htop]
        simp only [sat_literal_var_eq, vector_size]
        rw [if_pos hl, h1, h2]
        exact a1
      refine ⟨st', hunf, ?_, ?_, ?_, a5, ?_⟩
      · rw [a2, e2]
        simp only [List.length_append, List.length_singleton]
        rw [take_dropLast]
      · intro x
        rw [a3, e2]
        show (upd st.implied l false x = true ∧ x ∉ T') ↔ _
        by_cases e : x = l
        · subst e; simp
        · rw [upd_other _ _ _ _ e]; simp [e]
      · intro c hc
        have := a4 c hc
        rw [e2] at this
        exact r4 c this
      · intro P hP
        refine a6 P ?_
        have := restore_queued hS hQ l P hP
        rw [h1] at this
        rw [← h2]
        exact this

/-! ## Undoing a decision -/

/-- Effect of `sat_undo_decide_literal` on a state with a decision: it returns, drops the
top decision and the literals forced after it, re-establishes the invariant, and leaves in
the queue only clauses without an implied literal. -/
theorem undo_decide_spec {st : SatState} (hI : Inv st) (hS : Stale st) (hds : st.ds ≠ []) :
    ∃ st' d T, sat_undo_decide_literal st = some st' ∧ UndoRel st st' d T ∧ Inv st' ∧
      ∀ c ∈ st'.q, sat_check_subsumed_clause st' c = false := by
  rcases snoc_cases st.ds with h | ⟨ds0, d, hd⟩
  · exact absurd h hds
  have hrev : st.ds.reverse = d :: ds0.reverse := by rw [hd]; simp
  obtain ⟨t, il0, s0, h1, h2, h3, h4, h5⟩ := hI.trail.trail.split_top d ds0.reverse hrev
  have hil : st.il = il0.reverse ++ t.reverse := by
    have := congrArg List.reverse h1; simpa using this
  have hs : st.s = s0.reverse ++ d :: t.reverse := by
    have := congrArg List.reverse h2; simpa using this
  have htop : vector_top st.ds = some d := by unfold vector_top; rw [hd]; simp
  obtain ⟨r1, r2, r3, r4⟩ := restore_spec hI.store hI.queue d
  obtain ⟨st1, e1⟩ : ∃ x, sat_restore_literal st d = x := ⟨_, rfl⟩
  rw [e1] at r1 r2 r3 r4
  obtain ⟨st2, e2⟩ : ∃ x : SatState,
    { st1 with ds := vector_pop st1.ds, s := vector_pop st1.s } = x := ⟨_, rfl⟩
  have f2 : st2 = { st with implied := upd st.implied d false, subsumed := st1.subsumed,
                            q := st1.q, ds := ds0, s := st.s.dropLast } := by
    rw [← e2, r1]
    simp only [vector_pop]
    rw [hd, List.dropLast_concat]
  have hS2 : Store st2 := by
    rw [f2]; exact hI.store.congr_store rfl rfl rfl rfl rfl rfl rfl rfl rfl rfl r4
  have hQ2 : Queue st2 := by
    rw [← e2]; exact ⟨r2.q_nodup, r2.q_sub, r2.q_flag, r2.flag_true⟩
  have hlv2 : st2.level = st.level := by rw [f2]
  have hds2 : st2.ds = ds0 := by rw [f2]
  have hil2 : st2.il = st.il := by rw [f2]
  have hs2 : st2.s = st.s.dropLast := by rw [f2]
  have hlen : st.ds.length = ds0.length + 1 := by rw [hd]; simp
  obtain ⟨st', a1, a2, a3, a4, a5, a6⟩ := undo_loop_spec (vector_size st2.il) st2 t.reverse
    il0.reverse hS2 hQ2 (by rw [hil2, hil]) (by rw [hil2, hil]; simp [vector_size])
    (by
      intro l hl
      rw [hlv2, hds2, h5 l (by simpa using hl)]; simp)
    (by
      intro l hl
      have hm : l ∈ il0 := by
        have := List.mem_of_getLast?_eq_some hl; simpa using this
      have := (h3.level_bounds l (h3.il_sub l hm)).2
      rw [hlv2, hds2]; simpa using this)
  have hres : sat_undo_decide_literal st = some st' := by
    unfold sat_undo_decide_literal
    rw [htop]
    simp only []
    rw [e1, e2]
    unfold sat_undo_unit_resolution
    rw [a1]
  have hs' : st'.s = s0.reverse := by
    have : st'.s = st2.s.take (st2.s.length - t.reverse.length) := by rw [a2]
    rw [this, hs2, take_dropLast, hs]
    simp
  have hil' : st'.il = il0.reverse := by rw [a2]
  have hds' : st'.ds = ds0 := by rw [a2]; exact hds2
  have hlv' : st'.level = st.level := by rw [a2]; exact hlv2
  have himp : ∀ l, st'.implied l = true ↔ (st.implied l = true ∧ l ≠ d ∧ l ∉ t.reverse) := by
    intro l
    rw [a3, f2]
    show (upd st.implied d false l = true ∧ _) ↔ _
    by_cases e : l = d
    · subst e; simp
    · rw [upd_other _ _ _ _ e]; simp [e]
  have hflag : ∀ c, st'.subsumed c = true → st.subsumed c = true := by
    intro c hc
    have := a4 c hc
    rw [f2] at this
    exact r4 c this
  have hframe : st' = { st with implied := st'.implied, subsumed := st'.subsumed, q := st'.q,
                                ds := st'.ds, il := st'.il, s := st'.s } := by
    have hst : List.take (st.s.dropLast.length - t.reverse.length) st.s.dropLast
        = s0.reverse := by
      rw [take_dropLast, hs]; simp
    have := a2
    rw [f2] at this
    simp only [] at this
    rw [hst] at this
    rw [hds', hil', hs']
    exact this
  have hrel : UndoRel st st' d t.reverse := by
    refine ⟨hframe, by rw [hds', hd], by rw [hs', hs], by rw [hil', hil], himp, ?_, ?_, hflag⟩
    · rw [h4, hlen]; simp
    · intro l hl
      rw [h5 l (by simpa using hl), hlen]; simp
  have hnd : st.s.Nodup := hI.trail.s_nodup'
  have himp' : ∀ l, st'.implied l = true ↔ l ∈ st'.s := by
    intro l
    rw [himp, hI.trail.implied_iff, hs', hs]
    rw [hs] at hnd
    have hnd' := List.nodup_append.1 hnd
    constructor
    · rintro ⟨m1, m2, m3⟩
      rcases List.mem_append.1 m1 with m | m
      · exact m
      · rcases List.mem_cons.1 m with m | m
        · exact absurd m m2
        · exact absurd m m3
    · intro m
      refine ⟨List.mem_append_left _ m, ?_, ?_⟩
      · rintro rfl
        exact hnd'.2.2 m (List.mem_cons_self _ _)
      · intro m'
        exact hnd'.2.2 m (List.mem_cons_of_mem _ m')
  have hsub : ∀ l ∈ st'.s, l ∈ st.s := by
    intro l hl; rw [hs]; rw [hs'] at hl; exact List.mem_append_left _ hl
  have hlow : ∀ l ∈ st'.s, st.level l.natAbs ≤ ds0.length + 1 := by
    intro l hl
    rw [hs'] at hl
    have := (h3.level_bounds l (by simpa using hl)).2
    simpa using this
  have hInv : Inv st' := by
    refine ⟨?_, ⟨?_, ?_, ?_, himp'⟩, a5, ?_⟩
    · rw [hframe]
      exact hI.store.congr_store rfl rfl rfl rfl rfl rfl rfl rfl rfl rfl hflag
    · rw [hds', hil', hs', hlv']
      simp only [List.reverse_reverse]
      refine h3.congr_eq (fun _ _ => rfl) (fun l _ => ?_)
      unfold reason_of
      rw [hframe]
      rfl
    · intro l hl
      have : st'.varnum = st.varnum := by rw [hframe]
      rw [this]
      exact hI.trail.s_valid l (hsub l hl)
    · have := hI.trail.s_nodup
      rw [hs, List.map_append] at this
      rw [hs']
      exact this.of_append_left
    · intro hne c hc hf
      exfalso
      have hcl : clauses st' = clauses st := by rw [hframe]; rfl
      have hlits : st'.lits = st.lits := by rw [hframe]
      rw [hcl] at hc
      have hf0 : AllFalse st c := by
        intro l hl
        have := hf l (by rw [hlits]; exact hl)
        exact ((himp (-l)).1 this).1
      obtain ⟨l, hl1, hl2⟩ := hI.no_old hds c hc hf0
      have hm := (himp' (-l)).1 (hf l (by rw [hlits]; exact hl1))
      have := hlow (-l) hm
      simp only [Int.natAbs_neg] at this
      omega
  refine ⟨st', d, t.reverse, hres, hrel, hInv, ?_⟩
  intro c hc
  rw [check_false_iff]
  intro l hl
  by_contra hne
  have hi : st'.implied l = true := by simpa using hne
  have hq : QueuedImplied (fun l => st.level l.natAbs = st.ds.length + 1) st' := by
    refine a6 _ ?_
    have := restore_queued hI.store hI.queue d _ (fun c hc l hl hi => hS c hc l hl hi)
    rw [e1] at this
    rw [← e2]
    intro c hc l hl hi
    have := this c hc l hl hi
    exact this
  have h6 := hq c hc l hl hi
  have h7 := hlow l ((himp' l).1 hi)
  omega

/-! ## Deciding a literal -/

theorem not_instantiated {st : SatState} {lit : Int}
    (hn : sat_instantiated_var st (sat_literal_var lit) = false) :
    st.implied lit = false ∧ st.implied (-lit) = false := by
  unfold sat_instantiated_var sat_implied_literal sat_pos_literal sat_neg_literal
    sat_literal_var at hn
  simp only [Bool.or_eq_false_iff] at hn
  rcases Int.natAbs_eq lit with h | h
  · rw [← h] at hn
    exact hn
  · have h' : -lit = (lit.natAbs : Int) := by omega
    rw [← h'] at hn
    simp only [neg_neg] at hn
    exact ⟨hn.2, hn.1⟩

theorem exists_of_two_le_countP {α : Type} {p : α → Bool} {l : List α}
    (h : 2 ≤ l.countP p) : ∃ x ∈ l, p x = true := by
  have : 0 < l.countP p := by omega
  exact List.countP_pos_iff.1 this

/-- In a quiescent state no clause of the store is falsified. -/
theorem Quiescent.not_allFalse {st : SatState} (hT : Trail st) (hQ : Quiescent st) {c : Nat}
    (hc : c ∈ clauses st) : ¬ AllFalse st c := by
  intro hf
  have hch : sat_check_subsumed_clause st c = false := by
    rw [check_false_iff]
    intro l hl
    by_contra hne
    exact hT.not_both l ⟨by simpa using hne, hf l hl⟩
  have := hQ c hc hch
  rw [unresolved_eq] at this
  obtain ⟨x, hx, hp⟩ := exists_of_two_le_countP this
  rw [hf x hx] at hp
  simp at hp

/-- In a quiescent state that is settled the flags of the queued clauses are exact. -/
theorem Settled.exact {st : SatState} (hI : Inv st) (hS : Settled st) (hQ : Quiescent st) :
    ∀ c ∈ st.q, sat_check_subsumed_clause st c = false := by
  rcases hS with h | ⟨c, hc, hf⟩
  · exact h
  · exact absurd hf (hQ.not_allFalse hI.trail (hI.queue.q_sub c hc))

/-- The state handed to unit resolution by `sat_decide_literal` satisfies the invariant. -/
theorem decide_bookkeeping_inv {st : SatState} (hI : Inv st) (hQ : Quiescent st)
    (hA : ∀ c ∈ st.q, sat_check_subsumed_clause st c = false) {lit : Int}
    (hv : ValidLit st.varnum lit)
    (hn : sat_instantiated_var st (sat_literal_var lit) = false) :
    Inv (decide_bookkeeping lit st) ∧ Stale (decide_bookkeeping lit st) := by
  obtain ⟨hn1, hn2⟩ := not_instantiated hn
  have hf2 : lit ∉ st.s := fun hm => by
    have := (hI.trail.implied_iff lit).2 hm; rw [hn1] at this; cases this
  have hf3 : -lit ∉ st.s := fun hm => by
    have := (hI.trail.implied_iff (-lit)).2 hm; rw [hn2] at this; cases this
  have hf4 : lit.natAbs ∉ st.s.map Int.natAbs := fun hm => by
    rcases mem_s_natAbs hm with h | h
    · exact hf2 h
    · exact hf3 h
  have hvar : ∀ l ∈ st.s, l.natAbs ≠ lit.natAbs := by
    intro l hm e
    exact hf4 (e ▸ List.mem_map_of_mem _ hm)
  unfold decide_bookkeeping
  simp only [vector_push, vector_size, sat_literal_var_eq, List.length_append,
    List.length_singleton]
  refine ⟨⟨hI.store.congr_store rfl rfl rfl rfl rfl rfl rfl rfl rfl rfl (fun _ h => h),
    ⟨?_, ?_, ?_, ?_⟩, ⟨hI.queue.q_nodup, hI.queue.q_sub, hI.queue.q_flag, ?_⟩, ?_⟩, ?_⟩
  · show TrailR (upd st.level lit.natAbs (st.ds.length + 1 + 1)) _ (st.ds ++ [lit]).reverse
      st.il.reverse (st.s ++ [lit]).reverse
    simp only [List.reverse_append, List.reverse_cons, List.reverse_nil, List.nil_append,
      List.singleton_append]
    refine TrailR.dec (hI.trail.trail.congr_eq ?_ (fun _ _ => rfl)) ?_
    · intro l hm
      rw [upd_other _ _ _ _ (hvar l (by simpa using hm))]
    · simp
  · intro l hm
    have hm' : l ∈ st.s ++ [lit] := hm
    rcases List.mem_append.1 hm' with hm | hm
    · exact hI.trail.s_valid l hm
    · have : l = lit := by simpa using hm
      subst this; exact hv
  · show ((st.s ++ [lit]).map Int.natAbs).Nodup
    rw [List.map_append, List.nodup_append]
    refine ⟨hI.trail.s_nodup, by simp, ?_⟩
    intro a ha hb
    have : a = lit.natAbs := by simpa using hb
    subst this
    exact hf4 ha
  · intro l
    show upd st.implied lit true l = true ↔ l ∈ st.s ++ [lit]
    by_cases e : l = lit
    · subst e; simp
    · rw [upd_other _ _ _ _ e, hI.trail.implied_iff l]; simp [e]
  · intro x hx hs
    rw [check_iff]
    obtain ⟨l, hl1, hl2⟩ := (check_iff st x).1 (hI.queue.flag_true x hx hs)
    refine ⟨l, hl1, ?_⟩
    show upd st.implied lit true l = true
    simp [upd_apply, hl2]
  · -- no clause was falsified before the decision
    intro _ x hx hfalse
    have hx' : x ∈ clauses st := hx
    have hnf := hQ.not_allFalse hI.trail hx'
    unfold AllFalse at hnf
    push_neg at hnf
    obtain ⟨l, hl1, hl2⟩ := hnf
    have h3 : upd st.implied lit true (-l) = true := hfalse l hl1
    have h4 : -l = lit := by
      by_contra e
      rw [upd_other _ _ _ _ e] at h3
      exact hl2 h3
    refine ⟨l, hl1, ?_⟩
    have : l.natAbs = lit.natAbs := by rw [← h4]; simp
    show upd st.level lit.natAbs (st.ds.length + 1 + 1) l.natAbs = (st.ds ++ [lit]).length + 1
    rw [this, upd_same]; simp
  · intro x hx l hl himp
    have himp' : upd st.implied lit true l = true := himp
    have hx' : x ∈ st.q := hx
    have hl' : l ∈ st.lits x := hl
    have h0 := (check_false_iff st x).1 (hA x hx') l hl'
    have : l = lit := by
      by_contra e
      rw [upd_other _ _ _ _ e, h0] at himp'
      cases himp'
    subst this
    show upd st.level l.natAbs (st.ds.length + 1 + 1) l.natAbs = (st.ds ++ [l]).length + 1
    rw [upd_same]; simp

/-! ## Asserting a clause: bookkeeping -/

theorem mention_fold_lc (c : Nat) : ∀ (ls : List Int) (st : SatState),
    ls.foldl (mention_clause true c) st
      = { st with mentions_lc := (ls.foldl (mention_clause true c) st).mentions_lc } ∧
    (∀ v x, x ∈ (ls.foldl (mention_clause true c) st).mentions_lc v →
      x ∈ st.mentions_lc v ∨ x = c) ∧
    (∀ v x, x ∈ st.mentions_lc v → x ∈ (ls.foldl (mention_clause true c) st).mentions_lc v) ∧
    (∀ l ∈ ls, c ∈ (ls.foldl (mention_clause true c) st).mentions_lc l.natAbs)
  | [], st => ⟨rfl, fun _ _ h => Or.inl h, fun _ _ h => h, by simp⟩
  | l :: ls, st => by
    simp only [List.foldl_cons]
    obtain ⟨a1, a2, a3, a4⟩ := mention_fold_lc c ls (mention_clause true c st l)
    obtain ⟨st', e'⟩ : ∃ x, ls.foldl (mention_clause true c) (mention_clause true c st l) = x :=
      ⟨_, rfl⟩
    rw [e'] at a1 a2 a3 a4 ⊢
    have hstep : mention_clause true c st l
          = { st with mentions_lc := (mention_clause true c st l).mentions_lc } ∧
        (∀ v x, x ∈ (mention_clause true c st l).mentions_lc v → x ∈ st.mentions_lc v ∨ x = c) ∧
        (∀ v x, x ∈ st.mentions_lc v → x ∈ (mention_clause true c st l).mentions_lc v) ∧
        c ∈ (mention_clause true c st l).mentions_lc l.natAbs := by
      unfold mention_clause
      simp only [if_true, sat_literal_var_eq, vector_size, vector_top, vector_push]
      by_cases h : (st.mentions_lc l.natAbs).length = 0 ∨
          (st.mentions_lc l.natAbs).getLast? ≠ some c
      · rw [if_pos h]
        refine ⟨rfl, ?_, ?_, ?_⟩
        · intro v x hx
          have hx' : x ∈ upd st.mentions_lc l.natAbs (st.mentions_lc l.natAbs ++ [c]) v := hx
          by_cases e : v = l.natAbs
          · subst e
            rw [upd_same] at hx'
            rcases List.mem_append.1 hx' with h1 | h1
            · exact Or.inl h1
            · exact Or.inr (by simpa using h1)
          · rw [upd_other _ _ _ _ e] at hx'; exact Or.inl hx'
        · intro v x hx
          show x ∈ upd st.mentions_lc l.natAbs (st.mentions_lc l.natAbs ++ [c]) v
          by_cases e : v = l.natAbs
          · subst e
            rw [upd_same]; exact List.mem_append_left _ hx
          · rw [upd_other _ _ _ _ e]; exact hx
        · show c ∈ upd st.mentions_lc l.natAbs (st.mentions_lc l.natAbs ++ [c]) l.natAbs
          rw [upd_same]; simp
      · rw [if_neg h]
        push_neg at h
        exact ⟨rfl, fun _ _ hx => Or.inl hx, fun _ _ hx => hx,
          List.mem_of_getLast?_eq_some h.2⟩
    obtain ⟨b1, b2, b3, b4⟩ := hstep
    obtain ⟨st1, e1⟩ : ∃ x, mention_clause true c st l = x := ⟨_, rfl⟩
    rw [e1] at a1 a2 a3 b1 b2 b3 b4
    refine ⟨?_, ?_, ?_, ?_⟩
    · calc st' = { st1 with mentions_lc := st'.mentions_lc } := a1
        _ = { st with mentions_lc := st'.mentions_lc } := by rw [b1]
    · intro v x hx
      rcases a2 v x hx with h | h
      · exact b2 v x h
      · exact Or.inr h
    · intro v x hx
      exact a3 v x (b3 v x hx)
    · intro x hx
      rcases List.mem_cons.1 hx with rfl | hx
      · exact a3 _ _ b4
      · exact a4 x hx

theorem assertion_level_fold (st : SatState) : ∀ (ls : List Int) (h : Nat × Nat),
    h.2 ≤ h.1 →
      (ls.foldl (assertion_level_step st) h).2 ≤ (ls.foldl (assertion_level_step st) h).1 ∧
      ((ls.foldl (assertion_level_step st) h).1 = h.1 ∨
        ∃ l ∈ ls, st.level l.natAbs = (ls.foldl (assertion_level_step st) h).1)
  | [], h, hh => ⟨hh, Or.inl rfl⟩
  | l :: ls, h, hh => by
    simp only [List.foldl_cons]
    have hstep : (assertion_level_step st h l).2 ≤ (assertion_level_step st h l).1 ∧
        ((assertion_level_step st h l).1 = h.1 ∨
          st.level l.natAbs = (assertion_level_step st h l).1) := by
      unfold assertion_level_step
      simp only [sat_literal_var_eq]
      split_ifs with h1 h2
      · exact ⟨h1, Or.inr rfl⟩
      · exact ⟨by simp; omega, Or.inl rfl⟩
      · exact ⟨hh, Or.inl rfl⟩
    obtain ⟨a1, a2⟩ := assertion_level_fold st ls (assertion_level_step st h l) hstep.1
    refine ⟨a1, ?_⟩
    rcases a2 with e | ⟨x, hx1, hx2⟩
    · rcases hstep.2 with e' | e'
      · exact Or.inl (e.trans e')
      · exact Or.inr ⟨l, List.mem_cons_self _ _, by rw [e', e]⟩
    · exact Or.inr ⟨x, List.mem_cons_of_mem _ hx1, hx2⟩

/-- A clause at its assertion level above the start level has a literal whose variable
carries a level at least the current one. -/
theorem at_assertion_level_high {st : SatState} {c : Nat}
    (h : sat_at_assertion_level c st = true) (hds : st.ds ≠ []) :
    ∃ l ∈ st.lits c, st.ds.length + 1 ≤ st.level l.natAbs := by
  unfold sat_at_assertion_level at h
  simp only [vector_size, decide_eq_true_eq] at h
  obtain ⟨a1, a2⟩ := assertion_level_fold st (st.lits c) (1, 1) (le_refl _)
  have hpos : 0 < st.ds.length := List.length_pos.2 hds
  rcases a2 with e | ⟨l, hl1, hl2⟩
  · simp only [] at e
    omega
  · exact ⟨l, hl1, by omega⟩

theorem getElem?_append_some {α : Type} {v : List α} {k : Nat} {x : α} (w : List α)
    (h : v[k]? = some x) : (v ++ w)[k]? = some x := by
  have hk : k < v.length := by
    rcases Nat.lt_or_ge k v.length with h' | h'
    · exact h'
    · rw [List.getElem?_eq_none h'] at h; cases h
  rw [List.getElem?_append_left hk]; exact h

/-- The state handed to unit resolution by `sat_assert_clause`, for any occurrence lists
`ML` produced by the occurrence loop. -/
theorem assert_state_inv {st : SatState} (hI : Inv st) (hS : Stale st) {c : Nat}
    (hac : st.ac = some c) (hlc : c ∉ st.lc) (hat : sat_at_assertion_level c st = true)
    (ML : Nat → List Nat)
    (m1 : ∀ v x, x ∈ ML v → x ∈ st.mentions_lc v ∨ x = c)
    (m2 : ∀ v x, x ∈ st.mentions_lc v → x ∈ ML v)
    (m3 : ∀ l ∈ st.lits c, c ∈ ML l.natAbs) :
    Inv { st with index := upd st.index c (st.clausenum + st.lc.length + 1),
                  mentions_lc := ML, lc := st.lc ++ [c], q := st.q ++ [c] } ∧
    StaleButLast { st with index := upd st.index c (st.clausenum + st.lc.length + 1),
                           mentions_lc := ML, lc := st.lc ++ [c], q := st.q ++ [c] } := by
  obtain ⟨k1, k2, k3⟩ := hI.store.ac_ok c hac
  have hkb : c ∉ st.kb := hI.store.ac_kb c hac
  have hcl : c ∉ clauses st := fun h => by
    rcases List.mem_append.1 h with h | h
    · exact hkb h
    · exact hlc h
  have hcq : c ∉ st.q := fun h => hcl (hI.queue.q_sub c h)
  have hne : ∀ x ∈ clauses st, x ≠ c := fun x hx e => hcl (e ▸ hx)
  have hmem : ∀ x, x ∈ st.kb ++ (st.lc ++ [c]) ↔ x ∈ clauses st ∨ x = c := by
    intro x; simp [clauses, or_assoc]
  have hca : ∀ k x, clause_at st k = some x →
      clause_at { st with index := upd st.index c (st.clausenum + st.lc.length + 1),
                          mentions_lc := ML, lc := st.lc ++ [c], q := st.q ++ [c] } k
        = some x := by
    intro k x h
    unfold clause_at vector_get sat_clause_count at h ⊢
    show (if k < st.clausenum then st.kb[k]? else (st.lc ++ [c])[k - st.clausenum]?) = some x
    split_ifs at h ⊢
    · exact h
    · exact getElem?_append_some _ h
  refine ⟨⟨⟨hI.store.kb_len, ?_, ?_, ?_, ?_, hI.store.men_kb, ?_, ?_, ?_, ?_⟩,
    ⟨?_, hI.trail.s_valid, hI.trail.s_nodup, hI.trail.implied_iff⟩,
    ⟨?_, ?_, ?_, ?_⟩, ?_⟩, ?_⟩
  · show (st.kb ++ (st.lc ++ [c])).Nodup
    rw [← List.append_assoc, List.nodup_append]
    refine ⟨hI.store.cl_nodup, by simp, ?_⟩
    intro a ha hb
    have : a = c := by simpa using hb
    subst this; exact hcl ha
  · intro x hx
    rcases (hmem x).1 hx with h | h
    · exact hI.store.cl_brk x h
    · subst h; exact k1
  · intro x hx
    show upd st.index c _ x ≠ 0 ∧ clause_at _ (upd st.index c _ x - 1) = some x
    rcases (hmem x).1 hx with h | h
    · rw [upd_other _ _ _ _ (hne x h)]
      exact ⟨(hI.store.cl_index x h).1, hca _ _ (hI.store.cl_index x h).2⟩
    · subst h
      rw [upd_same]
      refine ⟨by omega, ?_⟩
      unfold clause_at vector_get sat_clause_count
      show (if st.clausenum + st.lc.length + 1 - 1 < st.clausenum then _
        else (st.lc ++ [x])[st.clausenum + st.lc.length + 1 - 1 - st.clausenum]?) = some x
      rw [if_neg (by omega)]
      have : st.clausenum + st.lc.length + 1 - 1 - st.clausenum = st.lc.length := by omega
      rw [this, List.getElem?_append_right (le_refl _)]
      simp
  · intro x hx l hl
    rcases (hmem x).1 hx with h | h
    · exact hI.store.lits_valid x h l hl
    · subst h; exact k2 l hl
  · intro x hx l hl
    have hx' : x ∈ st.lc ++ [c] := hx
    rcases List.mem_append.1 hx' with h | h
    · exact m2 _ _ (hI.store.men_lc x h l hl)
    · have : x = c := by simpa using h
      subst this; exact m3 l hl
  · intro v
    refine ⟨(hI.store.men_sub v).1, ?_⟩
    intro x hx
    show x ∈ st.lc ++ [c]
    rcases m1 v x hx with h | h
    · exact List.mem_append_left _ ((hI.store.men_sub v).2 x h)
    · subst h; simp
  · intro a ha
    have ha' : st.ac = some a := ha
    have : a = c := by rw [hac] at ha'; exact (Option.some.inj ha').symm
    subst this
    refine ⟨k1, k2, fun hn => ?_⟩
    exact absurd ((hmem a).2 (Or.inr rfl)) hn
  · exact hI.store.ac_kb
  · refine hI.trail.trail.congr_weak (fun _ _ => rfl) ?_
    intro l _ ls hr
    unfold reason_of at hr ⊢
    cases hcx : clause_at st (st.locate l) with
    | none => rw [hcx] at hr; cases hr
    | some x =>
      rw [hcx] at hr
      have := hca _ _ hcx
      show Option.map st.lits (clause_at _ (st.locate l)) = some ls
      rw [this]; exact hr
  · show (st.q ++ [c]).Nodup
    rw [List.nodup_append]
    refine ⟨hI.queue.q_nodup, by simp, ?_⟩
    intro a ha hb
    have : a = c := by simpa using hb
    subst this; exact hcq ha
  · intro x hx
    have hx' : x ∈ st.q ++ [c] := hx
    apply (hmem x).2
    rcases List.mem_append.1 hx' with h | h
    · exact Or.inl (hI.queue.q_sub x h)
    · exact Or.inr (by simpa using h)
  · intro x hx
    show x ∈ st.q ++ [c] ↔ st.subsumed x = false
    rcases (hmem x).1 hx with h | h
    · rw [List.mem_append]
      simp [hne x h, hI.queue.q_flag x h]
    · subst h
      simp [k3 hcl]
  · intro x hx hs
    have hs' : st.subsumed x = true := hs
    rcases (hmem x).1 hx with h | h
    · exact hI.queue.flag_true x h hs'
    · subst h
      rw [k3 hcl] at hs'; cases hs'
  · intro hds x hx hf
    have hds' : st.ds ≠ [] := hds
    have hf' : AllFalse st x := hf
    rcases (hmem x).1 hx with h | h
    · exact hI.no_old hds' x h hf'
    · subst h
      obtain ⟨l, hl1, hl2⟩ := at_assertion_level_high hat hds'
      refine ⟨l, hl1, ?_⟩
      have hm : -l ∈ st.s := (hI.trail.implied_iff (-l)).1 (hf' l hl1)
      have := (hI.trail.level_le hm).2
      simp only [Int.natAbs_neg] at this
      show st.level l.natAbs = st.ds.length + 1
      omega
  · intro x hx hj
    have hx' : x ∈ st.q ++ [c] := hx
    have hxc : x ≠ c := by
      intro e
      refine hj st.q.length (by show (st.q ++ [c]).length = _; simp) ?_
      show (st.q ++ [c])[st.q.length]? = some x
      rw [List.getElem?_append_right (le_refl _), e]; simp
    have hxq : x ∈ st.q := by
      rcases List.mem_append.1 hx' with h | h
      · exact h
      · exact absurd (by simpa using h) hxc
    exact hS x hxq

theorem assert_bookkeeping_eq (c : Nat) (st : SatState) :
    ∃ ML, assert_clause_bookkeeping c st
        = { st with index := upd st.index c (st.clausenum + st.lc.length + 1),
                    mentions_lc := ML, lc := st.lc ++ [c], q := st.q ++ [c] } ∧
      (∀ v x, x ∈ ML v → x ∈ st.mentions_lc v ∨ x = c) ∧
      (∀ v x, x ∈ st.mentions_lc v → x ∈ ML v) ∧
      (∀ l ∈ st.lits c, c ∈ ML l.natAbs) := by
  obtain ⟨st1, e1⟩ : ∃ x : SatState, { st with
      index := upd st.index c (sat_clause_count st + sat_learned_clause_count st + 1) } = x :=
    ⟨_, rfl⟩
  obtain ⟨a1, a2, a3, a4⟩ := mention_fold_lc c (st1.lits c) st1
  obtain ⟨st2, e2⟩ : ∃ x, (st1.lits c).foldl (mention_clause true c) st1 = x := ⟨_, rfl⟩
  rw [e2] at a1 a2 a3 a4
  have hres : assert_clause_bookkeeping c st
      = { st2 with lc := vector_push st2.lc c, q := vector_push st2.q c } := by
    rw [← e2, ← e1]
    rfl
  refine ⟨st2.mentions_lc, ?_, ?_, ?_, ?_⟩
  · rw [hres, a1, ← e1]
    rfl
  · intro v x hx
    have := a2 v x hx
    rw [← e1] at this; exact this
  · intro v x hx
    exact a3 v x (by rw [← e1]; exact hx)
  · intro l hl
    exact a4 l (by rw [← e1]; exact hl)

theorem assert_bookkeeping_inv {st : SatState} (hI : Inv st) (hS : Stale st) {c : Nat}
    (hac : st.ac = some c) (hlc : c ∉ st.lc) (hat : sat_at_assertion_level c st = true) :
    Inv (assert_clause_bookkeeping c st) ∧ StaleButLast (assert_clause_bookkeeping c st) := by
  obtain ⟨ML, e, m1, m2, m3⟩ := assert_bookkeeping_eq c st
  rw [e]
  exact assert_state_inv hI hS hac hlc hat ML m1 m2 m3

/-! ## The constructed state -/

theorem mention_fold_kb (c : Nat) : ∀ (ls : List Int) (st : SatState),
    ls.foldl (mention_clause false c) st
      = { st with mentions := (ls.foldl (mention_clause false c) st).mentions } ∧
    (∀ v x, x ∈ (ls.foldl (mention_clause false c) st).mentions v →
      x ∈ st.mentions v ∨ x = c) ∧
    (∀ v x, x ∈ st.mentions v → x ∈ (ls.foldl (mention_clause false c) st).mentions v) ∧
    (∀ l ∈ ls, c ∈ (ls.foldl (mention_clause false c) st).mentions l.natAbs)
  | [], st => ⟨rfl, fun _ _ h => Or.inl h, fun _ _ h => h, by simp⟩
  | l :: ls, st => by
    simp only [List.foldl_cons]
    obtain ⟨a1, a2, a3, a4⟩ := mention_fold_kb c ls (mention_clause false c st l)
    obtain ⟨st', e'⟩ : ∃ x, ls.foldl (mention_clause false c) (mention_clause false c st l) = x :=
      ⟨_, rfl⟩
    rw [e'] at a1 a2 a3 a4 ⊢
    have hstep : mention_clause false c st l
          = { st with mentions := (mention_clause false c st l).mentions } ∧
        (∀ v x, x ∈ (mention_clause false c st l).mentions v → x ∈ st.mentions v ∨ x = c) ∧
        (∀ v x, x ∈ st.mentions v → x ∈ (mention_clause false c st l).mentions v) ∧
        c ∈ (mention_clause false c st l).mentions l.natAbs := by
      unfold mention_clause
      simp only [Bool.false_eq_true, if_false, sat_literal_var_eq, vector_size, vector_top, vector_push]
      by_cases h : (st.mentions l.natAbs).length = 0 ∨
          (st.mentions l.natAbs).getLast? ≠ some c
      · rw [if_pos h]
        refine ⟨rfl, ?_, ?_, ?_⟩
        · intro v x hx
          have hx' : x ∈ upd st.mentions l.natAbs (st.mentions l.natAbs ++ [c]) v := hx
          by_cases e : v = l.natAbs
          · subst e
            rw [upd_same] at hx'
            rcases List.mem_append.1 hx' with h1 | h1
            · exact Or.inl h1
            · exact Or.inr (by simpa using h1)
          · rw [upd_other _ _ _ _ e] at hx'; exact Or.inl hx'
        · intro v x hx
          show x ∈ upd st.mentions l.natAbs (st.mentions l.natAbs ++ [c]) v
          by_cases e : v = l.natAbs
          · subst e
            rw [upd_same]; exact List.mem_append_left _ hx
          · rw [upd_other _ _ _ _ e]; exact hx
        · show c ∈ upd st.mentions l.natAbs (st.mentions l.natAbs ++ [c]) l.natAbs
          rw [upd_same]; simp
      · rw [if_neg h]
        push_neg at h
        exact ⟨rfl, fun _ _ hx => Or.inl hx, fun _ _ hx => hx,
          List.mem_of_getLast?_eq_some h.2⟩
    obtain ⟨b1, b2, b3, b4⟩ := hstep
    obtain ⟨st1, e1⟩ : ∃ x, mention_clause false c st l = x := ⟨_, rfl⟩
    rw [e1] at a1 a2 a3 b1 b2 b3 b4
    refine ⟨?_, ?_, ?_, ?_⟩
    · calc st' = { st1 with mentions := st'.mentions } := a1
        _ = { st with mentions := st'.mentions } := by rw [b1]
    · intro v x hx
      rcases a2 v x hx with h | h
      · exact b2 v x h
      · exact Or.inr h
    · intro v x hx
      exact a3 v x (b3 v x hx)
    · intro x hx
      rcases List.mem_cons.1 hx with rfl | hx
      · exact a3 _ _ b4
      · exact a4 x hx


/-- The variable occurrence lists built by the last loop of `sat_state_new`. -/
theorem mention_outer_spec : ∀ (cs : List Nat) (st : SatState),
    cs.foldl (fun st clause => (st.lits clause).foldl (mention_clause false clause) st) st
      = { st with mentions := (cs.foldl (fun st clause =>
            (st.lits clause).foldl (mention_clause false clause) st) st).mentions } ∧
    (∀ v x, x ∈ (cs.foldl (fun st clause =>
        (st.lits clause).foldl (mention_clause false clause) st) st).mentions v →
      x ∈ st.mentions v ∨ x ∈ cs) ∧
    (∀ v x, x ∈ st.mentions v → x ∈ (cs.foldl (fun st clause =>
        (st.lits clause).foldl (mention_clause false clause) st) st).mentions v) ∧
    (∀ c ∈ cs, ∀ l ∈ st.lits c, c ∈ (cs.foldl (fun st clause =>
        (st.lits clause).foldl (mention_clause false clause) st) st).mentions l.natAbs)
  | [], st => ⟨rfl, fun _ _ h => Or.inl h, fun _ _ h => h, by simp⟩
  | c :: cs, st => by
    simp only [List.foldl_cons]
    obtain ⟨b1, b2, b3, b4⟩ := mention_fold_kb c (st.lits c) st
    obtain ⟨st1, e1⟩ : ∃ x, (st.lits c).foldl (mention_clause false c) st = x := ⟨_, rfl⟩
    rw [e1] at b1 b2 b3 b4 ⊢
    obtain ⟨a1, a2, a3, a4⟩ := mention_outer_spec cs st1
    obtain ⟨st2, e2⟩ : ∃ x, cs.foldl (fun st clause =>
      (st.lits clause).foldl (mention_clause false clause) st) st1 = x := ⟨_, rfl⟩
    rw [e2] at a1 a2 a3 a4 ⊢
    have hl : st1.lits = st.lits := by rw [b1]
    refine ⟨?_, ?_, ?_, ?_⟩
    · calc st2 = { st1 with mentions := st2.mentions } := a1
        _ = { st with mentions := st2.mentions } := by rw [b1]
    · intro v x hx
      rcases a2 v x hx with h | h
      · rcases b2 v x h with h' | h'
        · exact Or.inl h'
        · exact Or.inr (by rw [h']; simp)
      · exact Or.inr (List.mem_cons_of_mem _ h)
    · intro v x hx
      exact a3 v x (b3 v x hx)
    · intro x hx l hl'
      rcases List.mem_cons.1 hx with rfl | hx
      · exact a3 _ _ (b4 l hl')
      · exact a4 x hx l (by rw [hl]; exact hl')

/-- The state built by `sat_state_new`, with the occurrence lists made explicit. -/
theorem sat_state_new_eq (mem : SatState) (varnum : Nat) (cnf : List (List Int)) :
    ∃ MN : Nat → List Nat,
      sat_state_new mem varnum cnf =
        { varnum := varnum, clausenum := cnf.length, implied := fun _ => false,
          locate := mem.locate, level := mem.level, u := mem.u, mentions := MN,
          mentions_lc := fun _ => [],
          lits := fun c => match cnf[c]? with
            | some ls => ls
            | none => mem.lits c,
          subsumed := fun c => if c < cnf.length then false else mem.subsumed c,
          index := fun c => if c < cnf.length then c + 1 else mem.index c,
          kb := List.range cnf.length, lc := [], ds := [], il := [], s := [],
          q := List.range cnf.length, ac := none, brk := cnf.length } ∧
      (∀ v x, x ∈ MN v → x < cnf.length) ∧
      (∀ c ls, cnf[c]? = some ls → ∀ l ∈ ls, c ∈ MN l.natAbs) := by
  obtain ⟨st0, e0⟩ : ∃ x : SatState,
    ({ varnum := varnum, clausenum := cnf.length, implied := fun _ => false,
       locate := mem.locate, level := mem.level, u := mem.u, mentions := fun _ => [],
       mentions_lc := fun _ => [],
       lits := fun c => match cnf[c]? with
         | some ls => ls
         | none => mem.lits c,
       subsumed := fun c => if c < cnf.length then false else mem.subsumed c,
       index := fun c => if c < cnf.length then c + 1 else mem.index c,
       kb := List.range cnf.length, lc := [], ds := [], il := [], s := [],
       q := List.range cnf.length, ac := none, brk := cnf.length } : SatState) = x := ⟨_, rfl⟩
  obtain ⟨a1, a2, a3, a4⟩ := mention_outer_spec (List.range cnf.length) st0
  obtain ⟨st1, e1⟩ : ∃ x, (List.range cnf.length).foldl (fun st clause =>
      (st.lits clause).foldl (mention_clause false clause) st) st0 = x := ⟨_, rfl⟩
  rw [e1] at a1 a2 a3 a4
  have hres : sat_state_new mem varnum cnf = st1 := by
    rw [← e1, ← e0]; rfl
  refine ⟨st1.mentions, ?_, ?_, ?_⟩
  · rw [hres, a1, ← e0]
  · intro v x hx
    rcases a2 v x hx with h | h
    · rw [← e0] at h; simp at h
    · simpa using h
  · intro c ls hc l hl
    have hlt : c < cnf.length := by
      rcases Nat.lt_or_ge c cnf.length with h | h
      · exact h
      · rw [List.getElem?_eq_none h] at hc; cases hc
    refine a4 c (by simpa using hlt) l ?_
    rw [← e0]
    show l ∈ (match cnf[c]? with
      | some ls => ls
      | none => mem.lits c)
    rw [hc]; exact hl

/-- The constructed state satisfies the invariant; nothing is implied in it. -/
theorem sat_state_new_inv (mem : SatState) (varnum : Nat) (cnf : List (List Int))
    (hv : ValidCnf varnum cnf) :
    Inv (sat_state_new mem varnum cnf) ∧ Stale (sat_state_new mem varnum cnf) ∧
    Settled (sat_state_new mem varnum cnf) := by
  obtain ⟨MN, e, m1, m2⟩ := sat_state_new_eq mem varnum cnf
  rw [e]
  have hcl : ∀ x, x ∈ List.range cnf.length ++ ([] : List Nat) ↔ x < cnf.length := by
    intro x; simp
  have hlits : ∀ c, c < cnf.length → ∃ ls, cnf[c]? = some ls ∧
      (match cnf[c]? with
        | some ls => ls
        | none => mem.lits c) = ls := by
    intro c hc
    refine ⟨cnf[c], List.getElem?_eq_getElem hc, ?_⟩
    rw [List.getElem?_eq_getElem hc]
  refine ⟨⟨⟨by simp, ?_, ?_, ?_, ?_, ?_, ?_, ?_, ?_, ?_⟩, ⟨TrailR.nil, ?_, ?_, ?_⟩,
    ⟨List.nodup_range _, ?_, ?_, ?_⟩, ?_⟩, ?_, ?_⟩
  · show (List.range cnf.length ++ []).Nodup
    simpa using List.nodup_range cnf.length
  · intro c hc; exact (hcl c).1 hc
  · intro c hc
    have hlt := (hcl c).1 hc
    show (if c < cnf.length then c + 1 else mem.index c) ≠ 0 ∧
      clause_at _ ((if c < cnf.length then c + 1 else mem.index c) - 1) = some c
    rw [if_pos hlt]
    refine ⟨by omega, ?_⟩
    unfold clause_at vector_get sat_clause_count
    show (if c + 1 - 1 < cnf.length then (List.range cnf.length)[c + 1 - 1]? else _) = some c
    have : c + 1 - 1 = c := by omega
    rw [this, if_pos hlt, List.getElem?_range hlt]
  · intro c hc l hl
    have hlt := (hcl c).1 hc
    obtain ⟨ls, h1, h2⟩ := hlits c hlt
    have hl' : l ∈ (match cnf[c]? with
        | some ls => ls
        | none => mem.lits c) := hl
    rw [h2] at hl'
    exact (hv ls (mem_of_getElem?_some h1)).2 l hl'
  · intro c hc l hl
    have hlt : c < cnf.length := by simpa using hc
    obtain ⟨ls, h1, h2⟩ := hlits c hlt
    have hl' : l ∈ (match cnf[c]? with
        | some ls => ls
        | none => mem.lits c) := hl
    rw [h2] at hl'
    exact m2 c ls h1 l hl'
  · intro c hc; cases hc
  · intro v
    refine ⟨fun c hc => ?_, fun c hc => by cases hc⟩
    show c ∈ List.range cnf.length
    simpa using m1 v c hc
  · intro a ha; cases ha
  · intro a ha; cases ha
  · intro l hl; cases hl
  · exact List.nodup_nil
  · intro l; simp
  · intro c hc
    show c ∈ List.range cnf.length ++ []
    simpa using hc
  · intro c hc
    have hlt := (hcl c).1 hc
    show c ∈ List.range cnf.length ↔ (if c < cnf.length then false else mem.subsumed c) = false
    simp [hlt]
  · intro c hc hs
    have hlt := (hcl c).1 hc
    have hs' : (if c < cnf.length then false else mem.subsumed c) = true := hs
    rw [if_pos hlt] at hs'; cases hs'
  · intro hds; exact absurd rfl hds
  · intro c _ l _ hi; cases hi
  · left
    intro c _
    rw [check_false_iff]
    intro l _; rfl

/-- Every reachable state satisfies the invariant, the staleness bound and is settled. -/
theorem Reachable.inv {st : SatState} (h : Reachable st) : Inv st ∧ Stale st ∧ Settled st := by
  induction h with
  | new mem varnum cnf hv => exact sat_state_new_inv mem varnum cnf hv
  | unit_resolution st r st' _ hur ih =>
    obtain ⟨hI, hS, _⟩ := ih
    obtain ⟨r0, st0, h1, h2, h3, _, h5, h6⟩ := ur_summary hI hS.butLast
    rw [hur] at h1
    obtain ⟨rfl, rfl⟩ := Prod.mk.inj (Option.some.inj h1)
    refine ⟨h2, h3, ?_⟩
    cases r with
    | true => exact Or.inl (fun c hc => (h5 rfl c hc).1)
    | false =>
      obtain ⟨_, _, _, _, c, hc, hf⟩ := h6 rfl
      exact Or.inr ⟨c, hc, hf⟩
  | decide st lit r st' _ hv hn hq hd ih =>
    obtain ⟨hI, _, hSet⟩ := ih
    obtain ⟨hI2, hS2⟩ := decide_bookkeeping_inv hI hq (hSet.exact hI hq) hv hn
    obtain ⟨r0, st0, h1, h2, h3, _, h5, h6⟩ := ur_summary hI2 hS2.butLast
    unfold sat_decide_literal at hd
    rw [h1] at hd
    cases r0 with
    | true =>
      simp only [Option.some.injEq, Prod.mk.injEq] at hd
      obtain ⟨_, rfl⟩ := hd
      exact ⟨h2, h3, Or.inl (fun c hc => (h5 rfl c hc).1)⟩
    | false =>
      simp only [Option.some.injEq, Prod.mk.injEq] at hd
      obtain ⟨_, rfl⟩ := hd
      obtain ⟨_, _, _, _, c, hc, hf⟩ := h6 rfl
      exact ⟨h2, h3, Or.inr ⟨c, hc, hf⟩⟩
  | undo st st' _ hds hu ih =>
    obtain ⟨hI, hS, _⟩ := ih
    obtain ⟨st0, d, T, h1, _, h3, h4⟩ := undo_decide_spec hI hS hds
    rw [hu] at h1
    obtain rfl := Option.some.inj h1
    refine ⟨h3, ?_, Or.inl h4⟩
    intro c hc l hl hi
    have := (check_false_iff _ c).1 (h4 c hc) l hl
    rw [this] at hi; cases hi
  | assert st c r st' _ hac hlc hat ha ih =>
    obtain ⟨hI, hS, _⟩ := ih
    obtain ⟨hI2, hS2⟩ := assert_bookkeeping_inv hI hS hac hlc hat
    obtain ⟨r0, st0, h1, h2, h3, _, h5, h6⟩ := ur_summary hI2 hS2
    unfold sat_assert_clause at ha
    rw [h1] at ha
    cases r0 with
    | true =>
      simp only [Option.some.injEq, Prod.mk.injEq] at ha
      obtain ⟨_, rfl⟩ := ha
      exact ⟨h2, h3, Or.inl (fun c hc => (h5 rfl c hc).1)⟩
    | false =>
      simp only [Option.some.injEq, Prod.mk.injEq] at ha
      obtain ⟨_, rfl⟩ := ha
      obtain ⟨_, _, _, _, c, hc, hf⟩ := h6 rfl
      exact ⟨h2, h3, Or.inr ⟨c, hc, hf⟩⟩

/-! ## The API functions return on reachable states -/

theorem Reachable.exact_of_quiescent {st : SatState} (h : Reachable st) (hq : Quiescent st) :
    ∀ c ∈ st.q, sat_check_subsumed_clause st c = false :=
  h.inv.2.2.exact h.inv.1 hq

/-- Unit resolution returns on every reachable state; after the return value 1 the state is
quiescent and its queue holds exactly the clauses without an implied literal. -/
theorem Reachable.unit_resolution_total {st : SatState} (h : Reachable st) :
    ∃ r st', sat_unit_resolution st = some (r, st') ∧ Reachable st' ∧ Ext st st' ∧
      (r = true → Quiescent st' ∧
        ∀ c ∈ st'.q, sat_check_subsumed_clause st' c = false ∧ 2 ≤ unresolved st' c) ∧
      (r = false → ∃ a, st'.ac = some a ∧ a ∉ clauses st' ∧ AssertingShape st' (st'.lits a) ∧
        ∃ c ∈ st'.q, AllFalse st' c) := by
  obtain ⟨hI, hS, _⟩ := h.inv
  obtain ⟨r, st', h1, h2, _, h4, h5, h6⟩ := ur_summary hI hS.butLast
  exact ⟨r, st', h1, Reachable.unit_resolution st r st' h h1, h4,
    fun hr => ⟨quiescent_of_good h2 (h5 hr), h5 hr⟩, h6⟩

/-- The function `sat_decide_literal` returns when its preconditions hold; it returns `NULL`
exactly when its unit resolution returned 1. -/
theorem Reachable.decide_total {st : SatState} (h : Reachable st) {lit : Int}
    (hv : ValidLit st.varnum lit)
    (hn : sat_instantiated_var st (sat_literal_var lit) = false) (hq : Quiescent st) :
    ∃ r st', sat_decide_literal lit st = some (r, st') ∧ Reachable st' ∧
      Ext (decide_bookkeeping lit st) st' ∧
      (r = none → Quiescent st' ∧
        ∀ c ∈ st'.q, sat_check_subsumed_clause st' c = false ∧ 2 ≤ unresolved st' c) ∧
      (r ≠ none → r = st'.ac ∧ ∃ a, st'.ac = some a ∧ a ∉ clauses st' ∧
        AssertingShape st' (st'.lits a) ∧ ∃ c ∈ st'.q, AllFalse st' c) := by
  obtain ⟨hI, _, _⟩ := h.inv
  obtain ⟨hI2, hS2⟩ := decide_bookkeeping_inv hI hq (h.exact_of_quiescent hq) hv hn
  obtain ⟨r0, st0, h1, h2, _, h4, h5, h6⟩ := ur_summary hI2 hS2.butLast
  cases r0 with
  | true =>
    have hd : sat_decide_literal lit st = some (none, st0) := by
      unfold sat_decide_literal; rw [h1]
    exact ⟨none, st0, hd, Reachable.decide st lit none st0 h hv hn hq hd, h4,
      fun _ => ⟨quiescent_of_good h2 (h5 rfl), h5 rfl⟩, fun hne => absurd rfl hne⟩
  | false =>
    have hd : sat_decide_literal lit st = some (st0.ac, st0) := by
      unfold sat_decide_literal; rw [h1]
    obtain ⟨a, ha, hrest⟩ := h6 rfl
    refine ⟨st0.ac, st0, hd, Reachable.decide st lit st0.ac st0 h hv hn hq hd, h4,
      fun hr => ?_, fun _ => ⟨rfl, a, ha, hrest⟩⟩
    rw [ha] at hr; cases hr

/-- The function `sat_undo_decide_literal` returns when a decision exists. -/
theorem Reachable.undo_total {st : SatState} (h : Reachable st) (hds : st.ds ≠ []) :
    ∃ st' d T, sat_undo_decide_literal st = some st' ∧ Reachable st' ∧ UndoRel st st' d T ∧
      ∀ c ∈ st'.q, sat_check_subsumed_clause st' c = false := by
  obtain ⟨hI, hS, _⟩ := h.inv
  obtain ⟨st', d, T, h1, h2, _, h4⟩ := undo_decide_spec hI hS hds
  exact ⟨st', d, T, h1, Reachable.undo st st' h hds h1, h2, h4⟩

/-- The function `sat_assert_clause` returns when its preconditions hold. -/
theorem Reachable.assert_total {st : SatState} (h : Reachable st) {c : Nat}
    (hac : st.ac = some c) (hlc : c ∉ st.lc) (hat : sat_at_assertion_level c st = true) :
    ∃ r st', sat_assert_clause c st = some (r, st') ∧ Reachable st' ∧
      Ext (assert_clause_bookkeeping c st) st' ∧
      (r = none → Quiescent st' ∧
        ∀ c ∈ st'.q, sat_check_subsumed_clause st' c = false ∧ 2 ≤ unresolved st' c) ∧
      (r ≠ none → r = st'.ac ∧ ∃ a, st'.ac = some a ∧ a ∉ clauses st' ∧
        AssertingShape st' (st'.lits a) ∧ ∃ c ∈ st'.q, AllFalse st' c) := by
  obtain ⟨hI, hS, _⟩ := h.inv
  obtain ⟨hI2, hS2⟩ := assert_bookkeeping_inv hI hS hac hlc hat
  obtain ⟨r0, st0, h1, h2, _, h4, h5, h6⟩ := ur_summary hI2 hS2
  cases r0 with
  | true =>
    have hd : sat_assert_clause c st = some (none, st0) := by
      unfold sat_assert_clause; rw [h1]
    exact ⟨none, st0, hd, Reachable.assert st c none st0 h hac hlc hat hd, h4,
      fun _ => ⟨quiescent_of_good h2 (h5 rfl), h5 rfl⟩, fun hne => absurd rfl hne⟩
  | false =>
    have hd : sat_assert_clause c st = some (st0.ac, st0) := by
      unfold sat_assert_clause; rw [h1]
    obtain ⟨a, ha, hrest⟩ := h6 rfl
    refine ⟨st0.ac, st0, hd, Reachable.assert st c st0.ac st0 h hac hlc hat hd, h4,
      fun hr => ?_, fun _ => ⟨rfl, a, ha, hrest⟩⟩
    rw [ha] at hr; cases hr

/-- In a state whose queued clauses have exact flags, a clause of the store is flagged
exactly when one of its literals is implied. -/
theorem flags_exact {st : SatState} (hI : Inv st)
    (hA : ∀ c ∈ st.q, sat_check_subsumed_clause st c = false) :
    ∀ c ∈ clauses st, (st.subsumed c = true ↔ ∃ l ∈ st.lits c, st.implied l = true) := by
  intro c hc
  rw [← check_iff]
  constructor
  · exact hI.queue.flag_true c hc
  · intro hch
    by_contra hne
    have hf : st.subsumed c = false := by simpa using hne
    have := hA c ((hI.queue.q_flag c hc).2 hf)
    rw [hch] at this; cases this

/-! ## The conflicts of unit resolution, as called directly and by decide and assert -/

/-- Outcome of a `sat_unit_resolution` that returns 0 on a state that satisfies the
invariant. -/
theorem ur_conflict_summary {st : SatState} (hI : Inv st) {st' : SatState}
    (hur : sat_unit_resolution st = some (false, st')) :
    Inv st' ∧ Ext st st' ∧ ∃ a, st'.ac = some a ∧ a ∉ clauses st' ∧
      AssertingShape st' (st'.lits a) ∧ ∃ c ∈ st'.q, AllFalse st' c := by
  obtain ⟨r, st'', st1, h1, h2, h3, h4⟩ :=
    sat_unit_resolution_spec (fun x => Ext st x)
      (fun x hx hb => pass_ext st x.q.length false x hx (le_refl _) hb)
      hI (Ext.ext_same st)
  rw [hur] at h1
  obtain ⟨rfl, rfl⟩ := Prod.mk.inj (Option.some.inj h1)
  have e1 : (unit_resolution_pass st1.q.length false st1).2 = st' := by rw [h4]
  have e2 : (unit_resolution_pass st1.q.length false st1).1 = PassOutcome.conflict := by
    rw [h4]; rfl
  refine ⟨?_, ?_, ?_⟩
  · rw [← e1]; exact pass_inv h2
  · rw [← e1]; exact pass_ext st _ _ _ h2 (le_refl _) h3
  · have := pass_conflict st1.q.length false st1 h2 (le_refl _) e2
    rw [e1] at this
    exact this

/-- When `sat_decide_literal` returns a clause, its unit resolution returned 0 and the clause
is `ac`. -/
theorem decide_conflict {lit : Int} {st st' : SatState} {r : Option Nat}
    (hd : sat_decide_literal lit st = some (r, st')) (hr : r ≠ none) :
    sat_unit_resolution (decide_bookkeeping lit st) = some (false, st') ∧ r = st'.ac := by
  unfold sat_decide_literal at hd
  cases h : sat_unit_resolution (decide_bookkeeping lit st) with
  | none => rw [h] at hd; cases hd
  | some p =>
    rcases p with ⟨b, s⟩
    rw [h] at hd
    cases b with
    | true =>
      simp only [Option.some.injEq, Prod.mk.injEq] at hd
      exact absurd hd.1.symm hr
    | false =>
      simp only [Option.some.injEq, Prod.mk.injEq] at hd
      obtain ⟨e1, e2⟩ := hd
      subst e2
      exact ⟨rfl, e1.symm⟩

/-- When `sat_assert_clause` returns a clause, its unit resolution returned 0 and the clause
is `ac`. -/
theorem assert_conflict {c : Nat} {st st' : SatState} {r : Option Nat}
    (hd : sat_assert_clause c st = some (r, st')) (hr : r ≠ none) :
    sat_unit_resolution (assert_clause_bookkeeping c st) = some (false, st') ∧ r = st'.ac := by
  unfold sat_assert_clause at hd
  cases h : sat_unit_resolution (assert_clause_bookkeeping c st) with
  | none => rw [h] at hd; cases hd
  | some p =>
    rcases p with ⟨b, s⟩
    rw [h] at hd
    cases b with
    | true =>
      simp only [Option.some.injEq, Prod.mk.injEq] at hd
      exact absurd hd.1.symm hr
    | false =>
      simp only [Option.some.injEq, Prod.mk.injEq] at hd
      obtain ⟨e1, e2⟩ := hd
      subst e2
      exact ⟨rfl, e1.symm⟩

/-- A property of every conflict of unit resolution on a state that satisfies the invariant
holds for the three ways in which a reachable state runs unit resolution: the direct call,
the call made by `sat_decide_literal` and the call made by `sat_assert_clause`. -/
theorem Reachable.conflict_cases {st : SatState} (h : Reachable st)
    (P : SatState → SatState → Prop)
    (hP : ∀ s s', Inv s → sat_unit_resolution s = some (false, s') → P s s') :
    (∀ st', sat_unit_resolution st = some (false, st') → P st st') ∧
    (∀ lit r st', ValidLit st.varnum lit →
      sat_instantiated_var st (sat_literal_var lit) = false → Quiescent st →
      sat_decide_literal lit st = some (r, st') → r ≠ none →
      r = st'.ac ∧ P (decide_bookkeeping lit st) st') ∧
    (∀ clause r st', st.ac = some clause → clause ∉ st.lc →
      sat_at_assertion_level clause st = true →
      sat_assert_clause clause st = some (r, st') → r ≠ none →
      r = st'.ac ∧ P (assert_clause_bookkeeping clause st) st') := by
  obtain ⟨hI, hS, _⟩ := h.inv
  refine ⟨fun st' hur => hP st st' hI hur, ?_, ?_⟩
  · intro lit r st' hv hn hq hd hr
    obtain ⟨hI2, _⟩ := decide_bookkeeping_inv hI hq (h.exact_of_quiescent hq) hv hn
    obtain ⟨hur, e⟩ := decide_conflict hd hr
    exact ⟨e, hP _ st' hI2 hur⟩
  · intro c r st' hac hlc hat hd hr
    obtain ⟨hI2, _⟩ := assert_bookkeeping_inv hI hS hac hlc hat
    obtain ⟨hur, e⟩ := assert_conflict hd hr
    exact ⟨e, hP _ st' hI2 hur⟩

/-- The shape of the asserting clause gives one literal at the current level. -/
theorem AssertingShape.one_at_current_level {st : SatState} {ls : List Int}
    (hs : AssertingShape st ls) (hne : ls ≠ []) : OneAtCurrentLevel st ls := by
  obtain ⟨hs0, hs1⟩ := hs
  have hds : st.ds ≠ [] := fun e => hne (hs0 e)
  obtain ⟨low, uip, e, _, hu, hlow⟩ := hs1 hds
  unfold OneAtCurrentLevel
  simp only [sat_literal_var_eq, vector_size]
  rw [e]
  constructor
  · rw [List.countP_append]
    have : low.countP (fun l => decide (st.level l.natAbs = st.ds.length + 1)) = 0 := by
      rw [List.countP_eq_zero]
      intro x hx
      have := (hlow x hx).2
      simp; omega
    rw [this]
    simp [hu]
  · intro l hl hne'
    rcases List.mem_append.1 hl with h' | h'
    · exact (hlow l h').2
    · have : l = uip := by simpa using h'
      subst this
      exact absurd hu hne'

/-- The shape of the asserting clause makes each of its literals false. -/
theorem AssertingShape.all_false {st : SatState} (hT : Trail st) {ls : List Int}
    (hs : AssertingShape st ls) : AllLiteralsFalse st ls := by
  obtain ⟨hs0, hs1⟩ := hs
  intro l hl
  have hds : st.ds ≠ [] := fun e => by rw [hs0 e] at hl; cases hl
  obtain ⟨low, uip, e, hu, _, hlow⟩ := hs1 hds
  have hneg : -l ∈ st.s := by
    rw [e] at hl
    rcases List.mem_append.1 hl with h' | h'
    · exact (hlow l h').1
    · have : l = uip := by simpa using h'
      subst this
      exact hu
  have himp : st.implied (-l) = true := (hT.implied_iff _).2 hneg
  have hnot : st.implied l = false := by
    cases hv : st.implied l with
    | false => rfl
    | true => exact absurd ⟨hv, himp⟩ (hT.not_both l)
  refine ⟨?_, hnot, ?_⟩
  · rw [sat_opp_literal_eq]
    exact himp
  · unfold sat_instantiated_var sat_implied_literal sat_pos_literal sat_neg_literal
      sat_literal_var
    rcases Int.natAbs_eq l with e1 | e1
    · have : -l = -(l.natAbs : Int) := by omega
      rw [this] at himp
      rw [himp]
      simp
    · have : -l = (l.natAbs : Int) := by omega
      rw [this] at himp
      rw [himp]
      simp

/-- The unit resolution run by `sat_decide_literal`. -/
theorem decide_ur {lit : Int} {st st' : SatState} {r : Option Nat}
    (hd : sat_decide_literal lit st = some (r, st')) :
    ∃ b, sat_unit_resolution (decide_bookkeeping lit st) = some (b, st') := by
  unfold sat_decide_literal at hd
  cases h : sat_unit_resolution (decide_bookkeeping lit st) with
  | none => rw [h] at hd; cases hd
  | some p =>
    rcases p with ⟨b, s⟩
    rw [h] at hd
    cases b with
    | true =>
      simp only [Option.some.injEq, Prod.mk.injEq] at hd
      exact ⟨true, by rw [hd.2]⟩
    | false =>
      simp only [Option.some.injEq, Prod.mk.injEq] at hd
      exact ⟨false, by rw [hd.2]⟩

/-- A pass writes the level only of variables whose literal it pushes on the trail. -/
theorem pass_level_frame (st0 : SatState) : ∀ i more st, Inv st → i ≤ st.q.length →
    (∀ v, (∀ l ∈ st.s, l.natAbs ≠ v) → st.level v = st0.level v) →
    ∀ v, (∀ l ∈ (unit_resolution_pass i more st).2.s, l.natAbs ≠ v) →
      (unit_resolution_pass i more st).2.level v = st0.level v := by
  intro i more st hI hi hX
  refine (pass_induct_inv
    (fun _ _ s => ∀ v, (∀ l ∈ s.s, l.natAbs ≠ v) → s.level v = st0.level v)
    (fun _ s => ∀ v, (∀ l ∈ s.s, l.natAbs ≠ v) → s.level v = st0.level v)
    ?_ ?_ ?_ ?_ ?_ i more st hI hi hX).2.2
  · intro _ _ _ h; exact h
  · intro i more st c _ h _ _; exact h
  · intro i more st c _ h _ _ _; exact h
  · intro i more st c lit _ h _ _ _ _ _ _ v hv
    have hne : v ≠ lit.natAbs := fun e =>
      hv lit (List.mem_append_right _ (List.mem_singleton_self _)) e.symm
    show upd st.level (sat_literal_var lit) (vector_size st.ds + 1) v = st0.level v
    rw [sat_literal_var_eq, upd_other _ _ _ _ hne]
    exact h v (fun l hl => hv l (List.mem_append_left _ hl))
  · intro i more st c L2 U2 _ h _ _ _ _ _; exact h

/-- Unit resolution writes the level only of variables whose literal it pushes on the
trail. -/
theorem ur_level_frame {st : SatState} (hI : Inv st) {r : Bool} {st' : SatState}
    (hur : sat_unit_resolution st = some (r, st')) :
    ∀ v, (∀ l ∈ st'.s, l.natAbs ≠ v) → st'.level v = st.level v := by
  obtain ⟨r', st'', st1, h1, h2, h3, h4⟩ :=
    sat_unit_resolution_spec
      (fun s => ∀ v, (∀ l ∈ s.s, l.natAbs ≠ v) → s.level v = st.level v)
      (fun x hx hb => pass_level_frame st x.q.length false x hx (le_refl _) hb)
      hI (fun _ _ => rfl)
  rw [hur] at h1
  obtain ⟨rfl, rfl⟩ := Prod.mk.inj (Option.some.inj h1)
  have e1 : (unit_resolution_pass st1.q.length false st1).2 = st' := by rw [h4]
  rw [← e1]
  exact pass_level_frame st _ _ _ h2 (le_refl _) h3

/-! ## Claims on unit resolution -/

theorem validCnf_chain : ValidCnf 3 cnf_chain := by
  unfold ValidCnf ValidLit cnf_chain; decide

theorem validCnf_learn : ValidCnf 4 cnf_learn := by
  unfold ValidCnf ValidLit cnf_learn; decide

theorem validCnf_stale : ValidCnf 2 cnf_stale := by
  unfold ValidCnf ValidLit cnf_stale; decide

theorem validCnf_order : ValidCnf 3 cnf_order := by
  unfold ValidCnf ValidLit cnf_order; decide

theorem validCnf_pair : ValidCnf 3 cnf_pair := by
  unfold ValidCnf ValidLit cnf_pair; decide

theorem validCnf_late : ValidCnf 2 cnf_late := by
  unfold ValidCnf ValidLit cnf_late; decide

/-- The run on `p cnf 3 2 / -1 -2 3 0 / -1 -2 -3 0`: unit resolution returns 1, `decide(+1)`
returns `NULL`, and `decide(+2)` returns the clause `{-1, -2}`. -/
theorem pair_scenario :
    ∃ stA stB rC stC,
      sat_unit_resolution (sat_state_new mem_zero 3 cnf_pair) = some (true, stA) ∧
      sat_decide_literal 1 stA = some (none, stB) ∧ Reachable stB ∧
      ValidLit stB.varnum 2 ∧ sat_instantiated_var stB (sat_literal_var 2) = false ∧
      Quiescent stB ∧ stB.ds ≠ [] ∧
      sat_decide_literal 2 stB = some (rC, stC) ∧ rC ≠ none ∧
      stC.ac.map stC.lits = some [-1, -2] ∧ Models (fun _ => false) stC := by
  have hR := Reachable.new mem_zero 3 cnf_pair validCnf_pair
  obtain ⟨rA, stA, hA, hRA, hEA, hQA, _⟩ := hR.unit_resolution_total
  have evA : (sat_unit_resolution (sat_state_new mem_zero 3 cnf_pair)).map
      (fun r => r.1 && !sat_instantiated_var r.2 (sat_literal_var 1)) = some true := by decide
  rw [hA] at evA
  simp only [Option.map_some', Option.some.injEq, Bool.and_eq_true, Bool.not_eq_true'] at evA
  obtain ⟨e, hn⟩ := evA
  subst e
  have hvn : stA.varnum = 3 := by rw [hEA.varnum_eq]; decide
  have hv : ValidLit stA.varnum 1 := by rw [hvn]; unfold ValidLit; decide
  obtain ⟨rB, stB, hB, hRB, hEB, hQB, _⟩ := hRA.decide_total hv hn (hQA rfl).1
  have evB : ((sat_unit_resolution (sat_state_new mem_zero 3 cnf_pair)).bind
      (fun a => sat_decide_literal 1 a.2)).map
        (fun r => r.1.isNone && !sat_instantiated_var r.2 (sat_literal_var 2)) = some true := by
    decide
  rw [hA] at evB
  simp only [Option.some_bind, hB, Option.map_some', Option.some.injEq, Bool.and_eq_true,
    Bool.not_eq_true', Option.isNone_iff_eq_none] at evB
  obtain ⟨e, hn2⟩ := evB
  subst e
  have hvn2 : stB.varnum = 3 := by rw [hEB.varnum_eq]; exact hvn
  have hv2 : ValidLit stB.varnum 2 := by rw [hvn2]; unfold ValidLit; decide
  have hdsB : stB.ds ≠ [] := by
    rw [hEB.ds_eq]
    show stA.ds ++ [1] ≠ []
    simp
  obtain ⟨rC, stC, hC, _⟩ := hRB.decide_total hv2 hn2 (hQB rfl).1
  have evC : ((sat_unit_resolution (sat_state_new mem_zero 3 cnf_pair)).bind
      (fun a => (sat_decide_literal 1 a.2).bind (fun b => sat_decide_literal 2 b.2))).map
        (fun r => (r.1.isSome, r.2.ac.map r.2.lits,
          decide (∀ c ∈ r.2.kb ++ r.2.lc,
            ∃ l ∈ r.2.lits c, lit_true (fun _ => false) l = true)))
      = some (true, some [-1, -2], true) := by decide
  rw [hA] at evC
  simp only [Option.some_bind, hB, hC, Option.map_some', Option.some.injEq,
    Prod.mk.injEq, Option.isSome_iff_ne_none, decide_eq_true_eq] at evC
  exact ⟨stA, stB, rC, stC, hA, hB, hRB, hv2, hn2, (hQB rfl).1, hdsB, hC, evC.1, evC.2.1,
    evC.2.2⟩

/-- C1: in every reachable state, whenever `sat_unit_resolution` returns 1, every clause of
`kb` and `lc` that contains no implied literal has at least two literal positions whose
opposite literal is not implied. -/
theorem C1_no_unit_or_empty_clause_after_success (st st' : SatState) (h : Reachable st)
    (hur : sat_unit_resolution st = some (true, st')) :
    ∀ c ∈ st'.kb ++ st'.lc, (∀ l ∈ st'.lits c, sat_implied_literal st' l = false) →
      2 ≤ (st'.lits c).countP (fun l => !sat_implied_literal st' (sat_opp_literal l)) := by
  obtain ⟨r, st0, h1, _, _, h4, _⟩ := h.unit_resolution_total
  rw [hur] at h1
  obtain ⟨rfl, rfl⟩ := Prod.mk.inj (Option.some.inj h1)
  intro c hc hno
  exact (h4 rfl).1 c hc ((check_false_iff _ c).2 hno)

/-- Witness of C1 on scenario S1: unit resolution returns 1 on the constructed state. -/
theorem C1_witness :
    ∃ st', sat_unit_resolution (sat_state_new mem_zero 3 cnf_chain) = some (true, st') ∧
      ∀ c ∈ st'.kb ++ st'.lc, (∀ l ∈ st'.lits c, sat_implied_literal st' l = false) →
        2 ≤ (st'.lits c).countP (fun l => !sat_implied_literal st' (sat_opp_literal l)) := by
  have hR := Reachable.new mem_zero 3 cnf_chain validCnf_chain
  obtain ⟨r, st', h1, _⟩ := hR.unit_resolution_total
  have ev : (sat_unit_resolution (sat_state_new mem_zero 3 cnf_chain)).map Prod.fst
      = some true := by decide
  rw [h1] at ev
  simp only [Option.map_some', Option.some.injEq] at ev
  subst ev
  exact ⟨st', h1, C1_no_unit_or_empty_clause_after_success _ st' hR h1⟩

/-- C2: whenever `sat_unit_resolution` returns 0 in a reachable state, called directly, by
`sat_decide_literal` or by `sat_assert_clause` (which then return the clause `ac`), and the
asserting clause `ac` it built is non-empty, exactly one literal of `ac` has a variable of
level `|ds| + 1` and every other literal has a variable of strictly lower level; the clause
returned by `sat_decide_literal` is never empty. -/
theorem C2_asserting_clause_has_one_literal_at_current_level (st : SatState)
    (h : Reachable st) :
    (∀ st', sat_unit_resolution st = some (false, st') →
      ∃ ac, st'.ac = some ac ∧
        (st'.lits ac ≠ [] → OneAtCurrentLevel st' (st'.lits ac))) ∧
    (∀ lit r st', ValidLit st.varnum lit →
      sat_instantiated_var st (sat_literal_var lit) = false → Quiescent st →
      sat_decide_literal lit st = some (r, st') → r ≠ none →
      ∃ ac, r = some ac ∧ st'.ac = some ac ∧ st'.lits ac ≠ [] ∧
        OneAtCurrentLevel st' (st'.lits ac)) ∧
    (∀ clause r st', st.ac = some clause → clause ∉ st.lc →
      sat_at_assertion_level clause st = true →
      sat_assert_clause clause st = some (r, st') → r ≠ none →
      ∃ ac, r = some ac ∧ st'.ac = some ac ∧
        (st'.lits ac ≠ [] → OneAtCurrentLevel st' (st'.lits ac))) := by
  obtain ⟨h1, h2, h3⟩ := h.conflict_cases
    (fun s s' => s'.ds = s.ds ∧ ∃ ac, s'.ac = some ac ∧ AssertingShape s' (s'.lits ac))
    (fun s s' hI hur => by
      obtain ⟨_, hE, a, ha, _, hsh, _⟩ := ur_conflict_summary hI hur
      exact ⟨hE.ds_eq, a, ha, hsh⟩)
  refine ⟨?_, ?_, ?_⟩
  · intro st' hur
    obtain ⟨_, a, ha, hsh⟩ := h1 st' hur
    exact ⟨a, ha, fun hne => hsh.one_at_current_level hne⟩
  · intro lit r st' hv hn hq hd hr
    obtain ⟨e, hds, a, ha, hsh⟩ := h2 lit r st' hv hn hq hd hr
    have hds' : st'.ds ≠ [] := by
      rw [hds]
      show st.ds ++ [lit] ≠ []
      simp
    have hne : st'.lits a ≠ [] := by
      obtain ⟨low, uip, e', _⟩ := hsh.2 hds'
      rw [e']
      simp
    exact ⟨a, by rw [e, ha], ha, hne, hsh.one_at_current_level hne⟩
  · intro c r st' hac hlc hat hd hr
    obtain ⟨e, _, a, ha, hsh⟩ := h3 c r st' hac hlc hat hd hr
    exact ⟨a, by rw [e, ha], ha, fun hne => hsh.one_at_current_level hne⟩

/-- Witness of C2 on `p cnf 3 2 / -1 -2 3 0 / -1 -2 -3 0`: after `decide(+1)`, the call
`decide(+2)` returns the asserting clause `{-1, -2}`, whose literal `-2` has the current
level 3 and whose literal `-1` has the level 2. -/
theorem C2_witness :
    ∃ stA stB rC stC,
      sat_unit_resolution (sat_state_new mem_zero 3 cnf_pair) = some (true, stA) ∧
      sat_decide_literal 1 stA = some (none, stB) ∧ Reachable stB ∧
      sat_decide_literal 2 stB = some (rC, stC) ∧ rC ≠ none ∧
      stC.ac.map stC.lits = some [-1, -2] ∧
      ∃ ac, rC = some ac ∧ stC.ac = some ac ∧ stC.lits ac ≠ [] ∧
        OneAtCurrentLevel stC (stC.lits ac) := by
  obtain ⟨stA, stB, rC, stC, hA, hB, hRB, hv, hn, hQ, _, hC, hr, hl, _⟩ := pair_scenario
  exact ⟨stA, stB, rC, stC, hA, hB, hRB, hC, hr, hl,
    (C2_asserting_clause_has_one_literal_at_current_level stB hRB).2.1 2 rC stC hv hn hQ hC hr⟩

/-! ## Claims on the round trip of decide and undo, and on the subsumed flags -/

/-- Two splits of a duplicate-free list around the same element coincide. -/
theorem split_unique {α : Type} {x : α} : ∀ {a a' b b' : List α},
    a ++ x :: b = a' ++ x :: b' → (a ++ x :: b).Nodup → a = a' ∧ b = b'
  | [], [], b, b', h, _ => by simpa using h
  | [], y :: a', b, b', h, hn => by
    simp only [List.nil_append, List.cons_append, List.cons.injEq] at h
    obtain ⟨rfl, hb⟩ := h
    rw [List.nil_append, hb] at hn
    simp at hn
  | z :: a, [], b, b', h, hn => by
    simp only [List.nil_append, List.cons_append, List.cons.injEq] at h
    obtain ⟨rfl, _⟩ := h
    simp at hn
  | z :: a, y :: a', b, b', h, hn => by
    simp only [List.cons_append, List.cons.injEq] at h
    obtain ⟨rfl, h'⟩ := h
    rw [List.cons_append, List.nodup_cons] at hn
    obtain ⟨e1, e2⟩ := split_unique h' hn.2
    exact ⟨by rw [e1], e2⟩

/-- A variable is instantiated exactly when one of its literals is on the trail. -/
theorem Trail.instantiated {st : SatState} (h : Trail st) {v : Nat}
    (hv : sat_instantiated_var st v = true) : ∃ l ∈ st.s, l.natAbs = v := by
  unfold sat_instantiated_var sat_implied_literal sat_pos_literal sat_neg_literal at hv
  rcases Bool.or_eq_true _ _ ▸ hv with h1 | h1
  · exact ⟨(v : Int), (h.implied_iff _).1 h1, by simp⟩
  · exact ⟨-(v : Int), (h.implied_iff _).1 h1, by simp⟩

/-- C3: after a successful unit resolution, `sat_decide_literal` on a literal of an
uninstantiated variable followed by `sat_undo_decide_literal` restores `s`, `ds`, `il`, the
clause store, every implied flag and the subsumed flag of every clause of the store; the
queue `q` is restored up to the order of its entries; the level is restored for every
instantiated variable and, more generally, for every variable other than the decided
variable and the variables of the literals `T` forced by the decide; the decided variable
and the variables of `T` keep the level `|ds| + 2` written during the decide. -/
theorem C3_decide_undo_restores_assignment (st0 st st1 st2 : SatState) (lit : Int)
    (r : Option Nat) (h0 : Reachable st0)
    (hur : sat_unit_resolution st0 = some (true, st))
    (hv : ValidLit st.varnum lit)
    (hn : sat_instantiated_var st (sat_literal_var lit) = false)
    (hd : sat_decide_literal lit st = some (r, st1))
    (hu : sat_undo_decide_literal st1 = some st2) :
    st2.s = st.s ∧ st2.ds = st.ds ∧ st2.il = st.il ∧ st2.q.Perm st.q ∧
    st2.kb = st.kb ∧ st2.lc = st.lc ∧
    (∀ l, sat_implied_literal st2 l = sat_implied_literal st l) ∧
    (∀ c ∈ st.kb ++ st.lc, sat_subsumed_clause st2 c = sat_subsumed_clause st c) ∧
    (∀ v, sat_instantiated_var st v = true → st2.level v = st.level v) ∧
    ∃ T, st1.s = st.s ++ lit :: T ∧ st1.il = st.il ++ T ∧
      (∀ v, v ≠ sat_literal_var lit → (∀ x ∈ T, sat_literal_var x ≠ v) →
        st2.level v = st.level v) ∧
      st2.level (sat_literal_var lit) = vector_size st.ds + 2 ∧
      (∀ x ∈ T, st2.level (sat_literal_var x) = vector_size st.ds + 2) := by
  obtain ⟨r0, st', h1, hR, _, hq, _⟩ := h0.unit_resolution_total
  rw [hur] at h1
  obtain ⟨rfl, rfl⟩ := Prod.mk.inj (Option.some.inj h1)
  obtain ⟨hQ, hgood⟩ := hq rfl
  obtain ⟨hI, _, _⟩ := hR.inv
  obtain ⟨r1, st1', hd', hR1, hE, _, _⟩ := hR.decide_total hv hn hQ
  rw [hd] at hd'
  obtain ⟨rfl, rfl⟩ := Prod.mk.inj (Option.some.inj hd')
  obtain ⟨t, hs, hil, himp, _⟩ := hE.grow
  have hds1 : st1.ds = st.ds ++ [lit] := by rw [hE.ds_eq]; rfl
  have hds1ne : st1.ds ≠ [] := by rw [hds1]; simp
  obtain ⟨st2', d, T, hu', hR2, hU, hex2⟩ := hR1.undo_total hds1ne
  rw [hu] at hu'
  obtain rfl := Option.some.inj hu'
  obtain ⟨hI1, _, _⟩ := hR1.inv
  obtain ⟨hI2, _, _⟩ := hR2.inv
  -- the stacks
  have e1 : st.ds ++ [lit] = st2.ds ++ [d] := by rw [← hds1, hU.ds_eq]
  obtain ⟨eds, ed⟩ := List.append_inj' e1 rfl
  have ed' : d = lit := by simpa using ed.symm
  subst ed'
  have hs1 : st1.s = st.s ++ d :: t := by
    rw [hs]; simp [decide_bookkeeping, vector_push]
  have hil1 : st1.il = st.il ++ t := by rw [hil]; rfl
  have hnd : (st.s ++ d :: t).Nodup := hs1 ▸ hI1.trail.s_nodup'
  have e2 : st.s ++ d :: t = st2.s ++ d :: T := by rw [← hs1, hU.s_eq]
  obtain ⟨es, et⟩ := split_unique e2 hnd
  subst et
  have eil : st.il = st2.il := by
    have : st.il ++ t = st2.il ++ t := by rw [← hil1, hU.il_eq]
    exact List.append_cancel_right this
  -- the frame of the two calls
  have fkb : st2.kb = st.kb := by
    have a : st2.kb = st1.kb := by have := congrArg SatState.kb hU.frame; exact this
    rw [a, hE.kb_eq]; rfl
  have flc : st2.lc = st.lc := by
    have a : st2.lc = st1.lc := by have := congrArg SatState.lc hU.frame; exact this
    rw [a, hE.lc_eq]; rfl
  have fcl : clauses st2 = clauses st := by unfold clauses; rw [fkb, flc]
  have flits : ∀ c ∈ clauses st, st2.lits c = st.lits c := by
    intro c hc
    have a : st2.lits = st1.lits := by have := congrArg SatState.lits hU.frame; exact this
    rw [a, hE.lits_eq c hc]; rfl
  have flev : st2.level = st1.level := by
    have := congrArg SatState.level hU.frame; exact this
  -- the assignment
  have hnot := not_instantiated hn
  have fimp : ∀ l, st2.implied l = st.implied l := by
    intro l
    rw [Bool.eq_iff_iff, hU.implied_iff, himp]
    constructor
    · rintro ⟨h1 | h1, h2, h3⟩
      · have : (decide_bookkeeping d st).implied l = upd st.implied d true l := rfl
        rw [this, upd_other _ _ _ _ h2] at h1
        exact h1
      · exact absurd h1 h3
    · intro hl
      have hm : l ∈ st.s := (hI.trail.implied_iff l).1 hl
      have hdis := List.nodup_append.1 hnd
      have h2 : l ≠ d := fun e => hdis.2.2 hm (e ▸ List.mem_cons_self _ _)
      have h3 : l ∉ t := fun e => hdis.2.2 hm (List.mem_cons_of_mem _ e)
      refine ⟨Or.inl ?_, h2, h3⟩
      have : (decide_bookkeeping d st).implied l = upd st.implied d true l := rfl
      rw [this, upd_other _ _ _ _ h2]
      exact hl
  have hex : ∀ c ∈ st.q, sat_check_subsumed_clause st c = false := fun c hc => (hgood c hc).1
  have fsub : ∀ c ∈ clauses st, st2.subsumed c = st.subsumed c := by
    intro c hc
    rw [Bool.eq_iff_iff, flags_exact hI2 hex2 c (fcl ▸ hc), flags_exact hI hex c hc,
      flits c hc]
    simp only [fimp]
  have hlev_s : ∀ l ∈ st.s, st2.level l.natAbs = st.level l.natAbs := by
    intro l hl
    have hbk : l ∈ (decide_bookkeeping d st).s := by
      show l ∈ st.s ++ [d]
      exact List.mem_append_left _ hl
    rw [flev, hE.level_eq l hbk]
    have hne : l.natAbs ≠ sat_literal_var d := by
      intro e
      have hl' := (hI.trail.implied_iff l).2 hl
      rcases natAbs_eq_cases e with e' | e'
      · rw [e', hnot.1] at hl'; cases hl'
      · rw [e', hnot.2] at hl'; cases hl'
    show upd st.level (sat_literal_var d) _ l.natAbs = st.level l.natAbs
    exact upd_other _ _ _ _ hne
  have hlen1 : st1.ds.length + 1 = vector_size st.ds + 2 := by
    rw [hds1]; simp [vector_size]
  refine ⟨es.symm, eds.symm, eil.symm, ?_, fkb, flc, fimp, fsub, ?_, t, hs1, hil1, ?_, ?_, ?_⟩
  · refine (List.perm_ext_iff_of_nodup hI2.queue.q_nodup hI.queue.q_nodup).2 (fun c => ?_)
    constructor
    · intro hc
      have hc2 := hI2.queue.q_sub c hc
      have := (hI2.queue.q_flag c hc2).1 hc
      rw [fcl] at hc2
      rw [fsub c hc2] at this
      exact (hI.queue.q_flag c hc2).2 this
    · intro hc
      have hc1 := hI.queue.q_sub c hc
      have := (hI.queue.q_flag c hc1).1 hc
      rw [← fsub c hc1] at this
      exact (hI2.queue.q_flag c (fcl ▸ hc1)).2 this
  · intro v hv'
    obtain ⟨l, hl, rfl⟩ := hI.trail.instantiated hv'
    exact hlev_s l hl
  · intro v hvd hvT
    by_cases hon : ∃ l ∈ st.s, l.natAbs = v
    · obtain ⟨l, hl, rfl⟩ := hon
      exact hlev_s l hl
    · obtain ⟨b, hub⟩ := decide_ur hd
      obtain ⟨hIb, _⟩ := decide_bookkeeping_inv hI hQ hex hv hn
      have hfr := ur_level_frame hIb hub v (by
        intro l hl e
        rw [hs1] at hl
        rcases List.mem_append.1 hl with h' | h'
        · exact hon ⟨l, h', e⟩
        · rcases List.mem_cons.1 h' with h' | h'
          · rw [h'] at e
            exact hvd e.symm
          · exact hvT l h' e)
      rw [flev, hfr]
      show upd st.level (sat_literal_var d) _ v = st.level v
      exact upd_other _ _ _ _ hvd
  · rw [flev, ← hlen1]
    exact hU.level_d
  · intro x hx
    rw [flev, ← hlen1]
    exact hU.level_T x hx

/-- Witness of C3 on scenario S4: `decide(+1)` runs into a conflict, and the undo restores
the state reached by the first unit resolution. -/
theorem C3_witness :
    ∃ stA rB stB stC,
      sat_unit_resolution (sat_state_new mem_zero 4 cnf_learn) = some (true, stA) ∧
      sat_decide_literal 1 stA = some (rB, stB) ∧ rB ≠ none ∧
      sat_undo_decide_literal stB = some stC ∧
      stC.s = stA.s ∧ stC.ds = stA.ds ∧ stC.il = stA.il ∧ stC.q.Perm stA.q ∧
      stC.kb = stA.kb ∧ stC.lc = stA.lc ∧
      (∀ l, sat_implied_literal stC l = sat_implied_literal stA l) ∧
      (∀ c ∈ stA.kb ++ stA.lc, sat_subsumed_clause stC c = sat_subsumed_clause stA c) ∧
      (∀ v, sat_instantiated_var stA v = true → stC.level v = stA.level v) ∧
      ∃ T, stB.s = stA.s ++ 1 :: T ∧ stB.il = stA.il ++ T ∧
        (∀ v, v ≠ sat_literal_var 1 → (∀ x ∈ T, sat_literal_var x ≠ v) →
          stC.level v = stA.level v) ∧
        stC.level (sat_literal_var 1) = vector_size stA.ds + 2 ∧
        (∀ x ∈ T, stC.level (sat_literal_var x) = vector_size stA.ds + 2) := by
  have hR := Reachable.new mem_zero 4 cnf_learn validCnf_learn
  obtain ⟨rA, stA, hA, hRA, hEA, hQA, _⟩ := hR.unit_resolution_total
  have evA : (sat_unit_resolution (sat_state_new mem_zero 4 cnf_learn)).map Prod.fst
      = some true := by decide
  rw [hA] at evA
  simp only [Option.map_some', Option.some.injEq] at evA
  subst evA
  have hvn : stA.varnum = 4 := by rw [hEA.varnum_eq]; decide
  have hv : ValidLit stA.varnum 1 := by rw [hvn]; unfold ValidLit; decide
  have hn : sat_instantiated_var stA (sat_literal_var 1) = false := by
    have ev : (sat_unit_resolution (sat_state_new mem_zero 4 cnf_learn)).map
        (fun r => sat_instantiated_var r.2 (sat_literal_var 1)) = some false := by decide
    rw [hA] at ev
    simpa using ev
  obtain ⟨rB, stB, hB, hRB, hEB, _⟩ := hRA.decide_total hv hn (hQA rfl).1
  have hdsB : stB.ds ≠ [] := by
    rw [hEB.ds_eq]
    show stA.ds ++ [1] ≠ []
    simp
  obtain ⟨stC, _, _, hC, _⟩ := hRB.undo_total hdsB
  have evB : ((sat_unit_resolution (sat_state_new mem_zero 4 cnf_learn)).bind
      (fun a => sat_decide_literal 1 a.2)).map (fun b => b.1.isSome) = some true := by decide
  rw [hA] at evB
  simp only [Option.some_bind, hB, Option.map_some', Option.some.injEq] at evB
  have hrB : rB ≠ none := by
    intro e
    rw [e] at evB
    cases evB
  exact ⟨stA, rB, stB, stC, hA, hB, hrB, hC,
    C3_decide_undo_restores_assignment _ stA stB stC 1 rB hR hA hv hn hB hC⟩

/-- Counterexample to C3 as stated, on `p cnf 3 2 / 1 2 0 / 2 3 0`: after a successful unit
resolution, `decide(+1)` followed by the undo leaves the queue in the order `[1, 0]` instead
of `[0, 1]`, and leaves the level 2 in variable 1, whose level was 0 before. -/
theorem C3_counterexample :
    ∃ stA rB stB stC,
      sat_unit_resolution (sat_state_new mem_zero 3 cnf_order) = some (true, stA) ∧
      sat_instantiated_var stA (sat_literal_var 1) = false ∧
      sat_decide_literal 1 stA = some (rB, stB) ∧
      sat_undo_decide_literal stB = some stC ∧
      stA.q = [0, 1] ∧ stC.q = [1, 0] ∧ stA.level 1 = 0 ∧ stC.level 1 = 2 := by
  have hR := Reachable.new mem_zero 3 cnf_order validCnf_order
  obtain ⟨rA, stA, hA, hRA, hEA, hQA, _⟩ := hR.unit_resolution_total
  have evA : (sat_unit_resolution (sat_state_new mem_zero 3 cnf_order)).map Prod.fst
      = some true := by decide
  rw [hA] at evA
  simp only [Option.map_some', Option.some.injEq] at evA
  subst evA
  have hvn : stA.varnum = 3 := by rw [hEA.varnum_eq]; decide
  have hv : ValidLit stA.varnum 1 := by rw [hvn]; unfold ValidLit; decide
  have hn : sat_instantiated_var stA (sat_literal_var 1) = false := by
    have ev : (sat_unit_resolution (sat_state_new mem_zero 3 cnf_order)).map
        (fun r => sat_instantiated_var r.2 (sat_literal_var 1)) = some false := by decide
    rw [hA] at ev
    simpa using ev
  obtain ⟨rB, stB, hB, hRB, hEB, _⟩ := hRA.decide_total hv hn (hQA rfl).1
  have hdsB : stB.ds ≠ [] := by
    rw [hEB.ds_eq]
    show stA.ds ++ [1] ≠ []
    simp
  obtain ⟨stC, _, _, hC, _⟩ := hRB.undo_total hdsB
  have ev : ((sat_unit_resolution (sat_state_new mem_zero 3 cnf_order)).bind
      (fun a => (sat_decide_literal 1 a.2).bind
        (fun b => (sat_undo_decide_literal b.2).map
          (fun c => (a.2.q, c.q, a.2.level 1, c.level 1))))) = some ([0, 1], [1, 0], 0, 2) := by
    decide
  rw [hA] at ev
  simp only [Option.some_bind, hB, hC, Option.map_some', Option.some.injEq,
    Prod.mk.injEq] at ev
  obtain ⟨e1, e2, e3, e4⟩ := ev
  exact ⟨stA, rB, stB, stC, hA, hn, hB, hC, e1, e2, e3, e4⟩

/-- C4: in every reachable state a flagged clause of the store has an implied literal; the
flags are exact (a clause is flagged exactly when one of its literals is implied) after
`sat_unit_resolution` returns 1, after `sat_decide_literal` and `sat_assert_clause` return
`NULL`, and after `sat_undo_decide_literal`. -/
theorem C4_subsumed_flags_exact_unless_conflict (st : SatState) (h : Reachable st) :
    (∀ c ∈ st.kb ++ st.lc, sat_subsumed_clause st c = true →
      ∃ l ∈ st.lits c, sat_implied_literal st l = true) ∧
    (∀ st', sat_unit_resolution st = some (true, st') → FlagsExact st') ∧
    (∀ lit st', ValidLit st.varnum lit →
      sat_instantiated_var st (sat_literal_var lit) = false → Quiescent st →
      sat_decide_literal lit st = some (none, st') → FlagsExact st') ∧
    (∀ st', st.ds ≠ [] → sat_undo_decide_literal st = some st' → FlagsExact st') ∧
    (∀ clause st', st.ac = some clause → clause ∉ st.lc →
      sat_at_assertion_level clause st = true →
      sat_assert_clause clause st = some (none, st') → FlagsExact st') := by
  refine ⟨?_, ?_, ?_, ?_, ?_⟩
  · intro c hc hs
    exact (check_iff st c).1 (h.inv.1.queue.flag_true c hc hs)
  · intro st' hur
    obtain ⟨r, st0, h1, hR, _, hq, _⟩ := h.unit_resolution_total
    rw [hur] at h1
    obtain ⟨rfl, rfl⟩ := Prod.mk.inj (Option.some.inj h1)
    exact flags_exact hR.inv.1 (fun c hc => ((hq rfl).2 c hc).1)
  · intro lit st' hv hn hQ hd
    obtain ⟨r, st0, h1, hR, _, hq, _⟩ := h.decide_total hv hn hQ
    rw [hd] at h1
    obtain ⟨rfl, rfl⟩ := Prod.mk.inj (Option.some.inj h1)
    exact flags_exact hR.inv.1 (fun c hc => ((hq rfl).2 c hc).1)
  · intro st' hds hu
    obtain ⟨st0, _, _, h1, hR, _, hq⟩ := h.undo_total hds
    rw [hu] at h1
    obtain rfl := Option.some.inj h1
    exact flags_exact hR.inv.1 hq
  · intro clause st' hac hlc hat ha
    obtain ⟨r, st0, h1, hR, _, hq, _⟩ := h.assert_total hac hlc hat
    rw [ha] at h1
    obtain ⟨rfl, rfl⟩ := Prod.mk.inj (Option.some.inj h1)
    exact flags_exact hR.inv.1 (fun c hc => ((hq rfl).2 c hc).1)

/-- Witness of C4 on scenario S1: unit resolution returns 1 on the constructed state and
leaves exact flags. -/
theorem C4_witness :
    ∃ st', sat_unit_resolution (sat_state_new mem_zero 3 cnf_chain) = some (true, st') ∧
      FlagsExact st' := by
  have hR := Reachable.new mem_zero 3 cnf_chain validCnf_chain
  obtain ⟨r, st', h1, _⟩ := hR.unit_resolution_total
  have ev : (sat_unit_resolution (sat_state_new mem_zero 3 cnf_chain)).map Prod.fst
      = some true := by decide
  rw [h1] at ev
  simp only [Option.map_some', Option.some.injEq] at ev
  subst ev
  exact ⟨st', h1, (C4_subsumed_flags_exact_unless_conflict _ hR).2.1 st' h1⟩

/-- Counterexample to C4 as stated, on `p cnf 2 3 / -1 0 / 1 0 / 1 2 0`: unit resolution
returns 0 on the constructed state, and the clause `1 2` (address 2) has the implied literal
`1` while its subsumed flag is 0. -/
theorem C4_counterexample :
    ∃ st', sat_unit_resolution (sat_state_new mem_zero 2 cnf_stale) = some (false, st') ∧
      2 ∈ st'.kb ++ st'.lc ∧ 1 ∈ st'.lits 2 ∧ sat_implied_literal st' 1 = true ∧
      sat_subsumed_clause st' 2 = false := by
  have hR := Reachable.new mem_zero 2 cnf_stale validCnf_stale
  obtain ⟨r, st', h1, _⟩ := hR.unit_resolution_total
  have ev : (sat_unit_resolution (sat_state_new mem_zero 2 cnf_stale)).map
      (fun a => (a.1, decide (2 ∈ a.2.kb ++ a.2.lc), decide (1 ∈ a.2.lits 2),
        sat_implied_literal a.2 1, sat_subsumed_clause a.2 2))
      = some (false, true, true, true, false) := by decide
  rw [h1] at ev
  simp only [Option.map_some', Option.some.injEq, Prod.mk.injEq, decide_eq_true_eq] at ev
  obtain ⟨rfl, e1, e2, e3, e4⟩ := ev
  exact ⟨st', h1, e1, e2, e3, e4⟩

/-! ## Claims on repeated unit resolution and on the clause index -/

/-- C9: on a reachable state, a second call of `sat_unit_resolution` right after the first
returns the same value, and after the return value 1 the second call leaves the state (and
with it `q`, `il`, `s`, `ds` and every `implied`, `subsumed`, `level` and `locate` field)
unchanged. -/
theorem C9_unit_resolution_twice (st st1 : SatState) (r : Bool) (h : Reachable st)
    (hur : sat_unit_resolution st = some (r, st1)) :
    ∃ st2, sat_unit_resolution st1 = some (r, st2) ∧ (r = true → st2 = st1) := by
  obtain ⟨r0, st0, h1, hR, _, hq, hc⟩ := h.unit_resolution_total
  rw [hur] at h1
  obtain ⟨rfl, rfl⟩ := Prod.mk.inj (Option.some.inj h1)
  cases r with
  | true =>
    refine ⟨st1, ?_, fun _ => rfl⟩
    have hp := pass_noop hR.inv.1.queue (hq rfl).2 st1.q.length (le_refl _)
    unfold sat_unit_resolution unit_resolution_loop
    simp only [vector_size]
    rw [hp]
  | false =>
    obtain ⟨r2, st2, h2, hR2, hE2, hq2, _⟩ := hR.unit_resolution_total
    cases r2 with
    | false => exact ⟨st2, h2, fun e => by cases e⟩
    | true =>
      exfalso
      obtain ⟨a, _, _, _, c, hcq, hcf⟩ := hc rfl
      have hcc : c ∈ clauses st1 := hR.inv.1.queue.q_sub c hcq
      obtain ⟨t, _, _, himp, _⟩ := hE2.grow
      have hAF : AllFalse st2 c := by
        intro l hl
        rw [hE2.lits_eq c hcc] at hl
        exact (himp (-l)).2 (Or.inl (hcf l hl))
      exact Quiescent.not_allFalse hR2.inv.1.trail (hq2 rfl).1 (hE2.clauses_eq ▸ hcc) hAF

/-- Witness of C9: on scenario S1 the second call returns 1 and changes nothing; on
`p cnf 2 3 / -1 0 / 1 0 / 1 2 0` both calls return 0. -/
theorem C9_witness :
    (∃ st1 st2, sat_unit_resolution (sat_state_new mem_zero 3 cnf_chain) = some (true, st1) ∧
      sat_unit_resolution st1 = some (true, st2) ∧ (true = true → st2 = st1)) ∧
    (∃ st1 st2, sat_unit_resolution (sat_state_new mem_zero 2 cnf_stale) = some (false, st1) ∧
      sat_unit_resolution st1 = some (false, st2) ∧ (false = true → st2 = st1)) := by
  constructor
  · have hR := Reachable.new mem_zero 3 cnf_chain validCnf_chain
    obtain ⟨r, st1, h1, _⟩ := hR.unit_resolution_total
    have ev : (sat_unit_resolution (sat_state_new mem_zero 3 cnf_chain)).map Prod.fst
        = some true := by decide
    rw [h1] at ev
    simp only [Option.map_some', Option.some.injEq] at ev
    subst ev
    obtain ⟨st2, h2, h3⟩ := C9_unit_resolution_twice _ st1 true hR h1
    exact ⟨st1, st2, h1, h2, h3⟩
  · have hR := Reachable.new mem_zero 2 cnf_stale validCnf_stale
    obtain ⟨r, st1, h1, _⟩ := hR.unit_resolution_total
    have ev : (sat_unit_resolution (sat_state_new mem_zero 2 cnf_stale)).map Prod.fst
        = some false := by decide
    rw [h1] at ev
    simp only [Option.map_some', Option.some.injEq] at ev
    subst ev
    obtain ⟨st2, h2, h3⟩ := C9_unit_resolution_twice _ st1 false hR h1
    exact ⟨st1, st2, h1, h2, h3⟩

/-- C10: `sat_index2clause` does not reach the learned clauses. On scenario S4, after the
conflict of `decide(+1)`, the undo and the assertion of the learned clause `c`, the state has
4 original clauses and `lc = [c]`, the clause `c` carries the index 5 and is `lc[5 - 4 - 1]`,
but `sat_index2clause 5` reads outside `kb` instead of returning `c`. -/
theorem C10_index2clause_misses_learned_clause :
    ∃ stA stB stC c rD stD,
      sat_unit_resolution (sat_state_new mem_zero 4 cnf_learn) = some (true, stA) ∧
      sat_decide_literal 1 stA = some (some c, stB) ∧
      sat_undo_decide_literal stB = some stC ∧
      sat_at_assertion_level c stC = true ∧
      sat_assert_clause c stC = some (rD, stD) ∧
      sat_clause_count stD = 4 ∧ stD.lc = [c] ∧ sat_clause_index stD c = 5 ∧
      vector_get stD.lc (5 - sat_clause_count stD - 1) = some c ∧
      sat_index2clause 5 stD = none := by
  have ev : ((sat_unit_resolution (sat_state_new mem_zero 4 cnf_learn)).bind
      (fun a => (sat_decide_literal 1 a.2).bind
        (fun b => b.1.bind
          (fun c => (sat_undo_decide_literal b.2).bind
            (fun s3 => (sat_assert_clause c s3).map
              (fun d => a.1 && sat_at_assertion_level c s3 &&
                decide (sat_clause_count d.2 = 4) && decide (d.2.lc = [c]) &&
                decide (sat_clause_index d.2 c = 5) &&
                decide (vector_get d.2.lc (5 - sat_clause_count d.2 - 1) = some c) &&
                decide (sat_index2clause 5 d.2 = none)))))))
      = some true := by decide
  obtain ⟨⟨rA, stA⟩, hA, ev⟩ := Option.bind_eq_some.1 ev
  obtain ⟨⟨rB, stB⟩, hB, ev⟩ := Option.bind_eq_some.1 ev
  obtain ⟨c, hc, ev⟩ := Option.bind_eq_some.1 ev
  obtain ⟨stC, hC, ev⟩ := Option.bind_eq_some.1 ev
  obtain ⟨⟨rD, stD⟩, hD, ev⟩ := Option.map_eq_some'.1 ev
  simp only [Bool.and_eq_true, decide_eq_true_eq] at ev
  obtain ⟨⟨⟨⟨⟨⟨e1, e2⟩, e3⟩, e4⟩, e5⟩, e6⟩, e7⟩ := ev
  simp only at hc e1
  subst e1
  subst hc
  exact ⟨stA, stB, stC, c, rD, stD, hA, hB, hC, e2, hD, e3, e4, e5, e6, e7⟩

/-! ## Claims on the shape of the trail and on the levels -/

theorem Merge.snoc_left {α : Type} {xs ys zs : List α} (h : Merge xs ys zs) (a : α) :
    Merge (xs ++ [a]) ys (zs ++ [a]) := by
  induction h with
  | nil => exact Merge.left a Merge.nil
  | left b _ ih => exact Merge.left b ih
  | right b _ ih => exact Merge.right b ih

theorem Merge.snoc_right {α : Type} {xs ys zs : List α} (h : Merge xs ys zs) (a : α) :
    Merge xs (ys ++ [a]) (zs ++ [a]) := by
  induction h with
  | nil => exact Merge.right a Merge.nil
  | left b _ ih => exact Merge.left b ih
  | right b _ ih => exact Merge.right b ih

theorem Merge.sublists {α : Type} {xs ys zs : List α} (h : Merge xs ys zs) :
    xs.Sublist zs ∧ ys.Sublist zs := by
  induction h with
  | nil => exact ⟨List.Sublist.slnil, List.Sublist.slnil⟩
  | left b _ ih => exact ⟨ih.1.cons₂ b, ih.2.cons b⟩
  | right b _ ih => exact ⟨ih.1.cons b, ih.2.cons₂ b⟩

theorem Merge.length_sum {α : Type} {xs ys zs : List α} (h : Merge xs ys zs) :
    zs.length = xs.length + ys.length := by
  induction h with
  | nil => rfl
  | left b _ ih => simp only [List.length_cons, ih]; omega
  | right b _ ih => simp only [List.length_cons, ih]; omega

/-- The trail discipline makes the trail a merge of the two stacks. -/
theorem TrailR.merge_rev {level : Nat → Nat} {reason : Int → Option (List Int)}
    {ds il s : List Int} (h : TrailR level reason ds il s) :
    Merge ds.reverse il.reverse s.reverse := by
  induction h with
  | nil => exact Merge.nil
  | dec _ _ ih =>
    simp only [List.reverse_cons]
    exact ih.snoc_left _
  | imp _ _ _ _ _ ih =>
    simp only [List.reverse_cons]
    exact ih.snoc_right _

theorem Trail.merge {st : SatState} (h : Trail st) : Merge st.ds st.il st.s := by
  have := h.trail.merge_rev
  simpa only [List.reverse_reverse] using this

/-- C6: in every reachable state `|s| = |ds| + |il|` and `s` is an order-preserving merge of
`ds` and `il`, both of which are subsequences of `s`; this holds in particular in the state
left by `sat_undo_decide_literal`. -/
theorem C6_trail_is_merge_of_decisions_and_implications (st : SatState) (h : Reachable st) :
    (vector_size st.s = vector_size st.ds + vector_size st.il ∧ Merge st.ds st.il st.s ∧
      st.ds.Sublist st.s ∧ st.il.Sublist st.s) ∧
    ∀ st', st.ds ≠ [] → sat_undo_decide_literal st = some st' →
      vector_size st'.s = vector_size st'.ds + vector_size st'.il ∧
      Merge st'.ds st'.il st'.s ∧ st'.ds.Sublist st'.s ∧ st'.il.Sublist st'.s := by
  have key : ∀ x, Reachable x →
      vector_size x.s = vector_size x.ds + vector_size x.il ∧ Merge x.ds x.il x.s ∧
      x.ds.Sublist x.s ∧ x.il.Sublist x.s := fun x hx =>
    have hm := hx.inv.1.trail.merge
    ⟨hm.length_sum, hm, hm.sublists.1, hm.sublists.2⟩
  exact ⟨key st h, fun st' hds hu => key st' (Reachable.undo st st' h hds hu)⟩

/-- Witness of C6 on scenario S4: the state left by the undo of `decide(+1)`. -/
theorem C6_witness :
    ∃ stA rB stB stC,
      sat_unit_resolution (sat_state_new mem_zero 4 cnf_learn) = some (true, stA) ∧
      sat_decide_literal 1 stA = some (rB, stB) ∧ stB.ds ≠ [] ∧
      sat_undo_decide_literal stB = some stC ∧
      vector_size stC.s = vector_size stC.ds + vector_size stC.il ∧
      Merge stC.ds stC.il stC.s ∧ stC.ds.Sublist stC.s ∧ stC.il.Sublist stC.s := by
  have hR := Reachable.new mem_zero 4 cnf_learn validCnf_learn
  obtain ⟨rA, stA, hA, hRA, hEA, hQA, _⟩ := hR.unit_resolution_total
  have evA : (sat_unit_resolution (sat_state_new mem_zero 4 cnf_learn)).map Prod.fst
      = some true := by decide
  rw [hA] at evA
  simp only [Option.map_some', Option.some.injEq] at evA
  subst evA
  have hvn : stA.varnum = 4 := by rw [hEA.varnum_eq]; decide
  have hv : ValidLit stA.varnum 1 := by rw [hvn]; unfold ValidLit; decide
  have hn : sat_instantiated_var stA (sat_literal_var 1) = false := by
    have ev : (sat_unit_resolution (sat_state_new mem_zero 4 cnf_learn)).map
        (fun r => sat_instantiated_var r.2 (sat_literal_var 1)) = some false := by decide
    rw [hA] at ev
    simpa using ev
  obtain ⟨rB, stB, hB, hRB, hEB, _⟩ := hRA.decide_total hv hn (hQA rfl).1
  have hdsB : stB.ds ≠ [] := by
    rw [hEB.ds_eq]
    show stA.ds ++ [1] ≠ []
    simp
  obtain ⟨stC, _, _, hC, _⟩ := hRB.undo_total hdsB
  exact ⟨stA, rB, stB, stC, hA, hB, hdsB, hC,
    (C6_trail_is_merge_of_decisions_and_implications stB hRB).2 stC hdsB hC⟩

/-! ### Levels -/

/-- In a duplicate-free trail every decision is counted once. -/
theorem TrailR.count_decisions {level : Nat → Nat} {reason : Int → Option (List Int)}
    {ds il s : List Int} (h : TrailR level reason ds il s) (hn : s.Nodup) :
    s.countP (fun x => decide (x ∈ ds)) = ds.length := by
  induction h with
  | nil => rfl
  | @dec ds il s d ht _ ih =>
    rw [List.nodup_cons] at hn
    rw [List.countP_cons]
    have : s.countP (fun x => decide (x ∈ d :: ds)) = s.countP (fun x => decide (x ∈ ds)) := by
      apply List.countP_congr
      intro x hx
      have : x ≠ d := fun e => hn.1 (e ▸ hx)
      simp [this]
    rw [this, ih hn.2]
    simp
  | @imp ds il s l ls ht _ _ _ _ ih =>
    rw [List.nodup_cons] at hn
    rw [List.countP_cons, ih hn.2]
    have : l ∉ ds := fun e => hn.1 (ht.ds_sub l e)
    simp [this]

/-- The level of a trail entry is one more than the number of decisions made up to it. -/
theorem TrailR.level_count {level : Nat → Nat} {reason : Int → Option (List Int)}
    {ds il s : List Int} (h : TrailR level reason ds il s) (hn : s.Nodup) :
    ∀ post l pre, s = post ++ l :: pre →
      level l.natAbs = 1 + (l :: pre).countP (fun x => decide (x ∈ ds)) := by
  induction h with
  | nil => intro post l pre e; simp at e
  | @dec ds il s d ht hl ih =>
    intro post l pre e
    rw [List.nodup_cons] at hn
    have hcongr : ∀ (L : List Int), (∀ x ∈ L, x ∈ s) →
        L.countP (fun x => decide (x ∈ d :: ds)) = L.countP (fun x => decide (x ∈ ds)) := by
      intro L hL
      apply List.countP_congr
      intro x hx
      have : x ≠ d := fun e => hn.1 (e ▸ hL x hx)
      simp [this]
    cases post with
    | nil =>
      simp only [List.nil_append, List.cons.injEq] at e
      rw [← e.1, ← e.2, List.countP_cons, hcongr s (fun x hx => hx), ht.count_decisions hn.2, hl]
      simp
      omega
    | cons y post =>
      simp only [List.cons_append, List.cons.injEq] at e
      obtain ⟨rfl, e⟩ := e
      rw [hcongr (l :: pre) (fun x hx => by rw [e]; exact List.mem_append_right _ hx)]
      exact ih hn.2 post l pre e
  | @imp ds il s l0 ls ht hl _ _ _ ih =>
    intro post l pre e
    rw [List.nodup_cons] at hn
    cases post with
    | nil =>
      simp only [List.nil_append, List.cons.injEq] at e
      have : l0 ∉ ds := fun e => hn.1 (ht.ds_sub l0 e)
      rw [← e.1, ← e.2, List.countP_cons, ht.count_decisions hn.2, hl]
      simp [this]
      omega
    | cons y post =>
      simp only [List.cons_append, List.cons.injEq] at e
      obtain ⟨rfl, e⟩ := e
      exact ih hn.2 post l pre e

/-- The level of a decision is two more than the number of decisions below it. -/
theorem TrailR.level_decision {level : Nat → Nat} {reason : Int → Option (List Int)}
    {ds il s : List Int} (h : TrailR level reason ds il s) :
    ∀ post d pre, ds = post ++ d :: pre → level d.natAbs = pre.length + 2 := by
  induction h with
  | nil => intro post d pre e; simp at e
  | @dec ds il s d0 ht hl ih =>
    intro post d pre e
    cases post with
    | nil =>
      simp only [List.nil_append, List.cons.injEq] at e
      rw [← e.1, ← e.2]
      exact hl
    | cons y post =>
      simp only [List.cons_append, List.cons.injEq] at e
      exact ih post d pre e.2
  | imp _ _ _ _ _ ih => exact ih

/-- No literal is both decided and forced. -/
theorem TrailR.ds_not_il {level : Nat → Nat} {reason : Int → Option (List Int)}
    {ds il s : List Int} (h : TrailR level reason ds il s) (hn : s.Nodup) :
    ∀ x ∈ ds, x ∉ il := by
  induction h with
  | nil => intro x hx; simp at hx
  | @dec ds il s d ht _ ih =>
    rw [List.nodup_cons] at hn
    intro x hx hxi
    rcases List.mem_cons.1 hx with rfl | hx
    · exact hn.1 (ht.il_sub x hxi)
    · exact ih hn.2 x hx hxi
  | @imp ds il s l ls ht _ _ _ _ ih =>
    rw [List.nodup_cons] at hn
    intro x hx hxi
    rcases List.mem_cons.1 hxi with rfl | hxi
    · exact hn.1 (ht.ds_sub x hx)
    · exact ih hn.2 x hx hxi

/-- The level of the trail entry in slot `k`, in terms of the decisions before it. -/
theorem Trail.level_at {st : SatState} (h : Trail st) {k : Nat} {l : Int}
    (hk : st.s[k]? = some l) :
    st.level l.natAbs = 1 + decisions_before st k + (if l ∈ st.ds then 1 else 0) := by
  obtain ⟨a, b, hs, ha⟩ := getElem?_split st.s k l hk
  have hrev : st.s.reverse = b.reverse ++ l :: a.reverse := by rw [hs]; simp
  have hn : st.s.reverse.Nodup := List.nodup_reverse.2 h.s_nodup'
  have := h.trail.level_count hn _ _ _ hrev
  rw [this, List.countP_cons]
  have htake : st.s.take k = a := by rw [hs, ← ha]; simp
  unfold decisions_before
  rw [htake]
  have e1 : a.reverse.countP (fun x => decide (x ∈ st.ds.reverse))
      = a.countP (fun x => decide (x ∈ st.ds)) := by
    rw [List.countP_reverse]
    apply List.countP_congr
    intro x _
    simp
  rw [e1]
  simp only [List.mem_reverse, decide_eq_true_eq]
  omega

theorem decisions_before_succ (st : SatState) (m : Nat) :
    decisions_before st (m + 1) = decisions_before st m +
      (st.s[m]?.toList).countP (fun x => decide (x ∈ st.ds)) := by
  unfold decisions_before
  rw [List.take_succ, List.countP_append]

theorem decisions_before_skip (st : SatState) (j : Nat) : ∀ n,
    (∀ m x, j + 1 ≤ m → m < j + 1 + n → st.s[m]? = some x → x ∉ st.ds) →
    decisions_before st (j + 1 + n) = decisions_before st (j + 1)
  | 0, _ => rfl
  | n + 1, h => by
    have ih := decisions_before_skip st j n
      (fun m x h1 h2 h3 => h m x h1 (by omega) h3)
    have e : j + 1 + (n + 1) = (j + 1 + n) + 1 := by omega
    rw [e, decisions_before_succ, ih]
    cases hx : st.s[j + 1 + n]? with
    | none => simp
    | some x =>
      have := h (j + 1 + n) x (by omega) (by omega) hx
      simp [this]

/-- C8: in every reachable state the decision in slot `i` of `ds` (counted from 0) has the
level `i + 2`, so the first decision has level 2; a literal of `il` has the level 1 plus
the number of decided literals before it on `s`, a decided literal has the level 2 plus
that number; and a decided literal shares its level with the forced literals that follow
it on `s` up to the next decision. -/
theorem C8_levels_count_decisions (st : SatState) (h : Reachable st) :
    (∀ i d, vector_get st.ds i = some d → st.level (sat_literal_var d) = i + 2) ∧
    (∀ k l, vector_get st.s k = some l → l ∈ st.il →
      st.level (sat_literal_var l) = 1 + decisions_before st k) ∧
    (∀ k l, vector_get st.s k = some l → l ∈ st.ds →
      st.level (sat_literal_var l) = 2 + decisions_before st k) ∧
    (∀ j k d l, j ≤ k → vector_get st.s j = some d → d ∈ st.ds →
      vector_get st.s k = some l →
      (∀ m x, j < m → m ≤ k → vector_get st.s m = some x → x ∈ st.il) →
      st.level (sat_literal_var l) = st.level (sat_literal_var d)) := by
  have hT := h.inv.1.trail
  have hn : st.s.reverse.Nodup := List.nodup_reverse.2 hT.s_nodup'
  have hdis : ∀ x, x ∈ st.il → x ∉ st.ds := fun x hi hd =>
    hT.trail.ds_not_il hn x (List.mem_reverse.2 hd) (List.mem_reverse.2 hi)
  have c2 : ∀ k l, vector_get st.s k = some l → l ∈ st.il →
      st.level (sat_literal_var l) = 1 + decisions_before st k := by
    intro k l hk hl
    have := hT.level_at hk
    rw [if_neg (hdis l hl)] at this
    exact this
  have c3 : ∀ k l, vector_get st.s k = some l → l ∈ st.ds →
      st.level (sat_literal_var l) = 2 + decisions_before st k := by
    intro k l hk hl
    have := hT.level_at hk
    rw [if_pos hl] at this
    show st.level l.natAbs = _
    omega
  refine ⟨?_, c2, c3, ?_⟩
  · intro i d hi
    obtain ⟨a, b, hs, ha⟩ := getElem?_split st.ds i d hi
    have hrev : st.ds.reverse = b.reverse ++ d :: a.reverse := by rw [hs]; simp
    have := hT.trail.level_decision _ _ _ hrev
    rw [List.length_reverse, ha] at this
    exact this
  · intro j k d l hjk hj hd hk hmid
    rcases Nat.eq_or_lt_of_le hjk with e | hlt
    · subst e
      have : vector_get st.s j = some l := hk
      rw [hj] at this
      rw [Option.some.inj this]
    · have hl : l ∈ st.il := hmid k l hlt (le_refl _) hk
      rw [c2 k l hk hl, c3 j d hj hd]
      obtain ⟨n, rfl⟩ : ∃ n, k = j + 1 + n := ⟨k - j - 1, by omega⟩
      rw [decisions_before_skip st j n
        (fun m x h1 h2 h3 => hdis x (hmid m x (by omega) (by omega) h3)),
        decisions_before_succ]
      have : st.s[j]? = some d := hj
      rw [this]
      simp [hd]
      omega

/-- Witness of C8 on scenario S4: in the state left by `decide(+1)` the decided literal and
the literals it forces have level 2. -/
theorem C8_witness :
    ∃ stA rB stB,
      sat_unit_resolution (sat_state_new mem_zero 4 cnf_learn) = some (true, stA) ∧
      sat_decide_literal 1 stA = some (rB, stB) ∧
      stB.ds = [1] ∧ stB.s = [-4, 1, 3, 2] ∧ stB.level 1 = 2 ∧
      (∀ i d, vector_get stB.ds i = some d → stB.level (sat_literal_var d) = i + 2) ∧
      (∀ k l, vector_get stB.s k = some l → l ∈ stB.il →
        stB.level (sat_literal_var l) = 1 + decisions_before stB k) ∧
      (∀ k l, vector_get stB.s k = some l → l ∈ stB.ds →
        stB.level (sat_literal_var l) = 2 + decisions_before stB k) ∧
      (∀ j k d l, j ≤ k → vector_get stB.s j = some d → d ∈ stB.ds →
        vector_get stB.s k = some l →
        (∀ m x, j < m → m ≤ k → vector_get stB.s m = some x → x ∈ stB.il) →
        stB.level (sat_literal_var l) = stB.level (sat_literal_var d)) := by
  have hR := Reachable.new mem_zero 4 cnf_learn validCnf_learn
  obtain ⟨rA, stA, hA, hRA, hEA, hQA, _⟩ := hR.unit_resolution_total
  have evA : (sat_unit_resolution (sat_state_new mem_zero 4 cnf_learn)).map Prod.fst
      = some true := by decide
  rw [hA] at evA
  simp only [Option.map_some', Option.some.injEq] at evA
  subst evA
  have hvn : stA.varnum = 4 := by rw [hEA.varnum_eq]; decide
  have hv : ValidLit stA.varnum 1 := by rw [hvn]; unfold ValidLit; decide
  have hn : sat_instantiated_var stA (sat_literal_var 1) = false := by
    have ev : (sat_unit_resolution (sat_state_new mem_zero 4 cnf_learn)).map
        (fun r => sat_instantiated_var r.2 (sat_literal_var 1)) = some false := by decide
    rw [hA] at ev
    simpa using ev
  obtain ⟨rB, stB, hB, hRB, _⟩ := hRA.decide_total hv hn (hQA rfl).1
  have ev : ((sat_unit_resolution (sat_state_new mem_zero 4 cnf_learn)).bind
      (fun a => sat_decide_literal 1 a.2)).map
        (fun b => (b.2.ds, b.2.s, b.2.level 1)) = some ([1], [-4, 1, 3, 2], 2) := by decide
  rw [hA] at ev
  simp only [Option.some_bind, hB, Option.map_some', Option.some.injEq, Prod.mk.injEq] at ev
  obtain ⟨e1, e2, e3⟩ := ev
  exact ⟨stA, rB, stB, hA, hB, e1, e2, e3, C8_levels_count_decisions stB hRB⟩

/-! ## Claim on the assertion level -/

/-- The loop of `sat_at_assertion_level` keeps in `(h1, h2)` the two largest elements of the
multiset made of its start values and of the levels read so far. -/
theorem assertion_level_top2 (st : SatState) : ∀ (ls : List Int) (a b : Nat) (M : List Nat),
    b ≤ a → (∃ rest, M.Perm (a :: b :: rest) ∧ ∀ x ∈ rest, x ≤ b) →
    (ls.foldl (assertion_level_step st) (a, b)).2 ≤
      (ls.foldl (assertion_level_step st) (a, b)).1 ∧
    ∃ rest, (M ++ ls.map (fun l => st.level (sat_literal_var l))).Perm
        ((ls.foldl (assertion_level_step st) (a, b)).1 ::
          (ls.foldl (assertion_level_step st) (a, b)).2 :: rest) ∧
      ∀ x ∈ rest, x ≤ (ls.foldl (assertion_level_step st) (a, b)).2
  | [], a, b, M, hab, h => by
    simpa using ⟨hab, h⟩
  | lit :: ls, a, b, M, hab, ⟨rest, hp, hr⟩ => by
    have hM : M ++ (lit :: ls).map (fun l => st.level (sat_literal_var l))
        = (M ++ [st.level (sat_literal_var lit)])
          ++ ls.map (fun l => st.level (sat_literal_var l)) := by simp
    rw [List.foldl_cons, hM]
    have hp1 : (M ++ [st.level (sat_literal_var lit)]).Perm
        (st.level (sat_literal_var lit) :: a :: b :: rest) :=
      (List.perm_append_comm).trans (List.Perm.cons _ hp)
    unfold assertion_level_step
    simp only []
    by_cases h1 : st.level (sat_literal_var lit) ≥ a
    · rw [if_pos h1]
      exact assertion_level_top2 st ls _ _ _ h1 ⟨b :: rest, hp1, fun x hx => by
        rcases List.mem_cons.1 hx with rfl | hx
        · exact hab
        · exact le_trans (hr x hx) hab⟩
    · rw [if_neg h1]
      by_cases h2 : st.level (sat_literal_var lit) ≥ b
      · rw [if_pos h2]
        refine assertion_level_top2 st ls _ _ _ (by omega) ⟨b :: rest, ?_, fun x hx => ?_⟩
        · exact hp1.trans (List.Perm.swap _ _ _)
        · rcases List.mem_cons.1 hx with rfl | hx
          · exact h2
          · exact le_trans (hr x hx) h2
      · rw [if_neg h2]
        refine assertion_level_top2 st ls _ _ _ hab
          ⟨st.level (sat_literal_var lit) :: rest, ?_, fun x hx => ?_⟩
        · exact hp1.trans ((List.Perm.swap _ _ _).trans (List.Perm.cons _ (List.Perm.swap _ _ _)))
        · rcases List.mem_cons.1 hx with rfl | hx
          · omega
          · exact hr x hx

/-- The second-highest level does not depend on the order of the levels. -/
theorem second_highest_perm {l1 l2 : List Nat} (h : l1.Perm l2) :
    second_highest l1 = second_highest l2 := by
  have e : l1.insertionSort (fun a b => b ≤ a) = l2.insertionSort (fun a b => b ≤ a) :=
    List.eq_of_perm_of_sorted
      (((List.perm_insertionSort _ l1).trans h).trans (List.perm_insertionSort _ l2).symm)
      (List.sorted_insertionSort _ l1) (List.sorted_insertionSort _ l2)
  unfold second_highest
  rw [e]

/-- The two largest elements of a multiset whose elements are at least 1, extended by two
elements 1, determine its second-highest element. -/
theorem second_highest_of_top2 {levels rest : List Nat} {h1 h2 : Nat}
    (hne : levels ≠ []) (hlev : ∀ x ∈ levels, 1 ≤ x) (h21 : h2 ≤ h1)
    (hp : ([1, 1] ++ levels).Perm (h1 :: h2 :: rest)) (hr : ∀ x ∈ rest, x ≤ h2) :
    second_highest levels = h2 := by
  have hS := List.sorted_insertionSort (fun a b : Nat => b ≤ a) levels
  have hP := List.perm_insertionSort (fun a b : Nat => b ≤ a) levels
  have hR := List.sorted_insertionSort (fun a b : Nat => b ≤ a) rest
  have hPR := List.perm_insertionSort (fun a b : Nat => b ≤ a) rest
  have s1 : List.Sorted (fun a b : Nat => b ≤ a)
      (levels.insertionSort (fun a b => b ≤ a) ++ [1, 1]) := by
    unfold List.Sorted
    rw [List.pairwise_append]
    refine ⟨hS, by simp, fun x hx y hy => ?_⟩
    have hx1 := hlev x (hP.subset hx)
    have : y = 1 := by simpa using hy
    omega
  have s2 : List.Sorted (fun a b : Nat => b ≤ a)
      (h1 :: h2 :: rest.insertionSort (fun a b => b ≤ a)) := by
    unfold List.Sorted
    rw [List.pairwise_cons, List.pairwise_cons]
    refine ⟨fun y hy => ?_, fun y hy => ?_, hR⟩
    · rcases List.mem_cons.1 hy with rfl | hy
      · exact h21
      · exact le_trans (hr y (hPR.subset hy)) h21
    · exact hr y (hPR.subset hy)
  have p : (levels.insertionSort (fun a b => b ≤ a) ++ [1, 1]).Perm
      (h1 :: h2 :: rest.insertionSort (fun a b => b ≤ a)) :=
    ((hP.append_right _).trans List.perm_append_comm).trans
      (hp.trans (List.Perm.cons _ (List.Perm.cons _ hPR.symm)))
  have e := List.eq_of_perm_of_sorted p s1 s2
  unfold second_highest
  cases hL : levels.insertionSort (fun a b => b ≤ a) with
  | nil =>
    rw [hL] at hP
    exact absurd (List.Perm.nil_eq hP).symm hne
  | cons x xs =>
    rw [hL] at e
    cases xs with
    | nil =>
      simp only [List.cons_append, List.nil_append, List.cons.injEq] at e
      exact e.2.1
    | cons y ys =>
      simp only [List.cons_append, List.cons.injEq] at e
      exact e.2.1

/-- C7: for a non-empty clause whose variables all have a level of at least 1,
`sat_at_assertion_level` returns 1 exactly when the second-highest level among the variables
of the clause (taken as 1 for a single literal) equals `|ds| + 1`; when the levels are
5, 3 and 3 it returns 1 exactly when `|ds| + 1 = 3`. -/
theorem C7_at_assertion_level_iff_second_highest (st : SatState) (c : Nat)
    (hne : st.lits c ≠ [])
    (hlev : ∀ l ∈ st.lits c, 1 ≤ st.level (sat_literal_var l)) :
    (sat_at_assertion_level c st = true ↔
      second_highest (clause_levels st c) = vector_size st.ds + 1) ∧
    ((clause_levels st c).Perm [5, 3, 3] →
      (sat_at_assertion_level c st = true ↔ vector_size st.ds + 1 = 3)) := by
  obtain ⟨h21, rest, hp, hr⟩ := assertion_level_top2 st (st.lits c) 1 1 [1, 1] (le_refl _)
    ⟨[], List.Perm.refl _, by simp⟩
  have hne' : clause_levels st c ≠ [] := by
    unfold clause_levels
    simpa using hne
  have hlev' : ∀ x ∈ clause_levels st c, 1 ≤ x := by
    unfold clause_levels
    intro x hx
    obtain ⟨l, hl, rfl⟩ := List.mem_map.1 hx
    exact hlev l hl
  have key := second_highest_of_top2 hne' hlev' h21 hp hr
  have first : sat_at_assertion_level c st = true ↔
      second_highest (clause_levels st c) = vector_size st.ds + 1 := by
    unfold sat_at_assertion_level
    rw [key, decide_eq_true_iff]
  refine ⟨first, fun hperm => ?_⟩
  rw [first, second_highest_perm hperm]
  have : second_highest [5, 3, 3] = 3 := by decide
  rw [this]
  exact eq_comm

/-- Witness of C7: a clause with the levels 5, 3 and 3 is at the assertion level with two
decisions (`|ds| + 1 = 3`) and not with four (`|ds| + 1 = 5`). -/
theorem C7_witness :
    clause_levels (st_levels 2) 0 = [5, 3, 3] ∧
    sat_at_assertion_level 0 (st_levels 2) = true ∧
    sat_at_assertion_level 0 (st_levels 4) = false ∧
    (sat_at_assertion_level 0 (st_levels 2) = true ↔
      second_highest (clause_levels (st_levels 2) 0) = vector_size (st_levels 2).ds + 1) ∧
    ((clause_levels (st_levels 2) 0).Perm [5, 3, 3] →
      (sat_at_assertion_level 0 (st_levels 2) = true ↔
        vector_size (st_levels 2).ds + 1 = 3)) :=
  ⟨by decide, by decide, by decide,
    C7_at_assertion_level_iff_second_highest (st_levels 2) 0 (by decide) (by decide)⟩

/-! ## Claim on the consistency of the assignment -/

theorem AtMostOne.mono {st st' : SatState} (h : AtMostOne st)
    (hm : ∀ l, st'.implied l = true → st.implied l = true) : AtMostOne st' :=
  fun v hv h12 => h v hv ⟨hm _ h12.1, hm _ h12.2⟩

theorem AtMostOne.set_literal {st st' : SatState} (h : AtMostOne st) {lit : Int}
    (hopp : st.implied (-lit) = false) (he : st'.implied = upd st.implied lit true) :
    AtMostOne st' := by
  intro v hv h12
  obtain ⟨h1, h2⟩ := h12
  unfold sat_implied_literal at h1 h2
  rw [he] at h1 h2
  unfold sat_pos_literal at h1
  unfold sat_neg_literal at h2
  by_cases e1 : (v : Int) = lit
  · have e2 : -(v : Int) ≠ lit := by omega
    rw [upd_other _ _ _ _ e2] at h2
    rw [← e1, h2] at hopp
    cases hopp
  · rw [upd_other _ _ _ _ e1] at h1
    by_cases e2 : -(v : Int) = lit
    · have e3 : -lit = (v : Int) := by omega
      rw [e3, h1] at hopp
      cases hopp
    · rw [upd_other _ _ _ _ e2] at h2
      exact h v hv ⟨h1, h2⟩

theorem upd_false_true {f : Int → Bool} {a l : Int} (h : upd f a false l = true) :
    f l = true := by
  by_cases e : l = a
  · rw [e, upd_same] at h; cases h
  · rw [upd_other _ _ _ _ e] at h; exact h

theorem assert_clause_scan_implied (ac : Nat) : ∀ (ls : List Int) (st : SatState) (m : Nat),
    (assert_clause_scan ac ls st m).1.implied = st.implied
  | [], _, _ => rfl
  | lit :: ls, st, m => by
    unfold assert_clause_scan
    simp only []
    split_ifs
    · exact assert_clause_scan_implied ac ls st m
    · rw [assert_clause_scan_implied ac ls]
    · rw [assert_clause_scan_implied ac ls]

theorem get_assert_clause_loop_implied (ac : Nat) :
    ∀ (fuel : Nat) (st : SatState) (ci m p1 : Nat) (st' : SatState),
      get_assert_clause_loop ac fuel st ci m p1 = some st' → st'.implied = st.implied
  | 0, st, ci, m, p1, st', h => by simp [get_assert_clause_loop] at h
  | fuel + 1, st, ci, m, p1, st', h => by
    unfold get_assert_clause_loop at h
    cases hc : clause_at st ci with
    | none => rw [hc] at h; simp at h
    | some clause =>
      rw [hc] at h
      simp only [] at h
      have hscan := assert_clause_scan_implied ac (st.lits clause) st m
      obtain ⟨⟨st1, m1⟩, hs⟩ : ∃ x, assert_clause_scan ac (st.lits clause) st m = x :=
        ⟨_, rfl⟩
      rw [hs] at h hscan
      simp only [] at h hscan
      cases ht : trail_seek st1 p1 with
      | none => rw [ht] at h; simp at h
      | some o =>
        rw [ht] at h
        cases o with
        | none =>
          simp only [Option.some.injEq] at h
          rw [← h]; exact hscan
        | some pl =>
          obtain ⟨p, lit⟩ := pl
          simp only [] at h
          split_ifs at h with hm1
          · simp only [Option.some.injEq] at h
            rw [← h]; exact hscan
          · rw [get_assert_clause_loop_implied ac fuel st1 _ _ _ st' h, hscan]

theorem conflict_branch_implied {st : SatState} {c : Nat} {st2 : SatState}
    (h : conflict_branch st c = some st2) : st2.implied = st.implied := by
  unfold conflict_branch at h
  simp only [] at h
  split_ifs at h
  · unfold sat_get_assert_clause at h
    have e := get_assert_clause_loop_implied _ _ _ _ _ _ _ h
    exact e
  · simp only [Option.some.injEq] at h
    rw [← h]

theorem pass_atMostOne : ∀ i more st, AtMostOne st →
    AtMostOne (unit_resolution_pass i more st).2 :=
  pass_induct (fun _ _ st => AtMostOne st) (fun _ st => AtMostOne st)
    (fun _ _ h => h)
    (fun _ _ _ h _ => h)
    (fun _ _ _ _ h _ _ => h.mono (fun _ hl => hl))
    (fun _ _ _ _ h _ _ _ => h.mono (fun _ hl => hl))
    (fun _ _ _ _ _ h _ _ _ hopp _ _ => h.set_literal hopp rfl)
    (fun _ _ _ _ _ h _ _ _ hc => h.mono (fun l hl => by
      rw [conflict_branch_implied hc] at hl; exact hl))
    (fun _ _ _ _ h _ _ _ _ => h.mono (fun _ hl => hl))

theorem unit_resolution_loop_atMostOne :
    ∀ (fuel : Nat) (st : SatState) (r : Bool) (st' : SatState),
      AtMostOne st → unit_resolution_loop fuel st = some (r, st') → AtMostOne st'
  | 0, st, r, st', _, h => by simp [unit_resolution_loop] at h
  | fuel + 1, st, r, st', hA, h => by
    unfold unit_resolution_loop at h
    have hp := pass_atMostOne (vector_size st.q) false st hA
    obtain ⟨⟨o, s1⟩, hs⟩ : ∃ x, unit_resolution_pass (vector_size st.q) false st = x :=
      ⟨_, rfl⟩
    rw [hs] at h hp
    simp only [] at h hp
    cases o with
    | fault => simp at h
    | conflict =>
      simp only [Option.some.injEq, Prod.mk.injEq] at h
      rw [← h.2]; exact hp
    | finished more =>
      cases more with
      | true => exact unit_resolution_loop_atMostOne fuel s1 r st' hp h
      | false =>
        simp only [Option.some.injEq, Prod.mk.injEq] at h
        rw [← h.2]; exact hp

theorem sat_unit_resolution_atMostOne {st : SatState} {r : Bool} {st' : SatState}
    (hA : AtMostOne st) (h : sat_unit_resolution st = some (r, st')) : AtMostOne st' :=
  unit_resolution_loop_atMostOne _ st r st' hA h

theorem restore_clause_implied (st : SatState) (c : Nat) :
    (restore_clause st c).implied = st.implied := by
  rw [restore_clause_eq]
  split_ifs <;> rfl

theorem restore_fold_implied : ∀ (cs : List Nat) (st : SatState),
    (cs.foldl restore_clause st).implied = st.implied
  | [], _ => rfl
  | c :: cs, st => by
    rw [List.foldl_cons, restore_fold_implied cs, restore_clause_implied]

theorem sat_restore_literal_implied (st : SatState) (lit : Int) :
    (sat_restore_literal st lit).implied = upd st.implied lit false := by
  unfold sat_restore_literal
  simp only []
  rw [restore_fold_implied, restore_fold_implied]

theorem undo_loop_implied : ∀ (n : Nat) (st : SatState) (l : Int),
    (undo_unit_resolution_loop n st).implied l = true → st.implied l = true
  | 0, _, _, h => h
  | n + 1, st, l, h => by
    unfold undo_unit_resolution_loop at h
    cases ht : vector_top st.il with
    | none => rw [ht] at h; exact h
    | some lit =>
      rw [ht] at h
      simp only [] at h
      split_ifs at h
      · have e0 := undo_loop_implied n _ l h
        have e : (sat_restore_literal st lit).implied l = true := e0
        rw [sat_restore_literal_implied] at e
        exact upd_false_true e
      · exact h

theorem undo_decide_implied {st st' : SatState} (h : sat_undo_decide_literal st = some st') :
    ∀ l, st'.implied l = true → st.implied l = true := by
  unfold sat_undo_decide_literal at h
  cases ht : vector_top st.ds with
  | none => rw [ht] at h; simp at h
  | some lit =>
    rw [ht] at h
    simp only [Option.some.injEq] at h
    intro l hl
    rw [← h] at hl
    have e0 := undo_loop_implied _ _ l hl
    have e : (sat_restore_literal st lit).implied l = true := e0
    rw [sat_restore_literal_implied] at e
    exact upd_false_true e

theorem mention_clause_implied (b : Bool) (c : Nat) (st : SatState) (lit : Int) :
    (mention_clause b c st lit).implied = st.implied := by
  unfold mention_clause
  simp only []
  split_ifs <;> rfl

theorem mention_fold_implied (b : Bool) (c : Nat) : ∀ (ls : List Int) (st : SatState),
    (ls.foldl (mention_clause b c) st).implied = st.implied
  | [], _ => rfl
  | l :: ls, st => by
    rw [List.foldl_cons, mention_fold_implied b c ls, mention_clause_implied]

theorem assert_bookkeeping_implied (c : Nat) (st : SatState) :
    (assert_clause_bookkeeping c st).implied = st.implied := by
  unfold assert_clause_bookkeeping
  simp only []
  rw [mention_fold_implied]

/-- C5: the predicate `at most one of the two literals of each variable is implied` holds in
the constructed state and is preserved by `sat_unit_resolution` (whatever it returns), by
`sat_decide_literal` on a literal of an uninstantiated variable, by
`sat_undo_decide_literal` and by `sat_assert_clause`; hence it holds in every reachable
state. -/
theorem C5_at_most_one_literal_of_a_variable_implied :
    (∀ mem varnum cnf, AtMostOne (sat_state_new mem varnum cnf)) ∧
    (∀ st r st', AtMostOne st → sat_unit_resolution st = some (r, st') → AtMostOne st') ∧
    (∀ st lit r st', AtMostOne st → sat_instantiated_var st (sat_literal_var lit) = false →
      sat_decide_literal lit st = some (r, st') → AtMostOne st') ∧
    (∀ st st', AtMostOne st → sat_undo_decide_literal st = some st' → AtMostOne st') ∧
    (∀ st clause r st', AtMostOne st → sat_assert_clause clause st = some (r, st') →
      AtMostOne st') ∧
    (∀ st, Reachable st → AtMostOne st) := by
  refine ⟨?_, ?_, ?_, ?_, ?_, ?_⟩
  · intro mem varnum cnf
    obtain ⟨MN, e, _⟩ := sat_state_new_eq mem varnum cnf
    rw [e]
    intro v _ h12
    cases h12.1
  · intro st r st' hA h
    exact sat_unit_resolution_atMostOne hA h
  · intro st lit r st' hA hn h
    have hbk : AtMostOne (decide_bookkeeping lit st) :=
      hA.set_literal (not_instantiated hn).2 rfl
    unfold sat_decide_literal at h
    cases hu : sat_unit_resolution (decide_bookkeeping lit st) with
    | none => rw [hu] at h; simp at h
    | some p =>
      obtain ⟨b, s3⟩ := p
      rw [hu] at h
      have h3 := sat_unit_resolution_atMostOne hbk hu
      cases b with
      | true =>
        simp only [Option.some.injEq, Prod.mk.injEq] at h
        rw [← h.2]; exact h3
      | false =>
        simp only [Option.some.injEq, Prod.mk.injEq] at h
        rw [← h.2]; exact h3
  · intro st st' hA h
    exact hA.mono (undo_decide_implied h)
  · intro st clause r st' hA h
    have hbk : AtMostOne (assert_clause_bookkeeping clause st) :=
      hA.mono (fun l hl => by rw [assert_bookkeeping_implied] at hl; exact hl)
    unfold sat_assert_clause at h
    cases hu : sat_unit_resolution (assert_clause_bookkeeping clause st) with
    | none => rw [hu] at h; simp at h
    | some p =>
      obtain ⟨b, s3⟩ := p
      rw [hu] at h
      have h3 := sat_unit_resolution_atMostOne hbk hu
      cases b with
      | true =>
        simp only [Option.some.injEq, Prod.mk.injEq] at h
        rw [← h.2]; exact h3
      | false =>
        simp only [Option.some.injEq, Prod.mk.injEq] at h
        rw [← h.2]; exact h3
  · intro st hR v _ h12
    exact hR.inv.1.trail.not_both _ h12

/-- Witness of C5 on scenario S4: the predicate holds in the constructed state, after the
first unit resolution, after the conflict of `decide(+1)` and after the undo. -/
theorem C5_witness :
    ∃ stA rB stB stC,
      AtMostOne (sat_state_new mem_zero 4 cnf_learn) ∧
      sat_unit_resolution (sat_state_new mem_zero 4 cnf_learn) = some (true, stA) ∧
      AtMostOne stA ∧
      sat_instantiated_var stA (sat_literal_var 1) = false ∧
      sat_decide_literal 1 stA = some (rB, stB) ∧ AtMostOne stB ∧
      sat_undo_decide_literal stB = some stC ∧ AtMostOne stC := by
  have ev : ((sat_unit_resolution (sat_state_new mem_zero 4 cnf_learn)).bind
      (fun a => (sat_decide_literal 1 a.2).bind
        (fun b => (sat_undo_decide_literal b.2).map
          (fun _ => a.1 && !sat_instantiated_var a.2 (sat_literal_var 1))))) = some true := by
    decide
  obtain ⟨⟨rA, stA⟩, hA, ev⟩ := Option.bind_eq_some.1 ev
  obtain ⟨⟨rB, stB⟩, hB, ev⟩ := Option.bind_eq_some.1 ev
  obtain ⟨stC, hC, ev⟩ := Option.map_eq_some'.1 ev
  simp only [Bool.and_eq_true, Bool.not_eq_true'] at ev
  obtain ⟨e1, e2⟩ := ev
  simp only at e1 e2 hB hC
  subst e1
  have h0 := C5_at_most_one_literal_of_a_variable_implied.1 mem_zero 4 cnf_learn
  have h1 := C5_at_most_one_literal_of_a_variable_implied.2.1 _ _ _ h0 hA
  have h2 := C5_at_most_one_literal_of_a_variable_implied.2.2.1 _ _ _ _ h1 e2 hB
  have h3 := C5_at_most_one_literal_of_a_variable_implied.2.2.2.1 _ _ h2 hC
  exact ⟨stA, rB, stB, stC, h0, hA, h1, e2, hB, h2, hC, h3⟩

/-! ## Claim on the bookkeeping of `sat_assert_clause` -/

/-- The occurrence loop of `sat_assert_clause` appends the clause exactly once to the list
of each variable it meets, when no list mentions the clause beforehand. -/
theorem mention_fold_exact (c : Nat) (base : Nat → List Nat) (hb : ∀ v, c ∉ base v) :
    ∀ (ls : List Int) (st : SatState) (S : List Nat),
      (∀ v, st.mentions_lc v = if v ∈ S then base v ++ [c] else base v) →
      ∀ v, (ls.foldl (mention_clause true c) st).mentions_lc v
        = if v ∈ S ∨ v ∈ ls.map sat_literal_var then base v ++ [c] else base v
  | [], st, S, h => by
    intro v
    simpa using h v
  | l :: ls, st, S, h => by
    intro v
    rw [List.foldl_cons]
    have hstep : ∀ w, (mention_clause true c st l).mentions_lc w
        = if w ∈ sat_literal_var l :: S then base w ++ [c] else base w := by
      intro w
      unfold mention_clause
      simp only [if_true]
      by_cases hS : sat_literal_var l ∈ S
      · have e := h (sat_literal_var l)
        rw [if_pos hS] at e
        have hcond : ¬ (vector_size (st.mentions_lc (sat_literal_var l)) = 0 ∨
            vector_top (st.mentions_lc (sat_literal_var l)) ≠ some c) := by
          rw [e]
          simp [vector_size, vector_top]
        rw [if_neg hcond, h w]
        by_cases hw : w = sat_literal_var l
        · subst hw
          rw [if_pos hS, if_pos (List.mem_cons_self _ _)]
        · have hiff : w ∈ sat_literal_var l :: S ↔ w ∈ S := by
            rw [List.mem_cons]
            exact ⟨fun h => h.resolve_left hw, Or.inr⟩
          simp only [hiff]
      · have e := h (sat_literal_var l)
        rw [if_neg hS] at e
        have hcond : vector_size (st.mentions_lc (sat_literal_var l)) = 0 ∨
            vector_top (st.mentions_lc (sat_literal_var l)) ≠ some c := by
          right
          intro ht
          rw [e] at ht
          exact hb _ (List.mem_of_getLast?_eq_some ht)
        rw [if_pos hcond]
        show upd st.mentions_lc (sat_literal_var l) _ w = _
        by_cases hw : w = sat_literal_var l
        · subst hw
          rw [upd_same, e, if_pos (List.mem_cons_self _ _)]
          rfl
        · have hiff : w ∈ sat_literal_var l :: S ↔ w ∈ S := by
            rw [List.mem_cons]
            exact ⟨fun h => h.resolve_left hw, Or.inr⟩
          rw [upd_other _ _ _ _ hw, h w]
          simp only [hiff]
    have := mention_fold_exact c base hb ls (mention_clause true c st l)
      (sat_literal_var l :: S) hstep v
    rw [this]
    simp only [List.mem_cons, List.map_cons]
    by_cases h1 : v = sat_literal_var l <;> by_cases h2 : v ∈ S <;>
      by_cases h3 : v ∈ ls.map sat_literal_var <;> simp [h1, h2, h3]

/-- C11: in a state whose learned occurrence lists mention only clauses of `lc`, the
bookkeeping of `sat_assert_clause` on a clause `c` outside `lc` sets the index of `c` to
`M + k + 1`, appends `c` at the end of `lc` and of `q`, appends `c` once to `mentions_lc`
of each variable of `c` and changes no other list and no other field; and in every
reachable state the clause in slot `j` of `lc` has the index `M + j + 1` and is the clause
designated by the combined address `index - 1`. -/
theorem C11_assert_bookkeeping_indexes_and_mentions (st : SatState) (c : Nat)
    (hm : ∀ v, ∀ x ∈ st.mentions_lc v, x ∈ st.lc) (hc : c ∉ st.lc) :
    (sat_clause_index (assert_clause_bookkeeping c st) c
        = sat_clause_count st + sat_learned_clause_count st + 1 ∧
      (∀ x, x ≠ c → sat_clause_index (assert_clause_bookkeeping c st) x = sat_clause_index st x) ∧
      (assert_clause_bookkeeping c st).lc = st.lc ++ [c] ∧
      (assert_clause_bookkeeping c st).q = st.q ++ [c] ∧
      (∀ v, v ∈ (st.lits c).map sat_literal_var →
        (assert_clause_bookkeeping c st).mentions_lc v = st.mentions_lc v ++ [c]) ∧
      (∀ v, v ∉ (st.lits c).map sat_literal_var →
        (assert_clause_bookkeeping c st).mentions_lc v = st.mentions_lc v) ∧
      assert_clause_bookkeeping c st =
        { st with index := (assert_clause_bookkeeping c st).index,
                  mentions_lc := (assert_clause_bookkeeping c st).mentions_lc,
                  lc := (assert_clause_bookkeeping c st).lc,
                  q := (assert_clause_bookkeeping c st).q }) ∧
    (∀ s, Reachable s → ∀ j x, vector_get s.lc j = some x →
      sat_clause_index s x = sat_clause_count s + j + 1 ∧
      clause_at s (usub1 (sat_clause_index s x)) = some x) := by
  constructor
  · obtain ⟨ML, e, _⟩ := assert_bookkeeping_eq c st
    have hfold : ∀ v, (assert_clause_bookkeeping c st).mentions_lc v
        = if v ∈ ([] : List Nat) ∨ v ∈ (st.lits c).map sat_literal_var
          then st.mentions_lc v ++ [c] else st.mentions_lc v :=
      mention_fold_exact c st.mentions_lc (fun v hv => hc (hm v c hv)) (st.lits c)
        { st with index := upd st.index c (sat_clause_count st + sat_learned_clause_count st + 1) }
        [] (fun v => by simp)
    refine ⟨?_, ?_, ?_, ?_, ?_, ?_, ?_⟩
    · rw [e]; simp [sat_clause_index, sat_clause_count, sat_learned_clause_count, vector_size]
    · intro x hx
      rw [e]
      show upd st.index c _ x = st.index x
      exact upd_other _ _ _ _ hx
    · rw [e]
    · rw [e]
    · intro v hv
      rw [hfold v]
      simp only [List.not_mem_nil, false_or]
      rw [if_pos hv]
    · intro v hv
      rw [hfold v]
      simp only [List.not_mem_nil, false_or]
      rw [if_neg hv]
    · rw [e]
  · intro s hR j x hj
    have hS := hR.inv.1.store
    have hxl : x ∈ s.lc := mem_of_getElem?_some hj
    have hxc : x ∈ clauses s := List.mem_append_right _ hxl
    obtain ⟨h0, hat⟩ := hS.cl_index x hxc
    have hnd := hS.cl_nodup
    unfold clauses at hnd
    have hdis := List.nodup_append.1 hnd
    have hj' : s.lc[j]? = some x := hj
    have key : s.index x - 1 = s.clausenum + j := by
      unfold clause_at sat_clause_count at hat
      split_ifs at hat with hlt
      · exact absurd hxl (fun h => hdis.2.2 (mem_of_getElem?_some hat) h)
      · have hjlt : j < s.lc.length := by
          rcases Nat.lt_or_ge j s.lc.length with h | h
          · exact h
          · rw [List.getElem?_eq_none h] at hj'; cases hj'
        have := List.getElem?_inj hjlt hdis.2.1 (hj'.trans hat.symm)
        omega
    constructor
    · show s.index x = s.clausenum + j + 1
      omega
    · show clause_at s (usub1 (s.index x)) = some x
      rw [usub1_pos h0]
      exact hat

/-- Witness of C11: in a state where clause 0 has the literals `1 2 -1`, the bookkeeping
gives it the index 1, and appends it once to the lists of the variables 1 and 2. -/
theorem C11_witness :
    (assert_clause_bookkeeping 0 st_dup).mentions_lc 1 = [0] ∧
    (assert_clause_bookkeeping 0 st_dup).mentions_lc 2 = [0] ∧
    (sat_clause_index (assert_clause_bookkeeping 0 st_dup) 0
        = sat_clause_count st_dup + sat_learned_clause_count st_dup + 1 ∧
      (∀ x, x ≠ 0 →
        sat_clause_index (assert_clause_bookkeeping 0 st_dup) x = sat_clause_index st_dup x) ∧
      (assert_clause_bookkeeping 0 st_dup).lc = st_dup.lc ++ [0] ∧
      (assert_clause_bookkeeping 0 st_dup).q = st_dup.q ++ [0] ∧
      (∀ v, v ∈ (st_dup.lits 0).map sat_literal_var →
        (assert_clause_bookkeeping 0 st_dup).mentions_lc v = st_dup.mentions_lc v ++ [0]) ∧
      (∀ v, v ∉ (st_dup.lits 0).map sat_literal_var →
        (assert_clause_bookkeeping 0 st_dup).mentions_lc v = st_dup.mentions_lc v) ∧
      assert_clause_bookkeeping 0 st_dup =
        { st_dup with index := (assert_clause_bookkeeping 0 st_dup).index,
                      mentions_lc := (assert_clause_bookkeeping 0 st_dup).mentions_lc,
                      lc := (assert_clause_bookkeeping 0 st_dup).lc,
                      q := (assert_clause_bookkeeping 0 st_dup).q }) ∧
    (∀ s, Reachable s → ∀ j x, vector_get s.lc j = some x →
      sat_clause_index s x = sat_clause_count s + j + 1 ∧
      clause_at s (usub1 (sat_clause_index s x)) = some x) :=
  ⟨by decide, by decide,
    C11_assert_bookkeeping_indexes_and_mentions st_dup 0
      (fun _ x h => absurd h (List.not_mem_nil x)) (by decide)⟩

/-! ## Claim on the conflict without decisions -/

/-- The scan of a clause all of whose literals are false leaves `flag` and `pos` as they
are. -/
theorem unresolved_scan_all_false (st : SatState) : ∀ (ls : List Int) (j flag pos : Nat),
    (∀ l ∈ ls, sat_implied_literal st (sat_opp_literal l) = true) →
    unresolved_scan st ls j flag pos = (flag, pos)
  | [], _, _, _, _ => rfl
  | l :: ls, j, flag, pos, h => by
    unfold unresolved_scan
    have h1 := h l (List.mem_cons_self _ _)
    rw [h1]
    simp only [Bool.not_true, Bool.false_eq_true, if_false]
    exact unresolved_scan_all_false st ls (j + 1) flag pos
      (fun x hx => h x (List.mem_cons_of_mem _ hx))

/-- Without decisions the conflict branch allocates an empty clause and stops. -/
theorem conflict_branch_no_decision {st : SatState} (c : Nat) (hds : st.ds = []) :
    conflict_branch st c = some { st with
      ac := some st.brk, brk := st.brk + 1,
      lits := upd st.lits st.brk [], subsumed := upd st.subsumed st.brk false } := by
  unfold conflict_branch
  simp only [vector_size]
  rw [if_neg]
  rw [hds]
  simp

theorem pass_no_decision : ∀ i more st, st.ds = [] →
    (unit_resolution_pass i more st).2.ds = [] ∧
    ((unit_resolution_pass i more st).1 = PassOutcome.conflict →
      ∃ a, (unit_resolution_pass i more st).2.ac = some a ∧
        (unit_resolution_pass i more st).2.lits a = []) :=
  pass_induct (fun _ _ st => st.ds = [])
    (fun o st => st.ds = [] ∧ (o = PassOutcome.conflict → ∃ a, st.ac = some a ∧ st.lits a = []))
    (fun _ _ h => ⟨h, fun e => by cases e⟩)
    (fun _ _ _ h _ => ⟨h, fun e => by cases e⟩)
    (fun _ _ _ _ h _ _ => h)
    (fun _ _ _ _ h _ _ _ => h)
    (fun _ _ _ _ _ h _ _ _ _ _ _ => h)
    (fun _ _ st c st2 h _ _ _ hc => by
      have hds : ({ st with subsumed := upd st.subsumed c false } : SatState).ds = [] := h
      rw [conflict_branch_no_decision c hds] at hc
      have e := (Option.some.inj hc).symm
      subst e
      exact ⟨h, fun _ => ⟨st.brk, rfl, upd_same _ _ _⟩⟩)
    (fun _ _ _ _ h _ _ _ _ => ⟨h, fun e => by cases e⟩)

theorem loop_no_decision : ∀ (fuel : Nat) (st st' : SatState), st.ds = [] →
    unit_resolution_loop fuel st = some (false, st') →
    ∃ a, st'.ac = some a ∧ st'.lits a = [] ∧ st'.ds = []
  | 0, st, st', _, h => by simp [unit_resolution_loop] at h
  | fuel + 1, st, st', hds, h => by
    unfold unit_resolution_loop at h
    have hp := pass_no_decision (vector_size st.q) false st hds
    obtain ⟨⟨o, s1⟩, hs⟩ : ∃ x, unit_resolution_pass (vector_size st.q) false st = x :=
      ⟨_, rfl⟩
    rw [hs] at h hp
    simp only [] at h hp
    cases o with
    | fault => simp at h
    | conflict =>
      simp only [Option.some.injEq, Prod.mk.injEq, true_and] at h
      obtain ⟨a, h1, h2⟩ := hp.2 rfl
      rw [← h]
      exact ⟨a, h1, h2, hp.1⟩
    | finished more =>
      cases more with
      | true => exact loop_no_decision fuel s1 st' hp.1 h
      | false => simp at h

/-- The instrumented pass computes the result of `unit_resolution_pass`. -/
theorem pass_visits_fst : ∀ (i : Nat) (more : Bool) (st : SatState),
    (unit_resolution_pass_visits i more st).1 = unit_resolution_pass i more st
  | 0, _, _ => rfl
  | i + 1, more, st => by
    unfold unit_resolution_pass_visits unit_resolution_pass
    cases hq : vector_get st.q i with
    | none => rfl
    | some c =>
      simp only []
      by_cases hA : sat_subsumed_clause
          { st with subsumed := upd st.subsumed c (sat_check_subsumed_clause st c) } c = true
      · rw [if_pos hA, if_pos hA]
        exact pass_visits_fst i more _
      · rw [if_neg hA, if_neg hA]
        rcases unresolved_scan
          { st with subsumed := upd st.subsumed c (sat_check_subsumed_clause st c) }
          (st.lits c) 0 0 0 with ⟨flag, pos⟩
        simp only []
        by_cases h0 : flag = 0
        · rw [if_pos h0, if_pos h0]
          cases conflict_branch
            { st with subsumed := upd st.subsumed c (sat_check_subsumed_clause st c) } c <;> rfl
        · rw [if_neg h0, if_neg h0]
          by_cases h1 : flag = 1
          · rw [if_pos h1, if_pos h1]
            cases vector_get (st.lits c) pos with
            | none => rfl
            | some lit => exact pass_visits_fst i true _
          · rw [if_neg h1, if_neg h1]
            exact pass_visits_fst i more _

/-- The instrumented loop computes the result of `unit_resolution_loop`. -/
theorem loop_visits_fst : ∀ (fuel : Nat) (st : SatState),
    (unit_resolution_loop_visits fuel st).map Prod.fst = unit_resolution_loop fuel st
  | 0, _ => rfl
  | fuel + 1, st => by
    unfold unit_resolution_loop_visits unit_resolution_loop
    rw [← pass_visits_fst]
    rcases unit_resolution_pass_visits (vector_size st.q) false st with ⟨⟨o, s1⟩, vs⟩
    cases o with
    | fault => rfl
    | conflict => rfl
    | finished more =>
      cases more with
      | false => rfl
      | true =>
        simp only []
        rw [← loop_visits_fst fuel s1]
        cases unit_resolution_loop_visits fuel s1 <;> rfl

/-- The instrumented function computes the result of `sat_unit_resolution`. -/
theorem visits_fst (st : SatState) :
    (sat_unit_resolution_visits st).map Prod.fst = sat_unit_resolution st :=
  loop_visits_fst _ st

/-- A pass ends with a conflict only on a clause it read that has no implied literal and
whose literals all have their opposite implied, and a pass that reads such a clause ends
there, with a conflict (or with a fault of the conflict analysis). -/
theorem pass_visits_spec : ∀ (i : Nat) (more : Bool) (st : SatState),
    ((unit_resolution_pass_visits i more st).1.1 = PassOutcome.conflict →
      ∃ v ∈ (unit_resolution_pass_visits i more st).2, MeetsFalsified v) ∧
    (∀ v ∈ (unit_resolution_pass_visits i more st).2, MeetsFalsified v →
      (unit_resolution_pass_visits i more st).1.1 = PassOutcome.conflict ∨
      (unit_resolution_pass_visits i more st).1.1 = PassOutcome.fault)
  | 0, _, _ => by
    unfold unit_resolution_pass_visits
    exact ⟨fun h => (by cases h), fun v hv => (by cases hv)⟩
  | i + 1, more, st => by
    have key : ∀ (c : Nat) (r : (PassOutcome × SatState) × List (SatState × Nat)),
        (MeetsFalsified (st, c) →
          r.1.1 = PassOutcome.conflict ∨ r.1.1 = PassOutcome.fault) →
        (r.1.1 = PassOutcome.conflict →
          MeetsFalsified (st, c) ∨ ∃ v ∈ r.2, MeetsFalsified v) →
        (∀ v ∈ r.2, MeetsFalsified v →
          r.1.1 = PassOutcome.conflict ∨ r.1.1 = PassOutcome.fault) →
        (r.1.1 = PassOutcome.conflict → ∃ v ∈ (st, c) :: r.2, MeetsFalsified v) ∧
        (∀ v ∈ (st, c) :: r.2, MeetsFalsified v →
          r.1.1 = PassOutcome.conflict ∨ r.1.1 = PassOutcome.fault) := by
      intro c r h1 h2 h3
      constructor
      · intro hc
        rcases h2 hc with h | ⟨v, hv, hm⟩
        · exact ⟨(st, c), List.mem_cons_self _ _, h⟩
        · exact ⟨v, List.mem_cons_of_mem _ hv, hm⟩
      · intro v hv hm
        rcases List.mem_cons.1 hv with e | hv'
        · rw [e] at hm; exact h1 hm
        · exact h3 v hv' hm
    unfold unit_resolution_pass_visits
    cases hq : vector_get st.q i with
    | none => exact ⟨fun h => (by cases h), fun v hv => (by cases hv)⟩
    | some c =>
      simp only []
      by_cases hA : sat_subsumed_clause
          { st with subsumed := upd st.subsumed c (sat_check_subsumed_clause st c) } c = true
      · rw [if_pos hA]
        have ih := pass_visits_spec i more
          { st with subsumed := upd st.subsumed c (sat_check_subsumed_clause st c),
                    q := vector_erase st.q i }
        refine key c _ ?_ (fun h => Or.inr (ih.1 h)) ih.2
        intro hm
        exfalso
        have hA' : upd st.subsumed c (sat_check_subsumed_clause st c) c = true := hA
        rw [upd_same, hm.1] at hA'
        cases hA'
      · rw [if_neg hA]
        have hch : sat_check_subsumed_clause st c = false := by
          have hA' : ¬ upd st.subsumed c (sat_check_subsumed_clause st c) c = true := hA
          rw [upd_same] at hA'
          simpa using hA'
        rcases hscan : unresolved_scan
          { st with subsumed := upd st.subsumed c (sat_check_subsumed_clause st c) }
          (st.lits c) 0 0 0 with ⟨flag, pos⟩
        have hmeet : MeetsFalsified (st, c) → flag = 0 := by
          intro hm
          have := unresolved_scan_all_false
            { st with subsumed := upd st.subsumed c (sat_check_subsumed_clause st c) }
            (st.lits c) 0 0 0 hm.2
          rw [hscan] at this
          exact (Prod.mk.inj this).1
        simp only []
        by_cases h0 : flag = 0
        · rw [if_pos h0]
          have hall : MeetsFalsified (st, c) := by
            refine ⟨hch, fun l hl => ?_⟩
            rw [h0] at hscan
            have := unresolved_scan_zero _ (st.lits c) 0 0 pos hscan l hl
            rw [sat_opp_literal_eq]
            exact this
          cases conflict_branch
            { st with subsumed := upd st.subsumed c (sat_check_subsumed_clause st c) } c with
          | none =>
            exact key c _ (fun _ => Or.inr rfl) (fun _ => Or.inl hall)
              (fun v hv => by cases hv)
          | some st2 =>
            exact key c _ (fun _ => Or.inl rfl) (fun _ => Or.inl hall)
              (fun v hv => by cases hv)
        · rw [if_neg h0]
          by_cases h1 : flag = 1
          · rw [if_pos h1]
            cases vector_get (st.lits c) pos with
            | none =>
              exact key c _ (fun _ => Or.inr rfl) (fun h => by cases h)
                (fun v hv => by cases hv)
            | some lit =>
              have ih := pass_visits_spec i true
                (unit_branch
                  { st with subsumed := upd st.subsumed c (sat_check_subsumed_clause st c) }
                  i c lit)
              exact key c _ (fun hm => absurd (hmeet hm) h0) (fun h => Or.inr (ih.1 h)) ih.2
          · rw [if_neg h1]
            have ih := pass_visits_spec i more
              { st with subsumed := upd st.subsumed c (sat_check_subsumed_clause st c) }
            exact key c _ (fun hm => absurd (hmeet hm) h0) (fun h => Or.inr (ih.1 h)) ih.2

/-- Unit resolution returns 0 exactly when one of its passes reads a clause without implied
literal whose literals all have their opposite implied. -/
theorem loop_visits_spec : ∀ (fuel : Nat) (st : SatState) (r : Bool) (st' : SatState)
    (vs : List (SatState × Nat)),
    unit_resolution_loop_visits fuel st = some ((r, st'), vs) →
    ((∃ v ∈ vs, MeetsFalsified v) ↔ r = false)
  | 0, _, _, _, _, h => by simp [unit_resolution_loop_visits] at h
  | fuel + 1, st, r, st', vs, h => by
    unfold unit_resolution_loop_visits at h
    have hp := pass_visits_spec (vector_size st.q) false st
    rcases hs : unit_resolution_pass_visits (vector_size st.q) false st with ⟨⟨o, s1⟩, vs1⟩
    rw [hs] at h hp
    simp only [] at h hp
    cases o with
    | fault => simp at h
    | conflict =>
      simp only [Option.some.injEq, Prod.mk.injEq] at h
      obtain ⟨⟨e1, _⟩, e2⟩ := h
      rw [← e1, ← e2]
      exact ⟨fun _ => rfl, fun _ => hp.1 rfl⟩
    | finished more =>
      have hno : ¬ ∃ v ∈ vs1, MeetsFalsified v := by
        rintro ⟨v, hv, hm⟩
        rcases hp.2 v hv hm with e | e <;> cases e
      cases more with
      | false =>
        simp only [Option.some.injEq, Prod.mk.injEq] at h
        obtain ⟨⟨e1, _⟩, e2⟩ := h
        rw [← e1, ← e2]
        exact ⟨fun hx => absurd hx hno, fun e => by cases e⟩
      | true =>
        simp only [] at h
        obtain ⟨⟨⟨r2, s2⟩, vs2⟩, h2, e⟩ := Option.map_eq_some'.1 h
        simp only [Prod.mk.injEq] at e
        obtain ⟨⟨e1, _⟩, e2⟩ := e
        have ih := loop_visits_spec fuel s1 r2 s2 vs2 h2
        rw [← e1, ← e2, ← ih]
        constructor
        · rintro ⟨v, hv, hm⟩
          rcases List.mem_append.1 hv with hv | hv
          · exact absurd ⟨v, hv, hm⟩ hno
          · exact ⟨v, hv, hm⟩
        · rintro ⟨v, hv, hm⟩
          exact ⟨v, List.mem_append_right _ hv, hm⟩

/-- C12: on every state with an empty decision stack, `sat_unit_resolution` returns 0
exactly when one of its passes, the first or a later one, reads from the queue a clause
without implied literal all of whose literals have their opposite implied; whenever it
returns 0, `ac` is present and has zero literals. The reads are those of the instrumented
copy `sat_unit_resolution_visits`, which returns whenever `sat_unit_resolution` does, with
the same result; `sat_unit_resolution` returns on every state that satisfies the
invariant. -/
theorem C12_conflict_without_decision_gives_empty_clause (st : SatState)
    (hds : st.ds = []) :
    (∀ r st' vs, sat_unit_resolution_visits st = some ((r, st'), vs) →
      sat_unit_resolution st = some (r, st') ∧
      ((∃ v ∈ vs, MeetsFalsified v) ↔ r = false) ∧
      (r = false → ∃ a, st'.ac = some a ∧ sat_clause_size st' a = 0 ∧ st'.ds = [])) ∧
    (∀ r st', sat_unit_resolution st = some (r, st') →
      ∃ vs, sat_unit_resolution_visits st = some ((r, st'), vs)) ∧
    (Inv st → ∃ r st', sat_unit_resolution st = some (r, st')) := by
  refine ⟨?_, ?_, ?_⟩
  · intro r st' vs hv
    have hur : sat_unit_resolution st = some (r, st') := by
      rw [← visits_fst, hv]; rfl
    refine ⟨hur, loop_visits_spec _ st r st' vs hv, fun e => ?_⟩
    subst e
    obtain ⟨a, h1, h2, h3⟩ := loop_no_decision _ st st' hds hur
    exact ⟨a, h1, by unfold sat_clause_size; rw [h2]; rfl, h3⟩
  · intro r st' hur
    rw [← visits_fst] at hur
    obtain ⟨⟨p, vs⟩, h1, h2⟩ := Option.map_eq_some'.1 hur
    simp only [] at h2
    subst h2
    exact ⟨vs, h1⟩
  · intro hI
    obtain ⟨r, st', h, _⟩ := sat_unit_resolution_inv hI
    exact ⟨r, st', h⟩

/-- Witness of C12 on scenario S2 (`1 / -1`), where the first pass reads the clauses 1 and 0
and the second read meets the falsified clause, and on `1 / -1 2 / -1 -2`, where the first
pass reads the clauses 2, 1, 0 and forces `+1`, and the second pass reads the clauses 1
and 2 and meets the falsified clause `-1 -2`: both calls return 0 and leave an asserting
clause with zero literals. -/
theorem C12_witness :
    (∃ st' vs, sat_unit_resolution_visits (sat_state_new mem_zero 1 cnf_contra)
        = some ((false, st'), vs) ∧ vs.map Prod.snd = [1, 0] ∧
      sat_unit_resolution (sat_state_new mem_zero 1 cnf_contra) = some (false, st') ∧
      (∃ v ∈ vs, MeetsFalsified v) ∧
      ∃ a, st'.ac = some a ∧ sat_clause_size st' a = 0 ∧ st'.ds = []) ∧
    (∃ st' vs, sat_unit_resolution_visits (sat_state_new mem_zero 2 cnf_late)
        = some ((false, st'), vs) ∧ vs.map Prod.snd = [2, 1, 0, 1, 2] ∧
      sat_unit_resolution (sat_state_new mem_zero 2 cnf_late) = some (false, st') ∧
      (∃ v ∈ vs, MeetsFalsified v) ∧
      ∃ a, st'.ac = some a ∧ sat_clause_size st' a = 0 ∧ st'.ds = []) := by
  constructor
  · have ev : (sat_unit_resolution_visits (sat_state_new mem_zero 1 cnf_contra)).map
        (fun r => (r.1.1, r.2.map Prod.snd)) = some (false, [1, 0]) := by decide
    obtain ⟨⟨⟨r, st'⟩, vs⟩, h, e⟩ := Option.map_eq_some'.1 ev
    simp only [Prod.mk.injEq] at e
    obtain ⟨e1, e2⟩ := e
    subst e1
    have hds : (sat_state_new mem_zero 1 cnf_contra).ds = [] := by decide
    obtain ⟨h1, h2, h3⟩ :=
      (C12_conflict_without_decision_gives_empty_clause _ hds).1 false st' vs h
    exact ⟨st', vs, h, e2, h1, h2.2 rfl, h3 rfl⟩
  · have ev : (sat_unit_resolution_visits (sat_state_new mem_zero 2 cnf_late)).map
        (fun r => (r.1.1, r.2.map Prod.snd)) = some (false, [2, 1, 0, 1, 2]) := by decide
    obtain ⟨⟨⟨r, st'⟩, vs⟩, h, e⟩ := Option.map_eq_some'.1 ev
    simp only [Prod.mk.injEq] at e
    obtain ⟨e1, e2⟩ := e
    subst e1
    have hds : (sat_state_new mem_zero 2 cnf_late).ds = [] := by decide
    obtain ⟨h1, h2, h3⟩ :=
      (C12_conflict_without_decision_gives_empty_clause _ hds).1 false st' vs h
    exact ⟨st', vs, h, e2, h1, h2.2 rfl, h3 rfl⟩

/-! ## Claim on `sat_restore_literal` -/

/-- The occurrence loop of `sat_restore_literal`, on any state: the clauses cleared and
appended to `q` are the clauses of the list that are flagged and have no implied literal,
each appended once. -/
theorem restore_fold_exact : ∀ (cs : List Nat) (st : SatState),
    ∃ added : List Nat,
      cs.foldl restore_clause st =
        { st with subsumed := fun c => if c ∈ added then false else st.subsumed c,
                  q := st.q ++ added } ∧
      added.Nodup ∧
      ∀ c, c ∈ added ↔
        (c ∈ cs ∧ st.subsumed c = true ∧ sat_check_subsumed_clause st c = false)
  | [], st => by
    refine ⟨[], ?_, List.nodup_nil, fun c => by simp⟩
    simp only [List.foldl_nil, List.not_mem_nil, if_false, List.append_nil]
  | c :: cs, st => by
    rw [List.foldl_cons, restore_clause_eq]
    by_cases hcond : st.subsumed c = true ∧ sat_check_subsumed_clause st c = false
    · rw [if_pos hcond]
      obtain ⟨added, e, hnd, hmem⟩ := restore_fold_exact cs
        { st with subsumed := upd st.subsumed c false, q := st.q ++ [c] }
      have hc : c ∉ added := by
        intro h
        have := ((hmem c).1 h).2.1
        have e0 : upd st.subsumed c false c = true := this
        rw [upd_same] at e0
        cases e0
      refine ⟨c :: added, ?_, List.nodup_cons.2 ⟨hc, hnd⟩, ?_⟩
      · have hsub : (fun x => if x ∈ added then false else upd st.subsumed c false x)
            = (fun x => if x ∈ c :: added then false else st.subsumed x) := by
          funext x
          by_cases hx : x = c
          · subst hx
            rw [upd_same, if_pos (List.mem_cons_self _ _)]
            simp
          · have hiff : x ∈ c :: added ↔ x ∈ added := by
              rw [List.mem_cons]
              exact ⟨fun h => h.resolve_left hx, Or.inr⟩
            rw [upd_other _ _ _ _ hx]
            simp only [hiff]
        have hq : (st.q ++ [c]) ++ added = st.q ++ c :: added := by simp
        calc cs.foldl restore_clause
              { st with subsumed := upd st.subsumed c false, q := st.q ++ [c] }
            = { st with
                subsumed := fun x => if x ∈ added then false else upd st.subsumed c false x,
                q := (st.q ++ [c]) ++ added } := e
          _ = _ := by rw [hsub, hq]
      · intro x
        rw [List.mem_cons, hmem x]
        have hch : sat_check_subsumed_clause
            { st with subsumed := upd st.subsumed c false, q := st.q ++ [c] } x
              = sat_check_subsumed_clause st x := rfl
        rw [hch]
        show x = c ∨ (x ∈ cs ∧ upd st.subsumed c false x = true ∧ _) ↔ _
        by_cases hx : x = c
        · subst hx
          simp [hcond.1, hcond.2]
        · rw [upd_other _ _ _ _ hx]
          simp [hx]
    · rw [if_neg hcond]
      obtain ⟨added, e, hnd, hmem⟩ := restore_fold_exact cs st
      refine ⟨added, e, hnd, ?_⟩
      intro x
      rw [hmem x, List.mem_cons]
      constructor
      · rintro ⟨h1, h2, h3⟩
        exact ⟨Or.inr h1, h2, h3⟩
      · rintro ⟨h1 | h1, h2, h3⟩
        · subst h1
          exact absurd ⟨h2, h3⟩ hcond
        · exact ⟨h1, h2, h3⟩

/-- C13: on every state, `sat_restore_literal` clears the implied flag of the literal; the
clauses listed in `mentions` or `mentions_lc` of its variable whose flag was set and which
have no other implied literal get their flag cleared and are appended to `q`, each exactly
once; every other clause keeps its flag and its occurrences in `q`, and nothing else
changes. -/
theorem C13_restore_literal_requeues_unsubsumed_clauses (st : SatState) (lit : Int) :
    ∃ added : List Nat,
      sat_restore_literal st lit =
        { st with implied := upd st.implied lit false,
                  subsumed := fun c => if c ∈ added then false else st.subsumed c,
                  q := st.q ++ added } ∧
      added.Nodup ∧
      (∀ c, c ∈ added ↔
        ((c ∈ st.mentions (sat_literal_var lit) ∨ c ∈ st.mentions_lc (sat_literal_var lit)) ∧
          sat_subsumed_clause st c = true ∧
          ∀ l ∈ st.lits c, l ≠ lit → sat_implied_literal st l = false)) ∧
      sat_implied_literal (sat_restore_literal st lit) lit = false ∧
      (∀ c ∈ added, sat_subsumed_clause (sat_restore_literal st lit) c = false ∧
        (sat_restore_literal st lit).q.count c = st.q.count c + 1) ∧
      (∀ c, c ∉ added →
        sat_subsumed_clause (sat_restore_literal st lit) c = sat_subsumed_clause st c ∧
        (sat_restore_literal st lit).q.count c = st.q.count c) := by
  obtain ⟨a1, e1, n1, m1⟩ := restore_fold_exact (st.mentions (sat_literal_var lit))
    { st with implied := upd st.implied lit false }
  obtain ⟨a2, e2, n2, m2⟩ := restore_fold_exact (st.mentions_lc (sat_literal_var lit))
    { st with implied := upd st.implied lit false,
              subsumed := fun c => if c ∈ a1 then false else st.subsumed c,
              q := st.q ++ a1 }
  have hcheck : ∀ c, sat_check_subsumed_clause { st with implied := upd st.implied lit false } c
      = false ↔ ∀ l ∈ st.lits c, l ≠ lit → sat_implied_literal st l = false := by
    intro c
    rw [check_false_iff]
    constructor
    · intro h l hl hne
      have := h l hl
      have e0 : upd st.implied lit false l = false := this
      rw [upd_other _ _ _ _ hne] at e0
      exact e0
    · intro h l hl
      show upd st.implied lit false l = false
      by_cases hne : l = lit
      · rw [hne, upd_same]
      · rw [upd_other _ _ _ _ hne]
        exact h l hl hne
  have hdis : ∀ c ∈ a2, c ∉ a1 := by
    intro c hc h1
    have := ((m2 c).1 hc).2.1
    have e0 : (if c ∈ a1 then false else st.subsumed c) = true := this
    rw [if_pos h1] at e0
    cases e0
  have hres : sat_restore_literal st lit =
      { st with implied := upd st.implied lit false,
                subsumed := fun c => if c ∈ a1 ++ a2 then false else st.subsumed c,
                q := st.q ++ (a1 ++ a2) } := by
    have hsub : (fun c => if c ∈ a2 then false else (if c ∈ a1 then false else st.subsumed c))
        = (fun c => if c ∈ a1 ++ a2 then false else st.subsumed c) := by
      funext c
      by_cases h1 : c ∈ a1 <;> by_cases h2 : c ∈ a2 <;> simp [h1, h2]
    have hq : (st.q ++ a1) ++ a2 = st.q ++ (a1 ++ a2) := by simp
    unfold sat_restore_literal
    simp only []
    rw [e1]
    simp only []
    calc (st.mentions_lc (sat_literal_var lit)).foldl restore_clause
          { st with implied := upd st.implied lit false,
                    subsumed := fun c => if c ∈ a1 then false else st.subsumed c,
                    q := st.q ++ a1 }
        = { st with
            implied := upd st.implied lit false,
            subsumed := fun c =>
              if c ∈ a2 then false else (if c ∈ a1 then false else st.subsumed c),
            q := (st.q ++ a1) ++ a2 } := e2
      _ = _ := by rw [hsub, hq]
  have hmem : ∀ c, c ∈ a1 ++ a2 ↔
      ((c ∈ st.mentions (sat_literal_var lit) ∨ c ∈ st.mentions_lc (sat_literal_var lit)) ∧
        sat_subsumed_clause st c = true ∧
        ∀ l ∈ st.lits c, l ≠ lit → sat_implied_literal st l = false) := by
    intro c
    rw [List.mem_append, m1 c, m2 c, ← hcheck c]
    have hch : sat_check_subsumed_clause
        { st with implied := upd st.implied lit false,
                  subsumed := fun c => if c ∈ a1 then false else st.subsumed c,
                  q := st.q ++ a1 } c
          = sat_check_subsumed_clause { st with implied := upd st.implied lit false } c := rfl
    rw [hch]
    show (_ ∧ st.subsumed c = true ∧ _) ∨ (_ ∧ (if c ∈ a1 then false else st.subsumed c) = true ∧ _)
      ↔ (_ ∧ st.subsumed c = true ∧ _)
    constructor
    · rintro (⟨h1, h2, h3⟩ | ⟨h1, h2, h3⟩)
      · exact ⟨Or.inl h1, h2, h3⟩
      · by_cases ha : c ∈ a1
        · rw [if_pos ha] at h2; cases h2
        · rw [if_neg ha] at h2
          exact ⟨Or.inr h1, h2, h3⟩
    · rintro ⟨h1 | h1, h2, h3⟩
      · exact Or.inl ⟨h1, h2, h3⟩
      · by_cases ha : c ∈ a1
        · exact Or.inl ((m1 c).1 ha)
        · right
          refine ⟨h1, ?_, h3⟩
          rw [if_neg ha]
          exact h2
  have hnd : (a1 ++ a2).Nodup :=
    List.nodup_append.2 ⟨n1, n2, fun x h1 h2 => hdis x h2 h1⟩
  refine ⟨a1 ++ a2, hres, hnd, hmem, ?_, ?_, ?_⟩
  · rw [hres]
    show upd st.implied lit false lit = false
    rw [upd_same]
  · intro c hc
    rw [hres]
    constructor
    · show (if c ∈ a1 ++ a2 then false else st.subsumed c) = false
      rw [if_pos hc]
    · show (st.q ++ (a1 ++ a2)).count c = _
      rw [List.count_append, List.count_eq_one_of_mem hnd hc]
  · intro c hc
    rw [hres]
    constructor
    · show (if c ∈ a1 ++ a2 then false else st.subsumed c) = st.subsumed c
      rw [if_neg hc]
    · show (st.q ++ (a1 ++ a2)).count c = _
      rw [List.count_append, List.count_eq_zero_of_not_mem hc]
      rfl

/-! ## Claims on scenario S4, on the empty clause, on the asserting clause and on undo -/

/-- C14: on scenario S4, after construction and a first unit resolution, `decide(+1)`
returns a conflict with the asserting clause `{-1}`; `sat_at_assertion_level` of that clause
is 0 while `+1` is decided and 1 after the undo; the assertion of the clause after the undo
returns `NULL` and implies `-1` at level 1; afterwards the clause `-2 -3 4` (address 2) is
the only clause of the store that is not flagged, it has no implied literal and two
literal positions whose opposite is not implied. -/
theorem C14_scenario_learning :
    ∃ stA c stB stC stD,
      sat_unit_resolution (sat_state_new mem_zero 4 cnf_learn) = some (true, stA) ∧
      sat_decide_literal 1 stA = some (some c, stB) ∧
      stB.lits c = [-1] ∧
      sat_at_assertion_level c stB = false ∧
      sat_undo_decide_literal stB = some stC ∧
      sat_at_assertion_level c stC = true ∧
      sat_assert_clause c stC = some (none, stD) ∧
      sat_implied_literal stD (-1) = true ∧ stD.level 1 = 1 ∧
      (stD.kb ++ stD.lc).filter (fun x => !sat_subsumed_clause stD x) = [2] ∧
      stD.lits 2 = [-2, -3, 4] ∧
      sat_check_subsumed_clause stD 2 = false ∧ unresolved stD 2 = 2 := by
  have ev : ((sat_unit_resolution (sat_state_new mem_zero 4 cnf_learn)).bind
      (fun a => (sat_decide_literal 1 a.2).bind
        (fun b => b.1.bind
          (fun c => (sat_undo_decide_literal b.2).bind
            (fun s3 => (sat_assert_clause c s3).map
              (fun d => a.1 && decide (b.2.lits c = [-1]) &&
                !sat_at_assertion_level c b.2 && sat_at_assertion_level c s3 &&
                d.1.isNone && sat_implied_literal d.2 (-1) && decide (d.2.level 1 = 1) &&
                decide ((d.2.kb ++ d.2.lc).filter (fun x => !sat_subsumed_clause d.2 x) = [2]) &&
                decide (d.2.lits 2 = [-2, -3, 4]) &&
                !sat_check_subsumed_clause d.2 2 && decide (unresolved d.2 2 = 2)))))))
      = some true := by decide
  obtain ⟨⟨rA, stA⟩, hA, ev⟩ := Option.bind_eq_some.1 ev
  obtain ⟨⟨rB, stB⟩, hB, ev⟩ := Option.bind_eq_some.1 ev
  obtain ⟨c, hc, ev⟩ := Option.bind_eq_some.1 ev
  obtain ⟨stC, hC, ev⟩ := Option.bind_eq_some.1 ev
  obtain ⟨⟨rD, stD⟩, hD, ev⟩ := Option.map_eq_some'.1 ev
  simp only [Bool.and_eq_true, decide_eq_true_eq, Bool.not_eq_true',
    Option.isNone_iff_eq_none] at ev
  obtain ⟨⟨⟨⟨⟨⟨⟨⟨⟨⟨e1, e2⟩, e3⟩, e4⟩, e5⟩, e6⟩, e7⟩, e8⟩, e9⟩, e10⟩, e11⟩ := ev
  simp only at hc e1 e5
  subst e1
  subst hc
  subst e5
  exact ⟨stA, c, stB, stC, stD, hA, hB, e2, e3, hC, e4, hD, e6, e7, e8, e9, e10, e11⟩

/-- Counterexample to C14 as stated: at the end of scenario S4 the original clause
`-2 -3 4` (address 2) is not subsumed: its flag is 0 and none of its literals is implied. -/
theorem C14_counterexample :
    ∃ stA c stB stC stD,
      sat_unit_resolution (sat_state_new mem_zero 4 cnf_learn) = some (true, stA) ∧
      sat_decide_literal 1 stA = some (some c, stB) ∧
      sat_undo_decide_literal stB = some stC ∧
      sat_assert_clause c stC = some (none, stD) ∧
      2 ∈ stD.kb ∧ sat_subsumed_clause stD 2 = false ∧
      ∀ l ∈ stD.lits 2, sat_implied_literal stD l = false := by
  have ev : ((sat_unit_resolution (sat_state_new mem_zero 4 cnf_learn)).bind
      (fun a => (sat_decide_literal 1 a.2).bind
        (fun b => b.1.bind
          (fun c => (sat_undo_decide_literal b.2).bind
            (fun s3 => (sat_assert_clause c s3).map
              (fun d => a.1 && d.1.isNone && decide (2 ∈ d.2.kb) &&
                !sat_subsumed_clause d.2 2 &&
                decide (∀ l ∈ d.2.lits 2, sat_implied_literal d.2 l = false)))))))
      = some true := by decide
  obtain ⟨⟨rA, stA⟩, hA, ev⟩ := Option.bind_eq_some.1 ev
  obtain ⟨⟨rB, stB⟩, hB, ev⟩ := Option.bind_eq_some.1 ev
  obtain ⟨c, hc, ev⟩ := Option.bind_eq_some.1 ev
  obtain ⟨stC, hC, ev⟩ := Option.bind_eq_some.1 ev
  obtain ⟨⟨rD, stD⟩, hD, ev⟩ := Option.map_eq_some'.1 ev
  simp only [Bool.and_eq_true, decide_eq_true_eq, Bool.not_eq_true',
    Option.isNone_iff_eq_none] at ev
  obtain ⟨⟨⟨⟨e1, e2⟩, e3⟩, e4⟩, e5⟩ := ev
  simp only at hc e1 e2
  subst e1
  subst hc
  subst e2
  exact ⟨stA, c, stB, stC, stD, hA, hB, hC, hD, e3, e4, e5⟩

/-- C15: for a clause with zero literals `sat_at_assertion_level` returns 1 exactly when the
decision stack is empty; it returns 0 on every state with a decision. -/
theorem C15_empty_clause_at_assertion_level_iff_no_decision (st : SatState) (c : Nat)
    (h : sat_clause_size st c = 0) :
    (sat_at_assertion_level c st = true ↔ vector_size st.ds = 0) ∧
    (st.ds ≠ [] → sat_at_assertion_level c st = false) := by
  have hl : st.lits c = [] := List.length_eq_zero.1 h
  have key : sat_at_assertion_level c st = true ↔ vector_size st.ds = 0 := by
    unfold sat_at_assertion_level
    rw [hl, List.foldl_nil, decide_eq_true_iff]
    constructor
    · intro e; omega
    · intro e; omega
  refine ⟨key, fun hds => ?_⟩
  cases hv : sat_at_assertion_level c st with
  | false => rfl
  | true =>
    have := List.length_eq_zero.1 (key.1 hv)
    exact absurd this hds

/-- Witness of C15: the empty clause 0 in a state without decisions and in a state with one
decision. -/
theorem C15_witness :
    sat_at_assertion_level 0 mem_zero = true ∧
    ((sat_at_assertion_level 0 { mem_zero with ds := [1] } = true ↔
        vector_size ({ mem_zero with ds := [1] } : SatState).ds = 0) ∧
      (({ mem_zero with ds := [1] } : SatState).ds ≠ [] →
        sat_at_assertion_level 0 { mem_zero with ds := [1] } = false)) :=
  ⟨by decide,
    C15_empty_clause_at_assertion_level_iff_no_decision { mem_zero with ds := [1] } 0
      (by decide)⟩

/-- Counterexample to C15 as stated, on scenario S2: unit resolution returns 0 on the
constructed state, the asserting clause has zero literals, the decision stack is empty, and
`sat_at_assertion_level` returns 1 on that clause. -/
theorem C15_counterexample :
    ∃ st' a, sat_unit_resolution (sat_state_new mem_zero 1 cnf_contra) = some (false, st') ∧
      st'.ac = some a ∧ sat_clause_size st' a = 0 ∧ st'.ds = [] ∧
      sat_at_assertion_level a st' = true := by
  have ev : ((sat_unit_resolution (sat_state_new mem_zero 1 cnf_contra)).bind
      (fun r => r.2.ac.map (fun a => !r.1 && decide (sat_clause_size r.2 a = 0) &&
        decide (r.2.ds = []) && sat_at_assertion_level a r.2))) = some true := by decide
  obtain ⟨⟨r, st'⟩, h, ev⟩ := Option.bind_eq_some.1 ev
  obtain ⟨a, ha, ev⟩ := Option.map_eq_some'.1 ev
  simp only [Bool.and_eq_true, decide_eq_true_eq, Bool.not_eq_true'] at ev
  obtain ⟨⟨⟨e1, e2⟩, e3⟩, e4⟩ := ev
  simp only at e1 ha
  subst e1
  exact ⟨st', a, h, ha, e2, e3, e4⟩

/-- C16: whenever `sat_unit_resolution` returns 0 in a reachable state, called directly, by
`sat_decide_literal` or by `sat_assert_clause` (which then return the clause `ac`), every
literal of the asserting clause `ac` it built is false: its opposite is implied, the literal
itself is not, and its variable is instantiated; the clause returned by
`sat_decide_literal` is never empty. -/
theorem C16_asserting_clause_literals_are_false (st : SatState) (h : Reachable st) :
    (∀ st', sat_unit_resolution st = some (false, st') →
      ∃ a, st'.ac = some a ∧ AllLiteralsFalse st' (st'.lits a)) ∧
    (∀ lit r st', ValidLit st.varnum lit →
      sat_instantiated_var st (sat_literal_var lit) = false → Quiescent st →
      sat_decide_literal lit st = some (r, st') → r ≠ none →
      ∃ a, r = some a ∧ st'.ac = some a ∧ st'.lits a ≠ [] ∧
        AllLiteralsFalse st' (st'.lits a)) ∧
    (∀ clause r st', st.ac = some clause → clause ∉ st.lc →
      sat_at_assertion_level clause st = true →
      sat_assert_clause clause st = some (r, st') → r ≠ none →
      ∃ a, r = some a ∧ st'.ac = some a ∧ AllLiteralsFalse st' (st'.lits a)) := by
  obtain ⟨h1, h2, h3⟩ := h.conflict_cases
    (fun s s' => s'.ds = s.ds ∧ ∃ a, s'.ac = some a ∧ (s'.ds ≠ [] → s'.lits a ≠ []) ∧
      AllLiteralsFalse s' (s'.lits a))
    (fun s s' hI hur => by
      obtain ⟨hI', hE, a, ha, _, hsh, _⟩ := ur_conflict_summary hI hur
      refine ⟨hE.ds_eq, a, ha, fun hds => ?_, hsh.all_false hI'.trail⟩
      obtain ⟨low, uip, e', _⟩ := hsh.2 hds
      rw [e']
      simp)
  refine ⟨?_, ?_, ?_⟩
  · intro st' hur
    obtain ⟨_, a, ha, _, hf⟩ := h1 st' hur
    exact ⟨a, ha, hf⟩
  · intro lit r st' hv hn hq hd hr
    obtain ⟨e, hds, a, ha, hne, hf⟩ := h2 lit r st' hv hn hq hd hr
    have hds' : st'.ds ≠ [] := by
      rw [hds]
      show st.ds ++ [lit] ≠ []
      simp
    exact ⟨a, by rw [e, ha], ha, hne hds', hf⟩
  · intro c r st' hac hlc hat hd hr
    obtain ⟨e, _, a, ha, _, hf⟩ := h3 c r st' hac hlc hat hd hr
    exact ⟨a, by rw [e, ha], ha, hf⟩

/-- Witness of C16 on `p cnf 3 2 / -1 -2 3 0 / -1 -2 -3 0`: after `decide(+1)`, the call
`decide(+2)` returns the asserting clause `{-1, -2}`, both of whose literals are false. -/
theorem C16_witness :
    ∃ stA stB rC stC,
      sat_unit_resolution (sat_state_new mem_zero 3 cnf_pair) = some (true, stA) ∧
      sat_decide_literal 1 stA = some (none, stB) ∧ Reachable stB ∧
      sat_decide_literal 2 stB = some (rC, stC) ∧ rC ≠ none ∧
      stC.ac.map stC.lits = some [-1, -2] ∧
      ∃ a, rC = some a ∧ stC.ac = some a ∧ stC.lits a ≠ [] ∧
        AllLiteralsFalse stC (stC.lits a) := by
  obtain ⟨stA, stB, rC, stC, hA, hB, hRB, hv, hn, hQ, _, hC, hr, hl, _⟩ := pair_scenario
  exact ⟨stA, stB, rC, stC, hA, hB, hRB, hC, hr, hl,
    (C16_asserting_clause_literals_are_false stB hRB).2.1 2 rC stC hv hn hQ hC hr⟩

/-- C17: on a reachable state with a decision, `sat_undo_decide_literal` returns; it removes
the top `d` of `ds`, truncates `s` just before `d` and `il` to the entries that precede `d`
on `s`; the literals removed (`d` and the literals `T` forced after it) were implied and
are not any more, every other implied flag is unchanged, and no literal left on `il` has a
level above the new `|ds| + 1`. -/
theorem C17_undo_removes_last_decision_and_its_implications (st : SatState)
    (h : Reachable st) (hds : st.ds ≠ []) :
    ∃ st' d T, sat_undo_decide_literal st = some st' ∧
      vector_top st.ds = some d ∧ st'.ds = vector_pop st.ds ∧
      st.s = st'.s ++ d :: T ∧ st.il = st'.il ++ T ∧ (∀ l ∈ st'.il, l ∈ st'.s) ∧
      (∀ l, l = d ∨ l ∈ T →
        sat_implied_literal st l = true ∧ sat_implied_literal st' l = false) ∧
      (∀ l, l ≠ d → l ∉ T → sat_implied_literal st' l = sat_implied_literal st l) ∧
      (∀ l ∈ st'.il, st'.level (sat_literal_var l) ≤ vector_size st'.ds + 1) ∧
      (∀ l ∈ T, vector_size st'.ds + 1 < st.level (sat_literal_var l)) := by
  obtain ⟨st', d, T, hu, hR', hU, _⟩ := h.undo_total hds
  have hT := h.inv.1.trail
  have hT' := hR'.inv.1.trail
  have hil : ∀ l ∈ st'.il, l ∈ st'.s := fun l hl =>
    List.mem_reverse.1 (hT'.trail.il_sub l (List.mem_reverse.2 hl))
  refine ⟨st', d, T, hu, ?_, ?_, hU.s_eq, hU.il_eq, hil, ?_, ?_, ?_, ?_⟩
  · unfold vector_top
    rw [hU.ds_eq]
    simp
  · unfold vector_pop
    rw [hU.ds_eq]
    simp
  · intro l hl
    have hm : l ∈ st.s := by
      rw [hU.s_eq]
      rcases hl with rfl | hl
      · simp
      · exact List.mem_append_right _ (List.mem_cons_of_mem _ hl)
    refine ⟨(hT.implied_iff l).2 hm, ?_⟩
    cases hv : sat_implied_literal st' l with
    | false => rfl
    | true =>
      have := (hU.implied_iff l).1 hv
      rcases hl with rfl | hl
      · exact absurd rfl this.2.1
      · exact absurd hl this.2.2
  · intro l h1 h2
    show st'.implied l = st.implied l
    rw [Bool.eq_iff_iff, hU.implied_iff]
    exact ⟨fun h => h.1, fun h => ⟨h, h1, h2⟩⟩
  · intro l hl
    exact (hT'.level_le (hil l hl)).2
  · intro l hl
    have := hU.level_T l hl
    have e : st.ds.length = st'.ds.length + 1 := by rw [hU.ds_eq]; simp
    show st'.ds.length + 1 < st.level l.natAbs
    omega

/-- Witness of C17 on scenario S4: the undo of `decide(+1)` after its conflict. -/
theorem C17_witness :
    ∃ stA rB stB,
      sat_unit_resolution (sat_state_new mem_zero 4 cnf_learn) = some (true, stA) ∧
      sat_decide_literal 1 stA = some (rB, stB) ∧ stB.ds ≠ [] ∧
      ∃ st' d T, sat_undo_decide_literal stB = some st' ∧
        vector_top stB.ds = some d ∧ st'.ds = vector_pop stB.ds ∧
        stB.s = st'.s ++ d :: T ∧ stB.il = st'.il ++ T ∧ (∀ l ∈ st'.il, l ∈ st'.s) ∧
        (∀ l, l = d ∨ l ∈ T →
          sat_implied_literal stB l = true ∧ sat_implied_literal st' l = false) ∧
        (∀ l, l ≠ d → l ∉ T → sat_implied_literal st' l = sat_implied_literal stB l) ∧
        (∀ l ∈ st'.il, st'.level (sat_literal_var l) ≤ vector_size st'.ds + 1) ∧
        (∀ l ∈ T, vector_size st'.ds + 1 < stB.level (sat_literal_var l)) := by
  have hR := Reachable.new mem_zero 4 cnf_learn validCnf_learn
  obtain ⟨rA, stA, hA, hRA, hEA, hQA, _⟩ := hR.unit_resolution_total
  have evA : (sat_unit_resolution (sat_state_new mem_zero 4 cnf_learn)).map Prod.fst
      = some true := by decide
  rw [hA] at evA
  simp only [Option.map_some', Option.some.injEq] at evA
  subst evA
  have hvn : stA.varnum = 4 := by rw [hEA.varnum_eq]; decide
  have hv : ValidLit stA.varnum 1 := by rw [hvn]; unfold ValidLit; decide
  have hn : sat_instantiated_var stA (sat_literal_var 1) = false := by
    have ev : (sat_unit_resolution (sat_state_new mem_zero 4 cnf_learn)).map
        (fun r => sat_instantiated_var r.2 (sat_literal_var 1)) = some false := by decide
    rw [hA] at ev
    simpa using ev
  obtain ⟨rB, stB, hB, hRB, hEB, _⟩ := hRA.decide_total hv hn (hQA rfl).1
  have hdsB : stB.ds ≠ [] := by
    rw [hEB.ds_eq]
    show stA.ds ++ [1] ≠ []
    simp
  exact ⟨stA, rB, stB, hA, hB, hdsB,
    C17_undo_removes_last_decision_and_its_implications stB hRB hdsB⟩

/-! ## Entailment along the trail -/

theorem lit_true_neg (σ : Nat → Bool) {l : Int} (h : l ≠ 0) :
    lit_true σ (-l) = !lit_true σ l := by
  unfold lit_true sat_literal_var
  rcases lt_or_gt_of_ne h with h1 | h1
  · have h2 : -l > 0 := by omega
    have h3 : ¬ l > 0 := by omega
    simp [h2, h3]
  · have h2 : ¬ -l > 0 := by omega
    simp [h2, h1]

/-- In the trail discipline, a literal is true under every assignment that satisfies the
reason clauses and makes true the decisions at or below the literal. -/
theorem TrailR.entailed {level : Nat → Nat} {reason : Int → Option (List Int)}
    {ds il s : List Int} (h : TrailR level reason ds il s) (σ : Nat → Bool)
    (hnz : ∀ x ∈ s, x ≠ 0)
    (hreason : ∀ l ∈ il, ∀ ls, reason l = some ls → Satisfies σ ls) :
    ∀ post l pre, s = post ++ l :: pre →
      (∀ d ∈ l :: pre, d ∈ ds → lit_true σ d = true) → lit_true σ l = true := by
  induction h with
  | nil => intro post l pre e; simp at e
  | @dec ds il s d ht _ ih =>
    intro post l pre e hd
    cases post with
    | nil =>
      simp only [List.nil_append, List.cons.injEq] at e
      exact hd l (List.mem_cons_self _ _) (by rw [← e.1]; exact List.mem_cons_self _ _)
    | cons y post =>
      simp only [List.cons_append, List.cons.injEq] at e
      exact ih (fun x hx => hnz x (List.mem_cons_of_mem _ hx)) hreason post l pre e.2
        (fun x hx hxd => hd x hx (List.mem_cons_of_mem _ hxd))
  | @imp ds il s l0 ls ht _ hr hmem hoth ih =>
    intro post l pre e hd
    have hnz' : ∀ x ∈ s, x ≠ 0 := fun x hx => hnz x (List.mem_cons_of_mem _ hx)
    have hreason' : ∀ l ∈ il, ∀ ls, reason l = some ls → Satisfies σ ls :=
      fun x hx => hreason x (List.mem_cons_of_mem _ hx)
    cases post with
    | nil =>
      simp only [List.nil_append, List.cons.injEq] at e
      obtain ⟨y, hy, hty⟩ := hreason l0 (List.mem_cons_self _ _) ls hr
      by_cases hyl : y = l0
      · rw [← e.1, ← hyl]; exact hty
      · exfalso
        have hneg : -y ∈ s := hoth y hy hyl
        obtain ⟨p1, p2, hsplit⟩ := List.append_of_mem hneg
        have := ih hnz' hreason' p1 (-y) p2 hsplit (fun x hx hxd => by
          apply hd x _ hxd
          rw [← e.2, hsplit]
          exact List.mem_cons_of_mem _ (List.mem_append_right _ hx))
        have hy0 : y ≠ 0 := by
          have := hnz' (-y) hneg
          omega
        rw [lit_true_neg σ hy0, hty] at this
        cases this
    | cons y post =>
      simp only [List.cons_append, List.cons.injEq] at e
      exact ih hnz' hreason' post l pre e.2 hd

theorem reason_satisfied {st : SatState} {σ : Nat → Bool} (hM : Models σ st) (l : Int)
    (ls : List Int) (h : reason_of st l = some ls) : Satisfies σ ls := by
  unfold reason_of at h
  obtain ⟨c, hc, e⟩ := Option.map_eq_some'.1 h
  rw [← e]
  exact hM c (clause_at_mem hc)

/-- A trail literal is true under every model of the clause store that makes true the
decisions that precede the literal, and the literal itself when it is a decision. -/
theorem Trail.entailed_at {st : SatState} (hT : Trail st) {σ : Nat → Bool} (hM : Models σ st)
    {pre post : List Int} {l : Int} (hs : st.s = pre ++ l :: post)
    (hd : ∀ d ∈ pre, d ∈ st.ds → lit_true σ d = true)
    (hl : l ∈ st.ds → lit_true σ l = true) : lit_true σ l = true := by
  have hrev : st.s.reverse = post.reverse ++ l :: pre.reverse := by rw [hs]; simp
  refine hT.trail.entailed σ ?_ ?_ _ _ _ hrev ?_
  · intro x hx
    exact (hT.s_valid x (List.mem_reverse.1 hx)).1
  · intro x _ ls hls
    exact reason_satisfied hM x ls hls
  · intro d hd1 hd2
    rw [List.mem_reverse] at hd2
    rcases List.mem_cons.1 hd1 with e | hd1
    · rw [e]; exact hl (e ▸ hd2)
    · exact hd d (List.mem_reverse.1 hd1) hd2

/-- Every trail literal is true under a model of the clause store that makes the decisions
true. -/
theorem Trail.all_true {st : SatState} (hT : Trail st) {σ : Nat → Bool} (hM : Models σ st)
    (hd : ∀ d ∈ st.ds, lit_true σ d = true) : ∀ x ∈ st.s, lit_true σ x = true := by
  intro x hx
  obtain ⟨a, b, hs⟩ := List.append_of_mem hx
  exact hT.entailed_at hM hs (fun d _ h => hd d h) (hd x)

theorem Trail.decision_level {st : SatState} (hT : Trail st) {d : Int} (hd : d ∈ st.ds) :
    2 ≤ st.level d.natAbs := by
  obtain ⟨a, b, hs⟩ := List.append_of_mem hd
  have hrev : st.ds.reverse = b.reverse ++ d :: a.reverse := by rw [hs]; simp
  have := hT.trail.level_decision _ _ _ hrev
  omega

/-- A trail literal of level 1 is true under every model of the clause store. -/
theorem Trail.level_one_entailed {st : SatState} (hT : Trail st) {σ : Nat → Bool}
    (hM : Models σ st) {x : Int} (hx : x ∈ st.s) (hl : st.level x.natAbs ≤ 1) :
    lit_true σ x = true := by
  obtain ⟨a, b, hs⟩ := List.append_of_mem hx
  obtain ⟨hmono, _, _⟩ := hT.at_split hs
  refine hT.entailed_at hM hs (fun d hda hdd => ?_) (fun hdd => ?_)
  · have := hT.decision_level hdd
    have := hmono d hda
    omega
  · have := hT.decision_level hdd
    omega

/-! ## Claim on the entailment of the forced literals -/

/-- C19: in every reachable state, a literal of `il` is true under every assignment that
satisfies all clauses of `kb` and `lc` and makes true the decided literals that precede it
on `s`; the clause addressed by its `locate` field contains it and all other literals of
that clause are false; and when `sat_unit_resolution` returns 0 on a reachable state
without decisions, no assignment satisfies all clauses of `kb` and `lc`. -/
theorem C19_forced_literals_are_entailed (st : SatState) (h : Reachable st) :
    (∀ σ, Models σ st → ∀ k l, vector_get st.s k = some l → l ∈ st.il →
      (∀ d ∈ st.s.take k, d ∈ st.ds → lit_true σ d = true) → lit_true σ l = true) ∧
    (∀ l ∈ st.il, ∃ c, clause_at st (st.locate l) = some c ∧ c ∈ st.kb ++ st.lc ∧
      l ∈ st.lits c ∧
      ∀ x ∈ st.lits c, x ≠ l → sat_implied_literal st (sat_opp_literal x) = true ∧
        sat_implied_literal st x = false) ∧
    (∀ st', st.ds = [] → sat_unit_resolution st = some (false, st') →
      (∀ σ, ¬ Models σ st') ∧ (∀ σ, ¬ Models σ st)) := by
  have hT := h.inv.1.trail
  have hn : st.s.reverse.Nodup := List.nodup_reverse.2 hT.s_nodup'
  refine ⟨?_, ?_, ?_⟩
  · intro σ hM k l hk hl hd
    obtain ⟨a, b, hs, ha⟩ := getElem?_split st.s k l hk
    have htake : st.s.take k = a := by rw [hs, ← ha]; simp
    rw [htake] at hd
    refine hT.entailed_at hM hs hd (fun hld => ?_)
    exact absurd (List.mem_reverse.2 hl)
      (hT.trail.ds_not_il hn l (List.mem_reverse.2 hld))
  · intro l hl
    have hls : l ∈ st.s := List.mem_reverse.1 (hT.trail.il_sub l (List.mem_reverse.2 hl))
    obtain ⟨a, b, hs⟩ := List.append_of_mem hls
    obtain ⟨_, _, hre⟩ := hT.at_split hs
    obtain ⟨c, hc1, hc2, hc3⟩ := hre hl
    refine ⟨c, hc1, clause_at_mem hc1, hc2, fun x hx hne => ?_⟩
    have hm : -x ∈ st.s := by rw [hs]; exact List.mem_append_left _ (hc3 x hx hne)
    have himp : st.implied (-x) = true := (hT.implied_iff _).2 hm
    refine ⟨by rw [sat_opp_literal_eq]; exact himp, ?_⟩
    cases hv : sat_implied_literal st x with
    | false => rfl
    | true => exact absurd ⟨hv, himp⟩ (hT.not_both x)
  · intro st' hds hur
    obtain ⟨r, st0, h1, hR', hE, _, h5⟩ := h.unit_resolution_total
    rw [hur] at h1
    obtain ⟨rfl, rfl⟩ := Prod.mk.inj (Option.some.inj h1)
    obtain ⟨_, _, _, _, c, hcq, hcf⟩ := h5 rfl
    have hT' := hR'.inv.1.trail
    have hcc : c ∈ clauses st' := hR'.inv.1.queue.q_sub c hcq
    have key : ∀ σ, ¬ Models σ st' := by
      intro σ hM
      have hall := hT'.all_true hM (fun d hd => by
        rw [hE.ds_eq, hds] at hd
        cases hd)
      obtain ⟨l, hl, hlt⟩ := hM c hcc
      have hm : -l ∈ st'.s := (hT'.implied_iff _).1 (hcf l hl)
      have hl0 : l ≠ 0 := by
        have := (hT'.s_valid _ hm).1
        omega
      have := hall (-l) hm
      rw [lit_true_neg σ hl0, hlt] at this
      cases this
    refine ⟨key, fun σ hM => key σ ?_⟩
    intro x hx
    have hx' : x ∈ clauses st := by
      unfold clauses
      rw [← hE.kb_eq, ← hE.lc_eq]
      exact hx
    rw [hE.lits_eq x hx']
    exact hM x hx'

/-- Witness of C19 on scenario S2: unit resolution returns 0 on the constructed state, which
has no decision, and the two clauses `1` and `-1` have no model. -/
theorem C19_witness :
    ∃ st', sat_unit_resolution (sat_state_new mem_zero 1 cnf_contra) = some (false, st') ∧
      (∀ σ, ¬ Models σ st') ∧ (∀ σ, ¬ Models σ (sat_state_new mem_zero 1 cnf_contra)) := by
  have hV : ValidCnf 1 cnf_contra := by
    unfold ValidCnf ValidLit cnf_contra; decide
  have hR := Reachable.new mem_zero 1 cnf_contra hV
  have ev : (sat_unit_resolution (sat_state_new mem_zero 1 cnf_contra)).map
      (fun r => !r.1) = some true := by decide
  obtain ⟨⟨r, st'⟩, hu, e⟩ := Option.map_eq_some'.1 ev
  simp only [Bool.not_eq_true'] at e
  subst e
  have hds : (sat_state_new mem_zero 1 cnf_contra).ds = [] := by decide
  exact ⟨st', hu, (C19_forced_literals_are_entailed _ hR).2.2 st' hds hu⟩

/-! ## Conflict analysis: which variables are seen -/

theorem scan_lits_mono (ac : Nat) : ∀ (ls : List Int) (st : SatState) (m : Nat),
    ∀ x ∈ st.lits ac, x ∈ (assert_clause_scan ac ls st m).1.lits ac
  | [], _, _ => fun _ hx => hx
  | l :: ls, st, m => by
    intro x hx
    unfold assert_clause_scan
    simp only []
    split_ifs
    · exact scan_lits_mono ac ls st m x hx
    · apply scan_lits_mono ac ls
      show x ∈ upd st.lits ac (vector_push (st.lits ac) l) ac
      rw [upd_same]
      exact List.mem_append_left _ hx
    · exact scan_lits_mono ac ls _ _ x hx

/-- A literal of the scanned clause whose variable is unseen and lies below the current
level is pushed to `ac`, possibly through an earlier literal of the same variable. -/
theorem scan_pushed (ac : Nat) : ∀ (ls : List Int) (st : SatState) (m : Nat),
    ∀ l ∈ ls, st.u l.natAbs = false → st.level l.natAbs < st.ds.length + 1 →
      ∃ l' ∈ (assert_clause_scan ac ls st m).1.lits ac, l'.natAbs = l.natAbs ∧ l' ∈ ls
  | [], _, _ => by intro l hl; cases hl
  | a :: ls, st, m => by
    intro l hl hu hlev
    unfold assert_clause_scan
    simp only [sat_literal_var_eq, vector_size]
    by_cases hua : st.u a.natAbs = true
    · rw [if_pos hua]
      have hne : l ≠ a := fun e => by rw [e, hua] at hu; cases hu
      have hl' : l ∈ ls := (List.mem_cons.1 hl).resolve_left hne
      obtain ⟨l', h1, h2, h3⟩ := scan_pushed ac ls st m l hl' hu hlev
      exact ⟨l', h1, h2, List.mem_cons_of_mem _ h3⟩
    · rw [if_neg hua]
      by_cases hlt : st.level a.natAbs < st.ds.length + 1
      · rw [if_pos hlt]
        by_cases hv : l.natAbs = a.natAbs
        · refine ⟨a, ?_, hv.symm, List.mem_cons_self _ _⟩
          apply scan_lits_mono
          show a ∈ upd st.lits ac (vector_push (st.lits ac) a) ac
          rw [upd_same]
          simp [vector_push]
        · have hne : l ≠ a := fun e => hv (by rw [e])
          have hl' := (List.mem_cons.1 hl).resolve_left hne
          obtain ⟨l', h1, h2, h3⟩ := scan_pushed ac ls
            { st with u := upd st.u a.natAbs true,
                      lits := upd st.lits ac (vector_push (st.lits ac) a) } m l hl'
            (by
              show upd st.u a.natAbs true l.natAbs = false
              rw [upd_other _ _ _ _ hv]; exact hu) hlev
          exact ⟨l', h1, h2, List.mem_cons_of_mem _ h3⟩
      · rw [if_neg hlt]
        by_cases hv : l.natAbs = a.natAbs
        · rw [hv] at hlev; exact absurd hlev hlt
        · have hne : l ≠ a := fun e => hv (by rw [e])
          have hl' := (List.mem_cons.1 hl).resolve_left hne
          obtain ⟨l', h1, h2, h3⟩ := scan_pushed ac ls
            { st with u := upd st.u a.natAbs true } (m + 1) l hl'
            (by
              show upd st.u a.natAbs true l.natAbs = false
              rw [upd_other _ _ _ _ hv]; exact hu) hlev
          exact ⟨l', h1, h2, List.mem_cons_of_mem _ h3⟩

theorem natAbs_unique {cur : List Int} (hn : (cur.map Int.natAbs).Nodup) :
    ∀ x y, x ∈ cur → y ∈ cur → x.natAbs = y.natAbs → x = y :=
  fun _ _ hx hy e => List.inj_on_of_nodup_map hn hx hy e

/-! ## Conflict analysis: the seen flags at the end of the loop -/

theorem analysis_loop_facts (ac : Nat) : ∀ (fuel : Nat) (st : SatState) (k m : Nat)
    (cur rest : List Int) (c : Nat),
    Trail st → ac ∉ clauses st → st.s = cur ++ rest → cur.length < fuel →
    clause_at st k = some c → (∀ l ∈ st.lits c, st.u l.natAbs = true ∨ -l ∈ cur) →
    m = seen_count st cur →
    (1 ≤ m ∨ ∃ l ∈ st.lits c, st.u l.natAbs = false ∧ st.level l.natAbs = st.ds.length + 1) →
    ∀ st', get_assert_clause_loop ac fuel st k m cur.length = some st' →
      AnalysisFacts ac st c cur st' := by
  intro fuel
  induction fuel with
  | zero => intro st k m cur rest c _ _ _ hf; omega
  | succ fuel ih =>
    intro st k m cur rest c hT hac hs hfuel hk hc hm h4 st' hres
    have hn : (cur.map Int.natAbs).Nodup := by
      have := hT.s_nodup
      rw [hs, List.map_append] at this
      exact this.of_append_left
    have huniq := natAbs_unique hn
    have hcs : ∀ x ∈ cur, x ∈ st.s := fun x hx => by rw [hs]; exact List.mem_append_left _ hx
    have hlev : ∀ x ∈ cur, st.level x.natAbs ≤ st.ds.length + 1 :=
      fun x hx => (hT.level_le (hcs x hx)).2
    have hcc : c ∈ clauses st := clause_at_mem hk
    obtain ⟨hfr, hu1, hm1, low, hlow, hlowp⟩ := scan_spec ac cur hn (st.lits c) st m hlev hc hm
    have hmono1 := scan_lits_mono ac (st.lits c) st m
    have hpush := scan_pushed ac (st.lits c) st m
    unfold get_assert_clause_loop at hres
    rw [hk] at hres
    simp only [] at hres
    rcases hscan : assert_clause_scan ac (st.lits c) st m with ⟨st1, m1⟩
    rw [hscan] at hfr hu1 hm1 hlow hres hmono1 hpush
    simp only [] at hfr hu1 hm1 hlow hres hmono1 hpush
    have hs1 : st1.s = cur ++ rest := by rw [hfr.s_eq, hs]
    have hlv1 : st1.level = st.level := hfr.level_eq
    have hds1 : st1.ds = st.ds := hfr.ds_eq
    have hT1 : Trail st1 := hfr.trail hac hT
    have hac1 : ac ∉ clauses st1 := by rw [hfr.clauses_same]; exact hac
    -- a seen entry of the current level lies in `cur`
    have hex : ∃ y ∈ cur, st1.u y.natAbs = true ∧ st1.level y.natAbs = st1.ds.length + 1 := by
      rcases h4 with h | ⟨l, hl1, hl2, hl3⟩
      · have : 0 < seen_count st cur := by omega
        obtain ⟨y, hy1, hy2, hy3⟩ := seen_count_pos.1 this
        exact ⟨y, hy1, by rw [hu1]; simp [hy2], by rw [hlv1, hds1]; exact hy3⟩
      · have hmem : -l ∈ cur := by
          rcases hc l hl1 with h | h
          · rw [hl2] at h; cases h
          · exact h
        refine ⟨-l, hmem, ?_, ?_⟩
        · rw [hu1]; simp
          right; exact ⟨l, hl1, rfl⟩
        · rw [hlv1, hds1]; simpa using hl3
    have hpos : 0 < m1 := by rw [hm1]; exact seen_count_pos.2 hex
    -- the scan: seen flags
    have hU : ∀ v, st.u v = true → st1.u v = true := by
      intro v hv; rw [hu1, hv]; rfl
    have hC : ∀ l ∈ st.lits c, st1.u l.natAbs = true := by
      intro l hl
      rw [hu1]
      have : l.natAbs ∈ (st.lits c).map Int.natAbs := List.mem_map_of_mem _ hl
      simp only [this, decide_True, Bool.or_true]
    have hB : ∀ v, st1.u v = true → st.u v = true ∨ ∃ x ∈ cur, x.natAbs = v := by
      intro v hv
      rw [hu1] at hv
      rcases Bool.or_eq_true _ _ ▸ hv with h | h
      · exact Or.inl h
      · have hm' : v ∈ (st.lits c).map Int.natAbs := of_decide_eq_true h
        obtain ⟨l, hl1, hl2⟩ := List.mem_map.1 hm'
        rcases hc l hl1 with h' | h'
        · left; rw [← hl2]; exact h'
        · right; exact ⟨-l, h', by simpa using hl2⟩
    -- the scan: a newly seen entry below the current level has its opposite in `ac`
    have hA : ∀ x ∈ cur, st.u x.natAbs = false → st1.u x.natAbs = true →
        st.level x.natAbs < st.ds.length + 1 → -x ∈ st1.lits ac := by
      intro x hx h0 h1 hl
      rw [hu1, h0, Bool.false_or] at h1
      have hm' : x.natAbs ∈ (st.lits c).map Int.natAbs := of_decide_eq_true h1
      obtain ⟨l, hl1, hl2⟩ := List.mem_map.1 hm'
      have hul : st.u l.natAbs = false := by rw [hl2]; exact h0
      obtain ⟨l', hp1, hp2, hp3⟩ := hpush l hl1 hul (by rw [hl2]; exact hl)
      have hul' : st.u l'.natAbs = false := by rw [hp2]; exact hul
      have hlc' : -l' ∈ cur := by
        rcases hc l' hp3 with h | h
        · rw [hul'] at h; cases h
        · exact h
      have e2 : -l' = x := huniq _ _ hlc' hx (by rw [Int.natAbs_neg, hp2, hl2])
      have : l' = -x := by omega
      rw [← this]; exact hp1
    rcases trail_seek_spec st1 cur rest hs1 with ⟨_, h2⟩ | ⟨pre, lit, mid, hcur, hseek, hlu, hmid⟩
    · have := seen_count_unseen h2
      omega
    · rw [hseek] at hres
      simp only [] at hres
      subst hcur
      rw [List.length_append, List.length_cons] at hfuel
      have hsplit : st1.s = pre ++ lit :: (mid ++ rest) := by rw [hs1]; simp
      obtain ⟨hmono, hdec, hreason⟩ := hT1.at_split hsplit
      have hlit_s : lit ∈ st1.s := by rw [hsplit]; simp
      have hlitL : st1.level lit.natAbs = st1.ds.length + 1 := by
        obtain ⟨y, hy1, hy2, hy3⟩ := hex
        have hle := (hT1.level_le hlit_s).2
        rcases List.mem_append.1 hy1 with h | h
        · have := hmono y h; omega
        · rcases List.mem_cons.1 h with h | h
          · subst h; exact hy3
          · rw [hmid y h] at hy2; cases hy2
      have hcount : m1 = seen_count st1 pre + 1 := by
        rw [hm1]; exact seen_count_split hlu hlitL hmid
      have hpre_cur : ∀ x ∈ pre, x ∈ pre ++ lit :: mid :=
        fun x hx => List.mem_append_left _ hx
      have hdisj : ∀ x ∈ mid, ∀ y ∈ pre, x.natAbs ≠ y.natAbs := by
        intro x hx y hy e
        have hxy : x = y := huniq x y
          (List.mem_append_right _ (List.mem_cons_of_mem _ hx)) (hpre_cur y hy) e
        have hnd : (pre ++ lit :: mid).Nodup := List.Nodup.of_map _ hn
        have := (List.nodup_append.1 hnd).2.2 hy (List.mem_cons_of_mem _ (hxy ▸ hx))
        exact this
      by_cases hm11 : m1 = 1
      · rw [if_pos hm11] at hres
        have e := Option.some.inj hres
        subst e
        have hzero : seen_count st1 pre = 0 := by omega
        refine ⟨hU, ?_, hC, ?_, hB⟩
        · intro x hx
          show x ∈ upd st1.lits ac (vector_push (st1.lits ac) (sat_opp_literal lit)) ac
          rw [upd_same]
          exact List.mem_append_left _ (hmono1 x hx)
        · intro x hx hux
          have hux1 : st1.u x.natAbs = true := hux
          rcases List.mem_append.1 hx with h | h
          · have hlow : st.level x.natAbs < st.ds.length + 1 := by
              have hle := hlev x hx
              have hne : st.level x.natAbs ≠ st.ds.length + 1 := by
                intro e
                have : 0 < seen_count st1 pre :=
                  seen_count_pos.2 ⟨x, h, hux1, by rw [hlv1, hds1]; exact e⟩
                omega
              omega
            by_cases h0 : st.u x.natAbs = true
            · exact Or.inl ⟨h0, hlow⟩
            · right; left
              show -x ∈ upd st1.lits ac (vector_push (st1.lits ac) (sat_opp_literal lit)) ac
              rw [upd_same]
              exact List.mem_append_left _ (hA x hx (by simpa using h0) hux1 hlow)
          · rcases List.mem_cons.1 h with h | h
            · right; left
              show -x ∈ upd st1.lits ac (vector_push (st1.lits ac) (sat_opp_literal lit)) ac
              rw [upd_same, h, sat_opp_literal_eq]
              simp [vector_push]
            · rw [hmid x h] at hux1; cases hux1
      · rw [if_neg hm11] at hres
        have hm2 : 2 ≤ m1 := by omega
        have hil : lit ∈ st1.il := by
          rcases hT1.mem_ds_or_il hlit_s with h | h
          · exfalso
            have hlow' : ∀ x ∈ pre, st1.level x.natAbs < st1.ds.length + 1 := by
              intro x hx; have := hdec h x hx; omega
            have := seen_count_low hlow'
            omega
          · exact h
        obtain ⟨c', hc1, hc2, hc3⟩ := hreason hil
        have hus : usub1 m1 = m1 - 1 := usub1_pos (by omega)
        rw [hus] at hres
        have F := ih st1 (st1.locate lit) (m1 - 1) pre (lit :: (mid ++ rest)) c' hT1 hac1 hsplit
            (by omega) hc1
            (by
              intro l hl
              by_cases e : l = lit
              · left; rw [e]; exact hlu
              · right; exact hc3 l hl e)
            (by omega) (Or.inl (by omega)) st' hres
        have hconv : ∀ x, (x ∈ st1.il ∧ ∃ r, clause_at st1 (st1.locate x) = some r ∧
            ∀ y ∈ st1.lits r, st'.u y.natAbs = true) →
            (x ∈ st.il ∧ ∃ r, clause_at st (st.locate x) = some r ∧
              ∀ y ∈ st.lits r, st'.u y.natAbs = true) := by
          rintro x ⟨h1, r, h2, h3⟩
          rw [hfr.il_eq] at h1
          rw [hfr.locate_eq, hfr.clause_at_eq] at h2
          refine ⟨h1, r, h2, fun y hy => h3 y ?_⟩
          rw [hfr.lits_eq hac (clause_at_mem h2)]
          exact hy
        refine ⟨fun v hv => F.u_mono v (hU v hv), fun x hx => F.lits_mono x (hmono1 x hx),
          fun l hl => F.u_mono _ (hC l hl), ?_, ?_⟩
        · intro x hx hux
          rcases List.mem_append.1 hx with h | h
          · rcases F.seen_cases x h hux with ⟨g1, g2⟩ | g | g
            · rw [hlv1, hds1] at g2
              by_cases h0 : st.u x.natAbs = true
              · exact Or.inl ⟨h0, g2⟩
              · right; left
                exact F.lits_mono _ (hA x hx (by simpa using h0) g1 g2)
            · exact Or.inr (Or.inl g)
            · exact Or.inr (Or.inr (hconv x g))
          · rcases List.mem_cons.1 h with h | h
            · right; right
              rw [h]
              exact hconv lit ⟨hil, c', hc1, F.clause_seen⟩
            · exfalso
              rcases F.seen_new _ hux with g | ⟨y, hy, hyx⟩
              · rw [hmid x h] at g; cases g
              · exact hdisj x h y hy hyx.symm
        · intro v hv
          rcases F.seen_new v hv with g | ⟨y, hy, hyv⟩
          · exact hB v g
          · exact Or.inr ⟨y, hpre_cur y hy, hyv⟩

/-! ## Conflict analysis: the asserting clause is entailed -/

/-- The clause built by the conflict branch is true under every model of the clause
store. -/
theorem conflict_sound {st : SatState} (h : Inv st) {c : Nat} (hc : c ∈ st.q)
    (hf : AllFalse st c) (hds : st.ds ≠ []) {st2 : SatState}
    (hcb : conflict_branch st c = some st2) (σ : Nat → Bool) (hM : Models σ st) :
    Satisfies σ (st2.lits st.brk) := by
  have hb := h.store.brk_not_mem
  have hcc : c ∈ clauses st := h.queue.q_sub c hc
  have hpos : st.ds.length > 0 := List.length_pos.2 hds
  obtain ⟨pre, hpre⟩ : ∃ x : SatState, ({ st with
      ac := some st.brk, brk := st.brk + 1, lits := upd st.lits st.brk [],
      subsumed := upd st.subsumed st.brk false,
      u := fun var => if 1 ≤ var ∧ var ≤ st.varnum then decide (st.level var ≤ 1)
                      else st.u var } : SatState) = x := ⟨_, rfl⟩
  have hcb' : get_assert_clause_loop st.brk (st.s.length + 1) pre (usub1 (st.index c)) 0
      st.s.length = some st2 := by
    unfold conflict_branch at hcb
    simp only [vector_size] at hcb
    rw [if_pos hpos] at hcb
    rw [← hpre]
    exact hcb
  have e_lits : pre.lits = upd st.lits st.brk [] := by rw [← hpre]
  have e_s : pre.s = st.s := by rw [← hpre]
  have e_ds : pre.ds = st.ds := by rw [← hpre]
  have e_il : pre.il = st.il := by rw [← hpre]
  have e_locate : pre.locate = st.locate := by rw [← hpre]
  have e_level : pre.level = st.level := by rw [← hpre]
  have e_u : pre.u = fun var => if 1 ≤ var ∧ var ≤ st.varnum then decide (st.level var ≤ 1)
                      else st.u var := by rw [← hpre]
  have e_index : pre.index = st.index := by rw [← hpre]
  have hlc : ∀ x ∈ clauses st, pre.lits x = st.lits x := by
    intro x hx; rw [e_lits]; exact upd_other _ _ _ _ (fun e => hb (e ▸ hx))
  have hT : Trail pre := by
    subst hpre
    exact h.trail.congr_trail rfl rfl rfl rfl rfl rfl rfl rfl rfl rfl hlc
  have hcl : clauses pre = clauses st := by rw [← hpre]; rfl
  have hca : ∀ k, clause_at pre k = clause_at st k := by intro k; rw [← hpre]; rfl
  have hidx := h.store.cl_index c hcc
  have hrange : ∀ x ∈ st.s, 1 ≤ x.natAbs ∧ x.natAbs ≤ st.varnum := by
    intro x hx
    have hv := h.trail.s_valid x hx
    unfold ValidLit at hv; omega
  have hpu : ∀ x ∈ st.s, pre.u x.natAbs = decide (st.level x.natAbs ≤ 1) := by
    intro x hx
    rw [e_u]
    show (if 1 ≤ x.natAbs ∧ x.natAbs ≤ st.varnum then decide (st.level x.natAbs ≤ 1)
      else st.u x.natAbs) = _
    rw [if_pos (hrange x hx)]
  have hseen : ∀ x ∈ st.s, st.level x.natAbs = st.ds.length + 1 → pre.u x.natAbs = false := by
    intro x hx hl
    rw [hpu x hx]
    simp; omega
  have F := analysis_loop_facts st.brk (st.s.length + 1) pre (usub1 (pre.index c)) 0 st.s [] c hT
      (by rw [hcl]; exact hb) (by rw [e_s]; simp) (by omega)
      (by rw [e_index, usub1_pos hidx.1, hca]; exact hidx.2)
      (by
        intro l hl
        right
        rw [hlc c hcc] at hl
        exact (h.trail.implied_iff (-l)).1 (hf l hl))
      (by
        symm
        unfold seen_count
        rw [List.countP_eq_zero]
        intro x hx
        rw [e_level, e_ds]
        by_cases hl : st.level x.natAbs = st.ds.length + 1
        · simp [hseen x hx hl]
        · simp [hl])
      (by
        right
        obtain ⟨l, hl1, hl2⟩ := h.no_old hds c hcc hf
        refine ⟨l, by rw [hlc c hcc]; exact hl1, ?_, by rw [e_level, e_ds]; exact hl2⟩
        have hm : -l ∈ st.s := (h.trail.implied_iff (-l)).1 (hf l hl1)
        have := hseen (-l) hm (by simpa using hl2)
        simpa using this)
      st2 (by rw [e_index]; exact hcb')
  by_contra hns
  have hfalse : ∀ l ∈ st2.lits st.brk, lit_true σ l = false := by
    intro l hl
    cases hv : lit_true σ l with
    | false => rfl
    | true => exact absurd ⟨l, hl, hv⟩ hns
  have hnz : ∀ x ∈ st.s, x ≠ 0 := fun x hx => (h.trail.s_valid x hx).1
  -- every seen trail literal is true
  have key : ∀ n, ∀ a x b, st.s = a ++ x :: b → a.length = n → st2.u x.natAbs = true →
      lit_true σ x = true := by
    intro n
    induction n using Nat.strong_induction_on with
    | _ n ih =>
      intro a x b hs hn hux
      have hxs : x ∈ st.s := by rw [hs]; simp
      rcases F.seen_cases x hxs hux with ⟨g1, _⟩ | g | ⟨g1, r, g2, g3⟩
      · rw [hpu x hxs] at g1
        exact h.trail.level_one_entailed hM hxs (of_decide_eq_true g1)
      · have := hfalse (-x) g
        rw [lit_true_neg σ (hnz x hxs)] at this
        simpa using this
      · rw [e_il] at g1
        rw [e_locate, hca] at g2
        have hr : r ∈ clauses st := clause_at_mem g2
        rw [hlc r hr] at g3
        obtain ⟨_, _, hre⟩ := h.trail.at_split hs
        obtain ⟨r', hr1, hr2, hr3⟩ := hre g1
        rw [g2] at hr1
        have err : r = r' := Option.some.inj hr1
        subst err
        obtain ⟨y, hy, hty⟩ := hM r hr
        by_cases hyx : y = x
        · rw [← hyx]; exact hty
        · exfalso
          have hneg : -y ∈ a := hr3 y hy hyx
          obtain ⟨a1, a2, ha⟩ := List.append_of_mem hneg
          have hs' : st.s = a1 ++ (-y) :: (a2 ++ x :: b) := by rw [hs, ha]; simp
          have hlt : a1.length < n := by
            rw [← hn, ha]; simp
          have huy : st2.u (-y).natAbs = true := by
            rw [Int.natAbs_neg]; exact g3 y hy
          have := ih a1.length hlt a1 (-y) _ hs' rfl huy
          have hy0 : y ≠ 0 := by
            have := hnz (-y) (by rw [hs']; simp)
            omega
          rw [lit_true_neg σ hy0, hty] at this
          cases this
  obtain ⟨l, hl, hlt⟩ := hM c hcc
  have hm : -l ∈ st.s := (h.trail.implied_iff (-l)).1 (hf l hl)
  obtain ⟨a, b, hs⟩ := List.append_of_mem hm
  have hul : st2.u (-l).natAbs = true := by
    rw [Int.natAbs_neg]
    exact F.clause_seen l (by rw [hlc c hcc]; exact hl)
  have := key a.length a (-l) b hs rfl hul
  have hl0 : l ≠ 0 := by
    have := hnz (-l) hm
    omega
  rw [lit_true_neg σ hl0, hlt] at this
  cases this

/-- Induction over one pass with the invariant built in; the conflict case also provides
the equation of the conflict branch. -/
theorem pass_induct_conflict (X : Nat → Bool → SatState → Prop)
    (Y : PassOutcome → SatState → Prop)
    (hfin : ∀ more st, Inv st → X 0 more st → Y (PassOutcome.finished more) st)
    (hsub : ∀ i more st c, Inv st → X (i + 1) more st → st.q[i]? = some c →
      sat_check_subsumed_clause st c = true →
      X i more { st with subsumed := upd st.subsumed c true, q := vector_erase st.q i })
    (hkeep : ∀ i more st c, Inv st → X (i + 1) more st → st.q[i]? = some c →
      sat_check_subsumed_clause st c = false → 2 ≤ unresolved st c → X i more st)
    (hunit : ∀ i more st c lit, Inv st → X (i + 1) more st → st.q[i]? = some c →
      sat_check_subsumed_clause st c = false → lit ∈ st.lits c → st.implied (-lit) = false →
      (∀ l' ∈ st.lits c, l' ≠ lit → st.implied (-l') = true) → unresolved st c = 1 →
      X i true (unit_branch st i c lit))
    (hconf : ∀ i more st c st2, Inv st → X (i + 1) more st → st.q[i]? = some c →
      sat_check_subsumed_clause st c = false → AllFalse st c →
      conflict_branch st c = some st2 → Inv st2 → Y PassOutcome.conflict st2) :
    ∀ i more st, Inv st → i ≤ st.q.length → X i more st →
      Y (unit_resolution_pass i more st).1 (unit_resolution_pass i more st).2 := by
  intro i more st hI hi hX
  refine (pass_induct (fun i more st => Inv st ∧ i ≤ st.q.length ∧ X i more st)
    (fun out st => out ≠ PassOutcome.fault ∧ Y out st)
    ?_ ?_ ?_ ?_ ?_ ?_ ?_ i more st ⟨hI, hi, hX⟩).2
  · rintro more st ⟨h1, _, h3⟩
    exact ⟨by simp, hfin more st h1 h3⟩
  · rintro i more st ⟨_, h2, _⟩ hq
    exfalso
    have : st.q.length ≤ i := by
      rcases Nat.lt_or_ge i st.q.length with h | h
      · rw [List.getElem?_eq_getElem h] at hq; cases hq
      · exact h
    omega
  · rintro i more st c ⟨h1, h2, h3⟩ hq hc
    refine ⟨h1.step_sub hq hc, ?_, hsub i more st c h1 h3 hq hc⟩
    have := erase_length hq
    show i ≤ (vector_erase st.q i).length
    omega
  · rintro i more st c ⟨h1, h2, h3⟩ hq hc hu
    rw [keep_eq h1.queue (mem_of_getElem?_some hq)]
    exact ⟨h1, by omega, hkeep i more st c h1 h3 hq hc hu⟩
  · rintro i more st c lit ⟨h1, h2, h3⟩ hq hc hl ho hall hone
    rw [keep_eq h1.queue (mem_of_getElem?_some hq)]
    refine ⟨h1.step_unit hq hc hl ho hall, ?_,
      hunit i more st c lit h1 h3 hq hc hl ho hall hone⟩
    have := erase_length hq
    show i ≤ (vector_erase st.q i).length
    omega
  · rintro i more st c st2 ⟨h1, h2, h3⟩ hq hc hall hcb
    rw [keep_eq h1.queue (mem_of_getElem?_some hq)] at hcb
    have hI2 : Inv st2 := by
      have := (pass_induct_inv (fun _ _ _ => True) (fun o s => True)
        (fun _ _ _ _ => trivial) (fun _ _ _ _ _ _ _ _ => trivial)
        (fun _ _ _ _ _ _ _ _ _ => trivial) (fun _ _ _ _ _ _ _ _ _ _ _ _ _ => trivial)
        (fun _ _ _ _ _ _ _ _ _ _ _ _ _ => trivial) (i + 1) more st h1 h2 trivial).2.1
      have hp : unit_resolution_pass (i + 1) more st = (PassOutcome.conflict, st2) := by
        have hscan : unresolved_scan st (st.lits c) 0 0 0 = (0, 0) :=
          unresolved_scan_all_false st (st.lits c) 0 0 0 (fun l hl => by
            rw [sat_opp_literal_eq]; exact hall l hl)
        unfold unit_resolution_pass
        have hq' : vector_get st.q i = some c := hq
        rw [hq']
        simp only [hc]
        rw [keep_eq h1.queue (mem_of_getElem?_some hq)]
        have hns : ¬ sat_subsumed_clause st c = true := by
          intro e
          have := h1.queue.flag_true c (h1.queue.q_sub c (mem_of_getElem?_some hq)) e
          rw [hc] at this; cases this
        rw [if_neg hns, hscan]
        simp only [if_true]
        rw [hcb]
      rw [hp] at this
      exact this
    exact ⟨by simp, hconf i more st c st2 h1 h3 hq hc hall hcb hI2⟩
  · rintro i more st c ⟨h1, h2, h3⟩ hq hc hall hcb
    exfalso
    rw [keep_eq h1.queue (mem_of_getElem?_some hq)] at hcb
    obtain ⟨L2, U2, hres, _⟩ := conflict_branch_spec h1 (mem_of_getElem?_some hq) hall
    rw [hres] at hcb
    cases hcb

/-- When unit resolution returns 0 with a decision on the stack, the asserting clause it
built is true under every model of the clause store. -/
theorem ur_sound {st : SatState} (hI : Inv st) {st' : SatState}
    (hur : sat_unit_resolution st = some (false, st')) (hds : st'.ds ≠ []) :
    ∃ a, st'.ac = some a ∧ ∀ σ, Models σ st' → Satisfies σ (st'.lits a) := by
  obtain ⟨r, st'', st1, h1, h2, _, h4⟩ :=
    sat_unit_resolution_spec (fun _ => True) (fun _ _ _ => trivial) hI trivial
  rw [hur] at h1
  obtain ⟨rfl, rfl⟩ := Prod.mk.inj (Option.some.inj h1)
  have := pass_induct_conflict (fun _ _ _ => True)
    (fun o s => o = PassOutcome.conflict → s.ds ≠ [] →
      ∃ a, s.ac = some a ∧ ∀ σ, Models σ s → Satisfies σ (s.lits a))
    (fun _ _ _ _ e => by cases e) (fun _ _ _ _ _ _ _ _ => trivial)
    (fun _ _ _ _ _ _ _ _ _ => trivial) (fun _ _ _ _ _ _ _ _ _ _ _ _ _ => trivial)
    (fun i more st c st2 hIs _ hq hc hall hcb _ _ hds2 => by
      have hcq : c ∈ st.q := mem_of_getElem?_some hq
      obtain ⟨L2, U2, hres, hl, _, _⟩ := conflict_branch_spec hIs hcq hall
      rw [hres] at hcb
      have e := Option.some.inj hcb
      have hds1 : st.ds ≠ [] := by rw [← e] at hds2; exact hds2
      refine ⟨st.brk, by rw [← e], fun σ hM => ?_⟩
      have hM1 : Models σ st := by
        intro x hx
        have hne : x ≠ st.brk := fun e' => hIs.store.brk_not_mem (e' ▸ hx)
        have := hM x (by rw [← e]; exact hx)
        rw [← e] at this
        have e2 : L2 x = st.lits x := hl x hne
        rw [← e2]
        exact this
      exact conflict_sound hIs hcq hall hds1 (by rw [hres, e]) σ hM1)
    st1.q.length false st1 h2 (le_refl _) trivial
  rw [h4] at this
  exact this rfl hds

/-! ## Claim on the entailment of the asserting clause -/

/-- C18: whenever `sat_unit_resolution` returns 0 in a reachable state with a decision on
the stack, called directly, by `sat_decide_literal` (which pushes a decision) or by
`sat_assert_clause` (which then return the clause `ac`), the asserting clause `ac` it built
is true under every total assignment that satisfies all clauses of `kb` and `lc`; and every
trail literal of level at most 1 is true under such an assignment, so its opposite, which
the analysis drops, is false. -/
theorem C18_asserting_clause_is_entailed (st : SatState) (h : Reachable st) :
    (∀ st', st.ds ≠ [] → sat_unit_resolution st = some (false, st') →
      AssertingClauseEntailed st') ∧
    (∀ lit r st', ValidLit st.varnum lit →
      sat_instantiated_var st (sat_literal_var lit) = false → Quiescent st →
      sat_decide_literal lit st = some (r, st') → r ≠ none →
      r = st'.ac ∧ AssertingClauseEntailed st') ∧
    (∀ clause r st', st.ds ≠ [] → st.ac = some clause → clause ∉ st.lc →
      sat_at_assertion_level clause st = true →
      sat_assert_clause clause st = some (r, st') → r ≠ none →
      r = st'.ac ∧ AssertingClauseEntailed st') := by
  obtain ⟨h1, h2, h3⟩ := h.conflict_cases
    (fun s s' => s.ds ≠ [] → AssertingClauseEntailed s')
    (fun s s' hI hur hds => by
      obtain ⟨hI', hE, _⟩ := ur_conflict_summary hI hur
      have hds' : s'.ds ≠ [] := by rw [hE.ds_eq]; exact hds
      refine ⟨ur_sound hI hur hds', fun σ hM x hx hl => ?_⟩
      have hT' := hI'.trail
      have ht := hT'.level_one_entailed hM hx hl
      refine ⟨ht, ?_⟩
      rw [sat_opp_literal_eq, lit_true_neg σ (hT'.s_valid x hx).1, ht]
      rfl)
  refine ⟨?_, ?_, ?_⟩
  · intro st' hds hur
    exact h1 st' hur hds
  · intro lit r st' hv hn hq hd hr
    obtain ⟨e, hP⟩ := h2 lit r st' hv hn hq hd hr
    refine ⟨e, hP ?_⟩
    show st.ds ++ [lit] ≠ []
    simp
  · intro c r st' hds hac hlc hat hd hr
    obtain ⟨e, hP⟩ := h3 c r st' hac hlc hat hd hr
    refine ⟨e, hP ?_⟩
    obtain ⟨ML, e', _⟩ := assert_bookkeeping_eq c st
    rw [e']
    exact hds

/-- Witness of C18 on `p cnf 3 2 / -1 -2 3 0 / -1 -2 -3 0`: after `decide(+1)`, the call
`decide(+2)` returns the asserting clause `{-1, -2}`; the clause store has a model, and the
asserting clause is true under every model. -/
theorem C18_witness :
    ∃ stA stB rC stC,
      sat_unit_resolution (sat_state_new mem_zero 3 cnf_pair) = some (true, stA) ∧
      sat_decide_literal 1 stA = some (none, stB) ∧ Reachable stB ∧
      sat_decide_literal 2 stB = some (rC, stC) ∧ rC ≠ none ∧
      stC.ac.map stC.lits = some [-1, -2] ∧ Models (fun _ => false) stC ∧
      rC = stC.ac ∧ AssertingClauseEntailed stC := by
  obtain ⟨stA, stB, rC, stC, hA, hB, hRB, hv, hn, hQ, _, hC, hr, hl, hM⟩ := pair_scenario
  exact ⟨stA, stB, rC, stC, hA, hB, hRB, hC, hr, hl, hM,
    (C18_asserting_clause_is_entailed stB hRB).2.1 2 rC stC hv hn hQ hC hr⟩

/-! ## The passes of unit resolution: reads of the queue, number of passes -/

/-- The instrumented pass computes the result of `unit_resolution_pass`. -/
theorem pass_trace_fst : ∀ (i : Nat) (more : Bool) (st : SatState),
    (unit_resolution_pass_trace i more st).1 = unit_resolution_pass i more st
  | 0, _, _ => rfl
  | i + 1, more, st => by
    unfold unit_resolution_pass_trace unit_resolution_pass
    cases hq : vector_get st.q i with
    | none => rfl
    | some c =>
      simp only []
      by_cases hA : sat_subsumed_clause
          { st with subsumed := upd st.subsumed c (sat_check_subsumed_clause st c) } c = true
      · rw [if_pos hA, if_pos hA]
        exact pass_trace_fst i more _
      · rw [if_neg hA, if_neg hA]
        rcases unresolved_scan
          { st with subsumed := upd st.subsumed c (sat_check_subsumed_clause st c) }
          (st.lits c) 0 0 0 with ⟨flag, pos⟩
        simp only []
        by_cases h0 : flag = 0
        · rw [if_pos h0, if_pos h0]
          cases conflict_branch
            { st with subsumed := upd st.subsumed c (sat_check_subsumed_clause st c) } c <;> rfl
        · rw [if_neg h0, if_neg h0]
          by_cases h1 : flag = 1
          · rw [if_pos h1, if_pos h1]
            cases vector_get (st.lits c) pos with
            | none => rfl
            | some lit => exact pass_trace_fst i true _
          · rw [if_neg h1, if_neg h1]
            exact pass_trace_fst i more _

/-- The clauses read by a pass are the entries of the slots below the start of the pass as
they were on entry, from the highest slot downwards. -/
theorem pass_trace_snd : ∀ (i : Nat) (more : Bool) (st : SatState),
    ∃ k, (unit_resolution_pass_trace i more st).2 = ((st.q.take i).reverse).take k
  | 0, _, _ => ⟨0, rfl⟩
  | i + 1, more, st => by
    unfold unit_resolution_pass_trace
    cases hq : vector_get st.q i with
    | none => exact ⟨0, rfl⟩
    | some c =>
      simp only []
      obtain ⟨a, b, hs, ha⟩ := getElem?_split st.q i c hq
      have htake : (st.q.take (i + 1)).reverse = c :: a.reverse := by
        rw [hs, ← ha, List.take_append_eq_append_take]
        simp
      have hta : st.q.take i = a := by rw [hs, ← ha]; simp
      have hte : (vector_erase st.q i).take i = a := by
        rw [hs, ← ha]; exact vector_erase_take a b c
      rw [htake]
      have key : ∀ X : List Nat, (∃ k, X = a.reverse.take k) →
          ∃ k, c :: X = (c :: a.reverse).take k :=
        fun X ⟨k, hk⟩ => ⟨k + 1, by rw [hk]; rfl⟩
      apply key
      by_cases hA : sat_subsumed_clause
          { st with subsumed := upd st.subsumed c (sat_check_subsumed_clause st c) } c = true
      · rw [if_pos hA]
        obtain ⟨k, hk⟩ := pass_trace_snd i more
          { st with subsumed := upd st.subsumed c (sat_check_subsumed_clause st c),
                    q := vector_erase st.q i }
        refine ⟨k, ?_⟩
        rw [hk]
        show ((vector_erase st.q i).take i).reverse.take k = _
        rw [hte]
      · rw [if_neg hA]
        rcases unresolved_scan
          { st with subsumed := upd st.subsumed c (sat_check_subsumed_clause st c) }
          (st.lits c) 0 0 0 with ⟨flag, pos⟩
        simp only []
        by_cases h0 : flag = 0
        · rw [if_pos h0]
          cases conflict_branch
            { st with subsumed := upd st.subsumed c (sat_check_subsumed_clause st c) } c <;>
            exact ⟨0, rfl⟩
        · rw [if_neg h0]
          by_cases h1 : flag = 1
          · rw [if_pos h1]
            cases vector_get (st.lits c) pos with
            | none => exact ⟨0, rfl⟩
            | some lit =>
              obtain ⟨k, hk⟩ := pass_trace_snd i true
                (unit_branch
                  { st with subsumed := upd st.subsumed c (sat_check_subsumed_clause st c) }
                  i c lit)
              refine ⟨k, ?_⟩
              simp only []
              rw [hk]
              show ((vector_erase st.q i).take i).reverse.take k = _
              rw [hte]
          · rw [if_neg h1]
            obtain ⟨k, hk⟩ := pass_trace_snd i more
              { st with subsumed := upd st.subsumed c (sat_check_subsumed_clause st c) }
            refine ⟨k, ?_⟩
            rw [hk]
            show (st.q.take i).reverse.take k = _
            rw [hta]

/-- The instrumented loop computes the result of `unit_resolution_loop`. -/
theorem loop_count_fst : ∀ (fuel : Nat) (st : SatState),
    (unit_resolution_loop_count fuel st).map Prod.fst = unit_resolution_loop fuel st
  | 0, _ => rfl
  | fuel + 1, st => by
    unfold unit_resolution_loop_count unit_resolution_loop
    rcases unit_resolution_pass (vector_size st.q) false st with ⟨o, s1⟩
    cases o with
    | fault => rfl
    | conflict => rfl
    | finished more =>
      cases more with
      | false => rfl
      | true =>
        simp only []
        rw [← loop_count_fst fuel s1]
        cases unit_resolution_loop_count fuel s1 <;> rfl

theorem countP_lt_of_imp {α : Type} {p q : α → Bool} : ∀ {l : List α},
    (∀ x ∈ l, p x = true → q x = true) → (∃ x ∈ l, q x = true ∧ p x = false) →
    l.countP p < l.countP q
  | [], _, h => by obtain ⟨x, hx, _⟩ := h; cases hx
  | a :: l, himp, ⟨x, hx, hq, hp⟩ => by
    have hle : l.countP p ≤ l.countP q :=
      List.countP_mono_left (fun y hy => himp y (List.mem_cons_of_mem _ hy))
    rw [List.countP_cons, List.countP_cons]
    rcases List.mem_cons.1 hx with e | hx'
    · subst e
      rw [hq, hp]
      simp
      omega
    · have := countP_lt_of_imp (fun y hy => himp y (List.mem_cons_of_mem _ hy))
        ⟨x, hx', hq, hp⟩
      have ha := himp a (List.mem_cons_self _ _)
      by_cases hpa : p a = true
      · rw [hpa, ha hpa]; simp; omega
      · have : p a = false := by simpa using hpa
        rw [this]
        by_cases hqa : q a = true
        · rw [hqa]; simp; omega
        · have : q a = false := by simpa using hqa
          rw [this]; simp; omega

/-- A pass that asks for another pass has lengthened the trail. -/
theorem pass_progress (st0 : SatState) : ∀ i more st, Inv st → i ≤ st.q.length →
    (st0.s.length ≤ st.s.length ∧ (more = true → st0.s.length < st.s.length)) →
    (unit_resolution_pass i more st).1 = PassOutcome.finished true →
      st0.s.length < (unit_resolution_pass i more st).2.s.length := by
  intro i more st hI hi hX
  exact (pass_induct_inv
    (fun _ more st => st0.s.length ≤ st.s.length ∧ (more = true → st0.s.length < st.s.length))
    (fun o st => o = PassOutcome.finished true → st0.s.length < st.s.length)
    (fun more st _ h e => by
      have : more = true := by injection e
      exact h.2 this)
    (fun _ _ _ _ _ h _ _ => h)
    (fun _ _ _ _ _ h _ _ _ => h)
    (fun _ _ st _ lit _ h _ _ _ _ _ _ => by
      have e : (st.s ++ [lit]).length = st.s.length + 1 := by simp
      refine ⟨?_, fun _ => ?_⟩
      · show st0.s.length ≤ (st.s ++ [lit]).length
        omega
      · show st0.s.length < (st.s ++ [lit]).length
        omega)
    (fun _ _ _ _ _ _ _ _ _ _ _ _ _ e => by cases e)
    i more st hI hi hX).2.2

/-- A pass that asks for another pass has implied a literal that was not implied before,
and has lowered the number of uninstantiated variables. -/
theorem pass_new_literal {st : SatState} (hI : Inv st) {st1 : SatState}
    (hp : unit_resolution_pass st.q.length false st = (PassOutcome.finished true, st1)) :
    (∃ l, st1.implied l = true ∧ st.implied l = false) ∧
    uninstantiated_count st1 < uninstantiated_count st := by
  have hI1 : Inv st1 := by have := pass_inv hI; rw [hp] at this; exact this
  have hE : Ext st st1 := by
    have := pass_ext st st.q.length false st hI (le_refl _) (Ext.ext_same st)
    rw [hp] at this; exact this
  have hlen : st.s.length < st1.s.length := by
    have := pass_progress st st.q.length false st hI (le_refl _) ⟨le_refl _, by simp⟩
      (by rw [hp])
    rw [hp] at this; exact this
  obtain ⟨t, g1, _, g3, _⟩ := hE.grow
  have ht : t ≠ [] := by
    intro e
    rw [g1, e] at hlen
    simp at hlen
  obtain ⟨l, hl⟩ := List.exists_mem_of_ne_nil t ht
  have hnd : (st1.s.map Int.natAbs).Nodup := hI1.trail.s_nodup
  rw [g1, List.map_append] at hnd
  have hdis := (List.nodup_append.1 hnd).2.2
  have hl1 : st1.implied l = true := (g3 l).2 (Or.inr hl)
  have hnot : ∀ y, y.natAbs = l.natAbs → st.implied y = false := by
    intro y hy
    cases hv : st.implied y with
    | false => rfl
    | true =>
      have hm : y ∈ st.s := (hI.trail.implied_iff y).1 hv
      exact absurd (List.mem_map_of_mem Int.natAbs hl)
        (fun h2 => hdis (List.mem_map_of_mem Int.natAbs hm) (hy ▸ h2))
  refine ⟨⟨l, hl1, hnot l rfl⟩, ?_⟩
  have hv := hI1.trail.s_valid l (by rw [g1]; exact List.mem_append_right _ hl)
  unfold uninstantiated_count
  rw [hE.varnum_eq]
  apply countP_lt_of_imp
  · intro i _ hi
    simp only [Bool.not_eq_true', sat_instantiated_var, sat_implied_literal,
      Bool.or_eq_false_iff] at hi ⊢
    constructor
    · cases hv1 : st.implied (sat_pos_literal (i + 1)) with
      | false => rfl
      | true =>
        have := (g3 _).2 (Or.inl hv1)
        rw [hi.1] at this; cases this
    · cases hv1 : st.implied (sat_neg_literal (i + 1)) with
      | false => rfl
      | true =>
        have := (g3 _).2 (Or.inl hv1)
        rw [hi.2] at this; cases this
  · unfold ValidLit at hv
    rw [hE.varnum_eq] at hv
    have hpos : 1 ≤ l.natAbs := Int.natAbs_pos.2 hv.1
    refine ⟨l.natAbs - 1, List.mem_range.2 (by omega), ?_, ?_⟩
    · have e : l.natAbs - 1 + 1 = l.natAbs := by omega
      simp only [Bool.not_eq_true', sat_instantiated_var, sat_implied_literal,
        Bool.or_eq_false_iff, e]
      exact ⟨hnot _ (by unfold sat_pos_literal; exact Int.natAbs_ofNat _),
        hnot _ (by unfold sat_neg_literal; rw [Int.natAbs_neg]; exact Int.natAbs_ofNat _)⟩
    · have e : l.natAbs - 1 + 1 = l.natAbs := by omega
      simp only [Bool.not_eq_false', sat_instantiated_var, sat_implied_literal,
        Bool.or_eq_true, e]
      rcases Int.natAbs_eq l with e1 | e1
      · left
        show st1.implied (l.natAbs : Int) = true
        rw [← e1]; exact hl1
      · right
        show st1.implied (-(l.natAbs : Int)) = true
        rw [← e1]; exact hl1

/-- With the invariant and enough fuel the loop returns after at most as many passes as
there are uninstantiated variables, plus one. -/
theorem loop_count_bound : ∀ fuel st, Inv st → st.q.length < fuel →
    ∃ r st' n, unit_resolution_loop_count fuel st = some ((r, st'), n) ∧
      1 ≤ n ∧ n ≤ uninstantiated_count st + 1 := by
  intro fuel
  induction fuel with
  | zero => intro st _ h; omega
  | succ fuel ih =>
    intro st hI hf
    obtain ⟨h1, h2, h3⟩ := pass_basic st.q.length st.q.length false st hI (le_refl _)
      ⟨le_refl _, by simp⟩
    unfold unit_resolution_loop_count
    simp only [vector_size]
    rcases hp : unit_resolution_pass st.q.length false st with ⟨out, st2⟩
    rw [hp] at h1 h2 h3
    simp only [] at h1 h2 h3
    cases out with
    | fault => exact absurd rfl h1
    | conflict => exact ⟨false, st2, 1, rfl, le_refl _, by omega⟩
    | finished more =>
      cases more with
      | false => exact ⟨true, st2, 1, rfl, le_refl _, by omega⟩
      | true =>
        have hq := (h3 true rfl).2 rfl
        obtain ⟨r, st', n, e, hn1, hn⟩ := ih st2 h2 (by omega)
        have hlt := (pass_new_literal hI hp).2
        simp only []
        rw [e]
        exact ⟨r, st', n + 1, rfl, by omega, by omega⟩

/-! ## Claim on the termination of unit resolution -/

/-- C20: on every state that satisfies the invariant of the reachable states (in which in
particular no variable has both literals implied), `sat_unit_resolution` returns, after a
number of passes that is at most the number of uninstantiated variables plus one; a pass
that asks for another pass has implied a literal that was not implied before and keeps the
invariant; and a pass never reads outside `q` and reads the slots of `q` from the last one
downwards, each at most once, finding in each slot the clause that was there when the pass
started, in spite of the erasures. -/
theorem C20_unit_resolution_terminates (st : SatState) (hI : Inv st) :
    (∃ r st' n,
      unit_resolution_loop_count (vector_size st.q + 1) st = some ((r, st'), n) ∧
      sat_unit_resolution st = some (r, st') ∧ n ≤ uninstantiated_count st + 1) ∧
    (∀ st1,
      unit_resolution_pass (vector_size st.q) false st = (PassOutcome.finished true, st1) →
      (∃ l, sat_implied_literal st1 l = true ∧ sat_implied_literal st l = false) ∧
      uninstantiated_count st1 < uninstantiated_count st ∧ Inv st1) ∧
    ((unit_resolution_pass_trace (vector_size st.q) false st).1
        = unit_resolution_pass (vector_size st.q) false st ∧
      (unit_resolution_pass (vector_size st.q) false st).1 ≠ PassOutcome.fault ∧
      (∃ k, (unit_resolution_pass_trace (vector_size st.q) false st).2
        = st.q.reverse.take k) ∧
      (unit_resolution_pass_trace (vector_size st.q) false st).2.Nodup) := by
  refine ⟨?_, ?_, ?_⟩
  · obtain ⟨r, st', n, e, _, hn⟩ := loop_count_bound (st.q.length + 1) st hI (Nat.lt_succ_self _)
    refine ⟨r, st', n, e, ?_, hn⟩
    have := loop_count_fst (st.q.length + 1) st
    rw [e] at this
    exact this.symm
  · intro st1 hp
    have h := pass_new_literal hI hp
    refine ⟨h.1, h.2, ?_⟩
    have := pass_inv hI
    rw [show unit_resolution_pass st.q.length false st = (PassOutcome.finished true, st1)
      from hp] at this
    exact this
  · obtain ⟨k, hk⟩ := pass_trace_snd (vector_size st.q) false st
    have htk : st.q.take (vector_size st.q) = st.q := List.take_length st.q
    rw [htk] at hk
    refine ⟨pass_trace_fst _ _ _, ?_, ⟨k, hk⟩, ?_⟩
    · exact (pass_basic st.q.length st.q.length false st hI (le_refl _)
        ⟨le_refl _, by simp⟩).1
    · rw [hk]
      exact (List.nodup_reverse.2 hI.queue.q_nodup).sublist (List.take_sublist _ _)

/-- Witness of C20 on scenario S1: the constructed state has three uninstantiated variables
and unit resolution returns 1 after three passes. -/
theorem C20_witness :
    uninstantiated_count (sat_state_new mem_zero 3 cnf_chain) = 3 ∧
    (unit_resolution_loop_count
      (vector_size (sat_state_new mem_zero 3 cnf_chain).q + 1)
      (sat_state_new mem_zero 3 cnf_chain)).map (fun r => (r.1.1, r.2)) = some (true, 3) ∧
    (unit_resolution_pass_trace (vector_size (sat_state_new mem_zero 3 cnf_chain).q) false
      (sat_state_new mem_zero 3 cnf_chain)).2 = [2, 1, 0] ∧
    (∃ r st' n,
      unit_resolution_loop_count (vector_size (sat_state_new mem_zero 3 cnf_chain).q + 1)
        (sat_state_new mem_zero 3 cnf_chain) = some ((r, st'), n) ∧
      sat_unit_resolution (sat_state_new mem_zero 3 cnf_chain) = some (r, st') ∧
      n ≤ uninstantiated_count (sat_state_new mem_zero 3 cnf_chain) + 1) :=
  ⟨by decide, by decide, by decide,
    (C20_unit_resolution_terminates _
      (Reachable.new mem_zero 3 cnf_chain validCnf_chain).inv.1).1⟩

/-! ## Conflict analysis: the iterations of the loop -/

/-- The instrumented loop computes the result of `get_assert_clause_loop`. -/
theorem analysis_trace_fst (ac : Nat) : ∀ (fuel : Nat) (st : SatState) (k m p1 : Nat),
    (get_assert_clause_trace ac fuel st k m p1).map Prod.fst
      = get_assert_clause_loop ac fuel st k m p1
  | 0, _, _, _, _ => rfl
  | fuel + 1, st, k, m, p1 => by
    unfold get_assert_clause_trace get_assert_clause_loop
    cases clause_at st k with
    | none => rfl
    | some c =>
      simp only []
      rcases assert_clause_scan ac (st.lits c) st m with ⟨st1, m1⟩
      simp only []
      cases trail_seek st1 p1 with
      | none => rfl
      | some o =>
        cases o with
        | none => rfl
        | some pl =>
          obtain ⟨p, lit⟩ := pl
          simp only []
          by_cases h1 : m1 = 1
          · rw [if_pos h1, if_pos h1]
            rfl
          · rw [if_neg h1, if_neg h1, ← analysis_trace_fst ac fuel st1 (st1.locate lit) (usub1 m1) p]
            cases get_assert_clause_trace ac fuel st1 (st1.locate lit) (usub1 m1) p <;> rfl

/-- The instrumented conflict branch computes the result of `conflict_branch`. -/
theorem conflict_trace_fst (st : SatState) (c : Nat) :
    (conflict_branch_trace st c).map Prod.fst = conflict_branch st c := by
  unfold conflict_branch_trace conflict_branch sat_get_assert_clause
  simp only []
  split_ifs
  · exact analysis_trace_fst _ _ _ _ _ _
  · rfl

theorem clause_at_lt {st : SatState} {k c : Nat} (h : clause_at st k = some c) :
    k < sat_clause_count st + sat_learned_clause_count st := by
  unfold clause_at at h
  unfold sat_learned_clause_count vector_size
  split_ifs at h with h1
  · omega
  · have : k - sat_clause_count st < st.lc.length := by
      rcases Nat.lt_or_ge (k - sat_clause_count st) st.lc.length with h2 | h2
      · exact h2
      · unfold vector_get at h
        rw [List.getElem?_eq_none h2] at h; cases h
    omega

/-- The bounds of an iteration depend only on the clause store, the stacks and the
levels. -/
theorem StepInBounds.transport_bounds {st st' : SatState} {e : AnalysisStep}
    (h : StepInBounds st e)
    (e1 : st'.clausenum = st.clausenum) (e2 : st'.kb = st.kb) (e3 : st'.lc = st.lc)
    (e4 : st'.s = st.s) (e5 : st'.ds = st.ds) (e6 : st'.il = st.il)
    (e7 : st'.level = st.level) : StepInBounds st' e := by
  have hca : ∀ k, clause_at st' k = clause_at st k := by
    intro k; unfold clause_at sat_clause_count; rw [e1, e2, e3]
  refine ⟨?_, ?_, ?_, h.m_pos, ?_⟩
  · have := h.index_lt
    unfold sat_clause_count sat_learned_clause_count at this ⊢
    rw [e1, e3]; exact this
  · rw [e2, e3]
    obtain ⟨c, hc1, hc2⟩ := h.clause_some
    exact ⟨c, by rw [hca]; exact hc1, hc2⟩
  · rw [e4]; exact h.cursor_le
  · rw [e4, e5, e6, e7]; exact h.found_ok

theorem StepNext.transport_next {st st' : SatState} {a b : AnalysisStep} (h : StepNext st a b)
    (e : st'.locate = st.locate) : StepNext st' a b := by
  unfold StepNext at h ⊢
  rw [e]; exact h

/-! ## Conflict analysis: every iteration stays in bounds -/

theorem Trail.il_not_ds {st : SatState} (hT : Trail st) {l : Int} (hl : l ∈ st.il) :
    l ∉ st.ds := fun hd =>
  hT.trail.ds_not_il (List.nodup_reverse.2 hT.s_nodup') l (List.mem_reverse.2 hd)
    (List.mem_reverse.2 hl)

theorem analysis_trace_spec (ac : Nat) : ∀ (fuel : Nat) (st : SatState) (k m : Nat)
    (cur rest : List Int) (c : Nat),
    Trail st → ac ∉ clauses st → st.s = cur ++ rest → cur.length < fuel →
    clause_at st k = some c → (∀ l ∈ st.lits c, st.u l.natAbs = true ∨ -l ∈ cur) →
    m = seen_count st cur →
    (1 ≤ m ∨ ∃ l ∈ st.lits c, st.u l.natAbs = false ∧ st.level l.natAbs = st.ds.length + 1) →
    ∀ r, get_assert_clause_trace ac fuel st k m cur.length = some r →
      (∃ e0 tl, r.2 = e0 :: tl ∧ e0.clauseindex = k ∧ e0.cursor = cur.length) ∧
      (∀ e ∈ r.2, StepInBounds st e ∧ e.cursor ≤ cur.length) ∧
      List.Chain' (StepNext st) r.2 ∧
      (∀ e, r.2.getLast? = some e → e.reads_locate = false) ∧
      r.2.length ≤ cur.length := by
  intro fuel
  induction fuel with
  | zero => intro st k m cur rest c _ _ _ hf; omega
  | succ fuel ih =>
    intro st k m cur rest c hT hac hs hfuel hk hc hm h4 r hres
    have hn : (cur.map Int.natAbs).Nodup := by
      have := hT.s_nodup
      rw [hs, List.map_append] at this
      exact this.of_append_left
    have hcs : ∀ x ∈ cur, x ∈ st.s := fun x hx => by rw [hs]; exact List.mem_append_left _ hx
    have hlev : ∀ x ∈ cur, st.level x.natAbs ≤ st.ds.length + 1 :=
      fun x hx => (hT.level_le (hcs x hx)).2
    have hcc : c ∈ clauses st := clause_at_mem hk
    obtain ⟨hfr, hu1, hm1, low, hlow, hlowp⟩ := scan_spec ac cur hn (st.lits c) st m hlev hc hm
    unfold get_assert_clause_trace at hres
    rw [hk] at hres
    simp only [] at hres
    rcases hscan : assert_clause_scan ac (st.lits c) st m with ⟨st1, m1⟩
    rw [hscan] at hfr hu1 hm1 hlow hres
    simp only [] at hfr hu1 hm1 hlow hres
    have hs1 : st1.s = cur ++ rest := by rw [hfr.s_eq, hs]
    have hlv1 : st1.level = st.level := hfr.level_eq
    have hds1 : st1.ds = st.ds := hfr.ds_eq
    have hT1 : Trail st1 := hfr.trail hac hT
    have hac1 : ac ∉ clauses st1 := by rw [hfr.clauses_same]; exact hac
    have hex : ∃ y ∈ cur, st1.u y.natAbs = true ∧ st1.level y.natAbs = st1.ds.length + 1 := by
      rcases h4 with h | ⟨l, hl1, hl2, hl3⟩
      · have : 0 < seen_count st cur := by omega
        obtain ⟨y, hy1, hy2, hy3⟩ := seen_count_pos.1 this
        exact ⟨y, hy1, by rw [hu1]; simp [hy2], by rw [hlv1, hds1]; exact hy3⟩
      · have hmem : -l ∈ cur := by
          rcases hc l hl1 with h | h
          · rw [hl2] at h; cases h
          · exact h
        refine ⟨-l, hmem, ?_, ?_⟩
        · rw [hu1]; simp
          right; exact ⟨l, hl1, rfl⟩
        · rw [hlv1, hds1]; simpa using hl3
    have hpos : 0 < m1 := by rw [hm1]; exact seen_count_pos.2 hex
    rcases trail_seek_spec st1 cur rest hs1 with ⟨_, h2⟩ | ⟨pre, lit, mid, hcur, hseek, hlu, hmid⟩
    · have := seen_count_unseen h2
      omega
    · rw [hseek] at hres
      simp only [] at hres
      subst hcur
      have hlen : (pre ++ lit :: mid).length = pre.length + mid.length + 1 := by simp; omega
      rw [hlen] at hfuel
      have hsplit : st1.s = pre ++ lit :: (mid ++ rest) := by rw [hs1]; simp
      obtain ⟨hmono, hdec, hreason⟩ := hT1.at_split hsplit
      have hlit_s : lit ∈ st1.s := by rw [hsplit]; simp
      have hlitL : st1.level lit.natAbs = st1.ds.length + 1 := by
        obtain ⟨y, hy1, hy2, hy3⟩ := hex
        have hle := (hT1.level_le hlit_s).2
        rcases List.mem_append.1 hy1 with h | h
        · have := hmono y h; omega
        · rcases List.mem_cons.1 h with h | h
          · subst h; exact hy3
          · rw [hmid y h] at hy2; cases hy2
      have hcount : m1 = seen_count st1 pre + 1 := by
        rw [hm1]; exact seen_count_split hlu hlitL hmid
      have hget : vector_get st.s pre.length = some lit := by
        unfold vector_get
        rw [← hfr.s_eq, hsplit, List.getElem?_append_right (le_refl _), Nat.sub_self]
        exact List.getElem?_cons_zero
      have hlevel : st.level (sat_literal_var lit) = vector_size st.ds + 1 := by
        rw [← hlv1, ← hds1]; exact hlitL
      have hcle : (pre ++ lit :: mid).length ≤ vector_size st.s := by
        unfold vector_size; rw [hs]; simp
      have hclause : ∃ x, clause_at st k = some x ∧ x ∈ st.kb ++ st.lc := ⟨c, hk, hcc⟩
      -- a decision found by the walk is found with `m = 1`
      have hdecm : lit ∈ st.ds → m1 = 1 := by
        intro hd
        have hd1 : lit ∈ st1.ds := by rw [hds1]; exact hd
        have hlow' : ∀ x ∈ pre, st1.level x.natAbs < st1.ds.length + 1 := by
          intro x hx; have := hdec hd1 x hx; omega
        have := seen_count_low hlow'
        omega
      by_cases hm11 : m1 = 1
      · rw [if_pos hm11] at hres
        have e := Option.some.inj hres
        rw [← e]
        refine ⟨⟨_, [], rfl, rfl, rfl⟩, ?_, List.chain'_singleton _, ?_, ?_⟩
        · intro x hx
          have hx' : x = ⟨k, (pre ++ lit :: mid).length, m1, some (pre.length, lit), false⟩ := by
            simpa using hx
          rw [hx']
          refine ⟨⟨clause_at_lt hk, hclause, hcle, hpos, pre.length, lit, rfl, ?_, hget, hlevel,
            (by intro h; cases h), (by intro _; exact hm11), (by intro _; exact ⟨hm11, rfl⟩)⟩,
            le_refl _⟩
          show pre.length < (pre ++ lit :: mid).length
          omega
        · intro x hx
          have hx' : x = ⟨k, (pre ++ lit :: mid).length, m1, some (pre.length, lit), false⟩ := by
            simpa using hx.symm
          rw [hx']
        · show 1 ≤ (pre ++ lit :: mid).length
          omega
      · rw [if_neg hm11] at hres
        have hm2 : 2 ≤ m1 := by omega
        have hnd : lit ∉ st.ds := fun hd => hm11 (hdecm hd)
        have hil : lit ∈ st1.il := by
          rcases hT1.mem_ds_or_il hlit_s with h | h
          · exact absurd (hds1 ▸ h) hnd
          · exact h
        obtain ⟨c', hc1, hc2, hc3⟩ := hreason hil
        have hus : usub1 m1 = m1 - 1 := usub1_pos (by omega)
        rw [hus] at hres
        obtain ⟨r', hr', er⟩ := Option.map_eq_some'.1 hres
        obtain ⟨⟨e0, tl, he0, he1, he2⟩, hall, hchain, hlast, hlength⟩ :=
          ih st1 (st1.locate lit) (m1 - 1) pre (lit :: (mid ++ rest)) c' hT1 hac1 hsplit
            (by omega) hc1
            (by
              intro l hl
              by_cases e : l = lit
              · left; rw [e]; exact hlu
              · right; exact hc3 l hl e)
            (by omega) (Or.inl (by omega)) r' hr'
        rw [← er]
        simp only []
        refine ⟨⟨_, r'.2, rfl, rfl, rfl⟩, ?_, ?_, ?_, ?_⟩
        · intro x hx
          rcases List.mem_cons.1 hx with hx' | hx'
          · rw [hx']
            refine ⟨⟨clause_at_lt hk, hclause, hcle, hpos, pre.length, lit, rfl, ?_, hget, hlevel,
              (by intro _; exact ⟨hfr.il_eq ▸ hil, hnd, hm2⟩), (by intro h; cases h),
              (by intro hd; exact absurd hd hnd)⟩, le_refl _⟩
            show pre.length < (pre ++ lit :: mid).length
            omega
          · obtain ⟨hb, hcu⟩ := hall x hx'
            refine ⟨hb.transport_bounds hfr.clausenum_eq.symm hfr.kb_eq.symm hfr.lc_eq.symm
              hfr.s_eq.symm hfr.ds_eq.symm hfr.il_eq.symm hfr.level_eq.symm, ?_⟩
            omega
        · rw [he0]
          refine List.Chain'.cons ?_ ?_
          · refine ⟨rfl, ?_, pre.length, lit, rfl, he2, ?_⟩
            · show e0.cursor < (pre ++ lit :: mid).length
              omega
            · rw [he1, hfr.locate_eq]
          · rw [← he0]
            exact hchain.imp (fun a b hab => hab.transport_next hfr.locate_eq.symm)
        · intro x hx
          rw [he0] at hx hlast
          rw [List.getLast?_cons_cons] at hx
          exact hlast x hx
        · show r'.2.length + 1 ≤ (pre ++ lit :: mid).length
          omega

/-! ## Conflict analysis: the run started by the conflict branch -/

/-- The conflict analysis started by the conflict branch on a falsified clause of the queue,
with a decision on the stack, returns, and each of its iterations stays in bounds. -/
theorem conflict_trace_spec {st : SatState} (h : Inv st) {c : Nat} (hc : c ∈ st.q)
    (hf : AllFalse st c) (hds : st.ds ≠ []) :
    ∃ st2 tr, conflict_branch_trace st c = some (st2, tr) ∧ conflict_branch st c = some st2 ∧
      tr ≠ [] ∧ tr.length ≤ vector_size st.s ∧
      (∀ e, tr.head? = some e →
        e.clauseindex = usub1 (st.index c) ∧ e.cursor = vector_size st.s) ∧
      (∀ e ∈ tr, StepInBounds st e) ∧ List.Chain' (StepNext st) tr ∧
      (∀ e, tr.getLast? = some e → e.reads_locate = false) := by
  have hb := h.store.brk_not_mem
  have hcc : c ∈ clauses st := h.queue.q_sub c hc
  have hpos : st.ds.length > 0 := List.length_pos.2 hds
  obtain ⟨L2, U2, hres, _⟩ := conflict_branch_spec h hc hf
  have hfst := conflict_trace_fst st c
  rw [hres] at hfst
  obtain ⟨r, hr, hr1⟩ := Option.map_eq_some'.1 hfst
  obtain ⟨pre, hpre⟩ : ∃ x : SatState, ({ st with
      ac := some st.brk, brk := st.brk + 1, lits := upd st.lits st.brk [],
      subsumed := upd st.subsumed st.brk false,
      u := fun var => if 1 ≤ var ∧ var ≤ st.varnum then decide (st.level var ≤ 1)
                      else st.u var } : SatState) = x := ⟨_, rfl⟩
  have hcb' : get_assert_clause_trace st.brk (st.s.length + 1) pre (usub1 (st.index c)) 0
      st.s.length = some r := by
    have hr' := hr
    unfold conflict_branch_trace at hr'
    simp only [vector_size] at hr'
    rw [if_pos hpos] at hr'
    rw [← hpre]
    exact hr'
  have e_lits : pre.lits = upd st.lits st.brk [] := by rw [← hpre]
  have e_s : pre.s = st.s := by rw [← hpre]
  have e_ds : pre.ds = st.ds := by rw [← hpre]
  have e_il : pre.il = st.il := by rw [← hpre]
  have e_kb : pre.kb = st.kb := by rw [← hpre]
  have e_lc : pre.lc = st.lc := by rw [← hpre]
  have e_clausenum : pre.clausenum = st.clausenum := by rw [← hpre]
  have e_locate : pre.locate = st.locate := by rw [← hpre]
  have e_level : pre.level = st.level := by rw [← hpre]
  have e_u : pre.u = fun var => if 1 ≤ var ∧ var ≤ st.varnum then decide (st.level var ≤ 1)
                      else st.u var := by rw [← hpre]
  have e_index : pre.index = st.index := by rw [← hpre]
  have hlc : ∀ x ∈ clauses st, pre.lits x = st.lits x := by
    intro x hx; rw [e_lits]; exact upd_other _ _ _ _ (fun e => hb (e ▸ hx))
  have hT : Trail pre := by
    subst hpre
    exact h.trail.congr_trail rfl rfl rfl rfl rfl rfl rfl rfl rfl rfl hlc
  have hcl : clauses pre = clauses st := by rw [← hpre]; rfl
  have hca : ∀ k, clause_at pre k = clause_at st k := by intro k; rw [← hpre]; rfl
  have hidx := h.store.cl_index c hcc
  have hrange : ∀ x ∈ st.s, 1 ≤ x.natAbs ∧ x.natAbs ≤ st.varnum := by
    intro x hx
    have hv := h.trail.s_valid x hx
    unfold ValidLit at hv; omega
  have hpu : ∀ x ∈ st.s, pre.u x.natAbs = decide (st.level x.natAbs ≤ 1) := by
    intro x hx
    rw [e_u]
    show (if 1 ≤ x.natAbs ∧ x.natAbs ≤ st.varnum then decide (st.level x.natAbs ≤ 1)
      else st.u x.natAbs) = _
    rw [if_pos (hrange x hx)]
  have hseen : ∀ x ∈ st.s, st.level x.natAbs = st.ds.length + 1 → pre.u x.natAbs = false := by
    intro x hx hl
    rw [hpu x hx]
    simp; omega
  obtain ⟨⟨e0, tl, he0, he1, he2⟩, hall, hchain, hlast, hlength⟩ :=
    analysis_trace_spec st.brk (st.s.length + 1) pre (usub1 (pre.index c)) 0 st.s [] c hT
      (by rw [hcl]; exact hb) (by rw [e_s]; simp) (by omega)
      (by rw [e_index, usub1_pos hidx.1, hca]; exact hidx.2)
      (by
        intro l hl
        right
        rw [hlc c hcc] at hl
        exact (h.trail.implied_iff (-l)).1 (hf l hl))
      (by
        symm
        unfold seen_count
        rw [List.countP_eq_zero]
        intro x hx
        rw [e_level, e_ds]
        by_cases hl : st.level x.natAbs = st.ds.length + 1
        · simp [hseen x hx hl]
        · simp [hl])
      (by
        right
        obtain ⟨l, hl1, hl2⟩ := h.no_old hds c hcc hf
        refine ⟨l, by rw [hlc c hcc]; exact hl1, ?_, by rw [e_level, e_ds]; exact hl2⟩
        have hm : -l ∈ st.s := (h.trail.implied_iff (-l)).1 (hf l hl1)
        have := hseen (-l) hm (by simpa using hl2)
        simpa using this)
      r (by rw [e_index]; exact hcb')
  refine ⟨r.1, r.2, hr, by rw [hres, hr1], ?_, hlength, ?_, ?_, ?_, hlast⟩
  · rw [he0]; simp
  · intro e he
    rw [he0] at he
    have e' : e0 = e := by simpa using he
    rw [← e', he1, he2, e_index]
    exact ⟨rfl, rfl⟩
  · intro e he
    exact (hall e he).1.transport_bounds e_clausenum.symm e_kb.symm e_lc.symm e_s.symm
      e_ds.symm e_il.symm e_level.symm
  · exact hchain.imp (fun a b hab => hab.transport_next e_locate.symm)

/-- When unit resolution returns 0, its result is the result of the conflict branch run in a
state that satisfies the invariant, on a falsified clause of the queue of that state, with
the decision stack of the initial state. -/
theorem ur_conflict_origin {st : SatState} (hI : Inv st) {st' : SatState}
    (hur : sat_unit_resolution st = some (false, st')) :
    ∃ s c, Inv s ∧ s.ds = st.ds ∧ c ∈ s.q ∧ AllFalse s c ∧ conflict_branch s c = some st' := by
  obtain ⟨r, st'', st1, h1, h2, h3, h4⟩ :=
    sat_unit_resolution_spec (fun s => s.ds = st.ds)
      (fun s hs hx =>
        (pass_ext s s.q.length false s hs (le_refl _) (Ext.ext_same s)).ds_eq.trans hx)
      hI rfl
  rw [hur] at h1
  obtain ⟨rfl, rfl⟩ := Prod.mk.inj (Option.some.inj h1)
  have := pass_induct_conflict (fun _ _ s => s.ds = st.ds)
    (fun o s2 => o = PassOutcome.conflict →
      ∃ s c, Inv s ∧ s.ds = st.ds ∧ c ∈ s.q ∧ AllFalse s c ∧ conflict_branch s c = some s2)
    (fun _ _ _ _ e => by cases e) (fun _ _ _ _ _ hx _ _ => hx)
    (fun _ _ _ _ _ hx _ _ _ => hx) (fun _ _ _ _ _ _ hx _ _ _ _ _ _ => hx)
    (fun i more s c s2 hIs hx hq hc hall hcb _ _ =>
      ⟨s, c, hIs, hx, mem_of_getElem?_some hq, hall, hcb⟩)
    st1.q.length false st1 h2 (le_refl _) h3
  rw [h4] at this
  exact this rfl

/-! ## Claim on the termination and the bounds of the conflict analysis -/

/-- C21: in every state `st` that satisfies the invariant `Inv` (every reachable state does,
and so does every state in which `sat_unit_resolution` runs its conflict branch), the
conflict analysis `sat_get_assert_clause`, started by the conflict branch on a falsified
clause `c` of the queue with a decision on the stack, returns after at most `|s|`
iterations. Its first iteration dereferences index `c->index - 1` with the cursor at the
top of the trail; every iteration dereferences a clause index below `M + |lc|` that
designates a clause of the store, has `m ≥ 1` when it inspects the trail, stops the inner
loop strictly below its cursor at a trail literal of the current level, reads `locate`
only for a literal of `il` that is no decision, and finds a decision only with `m = 1`;
the next iteration starts strictly below, at the position found, on the clause index read
from `locate`; the last iteration does not read `locate`, it stops with `m = 1`. Moreover
`sat_unit_resolution` returns on `st`, and when it returns 0 its result is the result of
the conflict branch run in such a state, with the decision stack of `st`. -/
theorem C21_conflict_analysis_terminates_in_bounds (st : SatState) (hI : Inv st) :
    (∀ c ∈ st.q, AllFalse st c → st.ds ≠ [] →
      ∃ st2 tr, conflict_branch_trace st c = some (st2, tr) ∧
        conflict_branch st c = some st2 ∧
        tr ≠ [] ∧ tr.length ≤ vector_size st.s ∧
        (∀ e, tr.head? = some e →
          e.clauseindex = usub1 (st.index c) ∧ e.cursor = vector_size st.s) ∧
        (∀ e ∈ tr, StepInBounds st e) ∧ List.Chain' (StepNext st) tr ∧
        (∀ e, tr.getLast? = some e → e.reads_locate = false)) ∧
    (∃ r st', sat_unit_resolution st = some (r, st') ∧
      (r = false → ∃ s c, Inv s ∧ s.ds = st.ds ∧ c ∈ s.q ∧ AllFalse s c ∧
        conflict_branch s c = some st')) := by
  refine ⟨fun c hc hf hds => conflict_trace_spec hI hc hf hds, ?_⟩
  obtain ⟨r, st', hur, _⟩ := sat_unit_resolution_inv hI
  refine ⟨r, st', hur, fun e => ?_⟩
  subst e
  exact ur_conflict_origin hI hur

/-- Witness of C21 on scenario S4: the state reached by `decide(+1)` satisfies the invariant,
its queue holds the falsified clause `{-2, -3, 4}` and the decision `+1` is on the stack;
the analysis runs three iterations, on the clause indices 2, 0 and 1, with the cursor at 4,
3 and 2, and stops with `m = 1` at the decision literal `+1`. -/
theorem C21_witness :
    ∃ stA rB stB,
      sat_unit_resolution (sat_state_new mem_zero 4 cnf_learn) = some (true, stA) ∧
      sat_decide_literal 1 stA = some (rB, stB) ∧ Inv stB ∧
      2 ∈ stB.q ∧ AllFalse stB 2 ∧ stB.ds ≠ [] ∧
      (conflict_branch_trace stB 2).map Prod.snd =
        some [⟨2, 4, 2, some (3, 2), true⟩, ⟨0, 3, 2, some (2, 3), true⟩,
          ⟨1, 2, 1, some (1, 1), false⟩] ∧
      ((∀ c ∈ stB.q, AllFalse stB c → stB.ds ≠ [] →
        ∃ st2 tr, conflict_branch_trace stB c = some (st2, tr) ∧
          conflict_branch stB c = some st2 ∧
          tr ≠ [] ∧ tr.length ≤ vector_size stB.s ∧
          (∀ e, tr.head? = some e →
            e.clauseindex = usub1 (stB.index c) ∧ e.cursor = vector_size stB.s) ∧
          (∀ e ∈ tr, StepInBounds stB e) ∧ List.Chain' (StepNext stB) tr ∧
          (∀ e, tr.getLast? = some e → e.reads_locate = false)) ∧
      (∃ r st', sat_unit_resolution stB = some (r, st') ∧
        (r = false → ∃ s c, Inv s ∧ s.ds = stB.ds ∧ c ∈ s.q ∧ AllFalse s c ∧
          conflict_branch s c = some st'))) := by
  have hR := Reachable.new mem_zero 4 cnf_learn validCnf_learn
  obtain ⟨rA, stA, hA, hRA, hEA, hQA, _⟩ := hR.unit_resolution_total
  have evA : (sat_unit_resolution (sat_state_new mem_zero 4 cnf_learn)).map Prod.fst
      = some true := by decide
  rw [hA] at evA
  simp only [Option.map_some', Option.some.injEq] at evA
  subst evA
  have hvn : stA.varnum = 4 := by rw [hEA.varnum_eq]; decide
  have hv : ValidLit stA.varnum 1 := by rw [hvn]; unfold ValidLit; decide
  have hn : sat_instantiated_var stA (sat_literal_var 1) = false := by
    have ev : (sat_unit_resolution (sat_state_new mem_zero 4 cnf_learn)).map
        (fun r => sat_instantiated_var r.2 (sat_literal_var 1)) = some false := by decide
    rw [hA] at ev
    simpa using ev
  obtain ⟨rB, stB, hB, hRB, hEB, _⟩ := hRA.decide_total hv hn (hQA rfl).1
  have hdsB : stB.ds ≠ [] := by
    rw [hEB.ds_eq]
    show stA.ds ++ [1] ≠ []
    simp
  have evB : ((sat_unit_resolution (sat_state_new mem_zero 4 cnf_learn)).bind
      (fun a => sat_decide_literal 1 a.2)).map
        (fun r => decide (2 ∈ r.2.q) &&
          decide (∀ l ∈ r.2.lits 2, r.2.implied (-l) = true) &&
          decide ((conflict_branch_trace r.2 2).map Prod.snd =
            some [⟨2, 4, 2, some (3, 2), true⟩, ⟨0, 3, 2, some (2, 3), true⟩,
              ⟨1, 2, 1, some (1, 1), false⟩]))
      = some true := by decide
  rw [hA] at evB
  simp only [Option.some_bind, hB, Option.map_some', Option.some.injEq, Bool.and_eq_true,
    decide_eq_true_eq] at evB
  obtain ⟨⟨hq, hall⟩, htr⟩ := evB
  exact ⟨stA, rB, stB, hA, hB, hRB.inv.1, hq, hall, hdsB, htr,
    C21_conflict_analysis_terminates_in_bounds stB hRB.inv.1⟩

end SatApi
